import Mathlib

/-!
# Excursion pincher (`excursion_pincher2.cc`) and polygon primitives (`polygon.cc`)

A shallow embedding of the ring simplifier of dans-gdal-scripts and of the
geometry primitives it calls, followed by theorems about the embedded code.

Conventions of the embedding.

* A finite `double` is read as a rational number, so `+ - * /` and the order
  comparisons are exact.  A quotient with a zero divisor has Lean's value `0`;
  with a square root that vanishes only at `0` the code's comparisons on such a
  quotient (`dist > 1.0`, `improvement > best_improvement`) come out the same.
* `sqrt` is a parameter `sqrt : ℚ → ℚ` of everything that measures a length.
* Angles are exact.  A value of `atan2` is kept as the direction it was taken
  of, and the only things the code does with angles (the difference normalised
  into `[0, 2π)`, the comparisons with `M_PI` and with each other) are decided
  on directions by cross and dot products.
* `fatal_error(msg)` and a failed `assert` end the program: fallible code
  returns `Except Err`.
* Mutable flag arrays (`bool *keep`, `bool *touchpts`) are passed and returned
  explicitly as `List Bool`.
* A `for` loop that walks ring indices cyclically between two known indices
  runs over the list of those indices; a loop whose trip count depends on the
  data takes an explicit fuel argument and reports `Err.out_of_fuel` when it is
  used up.
-/

namespace dangdal

/-- How a run can end other than by returning. -/
inductive Err where
  | fatal (msg : String)
  | assert_failed (expr : String)
  | out_of_fuel
deriving DecidableEq, Repr

deriving instance DecidableEq for Except

/-! ## Data model (`polygon.h`) -/

/-- Vertex of `polygon.h`: a pair of coordinates. -/
structure Vertex where
  x : ℚ
  y : ℚ
deriving DecidableEq, Repr

instance : Inhabited Vertex := ⟨⟨0, 0⟩⟩

/-- Ring of `polygon.h`: vertex sequence closed implicitly, plus hole linkage. -/
structure Ring where
  pts : List Vertex
  is_hole : Bool
  parent_id : Int
deriving DecidableEq, Repr

instance : Inhabited Ring := ⟨⟨[], false, 0⟩⟩

/-- Mpoly of `polygon.h`: an ordered collection of rings. -/
structure Mpoly where
  rings : List Ring
deriving DecidableEq, Repr

/-- Modelled from the spec: the `RingRelation` enumeration of `polygon.h`, which
is not among the sources; the spec lists the four answers of the external
classifier (disjoint / contains / contained-by / crosses). -/
inductive RingRelation where
  | RINGREL_DISJOINT
  | RINGREL_CONTAINS
  | RINGREL_CONTAINED_BY
  | RINGREL_CROSSES
deriving DecidableEq, Repr

/-- Modelled from the spec: `Mpoly::deleteRing` of `polygon.h`, which is not
among the sources.  The spec asks that deletion by index removes the ring and
renumbers the parent references of holes pointing past the deleted index. -/
def deleteRing (rings : List Ring) (idx : Nat) : List Ring :=
  (rings.eraseIdx idx).map fun r =>
    if r.is_hole && decide ((idx : Int) < r.parent_id) then
      { r with parent_id := r.parent_id - 1 }
    else r

/-- Modelled from the spec: `Ring::copyMetadata` of `polygon.h`, which is not
among the sources.  The spec says the emitted ring carries the source ring's
metadata forward except `is_hole` / `parent_id`, which are reset for the
no-parent (outer) case; the new ring starts with no vertices. -/
def Ring.copyMetadata (_r : Ring) : Ring :=
  { pts := [], is_hole := false, parent_id := 0 }

/-- What the external `OGR_G_Union` can hand back to `ring_ring_union`: a null
handle, a `wkbPolygon` (outer ring first, then its holes), or a geometry of
another type. -/
inductive OGRGeom where
  | null
  | polygon (outer : Ring) (holes : List Ring)
  | other
deriving DecidableEq, Repr

/-- Embedding of `ring_ring_union`: only the outer ring of a polygon result is
taken, and it is marked as a non-hole with parent 0. -/
def ring_ring_union (OGR_G_Union : Ring → Ring → OGRGeom) (r1 r2 : Ring) :
    Except Err Ring :=
  match OGR_G_Union r1 r2 with
  | .null => .error (.fatal "OGR_G_Union failed")
  | .polygon outer _ => .ok { outer with is_hole := false, parent_id := 0 }
  | .other => .error (.fatal "result of ring union wasn't a wkbPolygon")

/-! ## Geometry primitives (`polygon.cc`) -/

/-- Embedding of `line_intersects_line`: bounding-box rejection, then the
parametric test; the `int` result is kept as `0` / `1`. -/
def line_intersects_line (p1 p2 p3 p4 : Vertex) (fail_on_coincident : Bool) : Nat :=
  if max p1.x p2.x < min p3.x p4.x ∨
     min p1.x p2.x > max p3.x p4.x ∨
     max p1.y p2.y < min p3.y p4.y ∨
     min p1.y p2.y > max p3.y p4.y then 0
  else
    let numer_a := (p4.x - p3.x) * (p1.y - p3.y) - (p4.y - p3.y) * (p1.x - p3.x)
    let numer_b := (p2.x - p1.x) * (p1.y - p3.y) - (p2.y - p1.y) * (p1.x - p3.x)
    let denom := (p4.y - p3.y) * (p2.x - p1.x) - (p4.x - p3.x) * (p2.y - p1.y)
    if denom = 0 then
      if numer_a = 0 ∧ numer_b = 0 then
        if fail_on_coincident then 0 else 1
      else 0
    else
      let ua := numer_a / denom
      let ub := numer_b / denom
      if ua ≥ 0 ∧ ua ≤ 1 ∧ ub ≥ 0 ∧ ub ≤ 1 then 1 else 0

/-- Embedding of `line_line_intersection`: the intersection point of the line
through `p1`, `p2` with the line through `p3`, `p4`; the result is the point
written to `*p_out`. -/
def line_line_intersection (p1 p2 p3 p4 : Vertex) : Except Err Vertex :=
  let numer_a := (p4.x - p3.x) * (p1.y - p3.y) - (p4.y - p3.y) * (p1.x - p3.x)
  let denom := (p4.y - p3.y) * (p2.x - p1.x) - (p4.x - p3.x) * (p2.y - p1.y)
  if denom = 0 then .error (.fatal "lines are parallel")
  else
    let ua := numer_a / denom
    .ok { x := p1.x + ua * (p2.x - p1.x), y := p1.y + ua * (p2.y - p1.y) }

/-- Modelled from the spec: the bounding box `bbox_t` of `polygon.h`, which is
not among the sources.  The spec lists minimum and maximum x and y and an
explicit `empty` flag; `polygon.cc` assigns `0` and `1` to the flag and tests
it for being non-zero. -/
structure bbox_t where
  min_x : ℚ
  max_x : ℚ
  min_y : ℚ
  max_y : ℚ
  empty : Int
deriving DecidableEq, Repr

/-- Embedding of `union_bbox`. -/
def union_bbox (bb1 bb2 : bbox_t) : bbox_t :=
  if bb1.empty ≠ 0 then bb2
  else if bb2.empty ≠ 0 then bb1
  else
    { empty := 0
      min_x := min bb1.min_x bb2.min_x
      min_y := min bb1.min_y bb2.min_y
      max_x := max bb1.max_x bb2.max_x
      max_y := max bb1.max_y bb2.max_y }

/-- Vertex `i` of a point array (`pts[i]`). -/
def vtx (pts : List Vertex) (i : Nat) : Vertex := pts.getD i default

/-- Embedding of `get_ring_bbox`: a ring without points gives the empty box
with all bounds 0; otherwise the bounds start at vertex 0 and are widened over
all vertices. -/
def get_ring_bbox (ring : Ring) : bbox_t :=
  if ring.pts.length = 0 then
    { min_x := 0, max_x := 0, min_y := 0, max_y := 0, empty := 1 }
  else
    ring.pts.foldl (fun bbox v =>
      { empty := bbox.empty
        min_x := if v.x < bbox.min_x then v.x else bbox.min_x
        min_y := if v.y < bbox.min_y then v.y else bbox.min_y
        max_x := if v.x > bbox.max_x then v.x else bbox.max_x
        max_y := if v.y > bbox.max_y then v.y else bbox.max_y })
      { min_x := (vtx ring.pts 0).x, max_x := (vtx ring.pts 0).x,
        min_y := (vtx ring.pts 0).y, max_y := (vtx ring.pts 0).y, empty := 0 }

/-- Embedding of `ring_oriented_area`: half the shoelace sum over all edges. -/
def ring_oriented_area (c : Ring) : ℚ :=
  let npts := c.pts.length
  let accum := (List.range npts).foldl (fun accum i =>
    let x0 := (vtx c.pts i).x
    let y0 := (vtx c.pts i).y
    let x1 := (vtx c.pts ((i + 1) % npts)).x
    let y1 := (vtx c.pts ((i + 1) % npts)).y
    accum + (x0 * y1 - x1 * y0)) 0
  accum / 2

/-- Embedding of `ring_is_ccw` (the `isCCW` of the ring class). -/
def ring_is_ccw (c : Ring) : Bool := decide (ring_oriented_area c > 0)

/-- Embedding of `ring_area`. -/
def ring_area (c : Ring) : ℚ := |ring_oriented_area c|

/-! ## Angles -/

/-- A `double` that holds an angle: the NaN handed back by `find_next_convex`
when nothing was selected, or `atan2(dy, dx)`, kept as its two arguments. -/
inductive Angle where
  | nan
  | atan2 (dy dx : ℚ)
deriving DecidableEq, Repr

/-- The literal `0` used as the first reference direction: `atan2(0, 1)`. -/
def Angle.zero : Angle := .atan2 0 1

/-- The direction an angle points to; `atan2(0, 0)` is `0`, the direction of
`(1, 0)`. -/
def Angle.dir : Angle → Option (ℚ × ℚ)
  | .nan => none
  | .atan2 dy dx => if dx = 0 ∧ dy = 0 then some (1, 0) else some (dx, dy)

/-- An angle difference after the two `while` loops that bring it into
`[0, 2π)`: NaN, or the angle of the direction `(c, s)` measured
counter-clockwise from the positive x axis. -/
inductive AngDiff where
  | nan
  | turn (c s : ℚ)
deriving DecidableEq, Repr

/-- The constant `M_PI` as a normalised angle: the direction `(-1, 0)`. -/
def AngDiff.pi : AngDiff := .turn (-1) 0

/-- The statements `angdiff = segang - start_ang` followed by the two
normalising loops: the direction of `segang` expressed in the frame whose x
axis is the direction of `start_ang`. -/
def angdiff (segang start_ang : Angle) : AngDiff :=
  match segang.dir, start_ang.dir with
  | some (dx, dy), some (rx, ry) => .turn (rx * dx + ry * dy) (rx * dy - ry * dx)
  | _, _ => .nan

/-- Comparison `a < M_PI` on a normalised angle: the direction points into the
open upper half plane or along the positive x axis. -/
def AngDiff.lt_pi : AngDiff → Bool
  | .nan => false
  | .turn c s => decide (0 < s ∨ (s = 0 ∧ 0 < c))

/-- Comparison `a >= M_PI` on a normalised angle (false on NaN). -/
def AngDiff.ge_pi : AngDiff → Bool
  | .nan => false
  | .turn c s => !(AngDiff.turn c s).lt_pi

/-- Comparison `a < b` of two normalised angles: decided by the half plane
when they differ in it, and by the sign of the cross product otherwise. -/
def AngDiff.lt : AngDiff → AngDiff → Bool
  | .turn c1 s1, .turn c2 s2 =>
    let u1 := (AngDiff.turn c1 s1).lt_pi
    let u2 := (AngDiff.turn c2 s2).lt_pi
    if u1 && !u2 then true
    else if !u1 && u2 then false
    else decide (0 < c1 * s2 - s1 * c2)
  | _, _ => false

/-- Comparison `fabs(a - b) > M_PI` of two normalised angles: the
counter-clockwise turn from the smaller to the larger one is a reflex turn, so
its sine (the cross product) is negative. -/
def AngDiff.fabs_sub_gt_pi (a b : AngDiff) : Bool :=
  match a, b with
  | .turn c1 s1, .turn c2 s2 =>
    if a.lt b then decide (c1 * s2 - s1 * c2 < 0)
    else if b.lt a then decide (c2 * s1 - s2 * c1 < 0)
    else false
  | _, _ => false

/-! ## Convex-hull sweep (`excursion_pincher2.cc`) -/

/-- Embedding of `seg_ang`. -/
def seg_ang (v0 v1 : Vertex) : Angle :=
  let dx := v1.x - v0.x
  let dy := v1.y - v0.y
  .atan2 dy dx

/-- Embedding of `seg_len`. -/
def seg_len (sqrt : ℚ → ℚ) (v0 v1 : Vertex) : ℚ :=
  let dx := v1.x - v0.x
  let dy := v1.y - v0.y
  sqrt (dx * dx + dy * dy)

/-- Body of the loop of `find_bottom_pt` on the locals `(min, min_idx)`. -/
def find_bottom_pt_step (pts : List Vertex) (st : ℚ × Nat) (i : Nat) : ℚ × Nat :=
  let y := (vtx pts i).y
  if y < st.1 then (y, i) else st

/-- Embedding of `find_bottom_pt`; the `assert` is checked by the caller
`find_chull`. -/
def find_bottom_pt (ring : Ring) : Nat :=
  ((List.range' 1 (ring.pts.length - 1)).foldl (find_bottom_pt_step ring.pts)
    ((vtx ring.pts 0).y, 0)).2

/-- Return value of `find_next_convex`. -/
structure FindNextConvexRetval where
  error : Bool
  idx : Nat
  ang : Angle
deriving DecidableEq, Repr

/-- The value `FindNextConvexRetval::ERROR()`. -/
def FindNextConvexRetval.ERROR : FindNextConvexRetval := ⟨true, 0, .atan2 0 1⟩

/-- Locals of the scan loop of `find_next_convex`; `last_ad = none` stands for
the sentinel `-999` and `best_vert = none` for `-1`. -/
structure ScanState where
  min_angdiff : AngDiff
  last_ad : Option AngDiff
  best_vert : Option Nat
  best_segang : Angle
deriving DecidableEq, Repr

/-- The indices the loop `for(i=(start_idx+1)%npts; ; i=(i+1)%npts)` takes
before `i == start_idx` ends it. -/
def cyc_after (npts start_idx : Nat) : List Nat :=
  (List.range (npts - 1)).map fun k => (start_idx + 1 + k) % npts

/-- Body of the scan loop of `find_next_convex` over the remaining indices:
`none` is the early `return ERROR()`, otherwise the locals at loop exit. -/
def find_next_convex_scan (pts : List Vertex) (v0 : Vertex) (limit_idx : Nat)
    (start_ang : Angle) : List Nat → ScanState → Option ScanState
  | [], st => some st
  | i :: rest, st =>
    let v1 := vtx pts i
    let segang := seg_ang v0 v1
    let ad := angdiff segang start_ang
    if (match st.last_ad with
        | none => false
        | some last_ad =>
          (last_ad.lt_pi != ad.lt_pi) && last_ad.fabs_sub_gt_pi ad) then none
    else
      let st1 : ScanState := { st with last_ad := some ad }
      let st2 : ScanState :=
        if ad.lt st1.min_angdiff then
          { st1 with min_angdiff := ad, best_vert := some i, best_segang := segang }
        else st1
      if i = limit_idx then some st2
      else find_next_convex_scan pts v0 limit_idx start_ang rest st2

/-- Embedding of `find_next_convex`. -/
def find_next_convex (ring : Ring) (start_idx limit_idx : Nat) (start_ang : Angle) :
    FindNextConvexRetval :=
  let npts := ring.pts.length
  let pts := ring.pts
  let v0 := vtx pts start_idx
  match find_next_convex_scan pts v0 limit_idx start_ang (cyc_after npts start_idx)
      ⟨AngDiff.pi, none, none, .atan2 0 1⟩ with
  | none => FindNextConvexRetval.ERROR
  | some st =>
    match st.best_vert with
    | none => ⟨false, limit_idx, .nan⟩
    | some best_vert =>
      if st.min_angdiff.ge_pi then FindNextConvexRetval.ERROR
      else ⟨false, best_vert, st.best_segang⟩

/-- The `for(;;)` loop of `find_chull`. -/
def find_chull_loop (ring : Ring) (start_idx : Nat) :
    Nat → Nat → Angle → List Bool → Except Err (List Bool)
  | 0, _, _, _ => .error .out_of_fuel
  | fuel + 1, idx, ang, keep =>
    let r := find_next_convex ring idx start_idx ang
    if r.error then .error (.fatal "could not get convex hull")
    else if r.idx = start_idx then .ok keep
    else find_chull_loop ring start_idx fuel r.idx r.ang (keep.set r.idx true)

/-- Embedding of `find_chull`: the keep flags of the hull vertices. -/
def find_chull (ring : Ring) : Except Err (List Bool) :=
  if ring.pts.length = 0 then .error (.assert_failed "ring.pts.size()")
  else
    let keep := List.replicate ring.pts.length false
    let start_idx := find_bottom_pt ring
    let keep := keep.set start_idx true
    find_chull_loop ring start_idx ring.pts.length start_idx Angle.zero keep

/-! ## Excursion areas and the kept-vertex walk -/

/-- The indices the loop `for(i=from; ; i=(i+1)%npts)` takes up to and
including the one at which `i == to` ends it. -/
def cyc_range (npts from_idx to_idx : Nat) : List Nat :=
  (List.range ((to_idx + npts - from_idx) % npts + 1)).map fun k => (from_idx + k) % npts

/-- The indices strictly between `from_idx` and `to` in cyclic order: those of a
loop `for(i=(from+1)%npts; i!=to; i=(i+1)%npts)`. -/
def cyc_between (npts from_idx to_idx : Nat) : List Nat :=
  (List.range ((to_idx + npts - from_idx - 1) % npts)).map fun k => (from_idx + 1 + k) % npts

/-- The shoelace sum `accum` that `subring_area` builds over the path from
`from_idx` to `to_idx` closed by the chord back to `from_idx`. -/
def subring_accum (ring : Ring) (from_idx to_idx : Nat) : ℚ :=
  let npts := ring.pts.length
  let pts := ring.pts
  (cyc_range npts from_idx to_idx).foldl (fun accum i =>
    let i2 := if i = to_idx then from_idx else (i + 1) % npts
    let x0 := (vtx pts i).x
    let y0 := (vtx pts i).y
    let x1 := (vtx pts i2).x
    let y1 := (vtx pts i2).y
    accum + (x1 * y0 - x0 * y1)) 0

/-- Embedding of `subring_area`. -/
def subring_area (ring : Ring) (from_idx to_idx : Nat) : Except Err ℚ :=
  let accum := subring_accum ring from_idx to_idx
  if accum < 0 then .error (.fatal "subring_area was negative")
  else .ok (accum / 2)

/-- Flag `keep[j]`. -/
def flag (keep : List Bool) (j : Nat) : Bool := keep.getD j false

/-- Embedding of `next_keep`. -/
def next_keep (npts : Nat) (keep : List Bool) (i : Nat) : Nat :=
  let i_plus1 := if i + 1 < npts then i + 1 else 0
  match (List.range' i_plus1 (npts - i_plus1)).find? (flag keep) with
  | some j => j
  | none =>
    match (List.range i).find? (flag keep) with
    | some j => j
    | none => i

/-- Embedding of `prev_keep`: the loop walks `j` backwards from `i - 1` round
the ring until it is back at `i`. -/
def prev_keep (npts : Nat) (keep : List Bool) (i : Nat) : Nat :=
  match ((List.range (npts - 1)).map fun k => (i + npts - 1 - k) % npts).find? (flag keep) with
  | some j => j
  | none => i

/-! ## Tie-point reachability -/

/-- The guarded test that both edge loops of `reach_point` apply to the new
segment `(pk, nk)` and an edge `(i, i2)`: bounding boxes overlap, no shared
endpoint index, and `line_intersects_line` reports a hit. -/
def seg_hits (pts : List Vertex) (pk nk i i2 : Nat) : Bool :=
  let min_x := min (vtx pts pk).x (vtx pts nk).x
  let max_x := max (vtx pts pk).x (vtx pts nk).x
  let min_y := min (vtx pts pk).y (vtx pts nk).y
  let max_y := max (vtx pts pk).y (vtx pts nk).y
  let p1 := vtx pts i
  let p2 := vtx pts i2
  if ¬(max_x < min p1.x p2.x ∨
       min_x > max p1.x p2.x ∨
       max_y < min p1.y p2.y ∨
       min_y > max p1.y p2.y ∨
       i = pk ∨ i = nk ∨ i2 = pk ∨ i2 = nk) then
    decide (line_intersects_line (vtx pts pk) (vtx pts nk) p1 p2 false ≠ 0)
  else false

/-- First loop of `reach_point`: step with `find_next_convex` from `idx` until
`to` is reached, flagging every vertex stepped on.  The result is the error
flag together with the flags as they are when the loop is left. -/
def reach_point_step (ring : Ring) (to_idx : Nat) :
    Nat → Nat → Angle → List Bool → Except Err (Bool × List Bool)
  | 0, _, _, _ => .error .out_of_fuel
  | fuel + 1, idx, ang, keep =>
    let r := find_next_convex ring idx to_idx ang
    if r.error then .ok (true, keep)
    else
      let keep := keep.set r.idx true
      if r.idx = to_idx then .ok (false, keep)
      else reach_point_step ring to_idx fuel r.idx r.ang keep

/-- Loop `for(int i=nk; ; )` of `reach_point`: the new segment against every
edge of the kept polygon; `true` is the `return 1`. -/
def reach_point_kept (pts : List Vertex) (npts : Nat) (keep : List Bool) (pk nk : Nat) :
    Nat → Nat → Except Err Bool
  | 0, _ => .error .out_of_fuel
  | fuel + 1, i =>
    let i2 := next_keep npts keep i
    if seg_hits pts pk nk i i2 then .ok true
    else if i2 = nk then .ok false
    else reach_point_kept pts npts keep pk nk fuel i2

/-- Loop `for(int pk=from; pk!=to;)` of `reach_point`: every new segment
against every edge of the ring and of the kept polygon. -/
def reach_point_check (pts : List Vertex) (npts : Nat) (keep : List Bool) (to_idx : Nat) :
    Nat → Nat → Except Err Bool
  | 0, _ => .error .out_of_fuel
  | fuel + 1, pk =>
    if pk = to_idx then .ok false
    else
      let nk := next_keep npts keep pk
      if (List.range npts).any fun i =>
          seg_hits pts pk nk i (if i + 1 < npts then i + 1 else 0) then .ok true
      else
        match reach_point_kept pts npts keep pk nk npts nk with
        | .error e => .error e
        | .ok true => .ok true
        | .ok false => reach_point_check pts npts keep to_idx fuel nk

/-- Embedding of `reach_point`: the returned flag is the `bool` result (true
is failure), the list is `keep` as the call leaves it. -/
def reach_point (ring : Ring) (keep : List Bool) (from_idx to_idx : Nat) (ang : Angle) :
    Except Err (Bool × List Bool) :=
  let npts := ring.pts.length
  let pts := ring.pts
  match reach_point_step ring to_idx npts from_idx ang keep with
  | .error e => .error e
  | .ok (true, keep) => .ok (true, keep)
  | .ok (false, keep) =>
    match reach_point_check pts npts keep to_idx (npts + 1) from_idx with
    | .error e => .error e
    | .ok err => .ok (err, keep)

/-- Embedding of `add_tiepoint`: the flag is the `bool` result (true is
failure), the list is `keep` as the call leaves it. -/
def add_tiepoint (ring : Ring) (keep : List Bool) (mid : Nat) :
    Except Err (Bool × List Bool) :=
  let npts := ring.pts.length
  let pts := ring.pts
  let keep := keep.set mid true
  let left := prev_keep npts keep mid
  let right := next_keep npts keep mid
  let ang := seg_ang (vtx pts left) (vtx pts right)
  match reach_point ring keep left mid ang with
  | .error e => .error e
  | .ok (true, keep) => .ok (true, keep)
  | .ok (false, keep) =>
    let pk := prev_keep npts keep mid
    if pk = mid then .error (.fatal "pk == mid")
    else
      let ang := seg_ang (vtx pts mid) (vtx pts pk)
      reach_point ring keep mid right ang

/-! ## Excursion refinement engine -/

/-- Embedding of `dist_to_seg`: distance of `p3` from the line `(p1, p2)`. -/
def dist_to_seg (sqrt : ℚ → ℚ) (p1 p2 p3 : Vertex) : ℚ :=
  let d21x := p2.x - p1.x
  let d21y := p2.y - p1.y
  let d13x := p1.x - p3.x
  let d13y := p1.y - p3.y
  let dist_from_line := |d21x * d13y - d13x * d21y| / sqrt (d21x * d21x + d21y * d21y)
  dist_from_line

/-- Embedding of `is_mostly_linear` (the `int` result as a `Bool`). -/
def is_mostly_linear (sqrt : ℚ → ℚ) (ring : Ring) (from_idx to_idx : Nat) : Bool :=
  let npts := ring.pts.length
  let pts := ring.pts
  let p1 := vtx pts from_idx
  let p2 := vtx pts to_idx
  (cyc_between npts from_idx to_idx).all fun i =>
    !decide (dist_to_seg sqrt p1 p2 (vtx pts i) > 1)

/-- The constant `min_length` of `keep_linears`. -/
def min_length : ℚ := 20

/-- Inner loop of `keep_linears` over the candidate right ends `r_idx`, which
run from `l_idx + 1` to `to` at most: the value of `longest` when the loop is
left. -/
def keep_linears_longest (sqrt : ℚ → ℚ) (ring : Ring) (l_idx : Nat) :
    List Nat → ℚ → Nat → Nat
  | [], _, longest => longest
  | r_idx :: rest, perim, longest =>
    let npts := ring.pts.length
    let pts := ring.pts
    let perim := perim + seg_len sqrt (vtx pts ((r_idx + npts - 1) % npts)) (vtx pts r_idx)
    if perim > min_length ∧ is_mostly_linear sqrt ring l_idx r_idx then
      keep_linears_longest sqrt ring l_idx rest perim r_idx
    else longest

/-- Outer loop of `keep_linears` over the left ends `l_idx`.  The result is the
`int` returned (as a `Bool`), `keep_orig` and `touchpts` as the call leaves
them. -/
def keep_linears_loop (sqrt : ℚ → ℚ) (ring : Ring) (from_idx to_idx : Nat) :
    List Nat → List Bool → List Bool → Except Err (Bool × List Bool × List Bool)
  | [], keep_orig, touchpts => .ok (false, keep_orig, touchpts)
  | l_idx :: rest, keep_orig, touchpts =>
    let npts := ring.pts.length
    let longest := keep_linears_longest sqrt ring l_idx
      (cyc_range npts ((l_idx + 1) % npts) to_idx) 0 l_idx
    if longest ≠ l_idx then
      let keep_new := keep_orig
      match (if l_idx ≠ from_idx then add_tiepoint ring keep_new l_idx
             else .ok (false, keep_new)) with
      | .error e => .error e
      | .ok (err1, keep_new) =>
        match (if longest ≠ to_idx then add_tiepoint ring keep_new longest
               else .ok (false, keep_new)) with
        | .error e => .error e
        | .ok (err2, keep_new) =>
          if !err1 && !err2 then
            let touchpts := (touchpts.set l_idx true).set longest true
            let keep_new := (cyc_range npts l_idx longest).foldl
              (fun k i => k.set i true) keep_new
            .ok (true, keep_new, touchpts)
          else keep_linears_loop sqrt ring from_idx to_idx rest keep_orig touchpts
    else keep_linears_loop sqrt ring from_idx to_idx rest keep_orig touchpts

/-- Embedding of `keep_linears`. -/
def keep_linears (sqrt : ℚ → ℚ) (ring : Ring) (keep_orig : List Bool)
    (from_idx to_idx : Nat) (touchpts : List Bool) :
    Except Err (Bool × List Bool × List Bool) :=
  let npts := ring.pts.length
  if to_idx = (from_idx + 1) % npts then .ok (false, keep_orig, touchpts)
  else
    keep_linears_loop sqrt ring from_idx to_idx
      ((List.range ((to_idx + npts - from_idx) % npts)).map fun k => (from_idx + k) % npts)
      keep_orig touchpts

/-- The two accumulation loops of `refine_seg` (`for(int pk=from;;)` and
`for(int pk=testpt;;)`): areas and chord lengths of the kept gaps from `pk`
up to `stop`. -/
def refine_seg_sum (sqrt : ℚ → ℚ) (ring : Ring) (keep_new : List Bool) (stop : Nat) :
    Nat → Nat → ℚ → ℚ → Except Err (ℚ × ℚ)
  | 0, _, _, _ => .error .out_of_fuel
  | fuel + 1, pk, area, perim =>
    let npts := ring.pts.length
    let pts := ring.pts
    let nk := next_keep npts keep_new pk
    match subring_area ring pk nk with
    | .error e => .error e
    | .ok a =>
      let area := area + a
      let perim := perim + seg_len sqrt (vtx pts pk) (vtx pts nk)
      if nk = stop then .ok (area, perim)
      else refine_seg_sum sqrt ring keep_new stop fuel nk area perim

/-- Locals of the candidate loop of `refine_seg`; `keep_best` is only read
after it has been written. -/
structure BestState where
  best_improvement : ℚ
  best_touchpt : Int
  keep_best : List Bool
deriving DecidableEq, Repr

/-- Candidate loop of `refine_seg` over the test points strictly between
`from` and `to`. -/
def refine_seg_loop (sqrt : ℚ → ℚ) (ring : Ring) (keep_orig : List Bool)
    (from_idx to_idx : Nat) (start_area start_perim : ℚ) :
    List Nat → BestState → Except Err BestState
  | [], st => .ok st
  | testpt :: rest, st =>
    let npts := ring.pts.length
    let keep_new := keep_orig
    match add_tiepoint ring keep_new testpt with
    | .error e => .error e
    | .ok (true, _) =>
      refine_seg_loop sqrt ring keep_orig from_idx to_idx start_area start_perim rest st
    | .ok (false, keep_new) =>
      match refine_seg_sum sqrt ring keep_new testpt npts from_idx 0 0 with
      | .error e => .error e
      | .ok (left_area, left_perim) =>
        match refine_seg_sum sqrt ring keep_new to_idx npts testpt 0 0 with
        | .error e => .error e
        | .ok (right_area, right_perim) =>
          let area := left_area + right_area
          let perim := left_perim + right_perim
          let improvement :=
            ((start_area + 2) / (area + 2)) / (perim / start_perim) ^ 2 - 2
          let st :=
            if improvement > st.best_improvement then
              { best_improvement := improvement, best_touchpt := (testpt : Int),
                keep_best := keep_new }
            else st
          refine_seg_loop sqrt ring keep_orig from_idx to_idx start_area start_perim rest st

/-- Embedding of `refine_seg`: the returned `best_touchpt` (`-1` for none) and
`keep_orig` as the call leaves it. -/
def refine_seg (sqrt : ℚ → ℚ) (ring : Ring) (keep_orig : List Bool)
    (from_idx to_idx : Nat) : Except Err (Int × List Bool) :=
  let npts := ring.pts.length
  let pts := ring.pts
  match subring_area ring from_idx to_idx with
  | .error e => .error e
  | .ok start_area =>
    let start_perim := seg_len sqrt (vtx pts from_idx) (vtx pts to_idx)
    match refine_seg_loop sqrt ring keep_orig from_idx to_idx start_area start_perim
        (cyc_between npts from_idx to_idx) ⟨0, -1, keep_orig⟩ with
    | .error e => .error e
    | .ok st =>
      if st.best_improvement ≠ 0 then .ok (st.best_touchpt, st.keep_best)
      else .ok (-1, keep_orig)

/-- Inner `for(;;)` loop of `refine_ring` at the kept vertex `i`. -/
def refine_ring_gap (sqrt : ℚ → ℚ) (ring : Ring) (i : Nat) :
    Nat → List Bool → List Bool → Except Err (List Bool × List Bool)
  | 0, _, _ => .error .out_of_fuel
  | fuel + 1, keep, touchpts =>
    let npts := ring.pts.length
    let j := next_keep npts keep i
    match subring_area ring i j with
    | .error e => .error e
    | .ok area =>
      if area > 0 then
        match keep_linears sqrt ring keep i j touchpts with
        | .error e => .error e
        | .ok (true, keep, touchpts) => refine_ring_gap sqrt ring i fuel keep touchpts
        | .ok (false, keep, touchpts) =>
          match refine_seg sqrt ring keep i j with
          | .error e => .error e
          | .ok (touchpt, keep) =>
            if touchpt ≥ 0 then
              refine_ring_gap sqrt ring i fuel keep (touchpts.set touchpt.toNat true)
            else .ok (keep, touchpts)
      else .ok (keep, touchpts)

/-- Outer loop of `refine_ring` over the indices still to visit. -/
def refine_ring_loop (sqrt : ℚ → ℚ) (ring : Ring) :
    List Nat → List Bool → List Bool → Except Err (List Bool × List Bool)
  | [], keep, touchpts => .ok (keep, touchpts)
  | i :: rest, keep, touchpts =>
    if !flag keep i then refine_ring_loop sqrt ring rest keep touchpts
    else
      match refine_ring_gap sqrt ring i (ring.pts.length + 1) keep touchpts with
      | .error e => .error e
      | .ok (keep, touchpts) => refine_ring_loop sqrt ring rest keep touchpts

/-- Embedding of `refine_ring`: `keep` and `touchpts` as the call leaves
them. -/
def refine_ring (sqrt : ℚ → ℚ) (ring : Ring) (keep touchpts : List Bool) :
    Except Err (List Bool × List Bool) :=
  refine_ring_loop sqrt ring (List.range ring.pts.length) keep touchpts

/-! ## Ring pinching -/

/-- The swap loop `for(int i=0; i<npts/2; i++)` of `pinch_ring_excursions`, which
exchanges `pts[i]` and `pts[npts-1-i]`. -/
def reverse_loop (pts : List Vertex) : List Vertex :=
  let npts := pts.length
  (List.range (npts / 2)).foldl (fun pts i =>
    let tmp := vtx pts i
    (pts.set i (vtx pts (npts - 1 - i))).set (npts - 1 - i) tmp) pts

/-- The working ring of `pinch_ring_excursions`: a copy of the input whose vertex
order is reversed (the swap loop over `i < npts/2`) when the input is not
counter-clockwise. -/
def oriented_ring (ring_in : Ring) : Ring :=
  if !ring_is_ccw ring_in then { ring_in with pts := ring_in.pts.reverse }
  else ring_in

/-- The vertices whose flag is set, in ring order (the `push_back` loop). -/
def kept_pts (pts : List Vertex) (keep : List Bool) : List Vertex :=
  (List.range pts.length).filterMap fun i =>
    if flag keep i then some (vtx pts i) else none

/-- Embedding of `pinch_ring_excursions`. -/
def pinch_ring_excursions (sqrt : ℚ → ℚ) (ring_in : Ring) : Except Err Ring :=
  let ring := oriented_ring ring_in
  match find_chull ring with
  | .error e => .error e
  | .ok keep =>
    let touchpts := List.replicate ring.pts.length false
    match refine_ring sqrt ring keep touchpts with
    | .error e => .error e
    | .ok (keep, _) =>
      let outring := ring.copyMetadata
      .ok { outring with pts := kept_pts ring.pts keep }

/-! ## Cross-ring reconciliation (second loop of `pinch_excursions2`) -/

/-- The two nested `for` loops of `pinch_excursions2` with their `goto REDO_R1`
and `goto REDO_R2` restarts, as one recursive function on the loop state
`(mp_out.rings, r1_idx, r2_idx)`.  The first test is the outer loop condition
(and the check after `REDO_R1`), the second the inner loop condition (and the
check after `REDO_R2`); leaving the inner loop runs `r1_idx++` and re-enters it
at `r2_idx = r1_idx + 1`. -/
def reconcile_loop (ring_ring_relation : Ring → Ring → RingRelation)
    (OGR_G_Union : Ring → Ring → OGRGeom) :
    List Ring → Nat → Nat → Except Err (List Ring)
  | rings, r1_idx, r2_idx =>
    if h1 : rings.length ≤ r1_idx then .ok rings
    else if h2 : rings.length ≤ r2_idx then
      reconcile_loop ring_ring_relation OGR_G_Union rings (r1_idx + 1) (r1_idx + 1 + 1)
    else
      let ring1 := rings.getD r1_idx default
      let ring2 := rings.getD r2_idx default
      match ring_ring_relation ring1 ring2 with
      | .RINGREL_CONTAINS =>
        reconcile_loop ring_ring_relation OGR_G_Union (deleteRing rings r2_idx) r1_idx r2_idx
      | .RINGREL_CONTAINED_BY =>
        reconcile_loop ring_ring_relation OGR_G_Union (deleteRing rings r1_idx) r1_idx (r1_idx + 1)
      | .RINGREL_CROSSES =>
        match ring_ring_union OGR_G_Union ring1 ring2 with
        | .error e => .error e
        | .ok r3 =>
          reconcile_loop ring_ring_relation OGR_G_Union
            ((deleteRing rings r2_idx).set r1_idx r3) r1_idx (r1_idx + 1)
      | .RINGREL_DISJOINT =>
        reconcile_loop ring_ring_relation OGR_G_Union rings r1_idx (r2_idx + 1)
termination_by rings r1_idx r2_idx => (rings.length, rings.length - r1_idx, rings.length - r2_idx)
decreasing_by
  all_goals simp_wf
  all_goals try simp only [deleteRing, List.length_map, List.length_set, List.length_eraseIdx]
  · exact Prod.Lex.right _ (Prod.Lex.left _ _ (by omega))
  · rw [if_pos (by omega)]; exact Prod.Lex.left _ _ (by omega)
  · rw [if_pos (by omega)]; exact Prod.Lex.left _ _ (by omega)
  · rw [if_pos (by omega)]; exact Prod.Lex.left _ _ (by omega)
  · exact Prod.Lex.right _ (Prod.Lex.right _ (by omega))

/-- Pinched rings handed to the reconciliation loop, which starts at
`r1_idx = 0`, `r2_idx = 1`. -/
def reconcile (ring_ring_relation : Ring → Ring → RingRelation)
    (OGR_G_Union : Ring → Ring → OGRGeom) (rings : List Ring) : Except Err (List Ring) :=
  reconcile_loop ring_ring_relation OGR_G_Union rings 0 1

/-- First loop of `pinch_excursions2`: ring after ring, the hole test and then
the pinching of that ring. -/
def pinch_rings (sqrt : ℚ → ℚ) : List Ring → Except Err (List Ring)
  | [] => .ok []
  | r :: rest =>
    if r.is_hole then .error (.fatal "pincher cannot be used on holes")
    else
      match pinch_ring_excursions sqrt r with
      | .error e => .error e
      | .ok out =>
        match pinch_rings sqrt rest with
        | .error e => .error e
        | .ok outs => .ok (out :: outs)

/-- Embedding of `pinch_excursions2` (the debug plot is left out). -/
def pinch_excursions2 (sqrt : ℚ → ℚ) (ring_ring_relation : Ring → Ring → RingRelation)
    (OGR_G_Union : Ring → Ring → OGRGeom) (mp_in : Mpoly) : Except Err Mpoly :=
  match pinch_rings sqrt mp_in.rings with
  | .error e => .error e
  | .ok rings =>
    match reconcile ring_ring_relation OGR_G_Union rings with
    | .error e => .error e
    | .ok rings => .ok { rings := rings }

/-! ## Vocabulary of the claims -/

/-- Twice the signed area of the triangle `a b c`: positive when `c` lies
strictly to the left of the directed line from `a` to `b`. -/
def cross2 (a b c : Vertex) : ℚ :=
  (b.x - a.x) * (c.y - a.y) - (b.y - a.y) * (c.x - a.x)

/-- A strictly convex counter-clockwise ring, in the words of the claims: at
least three vertices, positive signed area, and every vertex that is not an end
of an edge lies strictly to the left of that edge.  Such a ring repeats no
vertex and has no three collinear vertices. -/
def strictly_convex_ccw (ring : Ring) : Prop :=
  3 ≤ ring.pts.length ∧ ring_is_ccw ring = true ∧
    ∀ i, i < ring.pts.length → ∀ j, j < ring.pts.length → j ≠ i →
      j ≠ (i + 1) % ring.pts.length →
      0 < cross2 (vtx ring.pts i) (vtx ring.pts ((i + 1) % ring.pts.length)) (vtx ring.pts j)

instance (ring : Ring) : Decidable (strictly_convex_ccw ring) := by
  unfold strictly_convex_ccw; infer_instance

/-- The shoelace term of the directed segment from vertex `a` to vertex `b`:
`x_a * y_b - x_b * y_a`. -/
def edge_cross (pts : List Vertex) (a b : Nat) : ℚ :=
  (vtx pts a).x * (vtx pts b).y - (vtx pts b).x * (vtx pts a).y

/-- The shoelace term of two points: `a.x * b.y - b.x * a.y`. -/
def vcross (a b : Vertex) : ℚ := a.x * b.y - b.x * a.y

/-- Sum of a two-place function over the consecutive pairs of an index list. -/
def pair_sum (G : Nat → Nat → ℚ) : List Nat → ℚ
  | a :: b :: rest => G a b + pair_sum G (b :: rest)
  | _ => 0

/-- Sum of the shoelace terms of the consecutive pairs of a vertex list (the
open path, without the closing edge). -/
def path_cross : List Vertex → ℚ
  | a :: b :: rest => vcross a b + path_cross (b :: rest)
  | _ => 0

/-- The indices whose keep flag is set, in increasing order. -/
def kept_idx (n : Nat) (keep : List Bool) : List Nat :=
  (List.range n).filter (flag keep)

/-- Index `b` is the next kept index after `a` inside the vertex array. -/
def gap_rel (n : Nat) (keep : List Bool) (a b : Nat) : Prop :=
  a < b ∧ b < n ∧ flag keep b = true ∧ ∀ z, a < z → z < b → flag keep z = false

/-- The keep flags only grow from `k1` to `k2`: every flag set in `k1` is set
in `k2`. -/
def keep_le (k1 k2 : List Bool) : Prop :=
  ∀ j, flag k1 j = true → flag k2 j = true

/-- The indices a loop that walks a list of indices looks at when it stops
after `limit_idx`: the list up to and including the first `limit_idx`. -/
def scan_prefix (limit_idx : Nat) : List Nat → List Nat
  | [] => []
  | i :: rest => if i = limit_idx then [i] else i :: scan_prefix limit_idx rest

/-- The candidates that the loop of `find_next_convex` scans: the indices after
`start_idx` in ring order, up to and including `limit_idx`. -/
def scanned (npts start_idx limit_idx : Nat) : List Nat :=
  scan_prefix limit_idx (cyc_after npts start_idx)

/-- The closed segments from `p1` to `p2` and from `p3` to `p4` have a point in
common. -/
def segments_meet (p1 p2 p3 p4 : Vertex) : Prop :=
  ∃ s t : ℚ, 0 ≤ s ∧ s ≤ 1 ∧ 0 ≤ t ∧ t ≤ 1 ∧
    p1.x + s * (p2.x - p1.x) = p3.x + t * (p4.x - p3.x) ∧
    p1.y + s * (p2.y - p1.y) = p3.y + t * (p4.y - p3.y)

/-- The number of steps `i = (i+1) % n` that lead from index `a` to index `x`. -/
def cyc_dist (n a x : Nat) : Nat := (x + n - a) % n

/-- The flags set in `k2` and not in `k1` all lie on the way from index `a` to
index `b` in ring order. -/
def keep_within (n a b : Nat) (k1 k2 : List Bool) : Prop :=
  ∀ x, x < n → flag k2 x = true → flag k1 x = true ∨ cyc_dist n a x ≤ cyc_dist n a b

/-- Edges `(i, i+1)` and `(j, j+1)` of a ring of `n` vertices share no vertex
index. -/
def edges_apart (n i j : Nat) : Prop :=
  i ≠ j ∧ (i + 1) % n ≠ j ∧ (j + 1) % n ≠ i

instance (n i j : Nat) : Decidable (edges_apart n i j) := by
  unfold edges_apart; infer_instance

/-- A simple closed polygon, in the words of the claims: no two edges that do
not share a vertex intersect, in the closed-segment sense decided by
`line_intersects_line` with `fail_on_coincident = 0`. -/
def is_simple_ring (pts : List Vertex) : Prop :=
  ∀ i, i < pts.length → ∀ j, j < pts.length → edges_apart pts.length i j →
    line_intersects_line (vtx pts i) (vtx pts ((i + 1) % pts.length))
      (vtx pts j) (vtx pts ((j + 1) % pts.length)) false = 0

instance (pts : List Vertex) : Decidable (is_simple_ring pts) := by
  unfold is_simple_ring; infer_instance

/-- The body of the candidate loop of `refine_seg` for the test point `testpt`,
up to the comparison with `best_improvement`: `none` when `add_tiepoint`
rejects the test point on the scratch copy `keep_new` of `keep_orig`, otherwise
the `improvement` computed for it together with `keep_new`. -/
def refine_seg_candidate (sqrt : ℚ → ℚ) (ring : Ring) (keep_orig : List Bool)
    (from_idx to_idx : Nat) (start_area start_perim : ℚ) (testpt : Nat) :
    Except Err (Option (ℚ × List Bool)) :=
  let npts := ring.pts.length
  match add_tiepoint ring keep_orig testpt with
  | .error e => .error e
  | .ok (true, _) => .ok none
  | .ok (false, keep_new) =>
    match refine_seg_sum sqrt ring keep_new testpt npts from_idx 0 0 with
    | .error e => .error e
    | .ok (left_area, left_perim) =>
      match refine_seg_sum sqrt ring keep_new to_idx npts testpt 0 0 with
      | .error e => .error e
      | .ok (right_area, right_perim) =>
        let area := left_area + right_area
        let perim := left_perim + right_perim
        .ok (some (((start_area + 2) / (area + 2)) / (perim / start_perim) ^ 2 - 2, keep_new))

/-- The lengths that `seg_len` computes between vertices of the ring are not
negative and obey the triangle inequality, as the lengths of an exact square
root do. -/
def lengths_metric (sqrt : ℚ → ℚ) (pts : List Vertex) : Prop :=
  ∀ a ∈ pts, ∀ b ∈ pts, ∀ c ∈ pts,
    0 ≤ seg_len sqrt a b ∧ seg_len sqrt a c ≤ seg_len sqrt a b + seg_len sqrt b c

instance (sqrt : ℚ → ℚ) (pts : List Vertex) : Decidable (lengths_metric sqrt pts) := by
  unfold lengths_metric; infer_instance

/-- The inner loop of `refine_ring` at the kept vertex `i` with a counter of its
repeats (the `continue` statements taken): the loop of `refine_ring_gap`, which
hands back the counter as well. -/
def refine_ring_gap_repeats (sqrt : ℚ → ℚ) (ring : Ring) (i : Nat) :
    Nat → List Bool → List Bool → Except Err (List Bool × List Bool × Nat)
  | 0, _, _ => .error .out_of_fuel
  | fuel + 1, keep, touchpts =>
    let npts := ring.pts.length
    let j := next_keep npts keep i
    match subring_area ring i j with
    | .error e => .error e
    | .ok area =>
      if area > 0 then
        match keep_linears sqrt ring keep i j touchpts with
        | .error e => .error e
        | .ok (true, keep, touchpts) =>
          match refine_ring_gap_repeats sqrt ring i fuel keep touchpts with
          | .error e => .error e
          | .ok (keep, touchpts, repeats) => .ok (keep, touchpts, repeats + 1)
        | .ok (false, keep, touchpts) =>
          match refine_seg sqrt ring keep i j with
          | .error e => .error e
          | .ok (touchpt, keep) =>
            if touchpt ≥ 0 then
              match refine_ring_gap_repeats sqrt ring i fuel keep
                  (touchpts.set touchpt.toNat true) with
              | .error e => .error e
              | .ok (keep, touchpts, repeats) => .ok (keep, touchpts, repeats + 1)
            else .ok (keep, touchpts, 0)
      else .ok (keep, touchpts, 0)

/-- The outer loop of `refine_ring` with the counter of the repeats of its inner
loop, summed over all kept vertices visited. -/
def refine_ring_loop_repeats (sqrt : ℚ → ℚ) (ring : Ring) :
    List Nat → List Bool → List Bool → Except Err (List Bool × List Bool × Nat)
  | [], keep, touchpts => .ok (keep, touchpts, 0)
  | i :: rest, keep, touchpts =>
    if !flag keep i then refine_ring_loop_repeats sqrt ring rest keep touchpts
    else
      match refine_ring_gap_repeats sqrt ring i (ring.pts.length + 1) keep touchpts with
      | .error e => .error e
      | .ok (keep, touchpts, repeats) =>
        match refine_ring_loop_repeats sqrt ring rest keep touchpts with
        | .error e => .error e
        | .ok (keep, touchpts, repeats2) => .ok (keep, touchpts, repeats + repeats2)

/-- The loop of `find_chull` with a counter of its calls of `find_next_convex`
in place of the keep flags: the number of calls made from index `idx` until the
loop ends, by the fatal error or by its `break`; `none` when the fuel runs out
first. -/
def find_chull_loop_calls (ring : Ring) (start_idx : Nat) : Nat → Nat → Angle → Option Nat
  | 0, _, _ => none
  | fuel + 1, idx, ang =>
    let r := find_next_convex ring idx start_idx ang
    if r.error then some 1
    else if r.idx = start_idx then some 1
    else
      match find_chull_loop_calls ring start_idx fuel r.idx r.ang with
      | none => none
      | some calls => some (calls + 1)

/-- The stepping loop of `reach_point` with a counter of its calls of
`find_next_convex` in place of the keep flags: the number of calls made from
index `idx` until the loop ends, by `return 1` or by its `break`; `none` when
the fuel runs out first. -/
def reach_point_step_calls (ring : Ring) (to_idx : Nat) : Nat → Nat → Angle → Option Nat
  | 0, _, _ => none
  | fuel + 1, idx, ang =>
    let r := find_next_convex ring idx to_idx ang
    if r.error then some 1
    else if r.idx = to_idx then some 1
    else
      match reach_point_step_calls ring to_idx fuel r.idx r.ang with
      | none => none
      | some calls => some (calls + 1)

/-! ## Vocabulary of the convex hull of a ring -/

/-- The direction `(dx, dy)` supports the ring of the `n` vertices `f 0`, ...,
`f (n - 1)` at vertex `k`: it is not zero and no vertex lies strictly to the
right of the line through vertex `k` in that direction. -/
def ring_supports (n : Nat) (f : Nat → Vertex) (k : Nat) (dx dy : ℚ) : Prop :=
  ¬(dx = 0 ∧ dy = 0) ∧ ∀ i, i < n →
    0 ≤ dx * ((f i).y - (f k).y) - dy * ((f i).x - (f k).x)

/-- Vertex `k` lies on the boundary of the convex hull of the ring: a line
through it has the whole ring on one side. -/
def ring_boundary (n : Nat) (f : Nat → Vertex) (k : Nat) : Prop :=
  ∃ dx dy : ℚ, ring_supports n f k dx dy

/-- All vertices of the ring lie on one line. -/
def ring_collinear (n : Nat) (f : Nat → Vertex) : Prop :=
  ∀ i, i < n → ∀ j, j < n → ∀ l, l < n → cross2 (f i) (f j) (f l) = 0

/-- The vertices on the boundary of the convex hull follow each other
counter-clockwise in ring order: from a boundary vertex `k` to the next
boundary vertex `j` of the ring, no vertex lies strictly to the right of the
line from `k` to `j`. -/
def hull_order (n : Nat) (f : Nat → Vertex) : Prop :=
  ∀ k, k < n → ∀ j, j < n → k ≠ j → ring_boundary n f k → ring_boundary n f j →
    (∀ m ∈ cyc_between n k j, ¬ring_boundary n f m) →
    f j ≠ f k ∧ ∀ i, i < n → 0 ≤ cross2 (f k) (f j) (f i)

/-- The point `p` is a vertex of the convex hull of the points `pts`, an
extreme point of the set: it is one of them and some linear functional takes
its least value over the points at `p` and nowhere else. -/
def is_hull_vertex (pts : List Vertex) (p : Vertex) : Prop :=
  p ∈ pts ∧ ∃ u v : ℚ, ∀ q ∈ pts, q ≠ p → u * p.x + v * p.y < u * q.x + v * q.y

/-! ## Vocabulary of simple rings given by their vertex function -/

/-- The point at parameter `t` of the segment from `p` to `q`. -/
def seg_pt (p q : Vertex) (t : ℚ) : Vertex :=
  ⟨p.x + t * (q.x - p.x), p.y + t * (q.y - p.y)⟩

/-- The dot product of the vectors from `a` to `b` and from `a` to `c`. -/
def dot2 (a b c : Vertex) : ℚ :=
  (b.x - a.x) * (c.x - a.x) + (b.y - a.y) * (c.y - a.y)

/-- The ring of the `n` vertices `f 0`, ..., `f (n - 1)` is simple: two edges
that share no vertex index do not meet. -/
def ring_simple (n : Nat) (f : Nat → Vertex) : Prop :=
  ∀ i, i < n → ∀ j, j < n → edges_apart n i j →
    ¬segments_meet (f i) (f ((i + 1) % n)) (f j) (f ((j + 1) % n))

/-- Twice the signed area of the ring of the `n` vertices `f 0`, ...,
`f (n - 1)`: the shoelace sum. -/
def ring_area2 (n : Nat) (f : Nat → Vertex) : ℚ :=
  ∑ i ∈ Finset.range n, vcross (f i) (f ((i + 1) % n))

/-- Seen from `x`, with every point on the left of or on the line through `x`
in the direction `(dx, dy)`, the direction to `p` comes before the direction to
`q` counter-clockwise: `q` is strictly to the left of the line from `x` to `p`,
or the two directions are opposite and the one to `p` is `(dx, dy)`. -/
def turn_before (dx dy : ℚ) (x p q : Vertex) : Prop :=
  0 < cross2 x p q ∨
    (cross2 x p q = 0 ∧ dot2 x p q < 0 ∧ 0 < dx * (p.x - x.x) + dy * (p.y - x.y))

/-- The ring turns counter-clockwise (`s = true`) or clockwise (`s = false`)
in its vertex `k`, seen against the supporting direction `(dx, dy)`: the
direction to the next vertex comes before the direction to the previous one,
or the other way round. -/
def ring_turns (n : Nat) (f : Nat → Vertex) (s : Bool) (k : Nat) (dx dy : ℚ) : Prop :=
  if s then turn_before dx dy (f k) (f ((k + 1) % n)) (f ((k + n - 1) % n))
  else turn_before dx dy (f k) (f ((k + n - 1) % n)) (f ((k + 1) % n))

/-- The vertices of a ring of `n` vertices read from vertex `a` on. -/
def sub_ring (n : Nat) (f : Nat → Vertex) (a : Nat) : Nat → Vertex :=
  fun t => f ((a + t) % n)

/-- The coefficient of `a - x` when `q - x` is written in the vectors `a - x`
and `c - x` of a triangle `x a c` that is not flat. -/
def tri_a (x a c q : Vertex) : ℚ := cross2 x q c / cross2 x a c

/-- The coefficient of `c - x` when `q - x` is written in the vectors `a - x`
and `c - x` of a triangle `x a c` that is not flat. -/
def tri_c (x a c q : Vertex) : ℚ := cross2 x a q / cross2 x a c

/-- The point `q` lies in the closed triangle `x a c`. -/
def tri_has (x a c q : Vertex) : Prop :=
  0 ≤ tri_a x a c q ∧ 0 ≤ tri_c x a c q ∧ tri_a x a c q + tri_c x a c q ≤ 1

/-- The ring turns the same way in every vertex in which a direction supports
it, and that way is the sign of its shoelace sum: counter-clockwise
(`s = true`) with a positive sum, clockwise with a negative one. -/
def ring_turns_one_way (n : Nat) (f : Nat → Vertex) : Prop :=
  ∃ s : Bool, (∀ k, k < n → ∀ dx dy : ℚ, ring_supports n f k dx dy → ring_turns n f s k dx dy) ∧
    (if s then 0 < ring_area2 n f else ring_area2 n f < 0)

/-! ## Concrete data for evaluating the embedding -/

/-- Newton iteration for the integer square root of `n`, from a guess that is
not below it. -/
def isqrt_iter (n : Nat) : Nat → Nat → Nat
  | 0, guess => guess
  | fuel + 1, guess =>
    let next := (guess + n / guess) / 2
    if next < guess then isqrt_iter n fuel next else guess

/-- A stand-in for the C library's `sqrt` when the embedding is evaluated on a
concrete ring of small extent: the root truncated to three decimals, exact on
the squares of such numbers. -/
def sqrt_trunc (q : ℚ) : ℚ :=
  let n := (q.num.toNat * 1000000) / q.den
  ((if n ≤ 1 then n else isqrt_iter n 64 (n / 2) : Nat) : ℚ) / 1000

/-- An outer ring (no hole, parent 0) with the given vertices. -/
def mk_ring (pts : List (ℚ × ℚ)) : Ring :=
  { pts := pts.map fun p => ⟨p.1, p.2⟩, is_hole := false, parent_id := 0 }

/-- A classifier that reports every pair as disjoint. -/
def rel_disjoint : Ring → Ring → RingRelation := fun _ _ => .RINGREL_DISJOINT

/-- A union that always fails; for runs in which no pair crosses. -/
def union_null : Ring → Ring → OGRGeom := fun _ _ => .null

/-- The annulus scenario: a small square `ring_A` and two C-shaped rings
`ring_B`, `ring_C` whose arms overlap, so that their union is the big square
`ring_U` with a hole around `ring_A`. -/
def ring_A : Ring := mk_ring [(40, 40), (60, 40), (60, 60), (40, 60)]

/-- The C-shaped ring open to the right. -/
def ring_B : Ring :=
  mk_ring [(0, 0), (60, 0), (60, 30), (30, 30), (30, 70), (60, 70), (60, 100), (0, 100)]

/-- The C-shaped ring open to the left. -/
def ring_C : Ring :=
  mk_ring [(40, 0), (100, 0), (100, 100), (40, 100), (40, 70), (70, 70), (70, 30), (40, 30)]

/-- The outer boundary of the union of `ring_B` and `ring_C`. -/
def ring_U : Ring := mk_ring [(0, 0), (100, 0), (100, 100), (0, 100)]

/-- The hole of the union of `ring_B` and `ring_C`. -/
def ring_H : Ring :=
  { pts := [⟨30, 30⟩, ⟨30, 70⟩, ⟨70, 70⟩, ⟨70, 30⟩], is_hole := true, parent_id := 0 }

/-- The classifier on the rings of the annulus scenario: `ring_B` and `ring_C`
cross, `ring_A` lies inside `ring_U`, every other pair is disjoint. -/
def rel_annulus (r1 r2 : Ring) : RingRelation :=
  if r1 = ring_B ∧ r2 = ring_C then .RINGREL_CROSSES
  else if r1 = ring_A ∧ r2 = ring_U then .RINGREL_CONTAINED_BY
  else .RINGREL_DISJOINT

/-- The union on the rings of the annulus scenario. -/
def union_annulus (r1 r2 : Ring) : OGRGeom :=
  if r1 = ring_B ∧ r2 = ring_C then .polygon ring_U [ring_H] else .null

/-- A self-intersecting quadrilateral on which `refine_ring` meets a negative
excursion area. -/
def ring_bowtie : Ring := mk_ring [(5, 2), (3, 4), (3, 1), (0, 0)]

/-- A triangle flagged as a hole. -/
def ring_hole : Ring :=
  { pts := [⟨0, 0⟩, ⟨1, 0⟩, ⟨0, 1⟩], is_hole := true, parent_id := 0 }

/-- The unit square, counter-clockwise from its lowest-left corner. -/
def ring_square : Ring := mk_ring [(0, 0), (1, 0), (1, 1), (0, 1)]

/-- A second square, away from `ring_square`. -/
def ring_square2 : Ring := mk_ring [(5, 5), (7, 5), (7, 7), (5, 7)]

/-- A concave pentagon: the unit-two square with a notch in its right side. -/
def ring_notch : Ring := mk_ring [(0, 0), (2, 0), (1, 1), (2, 2), (0, 2)]

/-- The pinching of `ring_notch`: the square without the notch. -/
def ring_notch_out : Ring := mk_ring [(0, 0), (2, 0), (2, 2), (0, 2)]

/-- A simple counter-clockwise hexagon on which pinching is not idempotent. -/
def ring_hex : Ring := mk_ring [(2, 6), (0, 0), (5, 6), (0, 9), (3, 5), (2, 4)]

/-- The pinching of `ring_hex`. -/
def ring_hex_out : Ring := mk_ring [(2, 6), (0, 0), (5, 6), (0, 9), (3, 5)]

/-- The pinching of `ring_hex_out`. -/
def ring_hex_out2 : Ring := mk_ring [(2, 6), (0, 0), (5, 6), (0, 9)]

/-- A self-intersecting quadrilateral whose leftmost vertex `(1, 1)` the hull
sweep passes over. -/
def ring_cross : Ring := mk_ring [(3, 0), (1, 1), (2, 0), (2, 3)]

/-- The pinching of `ring_cross`. -/
def ring_cross_out : Ring := mk_ring [(2, 3), (2, 0), (3, 0)]

/-- Three vertices on one line: a ring with the area 0. -/
def ring_line : Ring := mk_ring [(0, 0), (1, 0), (2, 0)]

/-- The pinching of `ring_line`. -/
def ring_line_out : Ring := mk_ring [(2, 0)]

/-- A square with a deep wedge cut into its top edge and a shallow notch in its
left edge, counter-clockwise. -/
def ring_wedge : Ring :=
  mk_ring [(0, 0), (10, 0), (10, 10), (5, 1), (0, 10), (0, 6), (1, 5), (0, 4)]

/-- The ring `ring_wedge` in clockwise order. -/
def ring_wedge_cw : Ring :=
  mk_ring [(0, 4), (1, 5), (0, 6), (0, 10), (5, 1), (10, 10), (10, 0), (0, 0)]

/-- The pinching of `ring_wedge`: the tip of the wedge is kept, the notch is
filled in. -/
def ring_wedge_out : Ring :=
  mk_ring [(0, 0), (10, 0), (10, 10), (5, 1), (0, 10), (0, 6), (0, 4)]

/-- A symmetric bow-tie: its two lobes cancel, so its signed area is 0. -/
def ring_eight : Ring := mk_ring [(2, 2), (1, 1), (1, 2), (2, 1)]

/-- The pinching of `ring_eight`: one edge of the bow-tie. -/
def ring_eight_out : Ring := mk_ring [(2, 1), (2, 2)]

/-- A simple counter-clockwise hexagon with a dent between its vertices 2
and 0. -/
def ring_dent : Ring := mk_ring [(4, 4), (1, 3), (3, 0), (2, 3), (3, 3), (3, 2)]

/-- A simple counter-clockwise octagon; seen from its vertex 3 along the
direction to its vertex 6, the vertex 4 lies behind on the right. -/
def ring_spur : Ring :=
  mk_ring [(6, 0), (10, 9), (5, 8), (4, 5), (5, 5), (5, 3), (1, 10), (0, 0)]

/-- A counter-clockwise pentagon whose vertex 1 lies on the segment from vertex 0
to vertex 2. -/
def ring_flat : Ring := mk_ring [(0, 0), (1, 0), (2, 0), (2, 2), (0, 2)]

/-- A simple counter-clockwise quadrilateral whose edge from vertex 2 to vertex 3
is longer than `min_length`. -/
def ring_long : Ring := mk_ring [(0, 4), (1, 0), (2, 2), (18, 16)]

/-- A simple counter-clockwise pentagon whose vertices 0 and 1 lie in the gap
that wraps round from the last hull vertex 4 to the first hull vertex 2. -/
def ring_wrap : Ring := mk_ring [(4, 1), (2, 3), (2, 8), (0, 0), (9, 2)]

/-! # Theorems -/

/-! ## Reconciliation -/

/-- A ring produced by `pinch_ring_excursions` is not a hole. -/
theorem pinch_ring_excursions_is_hole (sqrt : ℚ → ℚ) (ring_in out : Ring)
    (h : pinch_ring_excursions sqrt ring_in = .ok out) : out.is_hole = false := by
  unfold pinch_ring_excursions at h
  dsimp only at h
  split at h
  · cases h
  · split at h
    · cases h
    · cases h; rfl

/-- Every ring produced by the first loop of `pinch_excursions2` is not a hole. -/
theorem pinch_rings_is_hole (sqrt : ℚ → ℚ) :
    ∀ (rings outs : List Ring), pinch_rings sqrt rings = .ok outs →
      ∀ r ∈ outs, r.is_hole = false := by
  intro rings
  induction rings with
  | nil => intro outs h; simp [pinch_rings] at h; subst h; simp
  | cons r rest ih =>
    intro outs h
    unfold pinch_rings at h
    split at h
    · cases h
    · split at h
      · cases h
      · rename_i out hout
        split at h
        · cases h
        · rename_i outs1 hrest
          cases h
          intro r1 hr1
          rcases List.mem_cons.mp hr1 with h1 | h1
          · subst h1; exact pinch_ring_excursions_is_hole sqrt r _ hout
          · exact ih outs1 hrest r1 h1

/-- On a list without holes `deleteRing` only removes the ring at the index. -/
theorem deleteRing_no_holes (rings : List Ring) (idx : Nat)
    (h : ∀ r ∈ rings, r.is_hole = false) : deleteRing rings idx = rings.eraseIdx idx := by
  unfold deleteRing
  conv_rhs => rw [← List.map_id (rings.eraseIdx idx)]
  apply List.map_congr_left
  intro r hr
  have := h r (List.mem_of_mem_eraseIdx hr)
  simp [this]

/-- With a classifier that reports every remaining pair as disjoint, the
reconciliation loop returns the list it was given, from any loop position. -/
theorem reconcile_loop_disjoint (rel : Ring → Ring → RingRelation)
    (un : Ring → Ring → OGRGeom) (rings : List Ring) (r1 r2 : Nat)
    (hd : ∀ i j, i < j → j < rings.length →
      rel (rings.getD i default) (rings.getD j default) = .RINGREL_DISJOINT)
    (h12 : r1 < r2) :
    reconcile_loop rel un rings r1 r2 = .ok rings := by
  induction rings, r1, r2 using reconcile_loop.induct rel un with
  | case1 rings r1 r2 h1 => rw [reconcile_loop]; simp [h1]
  | case2 rings r1 r2 h1 h2 ih => rw [reconcile_loop]; simp [h1, h2]; exact ih hd (by omega)
  | case3 rings r1 r2 h1 h2 ring1 ring2 hrel ih =>
    exact absurd ((hd r1 r2 h12 (by omega)).symm.trans hrel) (by decide)
  | case4 rings r1 r2 h1 h2 ring1 ring2 hrel ih =>
    exact absurd ((hd r1 r2 h12 (by omega)).symm.trans hrel) (by decide)
  | case5 rings r1 r2 h1 h2 ring1 ring2 hrel e hun =>
    exact absurd ((hd r1 r2 h12 (by omega)).symm.trans hrel) (by decide)
  | case6 rings r1 r2 h1 h2 ring1 ring2 hrel r3 hun ih =>
    exact absurd ((hd r1 r2 h12 (by omega)).symm.trans hrel) (by decide)
  | case7 rings r1 r2 h1 h2 ring1 ring2 hrel ih =>
    rw [reconcile_loop, dif_neg h1, dif_neg h2]
    have hrel2 : rel (rings.getD r1 default) (rings.getD r2 default) = .RINGREL_DISJOINT := hrel
    simp only [hrel2]
    exact ih hd (by omega)

/-- C9. If the classifier reports every pair of the individually pinched rings
as disjoint, `pinch_excursions2` returns exactly the list of pinched rings, in
the same order and of the same length. -/
theorem pinch_excursions2_disjoint_frame (sqrt : ℚ → ℚ) (rel : Ring → Ring → RingRelation)
    (un : Ring → Ring → OGRGeom) (mp_in : Mpoly) (pinched : List Ring)
    (hp : pinch_rings sqrt mp_in.rings = .ok pinched)
    (hd : ∀ i j, i < j → j < pinched.length →
      rel (pinched.getD i default) (pinched.getD j default) = .RINGREL_DISJOINT) :
    pinch_excursions2 sqrt rel un mp_in = .ok { rings := pinched } := by
  unfold pinch_excursions2 reconcile
  rw [hp]
  simp only
  rw [reconcile_loop_disjoint rel un pinched 0 1 hd (by omega)]

/-- Witness for C9: two squares that the classifier reports as disjoint. -/
theorem pinch_excursions2_disjoint_frame_witness :
    pinch_rings sqrt_trunc (Mpoly.mk [ring_square, ring_square2]).rings
        = .ok [ring_square, ring_square2] ∧
      pinch_excursions2 sqrt_trunc rel_disjoint union_null (Mpoly.mk [ring_square, ring_square2])
        = .ok { rings := [ring_square, ring_square2] } :=
  ⟨by decide!,
   pinch_excursions2_disjoint_frame sqrt_trunc rel_disjoint union_null
     (Mpoly.mk [ring_square, ring_square2]) [ring_square, ring_square2] (by decide!)
     (fun _ _ _ _ => rfl)⟩

/-- C10. For exactly two pinched rings `r1`, `r2`: if the classifier reports
that `r1` contains `r2` the result is the single ring `r1`, and if it reports
that `r1` is contained by `r2` the result is the single ring `r2`; the
surviving ring is the pinched ring itself. -/
theorem pinch_excursions2_two_rings_containment (sqrt : ℚ → ℚ)
    (rel : Ring → Ring → RingRelation) (un : Ring → Ring → OGRGeom) (mp_in : Mpoly)
    (r1 r2 : Ring) (hp : pinch_rings sqrt mp_in.rings = .ok [r1, r2]) :
    (rel r1 r2 = .RINGREL_CONTAINS →
      pinch_excursions2 sqrt rel un mp_in = .ok { rings := [r1] }) ∧
    (rel r1 r2 = .RINGREL_CONTAINED_BY →
      pinch_excursions2 sqrt rel un mp_in = .ok { rings := [r2] }) := by
  have hh := pinch_rings_is_hole sqrt _ _ hp
  have hdel : ∀ idx, deleteRing [r1, r2] idx = [r1, r2].eraseIdx idx :=
    fun idx => deleteRing_no_holes _ idx hh
  constructor
  · intro hrel
    unfold pinch_excursions2 reconcile
    rw [hp]
    simp only
    rw [reconcile_loop]
    simp only [List.length_cons, List.length_nil, List.getD_cons_zero, List.getD_cons_succ,
      hrel, hdel]
    simp [reconcile_loop]
  · intro hrel
    unfold pinch_excursions2 reconcile
    rw [hp]
    simp only
    rw [reconcile_loop]
    simp only [List.length_cons, List.length_nil, List.getD_cons_zero, List.getD_cons_succ,
      hrel, hdel]
    simp [reconcile_loop]

/-- Witness for C10: `ring_A` next to the big square `ring_U`, which the
classifier of the annulus scenario reports as containing it. -/
theorem pinch_excursions2_two_rings_containment_witness :
    pinch_rings sqrt_trunc (Mpoly.mk [ring_A, ring_U]).rings = .ok [ring_A, ring_U] ∧
      rel_annulus ring_A ring_U = .RINGREL_CONTAINED_BY ∧
      pinch_excursions2 sqrt_trunc rel_annulus union_annulus (Mpoly.mk [ring_A, ring_U])
        = .ok { rings := [ring_U] } :=
  ⟨by decide!, by decide!,
   (pinch_excursions2_two_rings_containment sqrt_trunc rel_annulus union_annulus
     (Mpoly.mk [ring_A, ring_U]) ring_A ring_U (by decide!)).2 (by decide!)⟩

/-- C8. The annulus scenario run through `pinch_excursions2`: the three rings
are returned by the pinching unchanged, `ring_B` and `ring_C` are merged into
`ring_U`, and the loop returns `[ring_A, ring_U]` although the classifier
reports `ring_A` as contained by `ring_U`: the pair (0, 1) of the returned list
was never classified. -/
theorem pinch_excursions2_unstable_after_merge :
    pinch_rings sqrt_trunc [ring_A, ring_B, ring_C] = .ok [ring_A, ring_B, ring_C] ∧
      pinch_excursions2 sqrt_trunc rel_annulus union_annulus
        (Mpoly.mk [ring_A, ring_B, ring_C]) = .ok { rings := [ring_A, ring_U] } ∧
      rel_annulus ring_A ring_U = .RINGREL_CONTAINED_BY := by
  decide!

/-- A multi-polygon with a hole makes the first loop of `pinch_excursions2`
fail, whatever comes before and after the hole. -/
theorem pinch_rings_hole_fails (sqrt : ℚ → ℚ) (h : Ring) (post : List Ring)
    (hh : h.is_hole = true) :
    ∀ pre : List Ring,
      (∀ outs, pinch_rings sqrt pre = .ok outs →
        pinch_rings sqrt (pre ++ h :: post) = .error (.fatal "pincher cannot be used on holes")) ∧
      (∀ e, pinch_rings sqrt pre = .error e →
        pinch_rings sqrt (pre ++ h :: post) = .error e) := by
  intro pre
  induction pre with
  | nil =>
    constructor
    · intro outs _; simp [pinch_rings, hh]
    · intro e he; simp [pinch_rings] at he
  | cons r rest ih =>
    constructor
    · intro outs ho
      unfold pinch_rings at ho
      rw [List.cons_append]
      unfold pinch_rings
      split at ho
      · cases ho
      · rename_i hr
        simp only [hr]
        split at ho
        · cases ho
        · split at ho
          · cases ho
          · rename_i outs1 hrest
            rw [ih.1 outs1 hrest]
            simp
    · intro e he
      unfold pinch_rings at he
      rw [List.cons_append]
      unfold pinch_rings
      split at he
      · rename_i hr; simp only [hr]; exact he
      · rename_i hr
        simp only [hr]
        split at he
        · exact he
        · split at he
          · rename_i e1 hrest
            rw [ih.2 e1 hrest]
            simpa using he
          · cases he

/-- C7 (amended). A multi-polygon with a hole gets no result from
`pinch_excursions2`.  Rings are tested and pinched one after the other, so the
error is "pincher cannot be used on holes" when every ring before the hole
was pinched, and otherwise the error of the first ring that failed. -/
theorem pinch_excursions2_hole_rejected (sqrt : ℚ → ℚ) (rel : Ring → Ring → RingRelation)
    (un : Ring → Ring → OGRGeom) (mp_in : Mpoly) (pre post : List Ring) (h : Ring)
    (hmp : mp_in.rings = pre ++ h :: post) (hh : h.is_hole = true) :
    (∃ e, pinch_excursions2 sqrt rel un mp_in = .error e) ∧
    (∀ outs, pinch_rings sqrt pre = .ok outs →
      pinch_excursions2 sqrt rel un mp_in
        = .error (.fatal "pincher cannot be used on holes")) ∧
    (∀ e, pinch_rings sqrt pre = .error e →
      pinch_excursions2 sqrt rel un mp_in = .error e) := by
  have key := pinch_rings_hole_fails sqrt h post hh pre
  have h2 : ∀ outs, pinch_rings sqrt pre = .ok outs →
      pinch_excursions2 sqrt rel un mp_in
        = .error (.fatal "pincher cannot be used on holes") := by
    intro outs ho
    unfold pinch_excursions2
    rw [hmp, key.1 outs ho]
  have h3 : ∀ e, pinch_rings sqrt pre = .error e →
      pinch_excursions2 sqrt rel un mp_in = .error e := by
    intro e he
    unfold pinch_excursions2
    rw [hmp, key.2 e he]
  refine ⟨?_, h2, h3⟩
  cases hp : pinch_rings sqrt pre with
  | error e => exact ⟨e, h3 e hp⟩
  | ok outs => exact ⟨_, h2 outs hp⟩

/-- Witness for C7: a square followed by a hole. -/
theorem pinch_excursions2_hole_rejected_witness :
    pinch_excursions2 sqrt_trunc rel_disjoint union_null (Mpoly.mk [ring_square, ring_hole])
      = .error (.fatal "pincher cannot be used on holes") :=
  (pinch_excursions2_hole_rejected sqrt_trunc rel_disjoint union_null
    (Mpoly.mk [ring_square, ring_hole]) [ring_square] [] ring_hole rfl rfl).2.1
    [ring_square] (by decide!)

/-- C7 as stated fails: with a ring before the hole on which the pinching
meets a negative excursion area, `pinch_excursions2` ends with that ring's
error; the ring was processed before the hole was looked at. -/
theorem pinch_excursions2_hole_not_first :
    (Mpoly.mk [ring_bowtie, ring_hole]).rings.any (fun r => r.is_hole) = true ∧
      pinch_excursions2 sqrt_trunc rel_disjoint union_null (Mpoly.mk [ring_bowtie, ring_hole])
        = .error (.fatal "subring_area was negative") := by
  decide!

/-! ## Hull sweep, refinement and areas -/

/-- State of the `find_bottom_pt` loop after the indices `1 .. k`. -/
theorem find_bottom_pt_fold (pts : List Vertex) (k : Nat) :
    ((List.range' 1 k).foldl (find_bottom_pt_step pts) ((vtx pts 0).y, 0)).2 ≤ k ∧
    ((List.range' 1 k).foldl (find_bottom_pt_step pts) ((vtx pts 0).y, 0)).1 =
      (vtx pts ((List.range' 1 k).foldl (find_bottom_pt_step pts) ((vtx pts 0).y, 0)).2).y ∧
    (∀ j, j ≤ k →
      ((List.range' 1 k).foldl (find_bottom_pt_step pts) ((vtx pts 0).y, 0)).1 ≤ (vtx pts j).y) ∧
    (∀ j, j < ((List.range' 1 k).foldl (find_bottom_pt_step pts) ((vtx pts 0).y, 0)).2 →
      ((List.range' 1 k).foldl (find_bottom_pt_step pts) ((vtx pts 0).y, 0)).1 < (vtx pts j).y) := by
  induction k with
  | zero =>
    simp only [List.range'_zero, List.foldl_nil]
    refine ⟨le_refl _, trivial, ?_, ?_⟩
    · intro j hj; have : j = 0 := by omega
      subst this; exact le_refl _
    · intro j hj; omega
  | succ k ih =>
    rw [List.range'_concat, List.foldl_append]
    simp only [List.foldl_cons, List.foldl_nil, Nat.one_mul]
    generalize (List.range' 1 k).foldl (find_bottom_pt_step pts) ((vtx pts 0).y, 0) = st at ih ⊢
    obtain ⟨h1, h2, h3, h4⟩ := ih
    unfold find_bottom_pt_step
    simp only
    split
    · rename_i hlt
      refine ⟨by simp; omega, rfl, ?_, ?_⟩
      · intro j hj
        rcases Nat.lt_or_ge j (k + 1) with hjk | hjk
        · exact le_of_lt (lt_of_lt_of_le hlt (h3 j (by omega)))
        · have : j = 1 + k := by omega
          subst this; exact le_refl _
      · intro j hj
        simp only at hj ⊢
        exact lt_of_lt_of_le hlt (h3 j (by omega))
    · rename_i hlt
      refine ⟨by omega, h2, ?_, h4⟩
      intro j hj
      rcases Nat.lt_or_ge j (k + 1) with hjk | hjk
      · exact h3 j (by omega)
      · have : j = 1 + k := by omega
        subst this; exact not_lt.mp hlt

/-- The index returned by `find_bottom_pt` is in range, its vertex is lowest,
and every earlier vertex is strictly higher. -/
theorem find_bottom_pt_spec (ring : Ring) (hn : 0 < ring.pts.length) :
    find_bottom_pt ring < ring.pts.length ∧
    (∀ j, j < ring.pts.length → (vtx ring.pts (find_bottom_pt ring)).y ≤ (vtx ring.pts j).y) ∧
    (∀ j, j < find_bottom_pt ring →
      (vtx ring.pts (find_bottom_pt ring)).y < (vtx ring.pts j).y) := by
  obtain ⟨h1, h2, h3, h4⟩ := find_bottom_pt_fold ring.pts (ring.pts.length - 1)
  unfold find_bottom_pt
  refine ⟨by omega, ?_, ?_⟩
  · intro j hj; rw [← h2]; exact h3 j (by omega)
  · intro j hj; rw [← h2]; exact h4 j hj

/-- The normalised difference of two proper directions. -/
theorem angdiff_dirs (dx dy rx ry : ℚ) (hd : ¬(dx = 0 ∧ dy = 0)) (hr : ¬(rx = 0 ∧ ry = 0)) :
    angdiff (.atan2 dy dx) (.atan2 ry rx) = .turn (rx * dx + ry * dy) (rx * dy - ry * dx) := by
  simp [angdiff, Angle.dir, hd, hr]

/-- The normalised difference of a proper direction from the reference `0`. -/
theorem angdiff_zero (dx dy : ℚ) (hd : ¬(dx = 0 ∧ dy = 0)) :
    angdiff (.atan2 dy dx) Angle.zero = .turn dx dy := by
  simp [angdiff, Angle.dir, Angle.zero, hd]

/-- Two angles in `[0, π]` never trigger the ray-crossing test. -/
theorem no_ray_crossing (c1 s1 c2 s2 : ℚ) (h1 : 0 ≤ s1) (h2 : 0 ≤ s2) :
    (((AngDiff.turn c1 s1).lt_pi != (AngDiff.turn c2 s2).lt_pi) &&
      (AngDiff.turn c1 s1).fabs_sub_gt_pi (AngDiff.turn c2 s2)) = false := by
  by_cases u1 : (AngDiff.turn c1 s1).lt_pi = true <;>
  by_cases u2 : (AngDiff.turn c2 s2).lt_pi = true
  · simp [u1, u2]
  · have hb : s2 = 0 ∧ c2 ≤ 0 := by
      simp only [AngDiff.lt_pi, decide_eq_true_eq] at u2
      push_neg at u2
      have : s2 = 0 := le_antisymm (u2.1) h2
      exact ⟨this, not_lt.mp (fun h => u2.2 this |>.not_lt h |>.elim)⟩
    have hlt : (AngDiff.turn c1 s1).lt (AngDiff.turn c2 s2) = true := by
      simp [AngDiff.lt, u1, u2]
    simp only [AngDiff.fabs_sub_gt_pi, hlt, if_true, Bool.and_eq_false_iff]
    right
    simp only [decide_eq_false_iff_not, not_lt, hb.1, mul_zero, zero_sub]
    nlinarith [hb.2]
  · have ha : s1 = 0 ∧ c1 ≤ 0 := by
      simp only [AngDiff.lt_pi, decide_eq_true_eq] at u1
      push_neg at u1
      have : s1 = 0 := le_antisymm (u1.1) h1
      exact ⟨this, not_lt.mp (fun h => u1.2 this |>.not_lt h |>.elim)⟩
    have hlt : (AngDiff.turn c1 s1).lt (AngDiff.turn c2 s2) = false := by
      simp [AngDiff.lt, u1, u2]
    have hlt2 : (AngDiff.turn c2 s2).lt (AngDiff.turn c1 s1) = true := by
      simp [AngDiff.lt, u1, u2]
    simp only [AngDiff.fabs_sub_gt_pi, hlt, hlt2, if_true, Bool.and_eq_false_iff]
    right
    simp only [Bool.false_eq_true, if_false, decide_eq_false_iff_not, not_lt, ha.1, mul_zero,
      zero_sub]
    nlinarith [ha.2]
  · simp [u1, u2]



/-- Once a candidate is selected, candidates at angles in `[0, π]` that are
not smaller than the selected one leave the selection as it is. -/
theorem find_next_convex_scan_stays (pts : List Vertex) (v0 : Vertex) (limit_idx : Nat)
    (start_ang : Angle) :
    ∀ (rest : List Nat) (st : ScanState) (c0 s0 : ℚ),
      st.last_ad = some (.turn c0 s0) → 0 ≤ s0 →
      (∀ j ∈ rest, ∃ c s, angdiff (seg_ang v0 (vtx pts j)) start_ang = .turn c s ∧ 0 ≤ s ∧
        (AngDiff.turn c s).lt st.min_angdiff = false) →
      ∃ st', find_next_convex_scan pts v0 limit_idx start_ang rest st = some st' ∧
        st'.best_vert = st.best_vert ∧ st'.best_segang = st.best_segang ∧
        st'.min_angdiff = st.min_angdiff := by
  intro rest
  induction rest with
  | nil => intro st c0 s0 _ _ _; exact ⟨st, rfl, rfl, rfl, rfl⟩
  | cons j rest ih =>
    intro st c0 s0 hlast hs0 hall
    obtain ⟨c, s, had, hs, hlt⟩ := hall j (List.mem_cons_self _ _)
    unfold find_next_convex_scan
    simp only [had, hlast, no_ray_crossing c0 s0 c s hs0 hs, hlt]
    simp only [Bool.false_eq_true, if_false]
    split
    · exact ⟨_, rfl, rfl, rfl, rfl⟩
    · obtain ⟨st', h1, h2, h3, h4⟩ := ih { st with last_ad := some (.turn c s) } c s rfl hs
        (fun j' hj' => hall j' (List.mem_cons_of_mem _ hj'))
      exact ⟨st', h1, h2, h3, h4⟩

/-- The scan selects its first candidate when that one lies below `π` and no
later candidate, all at angles in `[0, π]`, is smaller. -/
theorem find_next_convex_scan_first (pts : List Vertex) (v0 : Vertex) (limit_idx : Nat)
    (start_ang a0 : Angle) (i : Nat) (rest : List Nat) (c s : ℚ)
    (had : angdiff (seg_ang v0 (vtx pts i)) start_ang = .turn c s) (hs : 0 ≤ s)
    (hpi : (AngDiff.turn c s).lt_pi = true)
    (hall : ∀ j ∈ rest, ∃ c' s', angdiff (seg_ang v0 (vtx pts j)) start_ang = .turn c' s' ∧
      0 ≤ s' ∧ (AngDiff.turn c' s').lt (.turn c s) = false) :
    ∃ st', find_next_convex_scan pts v0 limit_idx start_ang (i :: rest)
        ⟨AngDiff.pi, none, none, a0⟩ = some st' ∧
      st'.best_vert = some i ∧ st'.best_segang = seg_ang v0 (vtx pts i) ∧
      st'.min_angdiff = .turn c s := by
  have hlt : (AngDiff.turn c s).lt AngDiff.pi = true := by
    have : (AngDiff.turn (-1) 0).lt_pi = false := by decide
    simp [AngDiff.lt, AngDiff.pi, hpi, this]
  unfold find_next_convex_scan
  simp only [had, hlt, if_true]
  simp only [Bool.false_eq_true, if_false]
  split
  · exact ⟨_, rfl, rfl, rfl, rfl⟩
  · exact find_next_convex_scan_stays pts v0 limit_idx start_ang rest
      ⟨.turn c s, some (.turn c s), some i, seg_ang v0 (vtx pts i)⟩ c s rfl hs hall

/-- What `find_next_convex` returns when its scan selects the first candidate. -/
theorem find_next_convex_first (ring : Ring) (start_idx limit_idx : Nat) (start_ang : Angle)
    (i : Nat) (rest : List Nat) (c s : ℚ)
    (hc : cyc_after ring.pts.length start_idx = i :: rest)
    (had : angdiff (seg_ang (vtx ring.pts start_idx) (vtx ring.pts i)) start_ang = .turn c s)
    (hs : 0 ≤ s) (hpi : (AngDiff.turn c s).lt_pi = true)
    (hall : ∀ j ∈ rest, ∃ c' s',
      angdiff (seg_ang (vtx ring.pts start_idx) (vtx ring.pts j)) start_ang = .turn c' s' ∧
      0 ≤ s' ∧ (AngDiff.turn c' s').lt (.turn c s) = false) :
    find_next_convex ring start_idx limit_idx start_ang =
      ⟨false, i, seg_ang (vtx ring.pts start_idx) (vtx ring.pts i)⟩ := by
  obtain ⟨st', h1, h2, h3, h4⟩ := find_next_convex_scan_first ring.pts (vtx ring.pts start_idx)
    limit_idx start_ang (.atan2 0 1) i rest c s had hs hpi hall
  unfold find_next_convex
  simp only [hc, h1, h2, h4]
  have : (AngDiff.turn c s).ge_pi = false := by simp [AngDiff.ge_pi, hpi]
  simp [this, h3]



/-- An index one full turn short of two turns, reduced. -/
theorem mod_of_ge_lt (a n : Nat) (h1 : n ≤ a) (h2 : a < 2 * n) : a % n = a - n := by
  rw [Nat.mod_eq_sub_mod h1]
  exact Nat.mod_eq_of_lt (by omega)

/-- The successor index lies in the ring. -/
theorem succ_mod_lt (k n : Nat) (hn : 0 < n) : (k + 1) % n < n := Nat.mod_lt _ hn

/-- The scan order of `find_next_convex` on a ring of at least three
vertices: the successor first, then the other vertices. -/
theorem cyc_after_cons (n k : Nat) (hn : 3 ≤ n) :
    cyc_after n k = (k + 1) % n :: (List.range (n - 2)).map fun t => (k + 2 + t) % n := by
  unfold cyc_after
  have : n - 1 = (n - 2) + 1 := by omega
  rw [this, List.range_succ_eq_map, List.map_cons, List.map_map]
  congr 1
  apply List.map_congr_left
  intro t _
  simp only [Function.comp, Nat.succ_eq_add_one]
  congr 1
  omega

/-- The later candidates of the scan differ from the start vertex and from its
successor. -/
theorem cyc_after_rest_mem (n k j : Nat) (hn : 3 ≤ n) (hk : k < n)
    (hj : j ∈ (List.range (n - 2)).map fun t => (k + 2 + t) % n) :
    j < n ∧ j ≠ k ∧ j ≠ (k + 1) % n := by
  obtain ⟨t, ht, rfl⟩ := List.mem_map.mp hj
  have ht' : t < n - 2 := List.mem_range.mp ht
  have hs : (k + 1) % n = if k + 1 < n then k + 1 else 0 := by
    split
    · rename_i h; exact Nat.mod_eq_of_lt h
    · rename_i h
      have : k + 1 = n := by omega
      rw [this, Nat.mod_self]
  refine ⟨Nat.mod_lt _ (by omega), ?_, ?_⟩
  · rcases Nat.lt_or_ge (k + 2 + t) n with h | h
    · rw [Nat.mod_eq_of_lt h]; omega
    · rw [mod_of_ge_lt _ _ h (by omega)]; omega
  · rw [hs]
    rcases Nat.lt_or_ge (k + 2 + t) n with h | h
    · rw [Nat.mod_eq_of_lt h]; split <;> omega
    · rw [mod_of_ge_lt _ _ h (by omega)]; split <;> omega


/-- In a strictly convex ring every edge has two distinct ends. -/
theorem strictly_convex_edge_ne (ring : Ring) (hc : strictly_convex_ccw ring) (k : Nat)
    (hk : k < ring.pts.length) :
    ¬((vtx ring.pts ((k + 1) % ring.pts.length)).x - (vtx ring.pts k).x = 0 ∧
      (vtx ring.pts ((k + 1) % ring.pts.length)).y - (vtx ring.pts k).y = 0) := by
  obtain ⟨hn, _, hconv⟩ := hc
  intro ⟨h1, h2⟩
  -- a third vertex: the first later candidate of the scan
  have hm := cyc_after_rest_mem ring.pts.length k ((k + 2 + 0) % ring.pts.length) hn hk
    (List.mem_map.mpr ⟨0, List.mem_range.mpr (by omega), rfl⟩)
  have := hconv k hk _ hm.1 hm.2.1 hm.2.2
  unfold cross2 at this
  rw [h1, h2] at this
  simp at this

/-- One step of the hull sweep on a strictly convex ring: with every other
vertex at an angle in `[0, π]` from the reference direction and the successor
below `π`, `find_next_convex` selects the successor. -/
theorem sweep_step (ring : Ring) (hc : strictly_convex_ccw ring) (k limit_idx : Nat)
    (hk : k < ring.pts.length) (rx ry : ℚ) (hr : ¬(rx = 0 ∧ ry = 0))
    (hs : ∀ j, j < ring.pts.length → j ≠ k →
      0 ≤ rx * ((vtx ring.pts j).y - (vtx ring.pts k).y)
        - ry * ((vtx ring.pts j).x - (vtx ring.pts k).x))
    (hpi : (AngDiff.turn
      (rx * ((vtx ring.pts ((k + 1) % ring.pts.length)).x - (vtx ring.pts k).x)
        + ry * ((vtx ring.pts ((k + 1) % ring.pts.length)).y - (vtx ring.pts k).y))
      (rx * ((vtx ring.pts ((k + 1) % ring.pts.length)).y - (vtx ring.pts k).y)
        - ry * ((vtx ring.pts ((k + 1) % ring.pts.length)).x - (vtx ring.pts k).x))).lt_pi
      = true) :
    find_next_convex ring k limit_idx (.atan2 ry rx) =
      ⟨false, (k + 1) % ring.pts.length,
        seg_ang (vtx ring.pts k) (vtx ring.pts ((k + 1) % ring.pts.length))⟩ := by
  have hn := hc.1
  have hconv := hc.2.2
  have hk1 : (k + 1) % ring.pts.length < ring.pts.length := Nat.mod_lt _ (by omega)
  have hk1ne : (k + 1) % ring.pts.length ≠ k := by
    rcases Nat.lt_or_ge (k + 1) ring.pts.length with h | h
    · rw [Nat.mod_eq_of_lt h]; omega
    · have : k + 1 = ring.pts.length := by omega
      rw [this, Nat.mod_self]; omega
  have he := strictly_convex_edge_ne ring hc k hk
  apply find_next_convex_first ring k limit_idx (.atan2 ry rx) _ _ _ _
    (cyc_after_cons ring.pts.length k hn)
  · unfold seg_ang
    exact angdiff_dirs _ _ rx ry he hr
  · exact hs _ hk1 hk1ne
  · exact hpi
  · intro j hj
    obtain ⟨hjn, hjk, hjk1⟩ := cyc_after_rest_mem ring.pts.length k j hn hk hj
    have hpos := hconv k hk j hjn hjk hjk1
    unfold cross2 at hpos
    have hd : ¬((vtx ring.pts j).x - (vtx ring.pts k).x = 0 ∧
        (vtx ring.pts j).y - (vtx ring.pts k).y = 0) := by
      intro ⟨h1, h2⟩
      rw [h1, h2] at hpos
      simp at hpos
    refine ⟨_, _, by unfold seg_ang; exact angdiff_dirs _ _ rx ry hd hr, hs j hjn hjk, ?_⟩
    have hrr : 0 < rx * rx + ry * ry := by
      rcases not_and_or.mp hr with h | h
      · have := mul_self_pos.mpr h; nlinarith [mul_self_nonneg ry]
      · have := mul_self_pos.mpr h; nlinarith [mul_self_nonneg rx]
    simp only [AngDiff.lt, hpi, Bool.not_true, Bool.and_false, Bool.false_eq_true, if_false,
      Bool.and_true]
    split
    · rfl
    · simp only [decide_eq_false_iff_not, not_lt]
      have hprod := mul_pos hrr hpos
      nlinarith [hprod]


/-- Reading a flag that was just set. -/
theorem flag_set_self (keep : List Bool) (i : Nat) (hi : i < keep.length) :
    flag (keep.set i true) i = true := by
  simp [flag, List.getD_eq_getElem?_getD, List.getElem?_set, hi]

/-- Setting a flag leaves the flags that are set as they are. -/
theorem flag_set_mono (keep : List Bool) (i j : Nat) (h : flag keep j = true) :
    flag (keep.set i true) j = true := by
  simp only [flag, List.getD_eq_getElem?_getD, List.getElem?_set] at h ⊢
  split
  · split
    · rfl
    · rename_i h1 h2
      subst h1
      simp [List.getElem?_eq_none (not_lt.mp h2)] at h
  · exact h

/-- Setting a flag changes no other flag. -/
theorem flag_set_ne (keep : List Bool) (i j : Nat) (h : i ≠ j) :
    flag (keep.set i true) j = flag keep j := by
  simp [flag, List.getD_eq_getElem?_getD, List.getElem?_set, h]

/-- The first step of the hull sweep on a strictly convex ring goes from the
lowest vertex to its successor. -/
theorem sweep_first_step (ring : Ring) (hc : strictly_convex_ccw ring) (limit_idx : Nat) :
    find_next_convex ring (find_bottom_pt ring) limit_idx Angle.zero =
      ⟨false, (find_bottom_pt ring + 1) % ring.pts.length,
        seg_ang (vtx ring.pts (find_bottom_pt ring))
          (vtx ring.pts ((find_bottom_pt ring + 1) % ring.pts.length))⟩ := by
  have hn := hc.1
  obtain ⟨hs, hmin, _⟩ := find_bottom_pt_spec ring (by omega)
  have hstep := sweep_step ring hc (find_bottom_pt ring) limit_idx hs 1 0 (by simp)
    (by intro j hj _; have := hmin j hj; linarith)
  apply hstep
  have hk1 : (find_bottom_pt ring + 1) % ring.pts.length < ring.pts.length :=
    Nat.mod_lt _ (by omega)
  have hy := hmin _ hk1
  simp only [AngDiff.lt_pi, decide_eq_true_eq, one_mul, zero_mul, add_zero, sub_zero]
  rcases lt_or_eq_of_le hy with h | h
  · left; linarith
  · right
    refine ⟨by linarith, ?_⟩
    -- a third vertex lies strictly to the left of the first edge
    have hm := cyc_after_rest_mem ring.pts.length (find_bottom_pt ring)
      ((find_bottom_pt ring + 2 + 0) % ring.pts.length) hn hs
      (List.mem_map.mpr ⟨0, List.mem_range.mpr (by omega), rfl⟩)
    have hpos := hc.2.2 _ hs _ hm.1 hm.2.1 hm.2.2
    have hy2 := hmin _ hm.1
    unfold cross2 at hpos
    rw [← h] at hpos
    simp only [sub_self, zero_mul, sub_zero] at hpos
    by_contra hneg
    push_neg at hneg
    nlinarith [mul_nonneg (sub_nonneg.mpr hy2) (neg_nonneg.mpr hneg)]

/-- A later step of the hull sweep on a strictly convex ring: arriving at `k`
along the edge from its predecessor `q`, the sweep goes on to the successor. -/
theorem sweep_later_step (ring : Ring) (hc : strictly_convex_ccw ring) (q k limit_idx : Nat)
    (hq : q < ring.pts.length) (hqk : (q + 1) % ring.pts.length = k) :
    find_next_convex ring k limit_idx (seg_ang (vtx ring.pts q) (vtx ring.pts k)) =
      ⟨false, (k + 1) % ring.pts.length,
        seg_ang (vtx ring.pts k) (vtx ring.pts ((k + 1) % ring.pts.length))⟩ := by
  have hn := hc.1
  have hk : k < ring.pts.length := by rw [← hqk]; exact Nat.mod_lt _ (by omega)
  have hkq : k ≠ q := by
    rw [← hqk]
    rcases Nat.lt_or_ge (q + 1) ring.pts.length with h | h
    · rw [Nat.mod_eq_of_lt h]; omega
    · have : q + 1 = ring.pts.length := by omega
      rw [this, Nat.mod_self]; omega
  have hk1 : (k + 1) % ring.pts.length < ring.pts.length := Nat.mod_lt _ (by omega)
  have hk1k : (k + 1) % ring.pts.length ≠ k := by
    rcases Nat.lt_or_ge (k + 1) ring.pts.length with h | h
    · rw [Nat.mod_eq_of_lt h]; omega
    · have : k + 1 = ring.pts.length := by omega
      rw [this, Nat.mod_self]; omega
  have hk1q : (k + 1) % ring.pts.length ≠ q := by
    rw [← hqk]
    rcases Nat.lt_or_ge (q + 1) ring.pts.length with h | h
    · rw [Nat.mod_eq_of_lt h]
      rcases Nat.lt_or_ge (q + 1 + 1) ring.pts.length with h' | h'
      · rw [Nat.mod_eq_of_lt h']; omega
      · have : q + 1 + 1 = ring.pts.length := by omega
        rw [this, Nat.mod_self]; omega
    · have : q + 1 = ring.pts.length := by omega
      rw [this, Nat.mod_self, Nat.mod_eq_of_lt (by omega : 0 + 1 < ring.pts.length)]; omega
  have he := strictly_convex_edge_ne ring hc q hq
  rw [hqk] at he
  have hleft : ∀ j, j < ring.pts.length → j ≠ k → j ≠ q →
      0 < ((vtx ring.pts k).x - (vtx ring.pts q).x) * ((vtx ring.pts j).y - (vtx ring.pts k).y)
        - ((vtx ring.pts k).y - (vtx ring.pts q).y) * ((vtx ring.pts j).x - (vtx ring.pts k).x) := by
    intro j hj hjk hjq
    have := hc.2.2 q hq j hj hjq (by rw [hqk]; exact hjk)
    unfold cross2 at this
    rw [hqk] at this
    linarith
  unfold seg_ang
  apply sweep_step ring hc k limit_idx hk _ _ he
  · intro j hj hjk
    by_cases hjq : j = q
    · subst hjq
      apply le_of_eq
      ring
    · exact le_of_lt (hleft j hj hjk hjq)
  · simp only [AngDiff.lt_pi, decide_eq_true_eq]
    left
    exact hleft _ hk1 hk1k hk1q


/-- A flag list of the ring's length with every flag set is the all-true list. -/
theorem all_flags_eq_replicate (keep : List Bool) (n : Nat) (hl : keep.length = n)
    (h : ∀ j, j < n → flag keep j = true) : keep = List.replicate n true := by
  apply List.ext_getElem
  · simp [hl]
  · intro i h1 h2
    have := h i (by omega)
    simp only [flag, List.getD_eq_getElem?_getD, List.getElem?_eq_getElem h1,
      Option.getD_some] at this
    simp [this]

/-- Every index of the ring is reached from `s` by at most `n - 1` steps. -/
theorem cyc_reach (n s j : Nat) (hs : s < n) (hj : j < n) :
    ∃ u, u ≤ n - 1 ∧ (s + u) % n = j := by
  rcases Nat.lt_or_ge j s with h | h
  · refine ⟨j + n - s, by omega, ?_⟩
    have : s + (j + n - s) = j + n := by omega
    rw [this, Nat.add_mod_right, Nat.mod_eq_of_lt hj]
  · refine ⟨j - s, by omega, ?_⟩
    have : s + (j - s) = j := by omega
    rw [this, Nat.mod_eq_of_lt hj]

/-- The hull sweep of a strictly convex ring, from the step that arrives at the
`t`-th vertex after the lowest one: it visits every remaining vertex and ends
with all flags set. -/
theorem find_chull_loop_convex (ring : Ring) (hc : strictly_convex_ccw ring) :
    ∀ (d t : Nat) (keep : List Bool), t + d = ring.pts.length - 1 → 1 ≤ t →
      keep.length = ring.pts.length →
      (∀ u, u ≤ t → flag keep ((find_bottom_pt ring + u) % ring.pts.length) = true) →
      find_chull_loop ring (find_bottom_pt ring) (d + 1)
        ((find_bottom_pt ring + t) % ring.pts.length)
        (seg_ang (vtx ring.pts ((find_bottom_pt ring + (t - 1)) % ring.pts.length))
          (vtx ring.pts ((find_bottom_pt ring + t) % ring.pts.length))) keep
        = .ok (List.replicate ring.pts.length true) := by
  have hn := hc.1
  obtain ⟨hs, _, _⟩ := find_bottom_pt_spec ring (by omega)
  intro d
  induction d with
  | zero =>
    intro t keep htd ht hl hfl
    have hq : (find_bottom_pt ring + (t - 1)) % ring.pts.length < ring.pts.length :=
      Nat.mod_lt _ (by omega)
    have hqk : ((find_bottom_pt ring + (t - 1)) % ring.pts.length + 1) % ring.pts.length
        = (find_bottom_pt ring + t) % ring.pts.length := by
      rw [Nat.mod_add_mod]; congr 1; omega
    have hnext : ((find_bottom_pt ring + t) % ring.pts.length + 1) % ring.pts.length
        = find_bottom_pt ring := by
      rw [Nat.mod_add_mod]
      have : find_bottom_pt ring + t + 1 = find_bottom_pt ring + ring.pts.length := by omega
      rw [this, Nat.add_mod_right, Nat.mod_eq_of_lt hs]
    unfold find_chull_loop
    rw [sweep_later_step ring hc _ _ (find_bottom_pt ring) hq hqk]
    simp only [hnext, Bool.false_eq_true, if_false, if_true]
    congr 1
    apply all_flags_eq_replicate _ _ hl
    intro j hj
    obtain ⟨u, hu, rfl⟩ := cyc_reach _ _ j hs hj
    exact hfl u (by omega)
  | succ d ih =>
    intro t keep htd ht hl hfl
    have hq : (find_bottom_pt ring + (t - 1)) % ring.pts.length < ring.pts.length :=
      Nat.mod_lt _ (by omega)
    have hqk : ((find_bottom_pt ring + (t - 1)) % ring.pts.length + 1) % ring.pts.length
        = (find_bottom_pt ring + t) % ring.pts.length := by
      rw [Nat.mod_add_mod]; congr 1; omega
    have hnext : ((find_bottom_pt ring + t) % ring.pts.length + 1) % ring.pts.length
        = (find_bottom_pt ring + (t + 1)) % ring.pts.length := by
      rw [Nat.mod_add_mod]; rfl
    have hne : (find_bottom_pt ring + (t + 1)) % ring.pts.length ≠ find_bottom_pt ring := by
      rcases Nat.lt_or_ge (find_bottom_pt ring + (t + 1)) ring.pts.length with h | h
      · rw [Nat.mod_eq_of_lt h]; omega
      · rw [mod_of_ge_lt _ _ h (by omega)]; omega
    unfold find_chull_loop
    rw [sweep_later_step ring hc _ _ (find_bottom_pt ring) hq hqk]
    simp only [hnext, Bool.false_eq_true, if_false, hne]
    have := ih (t + 1) (keep.set ((find_bottom_pt ring + (t + 1)) % ring.pts.length) true)
      (by omega) (by omega) (by simp [hl])
      (by
        intro u hu
        rcases Nat.lt_or_ge u (t + 1) with h | h
        · exact flag_set_mono _ _ _ (hfl u (by omega))
        · have : u = t + 1 := by omega
          subst this
          exact flag_set_self _ _ (by rw [hl]; exact Nat.mod_lt _ (by omega)))
    simpa using this

/-- On a strictly convex counter-clockwise ring `find_chull` keeps every vertex. -/
theorem find_chull_convex (ring : Ring) (hc : strictly_convex_ccw ring) :
    find_chull ring = .ok (List.replicate ring.pts.length true) := by
  have hn := hc.1
  obtain ⟨hs, _, _⟩ := find_bottom_pt_spec ring (by omega)
  have hne : (find_bottom_pt ring + 1) % ring.pts.length ≠ find_bottom_pt ring := by
    rcases Nat.lt_or_ge (find_bottom_pt ring + 1) ring.pts.length with h | h
    · rw [Nat.mod_eq_of_lt h]; omega
    · rw [mod_of_ge_lt _ _ h (by omega)]; omega
  unfold find_chull
  rw [if_neg (by omega)]
  simp only
  have hfuel : ring.pts.length = (ring.pts.length - 2 + 1) + 1 := by omega
  conv_lhs => rw [hfuel]
  unfold find_chull_loop
  rw [sweep_first_step ring hc]
  simp only [Bool.false_eq_true, if_false, hne]
  have := find_chull_loop_convex ring hc (ring.pts.length - 2) 1
    (((List.replicate ring.pts.length false).set (find_bottom_pt ring) true).set
      ((find_bottom_pt ring + 1) % ring.pts.length) true)
    (by omega) (le_refl _) (by simp)
    (by
      intro u hu
      rcases Nat.lt_or_ge u 1 with h | h
      · have : u = 0 := by omega
        subst this
        apply flag_set_mono
        rw [Nat.add_zero, Nat.mod_eq_of_lt hs]
        exact flag_set_self _ _ (by simp; exact hs)
      · have : u = 1 := by omega
        subst this
        exact flag_set_self _ _ (by simp; exact Nat.mod_lt _ (by omega)))
  simp only [Nat.sub_self, Nat.add_zero, Nat.mod_eq_of_lt hs] at this
  rw [← hfuel]
  exact this


/-- A gap whose shoelace sum is zero is left as it is by the inner loop of
`refine_ring`. -/
theorem refine_ring_gap_zero (sqrt : ℚ → ℚ) (ring : Ring) (i fuel : Nat)
    (keep touchpts : List Bool)
    (h : subring_accum ring i (next_keep ring.pts.length keep i) = 0) :
    refine_ring_gap sqrt ring i (fuel + 1) keep touchpts = .ok (keep, touchpts) := by
  unfold refine_ring_gap
  simp [subring_area, h]

/-- When every gap between consecutive kept vertices has a zero shoelace sum,
the outer loop of `refine_ring` changes neither the keep flags nor the touch
points. -/
theorem refine_ring_loop_zero (sqrt : ℚ → ℚ) (ring : Ring) (keep touchpts : List Bool)
    (h : ∀ i, flag keep i = true →
      subring_accum ring i (next_keep ring.pts.length keep i) = 0) :
    ∀ idxs : List Nat, refine_ring_loop sqrt ring idxs keep touchpts = .ok (keep, touchpts) := by
  intro idxs
  induction idxs with
  | nil => rfl
  | cons i rest ih =>
    unfold refine_ring_loop
    by_cases hf : flag keep i = true
    · simp only [hf, Bool.not_true, Bool.false_eq_true, if_false,
        refine_ring_gap_zero sqrt ring i _ keep touchpts (h i hf)]
      exact ih
    · simp only [hf, Bool.not_false, if_true]
      exact ih

/-- The kept vertex after `i` when every flag is set is the successor of `i`. -/
theorem next_keep_all_true (n i : Nat) (hi : i < n) :
    next_keep n (List.replicate n true) i = (i + 1) % n := by
  unfold next_keep
  have hflag : ∀ j, j < n → flag (List.replicate n true) j = true := by
    intro j hj
    simp [flag, List.getD_eq_getElem?_getD, List.getElem?_replicate, hj]
  rcases Nat.lt_or_ge (i + 1) n with h | h
  · simp only [h, if_true]
    have : n - (i + 1) = (n - (i + 1) - 1) + 1 := by omega
    rw [this, List.range'_succ, List.find?_cons_of_pos _ (hflag _ h), Nat.mod_eq_of_lt h]
  · simp only [not_lt.mpr h, if_false]
    have : n - 0 = (n - 1) + 1 := by omega
    rw [this, List.range'_succ, List.find?_cons_of_pos _ (hflag _ (by omega))]
    have : i + 1 = n := by omega
    rw [this, Nat.mod_self]

/-- The path from a vertex to its successor, on a ring of at least two
vertices. -/
theorem cyc_range_adjacent (n i : Nat) (hi : i < n) (hn : 2 ≤ n) :
    cyc_range n i ((i + 1) % n) = [i, (i + 1) % n] := by
  have h1 : ((i + 1) % n + n - i) % n = 1 := by
    rcases Nat.lt_or_ge (i + 1) n with h | h
    · rw [Nat.mod_eq_of_lt h]
      have : i + 1 + n - i = 1 + n := by omega
      rw [this, Nat.add_mod_right, Nat.mod_eq_of_lt (by omega)]
    · have : i + 1 = n := by omega
      rw [this, Nat.mod_self]
      have : 0 + n - i = 1 := by omega
      rw [this, Nat.mod_eq_of_lt (by omega)]
  unfold cyc_range
  rw [h1]
  simp [List.range_succ, Nat.mod_eq_of_lt hi]

/-- The shoelace sum of the gap between a vertex and its successor is zero. -/
theorem subring_accum_adjacent (ring : Ring) (i : Nat) (hi : i < ring.pts.length) :
    subring_accum ring i ((i + 1) % ring.pts.length) = 0 := by
  rcases Nat.lt_or_ge ring.pts.length 2 with hn | hn
  · -- a ring of one vertex
    have hn1 : ring.pts.length = 1 := by omega
    have hi0 : i = 0 := by omega
    subst hi0
    unfold subring_accum cyc_range
    rw [hn1]
    simp [List.range_succ]
  · have hne : i ≠ (i + 1) % ring.pts.length := by
      rcases Nat.lt_or_ge (i + 1) ring.pts.length with h | h
      · rw [Nat.mod_eq_of_lt h]; omega
      · rw [mod_of_ge_lt _ _ h (by omega)]; omega
    unfold subring_accum
    simp only [cyc_range_adjacent _ _ hi hn, List.foldl_cons, List.foldl_nil, if_neg hne,
      if_true]
    ring

/-- With every vertex kept, `refine_ring` changes nothing. -/
theorem refine_ring_all_true (sqrt : ℚ → ℚ) (ring : Ring) (touchpts : List Bool) :
    refine_ring sqrt ring (List.replicate ring.pts.length true) touchpts
      = .ok (List.replicate ring.pts.length true, touchpts) := by
  unfold refine_ring
  apply refine_ring_loop_zero
  intro i hf
  have hi : i < ring.pts.length := by
    by_contra hge
    simp [flag, List.getD_eq_getElem?_getD, List.getElem?_replicate, hge] at hf
  rw [next_keep_all_true _ _ hi]
  exact subring_accum_adjacent ring i hi

/-- With every vertex kept, the emitted vertex list is the ring's. -/
theorem kept_pts_all_true (pts : List Vertex) :
    kept_pts pts (List.replicate pts.length true) = pts := by
  unfold kept_pts
  apply List.ext_getElem?
  intro i
  by_cases hi : i < pts.length
  · have hfm : (List.range pts.length).filterMap (fun i =>
        if flag (List.replicate pts.length true) i = true then some (vtx pts i) else none)
        = (List.range pts.length).map (vtx pts) := by
      rw [← List.filterMap_eq_map]
      apply List.filterMap_congr
      intro j hj
      have hj' := List.mem_range.mp hj
      simp [flag, List.getD_eq_getElem?_getD, List.getElem?_replicate, hj']
    rw [hfm]
    simp [hi, vtx, List.getD_eq_getElem?_getD]
  · have hfm : ((List.range pts.length).filterMap (fun i =>
        if flag (List.replicate pts.length true) i = true then some (vtx pts i) else none)).length
        ≤ pts.length := by
      calc _ ≤ (List.range pts.length).length := List.length_filterMap_le _ _
        _ = pts.length := List.length_range _
    rw [List.getElem?_eq_none (by omega), List.getElem?_eq_none (by omega)]


/-- A ring produced by `pinch_ring_excursions` carries the reset metadata. -/
theorem pinch_ring_excursions_meta (sqrt : ℚ → ℚ) (ring_in out : Ring)
    (h : pinch_ring_excursions sqrt ring_in = .ok out) :
    out = { pts := out.pts, is_hole := false, parent_id := 0 } := by
  unfold pinch_ring_excursions at h
  dsimp only at h
  split at h
  · cases h
  · split at h
    · cases h
    · cases h; rfl

/-- A counter-clockwise ring all of whose vertices are kept by `find_chull` is
returned by `pinch_ring_excursions` with its vertex list unchanged. -/
theorem pinch_all_kept (sqrt : ℚ → ℚ) (ring : Ring) (hccw : ring_is_ccw ring = true)
    (hch : find_chull ring = .ok (List.replicate ring.pts.length true)) :
    pinch_ring_excursions sqrt ring
      = .ok { pts := ring.pts, is_hole := false, parent_id := 0 } := by
  unfold pinch_ring_excursions
  have ho : oriented_ring ring = ring := by simp [oriented_ring, hccw]
  simp only [ho, hch, refine_ring_all_true, kept_pts_all_true, Ring.copyMetadata]

/-- C5. On a strictly convex counter-clockwise ring `find_chull` keeps every
vertex, `refine_ring` changes nothing, and `pinch_ring_excursions` returns
without error exactly the input's vertices in the input's order. -/
theorem pinch_ring_excursions_strictly_convex (sqrt : ℚ → ℚ) (ring : Ring)
    (hc : strictly_convex_ccw ring) :
    find_chull ring = .ok (List.replicate ring.pts.length true) ∧
    (∀ touchpts, refine_ring sqrt ring (List.replicate ring.pts.length true) touchpts
      = .ok (List.replicate ring.pts.length true, touchpts)) ∧
    pinch_ring_excursions sqrt ring
      = .ok { pts := ring.pts, is_hole := false, parent_id := 0 } :=
  ⟨find_chull_convex ring hc, fun touchpts => refine_ring_all_true sqrt ring touchpts,
    pinch_all_kept sqrt ring hc.2.1 (find_chull_convex ring hc)⟩

/-- Witness for C5: the unit square. -/
theorem pinch_ring_excursions_strictly_convex_witness :
    strictly_convex_ccw ring_square ∧
      pinch_ring_excursions sqrt_trunc ring_square
        = .ok { pts := ring_square.pts, is_hole := false, parent_id := 0 } :=
  ⟨by decide!, (pinch_ring_excursions_strictly_convex sqrt_trunc ring_square (by decide!)).2.2⟩

/-- C4 (amended). Pinching the output of a pinching again returns it unchanged
when the hull sweep of that output keeps all of its vertices, in particular
when the output is a strictly convex counter-clockwise ring. -/
theorem pinch_ring_excursions_idempotent_on_hull (sqrt : ℚ → ℚ) (r out : Ring)
    (h : pinch_ring_excursions sqrt r = .ok out) :
    (ring_is_ccw out = true →
      find_chull out = .ok (List.replicate out.pts.length true) →
      pinch_ring_excursions sqrt out = .ok out) ∧
    (strictly_convex_ccw out → pinch_ring_excursions sqrt out = .ok out) := by
  have hm := pinch_ring_excursions_meta sqrt r out h
  constructor
  · intro hccw hch
    rw [pinch_all_kept sqrt out hccw hch, ← hm]
  · intro hc
    rw [pinch_all_kept sqrt out hc.2.1 (find_chull_convex out hc), ← hm]

/-- Witness for C4 (amended): a concave pentagon whose pinching is a square. -/
theorem pinch_ring_excursions_idempotent_on_hull_witness :
    pinch_ring_excursions sqrt_trunc ring_notch = .ok ring_notch_out ∧
      strictly_convex_ccw ring_notch_out ∧
      pinch_ring_excursions sqrt_trunc ring_notch_out = .ok ring_notch_out :=
  ⟨by decide!, by decide!,
    (pinch_ring_excursions_idempotent_on_hull sqrt_trunc ring_notch ring_notch_out
      (by decide!)).2 (by decide!)⟩

/-- C4 as stated fails on a simple counter-clockwise hexagon: the first
pinching keeps five vertices, and pinching those five again keeps only four. -/
theorem pinch_ring_excursions_not_idempotent :
    is_simple_ring ring_hex.pts ∧ ring_is_ccw ring_hex = true ∧ ring_hex.is_hole = false ∧
      pinch_ring_excursions sqrt_trunc ring_hex = .ok ring_hex_out ∧
      pinch_ring_excursions sqrt_trunc ring_hex_out = .ok ring_hex_out2 ∧
      ring_hex_out2 ≠ ring_hex_out := by
  decide!


/-- Growth of the keep flags is reflexive. -/
theorem keep_le_refl (k : List Bool) : keep_le k k := fun _ h => h

/-- Growth of the keep flags is transitive. -/
theorem keep_le_trans {k1 k2 k3 : List Bool} (h12 : keep_le k1 k2) (h23 : keep_le k2 k3) :
    keep_le k1 k3 := fun j h => h23 j (h12 j h)

/-- Setting a flag grows the keep flags. -/
theorem keep_le_set (k : List Bool) (i : Nat) : keep_le k (k.set i true) :=
  fun j h => flag_set_mono k i j h

/-- The stepping loop of `reach_point` only sets flags. -/
theorem reach_point_step_mono (ring : Ring) (to_idx : Nat) :
    ∀ (fuel idx : Nat) (ang : Angle) (keep : List Bool) (res : Bool × List Bool),
      reach_point_step ring to_idx fuel idx ang keep = .ok res → keep_le keep res.2 := by
  intro fuel
  induction fuel with
  | zero => intro idx ang keep res h; simp [reach_point_step] at h
  | succ fuel ih =>
    intro idx ang keep res h
    unfold reach_point_step at h
    dsimp only at h
    split at h
    · cases h; exact keep_le_refl _
    · split at h
      · cases h; exact keep_le_set _ _
      · exact keep_le_trans (keep_le_set _ _) (ih _ _ _ _ h)

/-- `reach_point` only sets flags, whether it succeeds or fails. -/
theorem reach_point_mono (ring : Ring) (keep : List Bool) (from_idx to_idx : Nat) (ang : Angle)
    (res : Bool × List Bool) (h : reach_point ring keep from_idx to_idx ang = .ok res) :
    keep_le keep res.2 := by
  unfold reach_point at h
  dsimp only at h
  split at h
  · cases h
  · rename_i keep1 hstep
    cases h
    exact reach_point_step_mono ring to_idx _ _ _ _ _ hstep
  · rename_i keep1 hstep
    split at h
    · cases h
    · cases h
      exact reach_point_step_mono ring to_idx _ _ _ _ (false, keep1) hstep

/-- `add_tiepoint` only sets flags, whether it succeeds or fails. -/
theorem add_tiepoint_mono (ring : Ring) (keep : List Bool) (mid : Nat)
    (res : Bool × List Bool) (h : add_tiepoint ring keep mid = .ok res) :
    keep_le keep res.2 := by
  unfold add_tiepoint at h
  dsimp only at h
  split at h
  · cases h
  · rename_i keep1 h1
    cases h
    exact keep_le_trans (keep_le_set _ _) (reach_point_mono ring _ _ _ _ _ h1)
  · rename_i keep1 h1
    split at h
    · cases h
    · exact keep_le_trans (keep_le_trans (keep_le_set _ _) (reach_point_mono ring _ _ _ _ _ h1))
        (reach_point_mono ring _ _ _ _ _ h)

/-- Setting the flags of a list of indices grows the keep flags. -/
theorem keep_le_foldl_set (idxs : List Nat) :
    ∀ k : List Bool, keep_le k (idxs.foldl (fun k i => k.set i true) k) := by
  induction idxs with
  | nil => intro k; exact keep_le_refl _
  | cons i rest ih => intro k; exact keep_le_trans (keep_le_set k i) (ih _)


/-- The outer loop of `keep_linears` only sets flags. -/
theorem keep_linears_loop_mono (sqrt : ℚ → ℚ) (ring : Ring) (from_idx to_idx : Nat) :
    ∀ (ls : List Nat) (keep_orig touchpts : List Bool) (res : Bool × List Bool × List Bool),
      keep_linears_loop sqrt ring from_idx to_idx ls keep_orig touchpts = .ok res →
      keep_le keep_orig res.2.1 := by
  intro ls
  induction ls with
  | nil => intro keep_orig touchpts res h; simp [keep_linears_loop] at h; subst h
           exact keep_le_refl _
  | cons l_idx rest ih =>
    intro keep_orig touchpts res h
    unfold keep_linears_loop at h
    dsimp only at h
    split at h
    · split at h
      · cases h
      · rename_i err1 keep1 h1
        have hm1 : keep_le keep_orig keep1 := by
          split at h1
          · exact add_tiepoint_mono ring _ _ _ h1
          · cases h1; exact keep_le_refl _
        split at h
        · cases h
        · rename_i err2 keep2 h2
          have hm2 : keep_le keep1 keep2 := by
            split at h2
            · exact add_tiepoint_mono ring _ _ _ h2
            · cases h2; exact keep_le_refl _
          split at h
          · cases h
            exact keep_le_trans (keep_le_trans hm1 hm2) (keep_le_foldl_set _ _)
          · exact ih _ _ _ h
    · exact ih _ _ _ h

/-- `keep_linears` only sets flags. -/
theorem keep_linears_mono (sqrt : ℚ → ℚ) (ring : Ring) (keep_orig : List Bool)
    (from_idx to_idx : Nat) (touchpts : List Bool) (res : Bool × List Bool × List Bool)
    (h : keep_linears sqrt ring keep_orig from_idx to_idx touchpts = .ok res) :
    keep_le keep_orig res.2.1 := by
  unfold keep_linears at h
  dsimp only at h
  split at h
  · cases h; exact keep_le_refl _
  · exact keep_linears_loop_mono sqrt ring from_idx to_idx _ _ _ _ h

/-- The candidate loop of `refine_seg` keeps in `keep_best` a keep-set grown
from `keep_orig`. -/
theorem refine_seg_loop_mono (sqrt : ℚ → ℚ) (ring : Ring) (keep_orig : List Bool)
    (from_idx to_idx : Nat) (start_area start_perim : ℚ) :
    ∀ (ts : List Nat) (st res : BestState), keep_le keep_orig st.keep_best →
      refine_seg_loop sqrt ring keep_orig from_idx to_idx start_area start_perim ts st = .ok res →
      keep_le keep_orig res.keep_best := by
  intro ts
  induction ts with
  | nil => intro st res hst h; simp [refine_seg_loop] at h; subst h; exact hst
  | cons testpt rest ih =>
    intro st res hst h
    unfold refine_seg_loop at h
    dsimp only at h
    split at h
    · cases h
    · exact ih _ _ hst h
    · rename_i keep_new hadd
      split at h
      · cases h
      · split at h
        · cases h
        · refine ih _ _ ?_ h
          split
          · exact add_tiepoint_mono ring _ _ _ hadd
          · exact hst

/-- `refine_seg` only sets flags. -/
theorem refine_seg_mono (sqrt : ℚ → ℚ) (ring : Ring) (keep_orig : List Bool)
    (from_idx to_idx : Nat) (res : Int × List Bool)
    (h : refine_seg sqrt ring keep_orig from_idx to_idx = .ok res) :
    keep_le keep_orig res.2 := by
  unfold refine_seg at h
  dsimp only at h
  split at h
  · cases h
  · split at h
    · cases h
    · rename_i st hloop
      split at h
      · cases h
        exact refine_seg_loop_mono sqrt ring keep_orig from_idx to_idx _ _ _ _ _
          (keep_le_refl _) hloop
      · cases h; exact keep_le_refl _

/-- The inner loop of `refine_ring` only sets flags. -/
theorem refine_ring_gap_mono (sqrt : ℚ → ℚ) (ring : Ring) (i : Nat) :
    ∀ (fuel : Nat) (keep touchpts : List Bool) (res : List Bool × List Bool),
      refine_ring_gap sqrt ring i fuel keep touchpts = .ok res → keep_le keep res.1 := by
  intro fuel
  induction fuel with
  | zero => intro keep touchpts res h; simp [refine_ring_gap] at h
  | succ fuel ih =>
    intro keep touchpts res h
    unfold refine_ring_gap at h
    dsimp only at h
    split at h
    · cases h
    · split at h
      · split at h
        · cases h
        · rename_i keep1 tp1 hkl
          exact keep_le_trans (keep_linears_mono sqrt ring _ _ _ _ _ hkl) (ih _ _ _ h)
        · rename_i keep1 tp1 hkl
          have hm1 := keep_linears_mono sqrt ring _ _ _ _ _ hkl
          split at h
          · cases h
          · rename_i touchpt keep2 hrs
            have hm2 := refine_seg_mono sqrt ring _ _ _ _ hrs
            split at h
            · exact keep_le_trans (keep_le_trans hm1 hm2) (ih _ _ _ h)
            · cases h; exact keep_le_trans hm1 hm2
      · cases h; exact keep_le_refl _

/-- The outer loop of `refine_ring` only sets flags. -/
theorem refine_ring_loop_mono (sqrt : ℚ → ℚ) (ring : Ring) :
    ∀ (idxs : List Nat) (keep touchpts : List Bool) (res : List Bool × List Bool),
      refine_ring_loop sqrt ring idxs keep touchpts = .ok res → keep_le keep res.1 := by
  intro idxs
  induction idxs with
  | nil => intro keep touchpts res h; simp [refine_ring_loop] at h; subst h; exact keep_le_refl _
  | cons i rest ih =>
    intro keep touchpts res h
    unfold refine_ring_loop at h
    split at h
    · exact ih _ _ _ h
    · split at h
      · cases h
      · rename_i keep1 tp1 hgap
        exact keep_le_trans (refine_ring_gap_mono sqrt ring i _ _ _ _ hgap) (ih _ _ _ h)

/-- `refine_ring` only sets flags. -/
theorem refine_ring_mono (sqrt : ℚ → ℚ) (ring : Ring) (keep touchpts : List Bool)
    (res : List Bool × List Bool) (h : refine_ring sqrt ring keep touchpts = .ok res) :
    keep_le keep res.1 :=
  refine_ring_loop_mono sqrt ring _ _ _ _ h

/-- The loop of `find_chull` only sets flags. -/
theorem find_chull_loop_mono (ring : Ring) (start_idx : Nat) :
    ∀ (fuel idx : Nat) (ang : Angle) (keep res : List Bool),
      find_chull_loop ring start_idx fuel idx ang keep = .ok res → keep_le keep res := by
  intro fuel
  induction fuel with
  | zero => intro idx ang keep res h; simp [find_chull_loop] at h
  | succ fuel ih =>
    intro idx ang keep res h
    unfold find_chull_loop at h
    dsimp only at h
    split at h
    · cases h
    · split at h
      · cases h; exact keep_le_refl _
      · exact keep_le_trans (keep_le_set _ _) (ih _ _ _ _ h)


/-- A kept vertex is among the emitted vertices. -/
theorem mem_kept_pts (pts : List Vertex) (keep : List Bool) (i : Nat) (hi : i < pts.length)
    (hf : flag keep i = true) : vtx pts i ∈ kept_pts pts keep := by
  unfold kept_pts
  rw [List.mem_filterMap]
  exact ⟨i, List.mem_range.mpr hi, by simp [hf]⟩

/-- `find_chull` keeps the lowest vertex. -/
theorem find_chull_keeps_bottom (ring : Ring) (keep0 : List Bool)
    (h : find_chull ring = .ok keep0) : flag keep0 (find_bottom_pt ring) = true := by
  unfold find_chull at h
  split at h
  · cases h
  · rename_i hn
    dsimp only at h
    have hs := (find_bottom_pt_spec ring (by omega)).1
    exact find_chull_loop_mono ring _ _ _ _ _ _ h _ (flag_set_self _ _ (by simpa using hs))

/-- When `pinch_ring_excursions` completes, every vertex that `find_chull`
marked on the orientation-normalised ring, the lowest vertex among them,
appears in the output: refinement never unmarks a vertex. -/
theorem pinch_ring_excursions_keeps_hull_sweep (sqrt : ℚ → ℚ) (ring_in out : Ring)
    (h : pinch_ring_excursions sqrt ring_in = .ok out) :
    ∃ keep0, find_chull (oriented_ring ring_in) = .ok keep0 ∧
      flag keep0 (find_bottom_pt (oriented_ring ring_in)) = true ∧
      ∀ i, i < (oriented_ring ring_in).pts.length → flag keep0 i = true →
        vtx (oriented_ring ring_in).pts i ∈ out.pts := by
  unfold pinch_ring_excursions at h
  dsimp only at h
  split at h
  · cases h
  · rename_i keep0 hch
    split at h
    · cases h
    · rename_i keep1 tp1 href
      cases h
      refine ⟨keep0, hch, find_chull_keeps_bottom _ _ hch, ?_⟩
      intro i hi hf
      exact mem_kept_pts _ _ i hi (refine_ring_mono sqrt _ _ _ _ href i hf)

/-- C2 as stated fails in two ways.  On a self-intersecting quadrilateral
`(1, 1)` is the only vertex with the smallest `x`, hence a vertex of the convex
hull, and it is not in the output.  On three vertices on one line, a ring that
is simple (it has no two edges without a common vertex) but has the area 0,
`(0, 0)` is the only vertex with the smallest `x` and it is not in the
output. -/
theorem pinch_ring_excursions_drops_hull_vertex :
    (pinch_ring_excursions sqrt_trunc ring_cross = .ok ring_cross_out ∧
      (⟨1, 1⟩ : Vertex) ∈ ring_cross.pts ∧
      (∀ q ∈ ring_cross.pts, q ≠ (⟨1, 1⟩ : Vertex) → 1 < q.x) ∧
      (⟨1, 1⟩ : Vertex) ∉ ring_cross_out.pts) ∧
    (is_simple_ring ring_line.pts ∧ ring_oriented_area ring_line = 0 ∧
      pinch_ring_excursions sqrt_trunc ring_line = .ok ring_line_out ∧
      (⟨0, 0⟩ : Vertex) ∈ ring_line.pts ∧
      (∀ q ∈ ring_line.pts, q ≠ (⟨0, 0⟩ : Vertex) → 0 < q.x) ∧
      (⟨0, 0⟩ : Vertex) ∉ ring_line_out.pts) := by
  decide!


/-- An accumulating loop over a list is the sum of its terms. -/
theorem foldl_add_eq_sum (f : Nat → ℚ) (l : List Nat) (a : ℚ) :
    l.foldl (fun accum i => accum + f i) a = a + (l.map f).sum := by
  induction l generalizing a with
  | nil => simp
  | cons i rest ih => simp [ih, add_assoc]

/-- The sum of a list of terms over `0 .. n-1`. -/
theorem sum_map_range (f : Nat → ℚ) (n : Nat) :
    ((List.range n).map f).sum = ∑ i ∈ Finset.range n, f i := by
  induction n with
  | zero => simp
  | succ n ih => simp [List.range_succ, Finset.sum_range_succ, ih]

/-- A sum over all ring indices does not change when every index is replaced
by its successor. -/
theorem sum_cyclic_shift (f : Nat → ℚ) (n : Nat) :
    ∑ i ∈ Finset.range n, f ((i + 1) % n) = ∑ i ∈ Finset.range n, f i := by
  rcases Nat.eq_zero_or_pos n with h0 | hpos
  · subst h0; simp
  · obtain ⟨m, rfl⟩ : ∃ m, n = m + 1 := ⟨n - 1, by omega⟩
    rw [Finset.sum_range_succ, Finset.sum_range_succ' f m, Nat.mod_self]
    congr 1
    apply Finset.sum_congr rfl
    intro i hi
    rw [Nat.mod_eq_of_lt (by have := Finset.mem_range.mp hi; omega)]

/-- Twice the signed area computed by `ring_oriented_area`, as a sum of
shoelace terms over the edges. -/
theorem ring_oriented_area_eq_sum (c : Ring) :
    ring_oriented_area c
      = (∑ i ∈ Finset.range c.pts.length, edge_cross c.pts i ((i + 1) % c.pts.length)) / 2 := by
  unfold ring_oriented_area edge_cross
  dsimp only
  rw [foldl_add_eq_sum, sum_map_range, zero_add]


/-- The index `k` steps after `a` equals `t` only when `k` is the cyclic
distance from `a` to `t`. -/
theorem cyc_step_eq (n a t k : Nat) (ha : a < n) (hk : k < n)
    (h : (a + k) % n = t) : k = (t + n - a) % n := by
  rcases Nat.lt_or_ge (a + k) n with h1 | h1
  · rw [Nat.mod_eq_of_lt h1] at h
    have : t + n - a = k + n := by omega
    rw [this, Nat.add_mod_right, Nat.mod_eq_of_lt hk]
  · rw [mod_of_ge_lt _ _ h1 (by omega)] at h
    have : t + n - a = k := by omega
    rw [this, Nat.mod_eq_of_lt hk]

/-- The index at the cyclic distance from `a` to `t` after `a` is `t`. -/
theorem cyc_step_dist (n a t : Nat) (ha : a < n) (ht : t < n) :
    (a + (t + n - a) % n) % n = t := by
  rcases Nat.lt_or_ge t a with h | h
  · rw [Nat.mod_eq_of_lt (by omega : t + n - a < n)]
    have : a + (t + n - a) = t + n := by omega
    rw [this, Nat.add_mod_right, Nat.mod_eq_of_lt ht]
  · have : t + n - a = (t - a) + n := by omega
    rw [this, Nat.add_mod_right, Nat.mod_eq_of_lt (by omega : t - a < n)]
    have : a + (t - a) = t := by omega
    rw [this, Nat.mod_eq_of_lt ht]

/-- The shoelace sum of `subring_area`, split into its closing chord and the
edges of the path: `E(from, to) - Σ E(i, i+1)` over the path from `from` to
`to`. -/
theorem subring_accum_eq (ring : Ring) (a t : Nat) (ha : a < ring.pts.length)
    (ht : t < ring.pts.length) :
    subring_accum ring a t = edge_cross ring.pts a t
      - ∑ k ∈ Finset.range ((t + ring.pts.length - a) % ring.pts.length),
          edge_cross ring.pts ((a + k) % ring.pts.length)
            (((a + k) % ring.pts.length + 1) % ring.pts.length) := by
  have hd : (t + ring.pts.length - a) % ring.pts.length < ring.pts.length :=
    Nat.mod_lt _ (by omega)
  unfold subring_accum cyc_range
  dsimp only
  rw [List.range_succ, List.map_append, List.foldl_append]
  simp only [List.map_cons, List.map_nil, List.foldl_cons, List.foldl_nil]
  rw [cyc_step_dist _ a t ha ht]
  simp only [if_true]
  -- the edges before the last index
  have hpath : ∀ (m : Nat), m ≤ (t + ring.pts.length - a) % ring.pts.length →
      List.foldl (fun accum i =>
          accum + ((vtx ring.pts (if i = t then a else (i + 1) % ring.pts.length)).x
              * (vtx ring.pts i).y
            - (vtx ring.pts i).x
              * (vtx ring.pts (if i = t then a else (i + 1) % ring.pts.length)).y)) 0
        (List.map (fun k => (a + k) % ring.pts.length) (List.range m))
      = - ∑ k ∈ Finset.range m, edge_cross ring.pts ((a + k) % ring.pts.length)
          (((a + k) % ring.pts.length + 1) % ring.pts.length) := by
    intro m
    induction m with
    | zero => intro _; simp
    | succ m ih =>
      intro hm
      rw [List.range_succ, List.map_append, List.foldl_append, ih (by omega),
        Finset.sum_range_succ]
      simp only [List.map_cons, List.map_nil, List.foldl_cons, List.foldl_nil]
      have hne : (a + m) % ring.pts.length ≠ t := by
        intro heq
        have := cyc_step_eq _ a t m ha (by omega) heq
        omega
      rw [if_neg hne]
      unfold edge_cross
      ring
  rw [hpath _ (le_refl _)]
  unfold edge_cross
  ring


/-- Shoelace sum of a gap that does not wrap: the chord minus the edges
`a .. b-1`. -/
theorem subring_accum_linear (ring : Ring) (a b : Nat) (hab : a ≤ b)
    (hb : b < ring.pts.length) :
    subring_accum ring a b = edge_cross ring.pts a b
      - ∑ i ∈ Finset.Ico a b, edge_cross ring.pts i ((i + 1) % ring.pts.length) := by
  rw [subring_accum_eq ring a b (by omega) hb]
  have hd : (b + ring.pts.length - a) % ring.pts.length = b - a := by
    have : b + ring.pts.length - a = (b - a) + ring.pts.length := by omega
    rw [this, Nat.add_mod_right, Nat.mod_eq_of_lt (by omega)]
  rw [hd, Finset.sum_Ico_eq_sum_range]
  congr 1
  apply Finset.sum_congr rfl
  intro k hk
  have := Finset.mem_range.mp hk
  rw [Nat.mod_eq_of_lt (by omega : a + k < ring.pts.length)]

/-- Shoelace sum of the gap that wraps round the end of the vertex array: the
chord minus the edges `a .. n-1` and `0 .. b-1`. -/
theorem subring_accum_wrap (ring : Ring) (a b : Nat) (hba : b < a)
    (ha : a < ring.pts.length) :
    subring_accum ring a b = edge_cross ring.pts a b
      - (∑ i ∈ Finset.Ico a ring.pts.length, edge_cross ring.pts i ((i + 1) % ring.pts.length)
        + ∑ i ∈ Finset.range b, edge_cross ring.pts i ((i + 1) % ring.pts.length)) := by
  rw [subring_accum_eq ring a b ha (by omega)]
  have hd : (b + ring.pts.length - a) % ring.pts.length = (ring.pts.length - a) + b := by
    rw [Nat.mod_eq_of_lt (by omega)]; omega
  rw [hd, Finset.sum_range_add, Finset.sum_Ico_eq_sum_range]
  congr 2
  · apply Finset.sum_congr rfl
    intro k hk
    have := Finset.mem_range.mp hk
    rw [Nat.mod_eq_of_lt (by omega : a + k < ring.pts.length)]
  · apply Finset.sum_congr rfl
    intro k hk
    have := Finset.mem_range.mp hk
    have h1 : a + (ring.pts.length - a + k) = k + ring.pts.length := by omega
    rw [h1, Nat.add_mod_right, Nat.mod_eq_of_lt (by omega : k < ring.pts.length)]


/-- The first set flag of an index range is found. -/
theorem find_flag_range_some (keep : List Bool) :
    ∀ (len s y : Nat), s ≤ y → y < s + len → flag keep y = true →
      (∀ z, s ≤ z → z < y → flag keep z = false) →
      (List.range' s len).find? (flag keep) = some y := by
  intro len
  induction len with
  | zero => intro s y h1 h2; omega
  | succ len ih =>
    intro s y h1 h2 hy hz
    rw [List.range'_succ]
    rcases Nat.eq_or_lt_of_le h1 with h | h
    · subst h
      exact List.find?_cons_of_pos _ hy
    · rw [List.find?_cons_of_neg _ (by simp [hz s (le_refl _) h])]
      exact ih (s + 1) y (by omega) (by omega) hy (fun z hz1 hz2 => hz z (by omega) hz2)

/-- In an index range without a set flag nothing is found. -/
theorem find_flag_range_none (keep : List Bool) :
    ∀ (len s : Nat), (∀ z, s ≤ z → z < s + len → flag keep z = false) →
      (List.range' s len).find? (flag keep) = none := by
  intro len
  induction len with
  | zero => intro s _; rfl
  | succ len ih =>
    intro s hz
    rw [List.range'_succ, List.find?_cons_of_neg _ (by simp [hz s (le_refl _) (by omega)])]
    exact ih (s + 1) (fun z hz1 hz2 => hz z (by omega) (by omega))

/-- `next_keep` of an index whose next kept index lies after it in the array. -/
theorem next_keep_linear (n : Nat) (keep : List Bool) (a b : Nat) (hab : a < b) (hb : b < n)
    (hfb : flag keep b = true) (hz : ∀ z, a < z → z < b → flag keep z = false) :
    next_keep n keep a = b := by
  unfold next_keep
  dsimp only
  rw [if_pos (by omega : a + 1 < n),
    find_flag_range_some keep (n - (a + 1)) (a + 1) b (by omega) (by omega) hfb
      (fun z h1 h2 => hz z (by omega) h2)]

/-- `next_keep` of the last kept index: the first kept index of the array. -/
theorem next_keep_wrap (n : Nat) (keep : List Bool) (a f : Nat) (ha : a < n) (hfa : f ≤ a)
    (hff : flag keep f = true) (hlow : ∀ z, z < f → flag keep z = false)
    (hhigh : ∀ z, a < z → z < n → flag keep z = false) :
    next_keep n keep a = f := by
  unfold next_keep
  dsimp only
  rcases Nat.lt_or_ge (a + 1) n with h | h
  · rw [if_pos h, find_flag_range_none keep (n - (a + 1)) (a + 1)
      (fun z h1 h2 => hhigh z (by omega) (by omega))]
    dsimp only
    rcases Nat.eq_or_lt_of_le hfa with hfa' | hfa'
    · subst hfa'
      rw [List.range_eq_range', find_flag_range_none keep f 0
        (fun z _ h2 => hlow z (by omega))]
    · rw [List.range_eq_range', find_flag_range_some keep a 0 f (by omega) (by omega) hff
        (fun z _ h2 => hlow z h2)]
  · rw [if_neg (by omega), find_flag_range_some keep (n - 0) 0 f (by omega) (by omega) hff
      (fun z _ h2 => hlow z h2)]


/-- The emitted vertices are the vertices at the kept indices. -/
theorem kept_pts_eq_map (pts : List Vertex) (keep : List Bool) :
    kept_pts pts keep = (kept_idx pts.length keep).map (vtx pts) := by
  unfold kept_pts kept_idx
  rw [← List.filterMap_eq_map, List.filterMap_filter]
  apply List.filterMap_congr
  intro i _
  by_cases h : flag keep i = true <;> simp [h, Option.guard]

/-- The shoelace terms of the open path of a vertex list, by position. -/
theorem path_cross_eq_sum : ∀ l : List Vertex,
    path_cross l = ∑ k ∈ Finset.range (l.length - 1), vcross (vtx l k) (vtx l (k + 1)) := by
  intro l
  induction l with
  | nil => simp [path_cross]
  | cons a rest ih =>
    cases rest with
    | nil => simp [path_cross]
    | cons b rest =>
      rw [path_cross, ih]
      simp only [List.length_cons, Nat.add_sub_cancel]
      rw [Finset.sum_range_succ' _ rest.length]
      simp only [vtx, List.getD_cons_succ, List.getD_cons_zero, List.length_cons]
      rw [add_comm]

/-- Twice the signed area of a ring with at least one vertex: the open path
plus the closing edge from the last vertex to the first. -/
theorem ring_oriented_area_path (c : Ring) (hn : 0 < c.pts.length) :
    2 * ring_oriented_area c
      = path_cross c.pts + vcross (vtx c.pts (c.pts.length - 1)) (vtx c.pts 0) := by
  rw [ring_oriented_area_eq_sum, path_cross_eq_sum]
  obtain ⟨m, hm⟩ : ∃ m, c.pts.length = m + 1 := ⟨c.pts.length - 1, by omega⟩
  rw [hm, Finset.sum_range_succ]
  simp only [Nat.add_sub_cancel, Nat.mod_self]
  have : ∑ x ∈ Finset.range m, edge_cross c.pts x ((x + 1) % (m + 1))
      = ∑ k ∈ Finset.range m, vcross (vtx c.pts k) (vtx c.pts (k + 1)) := by
    apply Finset.sum_congr rfl
    intro k hk
    have := Finset.mem_range.mp hk
    rw [Nat.mod_eq_of_lt (by omega)]
    rfl
  rw [this]
  unfold edge_cross vcross
  ring

/-- The open path through the vertices at a list of indices. -/
theorem path_cross_map (pts : List Vertex) : ∀ K : List Nat,
    path_cross (K.map (vtx pts)) = pair_sum (edge_cross pts) K := by
  intro K
  induction K with
  | nil => rfl
  | cons a rest ih =>
    cases rest with
    | nil => rfl
    | cons b rest =>
      simp only [List.map_cons, path_cross, pair_sum] at ih ⊢
      rw [ih]
      rfl


/-- The kept indices of an index range, seen from the previous kept index `x`:
each is the next kept index after the one before, and no flag is set after the
last of them. -/
theorem kept_chain (n : Nat) (keep : List Bool) :
    ∀ (len lo x : Nat), lo + len = n → x < lo →
      (∀ z, x < z → z < lo → flag keep z = false) →
      List.Chain (gap_rel n keep) x ((List.range' lo len).filter (flag keep)) ∧
      (∀ z, (x :: (List.range' lo len).filter (flag keep)).getLast (List.cons_ne_nil _ _) < z →
        z < n → flag keep z = false) := by
  intro len
  induction len with
  | zero =>
    intro lo x hlo hx hz
    simp only [List.range'_zero, List.filter_nil, List.getLast_singleton]
    exact ⟨List.Chain.nil, fun z h1 h2 => hz z h1 (by omega)⟩
  | succ len ih =>
    intro lo x hlo hx hz
    rw [List.range'_succ]
    by_cases hf : flag keep lo = true
    · rw [List.filter_cons_of_pos hf]
      obtain ⟨h1, h2⟩ := ih (lo + 1) lo (by omega) (by omega) (fun z a b => by omega)
      refine ⟨List.Chain.cons ⟨hx, by omega, hf, hz⟩ h1, ?_⟩
      rw [List.getLast_cons (List.cons_ne_nil _ _)]
      exact h2
    · rw [List.filter_cons_of_neg hf]
      refine ih (lo + 1) x (by omega) (by omega) ?_
      intro z a b
      rcases Nat.lt_or_ge z lo with h | h
      · exact hz z a h
      · have : z = lo := by omega
        subst this
        simpa using hf

/-- The kept indices of an index range: none, or a first one followed by the
chain of the next kept indices. -/
theorem kept_range_cases (n : Nat) (keep : List Bool) :
    ∀ (len lo : Nat), lo + len = n →
      (List.range' lo len).filter (flag keep) = [] ∨
      ∃ f L, (List.range' lo len).filter (flag keep) = f :: L ∧ lo ≤ f ∧ f < n ∧
        flag keep f = true ∧ (∀ z, lo ≤ z → z < f → flag keep z = false) ∧
        List.Chain (gap_rel n keep) f L ∧
        (∀ z, (f :: L).getLast (List.cons_ne_nil _ _) < z → z < n → flag keep z = false) := by
  intro len
  induction len with
  | zero => intro lo _; left; rfl
  | succ len ih =>
    intro lo hlo
    rw [List.range'_succ]
    by_cases hf : flag keep lo = true
    · right
      rw [List.filter_cons_of_pos hf]
      obtain ⟨h1, h2⟩ := kept_chain n keep len (lo + 1) lo (by omega) (by omega)
        (fun z a b => by omega)
      exact ⟨lo, _, rfl, le_refl _, by omega, hf, fun z a b => by omega, h1, h2⟩
    · rw [List.filter_cons_of_neg hf]
      rcases ih (lo + 1) (by omega) with h | ⟨f, L, h1, h2, h3, h4, h5, h6, h7⟩
      · left; exact h
      · right
        refine ⟨f, L, h1, by omega, h3, h4, ?_, h6, h7⟩
        intro z a b
        rcases Nat.eq_or_lt_of_le a with h | h
        · subst h; simpa using hf
        · exact h5 z (by omega) b

/-- Along a chain of next kept indices the last index is a kept index of the
array, not before the first. -/
theorem gap_chain_last (n : Nat) (keep : List Bool) :
    ∀ (L : List Nat) (x : Nat), List.Chain (gap_rel n keep) x L → x < n →
      flag keep x = true →
      x ≤ (x :: L).getLast (List.cons_ne_nil _ _) ∧
      (x :: L).getLast (List.cons_ne_nil _ _) < n ∧
      flag keep ((x :: L).getLast (List.cons_ne_nil _ _)) = true ∧
      (L ≠ [] → x < (x :: L).getLast (List.cons_ne_nil _ _)) := by
  intro L
  induction L with
  | nil => intro x _ hx hf; simp [hx, hf]
  | cons y L ih =>
    intro x hc hx hf
    rw [List.chain_cons] at hc
    obtain ⟨⟨h1, h2, h3, _⟩, hc'⟩ := hc
    obtain ⟨i1, i2, i3, _⟩ := ih y hc' h2 h3
    rw [List.getLast_cons (List.cons_ne_nil _ _)]
    exact ⟨by omega, i2, i3, fun _ => by omega⟩


/-- A sum over consecutive pairs of a difference is the difference of the sums. -/
theorem pair_sum_sub (F G : Nat → Nat → ℚ) : ∀ K : List Nat,
    pair_sum (fun a b => F a b - G a b) K = pair_sum F K - pair_sum G K := by
  intro K
  induction K with
  | nil => simp [pair_sum]
  | cons a rest ih =>
    cases rest with
    | nil => simp [pair_sum]
    | cons b rest =>
      simp only [pair_sum] at ih ⊢
      rw [ih]; ring

/-- Along a chain of next kept indices, the chords minus the gap sums add up
to the shoelace terms of all ring edges from the first index to the last. -/
theorem gap_chain_sum (ring : Ring) (keep : List Bool) :
    ∀ (L : List Nat) (x : Nat), List.Chain (gap_rel ring.pts.length keep) x L →
      pair_sum (fun a b => edge_cross ring.pts a b - subring_accum ring a b) (x :: L)
        = ∑ i ∈ Finset.Ico x ((x :: L).getLast (List.cons_ne_nil _ _)),
            edge_cross ring.pts i ((i + 1) % ring.pts.length) ∧
      x ≤ (x :: L).getLast (List.cons_ne_nil _ _) := by
  intro L
  induction L with
  | nil => intro x _; simp [pair_sum]
  | cons y L ih =>
    intro x hc
    rw [List.chain_cons] at hc
    obtain ⟨⟨h1, h2, _, _⟩, hc'⟩ := hc
    obtain ⟨i1, i2⟩ := ih y hc'
    rw [List.getLast_cons (List.cons_ne_nil _ _)]
    refine ⟨?_, by omega⟩
    rw [pair_sum, i1, subring_accum_linear ring x y (by omega) h2,
      ← Finset.sum_Ico_consecutive _ (by omega : x ≤ y) i2]
    ring

/-- Along a chain of next kept indices every pair is a kept vertex with its
`next_keep`, so a property of all such gaps holds for the sum over the pairs. -/
theorem gap_chain_nonneg (ring : Ring) (keep : List Bool)
    (H : ∀ i, i < ring.pts.length → flag keep i = true →
      0 ≤ subring_accum ring i (next_keep ring.pts.length keep i)) :
    ∀ (L : List Nat) (x : Nat), List.Chain (gap_rel ring.pts.length keep) x L →
      flag keep x = true → 0 ≤ pair_sum (subring_accum ring) (x :: L) := by
  intro L
  induction L with
  | nil => intro x _ _; simp [pair_sum]
  | cons y L ih =>
    intro x hc hf
    rw [List.chain_cons] at hc
    obtain ⟨⟨h1, h2, h3, h4⟩, hc'⟩ := hc
    rw [pair_sum]
    have hnk := next_keep_linear ring.pts.length keep x y h1 h2 h3 h4
    have := H x (by omega) hf
    rw [hnk] at this
    exact add_nonneg this (ih y hc' h3)

/-- Area decomposition. With at least two kept vertices, twice the signed area
of the polygon of the kept vertices is twice the signed area of the ring plus
the shoelace sums of all gaps between consecutive kept vertices, the gap that
wraps round from the last kept vertex to the first included. -/
theorem area_decomposition (ring : Ring) (keep : List Bool) (f : Nat) (L : List Nat)
    (hK : kept_idx ring.pts.length keep = f :: L) (hL : L ≠ []) (meta : Ring) :
    2 * ring_oriented_area { meta with pts := kept_pts ring.pts keep }
      = 2 * ring_oriented_area ring
        + (pair_sum (subring_accum ring) (f :: L)
          + subring_accum ring ((f :: L).getLast (List.cons_ne_nil _ _)) f) := by
  have hcases := kept_range_cases ring.pts.length keep ring.pts.length 0 (by omega)
  rw [← List.range_eq_range'] at hcases
  unfold kept_idx at hK
  rw [hK] at hcases
  rcases hcases with h | ⟨f', L', h1, _, h3, h4, h5, h6, h7⟩
  · cases h
  · cases h1
    obtain ⟨g1, g2, g3, g4⟩ := gap_chain_last _ keep L f h6 h3 h4
    have g4' := g4 hL
    obtain ⟨s1, _⟩ := gap_chain_sum ring keep L f h6
    rw [pair_sum_sub] at s1
    have hkp : kept_pts ring.pts keep = (f :: L).map (vtx ring.pts) := by
      rw [kept_pts_eq_map]; unfold kept_idx; rw [hK]
    have hlen : 0 < ((f :: L).map (vtx ring.pts)).length := by simp
    rw [ring_oriented_area_path _ (by simp [hkp])]
    simp only [hkp, path_cross_map]
    have hlast : vtx ((f :: L).map (vtx ring.pts)) (((f :: L).map (vtx ring.pts)).length - 1)
        = vtx ring.pts ((f :: L).getLast (List.cons_ne_nil _ _)) := by
      have h := List.getLast?_eq_getElem? (f :: L)
      rw [List.getLast?_eq_getLast _ (List.cons_ne_nil _ _)] at h
      simp only [vtx, List.getD_eq_getElem?_getD, List.getElem?_map, List.length_map, ← h]
      simp [vtx, List.getD_eq_getElem?_getD]
    have hfirst : vtx ((f :: L).map (vtx ring.pts)) 0 = vtx ring.pts f := by
      simp [vtx]
    rw [hlast, hfirst, subring_accum_wrap ring _ f g4' g2, ring_oriented_area_eq_sum]
    have hsplit : ∑ i ∈ Finset.range ring.pts.length,
          edge_cross ring.pts i ((i + 1) % ring.pts.length)
        = ∑ i ∈ Finset.range f, edge_cross ring.pts i ((i + 1) % ring.pts.length)
          + ∑ i ∈ Finset.Ico f ((f :: L).getLast (List.cons_ne_nil _ _)),
              edge_cross ring.pts i ((i + 1) % ring.pts.length)
          + ∑ i ∈ Finset.Ico ((f :: L).getLast (List.cons_ne_nil _ _)) ring.pts.length,
              edge_cross ring.pts i ((i + 1) % ring.pts.length) := by
      rw [Finset.range_eq_Ico,
        Finset.sum_Ico_consecutive _ (Nat.zero_le f) g1,
        Finset.sum_Ico_consecutive _ (Nat.zero_le _) (le_of_lt g2)]
    rw [hsplit]
    have : vcross (vtx ring.pts ((f :: L).getLast (List.cons_ne_nil _ _))) (vtx ring.pts f)
        = edge_cross ring.pts ((f :: L).getLast (List.cons_ne_nil _ _)) f := rfl
    rw [this]
    linarith [s1]


/-- The signed area depends on the vertex list only. -/
theorem ring_oriented_area_congr (c1 c2 : Ring) (h : c1.pts = c2.pts) :
    ring_oriented_area c1 = ring_oriented_area c2 := by
  unfold ring_oriented_area; rw [h]

/-- Vertex `i` of the reversed point array. -/
theorem vtx_reverse (pts : List Vertex) (i : Nat) (hi : i < pts.length) :
    vtx pts.reverse i = vtx pts (pts.length - 1 - i) := by
  simp [vtx, List.getD_eq_getElem?_getD, List.getElem?_reverse hi]

/-- Reversing the vertex order negates the signed area. -/
theorem ring_oriented_area_reverse (c : Ring) :
    ring_oriented_area { c with pts := c.pts.reverse } = - ring_oriented_area c := by
  rw [ring_oriented_area_eq_sum, ring_oriented_area_eq_sum]
  simp only [List.length_reverse]
  rcases Nat.eq_zero_or_pos c.pts.length with h0 | hpos
  · simp [h0]
  · have hshift : ∑ i ∈ Finset.range c.pts.length, edge_cross c.pts i ((i + 1) % c.pts.length)
        = ∑ j ∈ Finset.range c.pts.length,
            edge_cross c.pts ((j + c.pts.length - 1) % c.pts.length) j := by
      rw [← sum_cyclic_shift
        (fun j => edge_cross c.pts ((j + c.pts.length - 1) % c.pts.length) j)]
      apply Finset.sum_congr rfl
      intro j hj
      have hj' := Finset.mem_range.mp hj
      have e1 : ((j + 1) % c.pts.length + c.pts.length - 1) % c.pts.length = j := by
        rcases Nat.lt_or_ge (j + 1) c.pts.length with h | h
        · rw [Nat.mod_eq_of_lt h]
          have : j + 1 + c.pts.length - 1 = j + c.pts.length := by omega
          rw [this, Nat.add_mod_right, Nat.mod_eq_of_lt hj']
        · have : j + 1 = c.pts.length := by omega
          rw [this, Nat.mod_self, Nat.mod_eq_of_lt (by omega)]; omega
      rw [e1]
    have key : ∑ i ∈ Finset.range c.pts.length,
          edge_cross c.pts.reverse i ((i + 1) % c.pts.length)
        = - ∑ i ∈ Finset.range c.pts.length, edge_cross c.pts i ((i + 1) % c.pts.length) := by
      rw [hshift, ← Finset.sum_range_reflect, ← Finset.sum_neg_distrib]
      apply Finset.sum_congr rfl
      intro j hj
      have hj' := Finset.mem_range.mp hj
      have h1 : (c.pts.length - 1 - j + 1) % c.pts.length < c.pts.length := Nat.mod_lt _ hpos
      have e2 : c.pts.length - 1 - (c.pts.length - 1 - j) = j := by omega
      have e3 : c.pts.length - 1 - (c.pts.length - 1 - j + 1) % c.pts.length
          = (j + c.pts.length - 1) % c.pts.length := by
        rcases Nat.eq_zero_or_pos j with hj0 | hj0
        · subst hj0
          have : c.pts.length - 1 - 0 + 1 = c.pts.length := by omega
          rw [this, Nat.mod_self, Nat.zero_add, Nat.mod_eq_of_lt (by omega)]; omega
        · rw [Nat.mod_eq_of_lt (by omega)]
          have : j + c.pts.length - 1 = (j - 1) + c.pts.length := by omega
          rw [this, Nat.add_mod_right, Nat.mod_eq_of_lt (by omega)]; omega
      unfold edge_cross
      rw [vtx_reverse _ _ (by omega), vtx_reverse _ _ h1, e2, e3]
      ring
    rw [key]; ring

/-- Orientation normalisation: the working ring of `pinch_ring_excursions` has
the absolute value of the input's signed area as its signed area. -/
theorem oriented_ring_area (ring_in : Ring) :
    ring_oriented_area (oriented_ring ring_in) = |ring_oriented_area ring_in| := by
  unfold oriented_ring ring_is_ccw
  by_cases h : ring_oriented_area ring_in > 0
  · simp only [h, decide_True, Bool.not_true, Bool.false_eq_true, if_false]
    exact (abs_of_pos h).symm
  · simp only [h, decide_False, Bool.not_false, if_true]
    rw [ring_oriented_area_reverse, abs_of_nonpos (not_lt.mp h)]


/-- The cyclic distance between two indices of the ring, without `%`. -/
theorem cyc_dist_eq (n a x : Nat) (ha : a < n) (hx : x < n) :
    cyc_dist n a x = if a ≤ x then x - a else x + n - a := by
  unfold cyc_dist
  split
  · have : x + n - a = (x - a) + n := by omega
    rw [this, Nat.add_mod_right, Nat.mod_eq_of_lt (by omega)]
  · rw [Nat.mod_eq_of_lt (by omega)]

/-- The index `k` steps after `a` is at cyclic distance `k` from `a`. -/
theorem cyc_dist_step (n a k : Nat) (ha : a < n) (hk : k < n) :
    cyc_dist n a ((a + k) % n) = k :=
  (cyc_step_eq n a ((a + k) % n) k ha hk rfl).symm

/-- The index `k` steps after `a`, without `%`. -/
theorem cyc_add_eq (n a k : Nat) (ha : a < n) (hk : k < n) :
    (a + k) % n = if a + k < n then a + k else a + k - n := by
  split
  · rw [Nat.mod_eq_of_lt (by omega)]
  · rw [mod_of_ge_lt _ _ (by omega) (by omega)]

/-- What `find?` returns on the image of an index range: the image of the
first index at which the predicate holds. -/
theorem find_map_range_some (p : Nat → Bool) (f : Nat → Nat) :
    ∀ (len s j : Nat), ((List.range' s len).map f).find? p = some j →
      ∃ k, s ≤ k ∧ k < s + len ∧ j = f k ∧ p (f k) = true ∧
        ∀ z, s ≤ z → z < k → p (f z) = false := by
  intro len
  induction len with
  | zero => intro s j h; simp at h
  | succ len ih =>
    intro s j h
    rw [List.range'_succ, List.map_cons] at h
    by_cases hp : p (f s) = true
    · rw [List.find?_cons_of_pos _ hp] at h
      injection h with h
      exact ⟨s, le_refl _, by omega, h.symm, hp, fun z h1 h2 => by omega⟩
    · rw [List.find?_cons_of_neg _ hp] at h
      obtain ⟨k, h1, h2, h3, h4, h5⟩ := ih (s + 1) j h
      refine ⟨k, by omega, by omega, h3, h4, fun z hz1 hz2 => ?_⟩
      rcases Nat.eq_or_lt_of_le hz1 with e | e
      · subst e; simpa using hp
      · exact h5 z (by omega) hz2

/-- When `find?` returns nothing on the image of an index range the predicate
fails on all of it. -/
theorem find_map_range_none (p : Nat → Bool) (f : Nat → Nat) :
    ∀ (len s : Nat), ((List.range' s len).map f).find? p = none →
      ∀ z, s ≤ z → z < s + len → p (f z) = false := by
  intro len s h z hz1 hz2
  rw [List.find?_eq_none] at h
  have := h (f z) (List.mem_map.mpr ⟨z, List.mem_range'_1.mpr ⟨hz1, hz2⟩, rfl⟩)
  simpa using this


/-- What `next_keep` returns: the first set flag after `i` in the array, else
the first set flag before `i`, else `i` itself. -/
theorem next_keep_cases (n : Nat) (keep : List Bool) (i : Nat) (hi : i < n) :
    (i < next_keep n keep i ∧ next_keep n keep i < n ∧
        flag keep (next_keep n keep i) = true ∧
        ∀ z, i < z → z < next_keep n keep i → flag keep z = false) ∨
    ((∀ z, i < z → z < n → flag keep z = false) ∧
      ((next_keep n keep i < i ∧ flag keep (next_keep n keep i) = true ∧
          ∀ z, z < next_keep n keep i → flag keep z = false) ∨
        (next_keep n keep i = i ∧ ∀ z, z < i → flag keep z = false))) := by
  unfold next_keep
  dsimp only
  rcases Nat.lt_or_ge (i + 1) n with h | h
  · rw [if_pos h]
    cases h1 : (List.range' (i + 1) (n - (i + 1))).find? (flag keep) with
    | some j =>
      dsimp only
      left
      have h1' : ((List.range' (i + 1) (n - (i + 1))).map id).find? (flag keep) = some j := by
        rw [List.map_id]; exact h1
      obtain ⟨k, a1, a2, a3, a4, a5⟩ := find_map_range_some _ _ _ _ _ h1'
      simp only [id] at a3 a4 a5
      subst a3
      exact ⟨by omega, by omega, a4, fun z hz1 hz2 => a5 z (by omega) hz2⟩
    | none =>
      right
      have h1' : ((List.range' (i + 1) (n - (i + 1))).map id).find? (flag keep) = none := by
        rw [List.map_id]; exact h1
      have hno := find_map_range_none _ _ _ _ h1'
      simp only [id] at hno
      refine ⟨fun z hz1 hz2 => hno z (by omega) (by omega), ?_⟩
      dsimp only
      cases h2 : (List.range i).find? (flag keep) with
      | some j =>
        dsimp only
        left
        have h2' : ((List.range' 0 i).map id).find? (flag keep) = some j := by
          rw [List.map_id, ← List.range_eq_range']; exact h2
        obtain ⟨k, a1, a2, a3, a4, a5⟩ := find_map_range_some _ _ _ _ _ h2'
        simp only [id] at a3 a4 a5
        subst a3
        exact ⟨by omega, a4, fun z hz => a5 z (by omega) hz⟩
      | none =>
        dsimp only
        right
        have h2' : ((List.range' 0 i).map id).find? (flag keep) = none := by
          rw [List.map_id, ← List.range_eq_range']; exact h2
        have hno2 := find_map_range_none _ _ _ _ h2'
        simp only [id] at hno2
        exact ⟨rfl, fun z hz => hno2 z (by omega) (by omega)⟩
  · rw [if_neg (by omega)]
    right
    refine ⟨fun z hz1 hz2 => by omega, ?_⟩
    cases h1 : (List.range' 0 (n - 0)).find? (flag keep) with
    | some j =>
      have h1' : ((List.range' 0 (n - 0)).map id).find? (flag keep) = some j := by
        rw [List.map_id]; exact h1
      obtain ⟨k, a1, a2, a3, a4, a5⟩ := find_map_range_some _ _ _ _ _ h1'
      simp only [id] at a3 a4 a5
      subst a3
      dsimp only
      rcases Nat.lt_or_ge j i with e | e
      · left; exact ⟨e, a4, fun z hz => a5 z (by omega) hz⟩
      · right
        have : j = i := by omega
        subst this
        exact ⟨rfl, fun z hz => a5 z (by omega) hz⟩
    | none =>
      right
      have h1' : ((List.range' 0 (n - 0)).map id).find? (flag keep) = none := by
        rw [List.map_id]; exact h1
      have hno := find_map_range_none _ _ _ _ h1'
      simp only [id] at hno
      dsimp only
      cases h2 : (List.range i).find? (flag keep) with
      | some j =>
        dsimp only
        have := List.find?_some h2
        have hm := List.mem_of_find?_eq_some h2
        rw [List.mem_range] at hm
        rw [hno j (by omega) (by omega)] at this
        exact absurd this (by decide)
      | none =>
        dsimp only
        exact ⟨rfl, fun z hz => hno z (by omega) (by omega)⟩

/-- The index `next_keep` returns when a flag other than that of `i` is set:
a set flag, reached from `i` before or at any other set flag `b`. -/
theorem next_keep_spec (n : Nat) (keep : List Bool) (i b : Nat) (hi : i < n) (hb : b < n)
    (hbi : b ≠ i) (hfb : flag keep b = true) :
    next_keep n keep i < n ∧ flag keep (next_keep n keep i) = true ∧
      next_keep n keep i ≠ i ∧
      cyc_dist n i (next_keep n keep i) ≤ cyc_dist n i b := by
  rcases next_keep_cases n keep i hi with ⟨h1, h2, h3, h4⟩ | ⟨h0, ⟨h1, h2, h3⟩ | ⟨h1, h2⟩⟩
  · refine ⟨h2, h3, by omega, ?_⟩
    rw [cyc_dist_eq n i _ hi h2, cyc_dist_eq n i b hi hb]
    have : ¬(i < b ∧ b < next_keep n keep i) := fun ⟨e1, e2⟩ => by
      have := h4 b e1 e2; rw [hfb] at this; exact absurd this (by decide)
    split <;> split <;> omega
  · have hbl : b < i := by
      rcases Nat.lt_or_ge b i with e | e
      · exact e
      · have := h0 b (by omega) hb; rw [hfb] at this; exact absurd this (by decide)
    have : ¬(b < next_keep n keep i) := fun e => by
      have := h3 b e; rw [hfb] at this; exact absurd this (by decide)
    refine ⟨by omega, h2, by omega, ?_⟩
    rw [cyc_dist_eq n i _ hi (by omega), cyc_dist_eq n i b hi hb]
    split <;> split <;> omega
  · exfalso
    rcases Nat.lt_or_ge b i with e | e
    · have := h2 b e; rw [hfb] at this; exact absurd this (by decide)
    · have := h0 b (by omega) hb; rw [hfb] at this; exact absurd this (by decide)

/-- The index `prev_keep` returns when a flag other than that of `i` is set:
a set flag from which `i` is reached no later than from any other set flag
`a`. -/
theorem prev_keep_spec (n : Nat) (keep : List Bool) (i a : Nat) (hi : i < n) (ha : a < n)
    (hai : a ≠ i) (hfa : flag keep a = true) :
    prev_keep n keep i < n ∧ flag keep (prev_keep n keep i) = true ∧
      prev_keep n keep i ≠ i ∧
      cyc_dist n (prev_keep n keep i) i ≤ cyc_dist n a i := by
  have hcand : ∀ k, k < n - 1 → (i + n - 1 - k) % n < n ∧ (i + n - 1 - k) % n ≠ i ∧
      cyc_dist n ((i + n - 1 - k) % n) i = k + 1 := by
    intro k hk
    rcases Nat.lt_or_ge (i + n - 1 - k) n with e | e
    · rw [Nat.mod_eq_of_lt e]
      refine ⟨e, by omega, ?_⟩
      rw [cyc_dist_eq n _ i e hi]
      split <;> omega
    · rw [mod_of_ge_lt _ _ e (by omega)]
      refine ⟨by omega, by omega, ?_⟩
      rw [cyc_dist_eq n _ i (by omega) hi]
      split <;> omega
  have hda : 0 < cyc_dist n a i ∧ cyc_dist n a i < n ∧
      (i + n - 1 - (cyc_dist n a i - 1)) % n = a := by
    rw [cyc_dist_eq n a i ha hi]
    split
    · refine ⟨by omega, by omega, ?_⟩
      have : i + n - 1 - (i - a - 1) = a + n := by omega
      rw [this, Nat.add_mod_right, Nat.mod_eq_of_lt ha]
    · refine ⟨by omega, by omega, ?_⟩
      have : i + n - 1 - (i + n - a - 1) = a := by omega
      rw [this, Nat.mod_eq_of_lt ha]
  unfold prev_keep
  rw [List.range_eq_range']
  cases h1 : ((List.range' 0 (n - 1)).map fun k => (i + n - 1 - k) % n).find? (flag keep) with
  | some j =>
    obtain ⟨k, a1, a2, a3, a4, a5⟩ := find_map_range_some _ _ _ _ _ h1
    dsimp only at a3 a4 a5 ⊢
    subst a3
    obtain ⟨c1, c2, c3⟩ := hcand k (by omega)
    refine ⟨c1, a4, c2, ?_⟩
    rw [c3]
    by_contra hlt
    have := a5 (cyc_dist n a i - 1) (by omega) (by omega)
    rw [hda.2.2, hfa] at this
    exact absurd this (by decide)
  | none =>
    exfalso
    have := find_map_range_none _ _ _ _ h1 (cyc_dist n a i - 1) (by omega) (by omega)
    rw [hda.2.2, hfa] at this
    exact absurd this (by decide)


/-- The vertex the scan of `find_next_convex` selects is one of those it has
looked at: a property of every index scanned up to the first occurrence of
`limit_idx` holds for the selected one. -/
theorem find_next_convex_scan_best (pts : List Vertex) (v0 : Vertex) (limit_idx : Nat)
    (start_ang : Angle) (f : Nat → Nat) (Q : Nat → Prop) :
    ∀ (len s : Nat) (st st' : ScanState),
      find_next_convex_scan pts v0 limit_idx start_ang ((List.range' s len).map f) st
        = some st' →
      (∀ v, st.best_vert = some v → Q v) →
      (∀ k, s ≤ k → k < s + len → (∀ z, s ≤ z → z < k → f z ≠ limit_idx) → Q (f k)) →
      ∀ v, st'.best_vert = some v → Q v := by
  intro len
  induction len with
  | zero =>
    intro s st st' h hst _ v hv
    simp [find_next_convex_scan] at h
    subst h
    exact hst v hv
  | succ len ih =>
    intro s st st' h hst hQ v hv
    rw [List.range'_succ, List.map_cons] at h
    unfold find_next_convex_scan at h
    dsimp only at h
    split at h
    · exact absurd h (by simp)
    · have hs : Q (f s) := hQ s (le_refl _) (by omega) (fun z h1 h2 => by omega)
      by_cases hlim : f s = limit_idx
      · rw [if_pos hlim] at h
        injection h with h
        subst h
        by_cases hlt : (angdiff (seg_ang v0 (vtx pts (f s))) start_ang).lt st.min_angdiff = true
        · rw [if_pos hlt] at hv
          injection hv with hv
          subst hv
          exact hs
        · rw [if_neg hlt] at hv
          exact hst v hv
      · rw [if_neg hlim] at h
        refine ih (s + 1) _ st' h ?_ ?_ v hv
        · intro w hw
          by_cases hlt : (angdiff (seg_ang v0 (vtx pts (f s))) start_ang).lt st.min_angdiff = true
          · rw [if_pos hlt] at hw
            injection hw with hw
            subst hw
            exact hs
          · rw [if_neg hlt] at hw
            exact hst w hw
        · intro k hk1 hk2 hz
          refine hQ k (by omega) (by omega) (fun z hz1 hz2 => ?_)
          rcases Nat.eq_or_lt_of_le hz1 with e | e
          · subst e; exact hlim
          · exact hz z (by omega) hz2

/-- Every result of `find_next_convex` without the error flag is the index of
a vertex other than the start that is reached from the start no later than
`limit_idx`. -/
theorem find_next_convex_idx (ring : Ring) (start_idx limit_idx : Nat) (start_ang : Angle)
    (hs : start_idx < ring.pts.length) (hl : limit_idx < ring.pts.length)
    (hne : start_idx ≠ limit_idx)
    (herr : (find_next_convex ring start_idx limit_idx start_ang).error = false) :
    (find_next_convex ring start_idx limit_idx start_ang).idx < ring.pts.length ∧
    (find_next_convex ring start_idx limit_idx start_ang).idx ≠ start_idx ∧
    cyc_dist ring.pts.length start_idx (find_next_convex ring start_idx limit_idx start_ang).idx
      ≤ cyc_dist ring.pts.length start_idx limit_idx := by
  have hd : 0 < cyc_dist ring.pts.length start_idx limit_idx ∧
      cyc_dist ring.pts.length start_idx limit_idx < ring.pts.length := by
    rw [cyc_dist_eq ring.pts.length start_idx limit_idx hs hl]
    split <;> omega
  unfold find_next_convex at herr ⊢
  dsimp only at herr ⊢
  cases hscan : find_next_convex_scan ring.pts (vtx ring.pts start_idx) limit_idx start_ang
      (cyc_after ring.pts.length start_idx) ⟨AngDiff.pi, none, none, .atan2 0 1⟩ with
  | none =>
    rw [hscan] at herr
    exact absurd herr (by simp [FindNextConvexRetval.ERROR])
  | some st =>
    rw [hscan] at herr
    dsimp only at herr ⊢
    cases hb : st.best_vert with
    | none => exact ⟨hl, fun e => hne e.symm, le_refl _⟩
    | some v =>
      rw [hb] at herr
      dsimp only at herr ⊢
      split at herr
      · exact absurd herr (by simp [FindNextConvexRetval.ERROR])
      · rename_i hge
        rw [if_neg hge]
        dsimp only
        unfold cyc_after at hscan
        rw [List.range_eq_range'] at hscan
        refine find_next_convex_scan_best ring.pts _ limit_idx start_ang _
          (fun v => v < ring.pts.length ∧ v ≠ start_idx ∧
            cyc_dist ring.pts.length start_idx v ≤ cyc_dist ring.pts.length start_idx limit_idx)
          _ _ _ st hscan (fun w hw => by simp at hw) ?_ v hb
        intro k _ hk hz
        have e1 : start_idx + 1 + k = start_idx + (k + 1) := by omega
        have hstep := cyc_dist_step ring.pts.length start_idx (k + 1) hs (by omega)
        have hadd := cyc_add_eq ring.pts.length start_idx (k + 1) hs (by omega)
        rw [e1, hstep]
        refine ⟨Nat.mod_lt _ (by omega), ?_, ?_⟩
        · rw [hadd]; split <;> omega
        · by_contra hlt
          have hz' := hz (cyc_dist ring.pts.length start_idx limit_idx - 1) (by omega) (by omega)
          apply hz'
          have e2 : start_idx + 1 + (cyc_dist ring.pts.length start_idx limit_idx - 1)
              = start_idx + cyc_dist ring.pts.length start_idx limit_idx := by
            omega
          rw [e2]
          exact cyc_step_dist ring.pts.length start_idx limit_idx hs hl


/-- Cyclic distances add up along the way from `a` over `m` to `x` when neither
leg passes `b`. -/
theorem cyc_dist_add (n a m x b : Nat) (ha : a < n) (hm : m < n) (hx : x < n) (hb : b < n)
    (h1 : cyc_dist n a m ≤ cyc_dist n a b) (h2 : cyc_dist n m x ≤ cyc_dist n m b) :
    cyc_dist n a x = cyc_dist n a m + cyc_dist n m x ∧ cyc_dist n a x ≤ cyc_dist n a b := by
  rw [cyc_dist_eq n a m ha hm, cyc_dist_eq n a b ha hb] at h1
  rw [cyc_dist_eq n m x hm hx, cyc_dist_eq n m b hm hb] at h2
  rw [cyc_dist_eq n a m ha hm, cyc_dist_eq n a b ha hb, cyc_dist_eq n m x hm hx,
    cyc_dist_eq n a x ha hx]
  split_ifs at h1 h2 ⊢ <;> omega

/-- An index `l` from which `m` is reached no later than from `a` lies on the
way from `a` to `m`. -/
theorem cyc_dist_sub (n a l m : Nat) (ha : a < n) (hl : l < n) (hm : m < n)
    (h : cyc_dist n l m ≤ cyc_dist n a m) :
    cyc_dist n a l + cyc_dist n l m = cyc_dist n a m := by
  rw [cyc_dist_eq n l m hl hm, cyc_dist_eq n a m ha hm] at h
  rw [cyc_dist_eq n l m hl hm, cyc_dist_eq n a m ha hm, cyc_dist_eq n a l ha hl]
  split_ifs at h ⊢ <;> omega

/-- A flag set after `set i` was set before or is the flag of `i`. -/
theorem flag_set_cases (keep : List Bool) (i x : Nat)
    (h : flag (keep.set i true) x = true) : x = i ∨ flag keep x = true := by
  by_cases e : i = x
  · exact Or.inl e.symm
  · rw [flag_set_ne keep i x e] at h
    exact Or.inr h

/-- No new flag is within every span. -/
theorem keep_within_refl (n a b : Nat) (k : List Bool) : keep_within n a b k k :=
  fun _ _ h => Or.inl h

/-- New flags within a span, followed by new flags within the same span. -/
theorem keep_within_trans {n a b : Nat} {k1 k2 k3 : List Bool}
    (h12 : keep_within n a b k1 k2) (h23 : keep_within n a b k2 k3) :
    keep_within n a b k1 k3 := by
  intro x hx h
  rcases h23 x hx h with h | h
  · exact h12 x hx h
  · exact Or.inr h

/-- New flags within a span are within every span that ends later. -/
theorem keep_within_weaken {n a b c : Nat} {k1 k2 : List Bool}
    (hbc : cyc_dist n a b ≤ cyc_dist n a c) (h : keep_within n a b k1 k2) :
    keep_within n a c k1 k2 := by
  intro x hx hf
  rcases h x hx hf with h | h
  · exact Or.inl h
  · exact Or.inr (le_trans h hbc)

/-- Setting the flag of an index of the span. -/
theorem keep_within_set (n a b : Nat) (k : List Bool) (i : Nat)
    (hi : cyc_dist n a i ≤ cyc_dist n a b) : keep_within n a b k (k.set i true) := by
  intro x _ h
  rcases flag_set_cases k i x h with e | e
  · subst e; exact Or.inr hi
  · exact Or.inl e

/-- The stepping loop of `reach_point` from `idx` to `to_idx`, both on the way
from `a` to `b`, only sets flags on that way. -/
theorem reach_point_step_within (ring : Ring) (to_idx a b : Nat)
    (ha : a < ring.pts.length) (hto : to_idx < ring.pts.length) (_hb : b < ring.pts.length)
    (hab : cyc_dist ring.pts.length a to_idx ≤ cyc_dist ring.pts.length a b) :
    ∀ (fuel idx : Nat) (ang : Angle) (keep : List Bool) (res : Bool × List Bool),
      idx < ring.pts.length → idx ≠ to_idx →
      cyc_dist ring.pts.length a idx ≤ cyc_dist ring.pts.length a to_idx →
      reach_point_step ring to_idx fuel idx ang keep = .ok res →
      keep_within ring.pts.length a b keep res.2 := by
  intro fuel
  induction fuel with
  | zero => intro idx ang keep res _ _ _ h; simp [reach_point_step] at h
  | succ fuel ih =>
    intro idx ang keep res hidx hne hd h
    unfold reach_point_step at h
    dsimp only at h
    split at h
    · cases h; exact keep_within_refl _ _ _ _
    · rename_i herr
      have herr' : (find_next_convex ring idx to_idx ang).error = false := by
        simpa using herr
      obtain ⟨r1, r2, r3⟩ := find_next_convex_idx ring idx to_idx ang hidx hto hne herr'
      obtain ⟨_, s2⟩ := cyc_dist_add ring.pts.length a idx _ to_idx ha hidx r1 hto hd r3
      have hset := keep_within_set ring.pts.length a b keep
        (find_next_convex ring idx to_idx ang).idx (le_trans s2 hab)
      split at h
      · cases h; exact hset
      · rename_i hne2
        exact keep_within_trans hset (ih _ _ _ _ r1 hne2 s2 h)

/-- `reach_point` from `from_idx` to `to_idx`, both on the way from `a` to `b`,
only sets flags on that way. -/
theorem reach_point_within (ring : Ring) (keep : List Bool) (from_idx to_idx : Nat)
    (ang : Angle) (a b : Nat)
    (ha : a < ring.pts.length) (hto : to_idx < ring.pts.length) (hb : b < ring.pts.length)
    (hfrom : from_idx < ring.pts.length) (hne : from_idx ≠ to_idx)
    (hd : cyc_dist ring.pts.length a from_idx ≤ cyc_dist ring.pts.length a to_idx)
    (hab : cyc_dist ring.pts.length a to_idx ≤ cyc_dist ring.pts.length a b)
    (res : Bool × List Bool) (h : reach_point ring keep from_idx to_idx ang = .ok res) :
    keep_within ring.pts.length a b keep res.2 := by
  unfold reach_point at h
  dsimp only at h
  split at h
  · cases h
  · rename_i keep1 hstep
    cases h
    exact reach_point_step_within ring to_idx a b ha hto hb hab _ _ _ _ _ hfrom hne hd hstep
  · rename_i keep1 hstep
    split at h
    · cases h
    · cases h
      exact reach_point_step_within ring to_idx a b ha hto hb hab _ _ _ _ (false, keep1)
        hfrom hne hd hstep


/-- `add_tiepoint` at a vertex `mid` between two kept vertices `a` and `b` only
sets flags on the way from `a` to `b`. -/
theorem add_tiepoint_within (ring : Ring) (keep : List Bool) (mid a b : Nat)
    (ha : a < ring.pts.length) (hb : b < ring.pts.length) (hmid : mid < ring.pts.length)
    (hfa : flag keep a = true) (hfb : flag keep b = true) (hma : a ≠ mid) (hmb : b ≠ mid)
    (hd : cyc_dist ring.pts.length a mid ≤ cyc_dist ring.pts.length a b)
    (res : Bool × List Bool) (h : add_tiepoint ring keep mid = .ok res) :
    keep_within ring.pts.length a b keep res.2 := by
  have hset := keep_within_set ring.pts.length a b keep mid hd
  obtain ⟨l1, _, l3, l4⟩ := prev_keep_spec ring.pts.length (keep.set mid true) mid a hmid ha hma
    (flag_set_mono keep mid a hfa)
  have l5 := cyc_dist_sub ring.pts.length a _ mid ha l1 hmid l4
  obtain ⟨r1, _, r3, r4⟩ := next_keep_spec ring.pts.length (keep.set mid true) mid b hmid hb hmb
    (flag_set_mono keep mid b hfb)
  obtain ⟨r5, r6⟩ := cyc_dist_add ring.pts.length a mid _ b ha hmid r1 hb hd r4
  unfold add_tiepoint at h
  dsimp only at h
  split at h
  · cases h
  · rename_i keep1 h1
    cases h
    exact keep_within_trans hset
      (reach_point_within ring _ _ mid _ a b ha hmid hb l1 l3 (by omega) hd _ h1)
  · rename_i keep1 h1
    have w1 := reach_point_within ring _ _ mid _ a b ha hmid hb l1 l3 (by omega) hd _ h1
    split at h
    · cases h
    · exact keep_within_trans (keep_within_trans hset w1)
        (reach_point_within ring _ mid _ _ a b ha r1 hb hmid (fun e => r3 e.symm)
          (by omega) r6 _ h)


/-- The successor of an index that lies before `b` on the way from `a` is one
step further on that way. -/
theorem cyc_succ_within (n a l b : Nat) (ha : a < n) (hl : l < n) (hb : b < n)
    (h : cyc_dist n a l < cyc_dist n a b) :
    (l + 1) % n < n ∧ cyc_dist n a ((l + 1) % n) = cyc_dist n a l + 1 := by
  have hlt : (l + 1) % n < n := Nat.mod_lt _ (by omega)
  refine ⟨hlt, ?_⟩
  rw [cyc_dist_eq n a l ha hl, cyc_dist_eq n a b ha hb] at h
  rw [cyc_dist_eq n a _ ha hlt, cyc_dist_eq n a l ha hl]
  have hn : 1 < n := by split_ifs at h <;> omega
  rw [cyc_add_eq n l 1 hl hn]
  split_ifs at h ⊢ <;> omega

/-- The indices of `cyc_range` lie on the way from its first to its last
index. -/
theorem cyc_range_dist (n s t x : Nat) (hs : s < n) (hx : x ∈ cyc_range n s t) :
    x < n ∧ cyc_dist n s x ≤ cyc_dist n s t := by
  unfold cyc_range at hx
  rw [List.mem_map] at hx
  obtain ⟨k, hk, rfl⟩ := hx
  rw [List.mem_range] at hk
  have hd : cyc_dist n s t < n := Nat.mod_lt _ (by omega)
  have hk' : k ≤ cyc_dist n s t := by unfold cyc_dist; omega
  exact ⟨Nat.mod_lt _ (by omega), by rw [cyc_dist_step n s k hs (by omega)]; exact hk'⟩

/-- The value of `longest` is the one the inner loop of `keep_linears` started
with or one of the right ends it looked at. -/
theorem keep_linears_longest_mem (sqrt : ℚ → ℚ) (ring : Ring) (l_idx : Nat) :
    ∀ (rs : List Nat) (perim : ℚ) (longest : Nat),
      keep_linears_longest sqrt ring l_idx rs perim longest = longest ∨
      keep_linears_longest sqrt ring l_idx rs perim longest ∈ rs := by
  intro rs
  induction rs with
  | nil => intro perim longest; exact Or.inl rfl
  | cons r rest ih =>
    intro perim longest
    unfold keep_linears_longest
    dsimp only
    split
    · rcases ih _ r with h | h
      · rw [h]; exact Or.inr (List.mem_cons_self _ _)
      · exact Or.inr (List.mem_cons_of_mem _ h)
    · exact Or.inl rfl

/-- Setting the flags of indices of the span. -/
theorem keep_within_foldl_set (n a b : Nat) (idxs : List Nat) :
    ∀ k : List Bool, (∀ i ∈ idxs, cyc_dist n a i ≤ cyc_dist n a b) →
      keep_within n a b k (idxs.foldl (fun k i => k.set i true) k) := by
  induction idxs with
  | nil => intro k _; exact keep_within_refl _ _ _ _
  | cons i rest ih =>
    intro k h
    exact keep_within_trans (keep_within_set n a b k i (h i (List.mem_cons_self _ _)))
      (ih _ (fun j hj => h j (List.mem_cons_of_mem _ hj)))

/-- A result of the outer loop of `keep_linears` that reports no change hands
back the flags and the touch points it was given. -/
theorem keep_linears_loop_false (sqrt : ℚ → ℚ) (ring : Ring) (from_idx to_idx : Nat) :
    ∀ (ls : List Nat) (keep_orig touchpts keep touch : List Bool),
      keep_linears_loop sqrt ring from_idx to_idx ls keep_orig touchpts
        = .ok (false, keep, touch) →
      keep = keep_orig ∧ touch = touchpts := by
  intro ls
  induction ls with
  | nil =>
    intro keep_orig touchpts keep touch h
    simp [keep_linears_loop] at h
    exact ⟨h.1.symm, h.2.symm⟩
  | cons l_idx rest ih =>
    intro keep_orig touchpts keep touch h
    unfold keep_linears_loop at h
    dsimp only at h
    split at h
    · split at h
      · cases h
      · split at h
        · cases h
        · split at h
          · cases h
          · exact ih _ _ _ _ h
    · exact ih _ _ _ _ h

/-- When `keep_linears` returns 0 the keep flags and the touch points are as
they were on entry. -/
theorem keep_linears_false (sqrt : ℚ → ℚ) (ring : Ring) (keep_orig : List Bool)
    (from_idx to_idx : Nat) (touchpts keep touch : List Bool)
    (h : keep_linears sqrt ring keep_orig from_idx to_idx touchpts = .ok (false, keep, touch)) :
    keep = keep_orig ∧ touch = touchpts := by
  unfold keep_linears at h
  dsimp only at h
  split at h
  · simp at h; exact ⟨h.1.symm, h.2.symm⟩
  · exact keep_linears_loop_false sqrt ring from_idx to_idx _ _ _ _ _ h


/-- The outer loop of `keep_linears` on the gap between the kept vertices
`from_idx` and `to_idx` only sets flags on the way from one to the other. -/
theorem keep_linears_loop_within (sqrt : ℚ → ℚ) (ring : Ring) (from_idx to_idx : Nat)
    (hf : from_idx < ring.pts.length) (ht : to_idx < ring.pts.length) :
    ∀ (ls : List Nat) (keep_orig touchpts : List Bool) (res : Bool × List Bool × List Bool),
      (∀ l ∈ ls, l < ring.pts.length ∧
        cyc_dist ring.pts.length from_idx l < cyc_dist ring.pts.length from_idx to_idx) →
      flag keep_orig from_idx = true → flag keep_orig to_idx = true →
      keep_linears_loop sqrt ring from_idx to_idx ls keep_orig touchpts = .ok res →
      keep_within ring.pts.length from_idx to_idx keep_orig res.2.1 := by
  intro ls
  induction ls with
  | nil =>
    intro keep_orig touchpts res _ _ _ h
    simp [keep_linears_loop] at h
    subst h
    exact keep_within_refl _ _ _ _
  | cons l_idx rest ih =>
    intro keep_orig touchpts res hls hff hft h
    obtain ⟨hl, hdl⟩ := hls l_idx (List.mem_cons_self _ _)
    have hrest : ∀ l ∈ rest, l < ring.pts.length ∧
        cyc_dist ring.pts.length from_idx l < cyc_dist ring.pts.length from_idx to_idx :=
      fun l hl => hls l (List.mem_cons_of_mem _ hl)
    have hlt : l_idx ≠ to_idx := fun e => by rw [e] at hdl; omega
    unfold keep_linears_loop at h
    dsimp only at h
    split at h
    · rename_i hlong
      -- where `longest` lies
      obtain ⟨hm1, hdm1⟩ := cyc_succ_within ring.pts.length from_idx l_idx to_idx hf hl ht hdl
      have hlg : keep_linears_longest sqrt ring l_idx
          (cyc_range ring.pts.length ((l_idx + 1) % ring.pts.length) to_idx) 0 l_idx
          ∈ cyc_range ring.pts.length ((l_idx + 1) % ring.pts.length) to_idx := by
        rcases keep_linears_longest_mem sqrt ring l_idx
          (cyc_range ring.pts.length ((l_idx + 1) % ring.pts.length) to_idx) 0 l_idx with e | e
        · exact absurd e hlong
        · exact e
      obtain ⟨hg1, hg2⟩ := cyc_range_dist _ _ _ _ hm1 hlg
      obtain ⟨hg3, hg4⟩ := cyc_dist_add ring.pts.length from_idx _ _ to_idx hf hm1 hg1 ht
        (by omega) hg2
      have hgf : from_idx ≠ keep_linears_longest sqrt ring l_idx
          (cyc_range ring.pts.length ((l_idx + 1) % ring.pts.length) to_idx) 0 l_idx := by
        intro e
        have h0 : cyc_dist ring.pts.length from_idx from_idx = 0 := by
          rw [cyc_dist_eq _ _ _ hf hf]; simp
        rw [← e, h0] at hg3
        omega
      split at h
      · cases h
      · rename_i err1 keep1 h1
        have hw1 : keep_within ring.pts.length from_idx to_idx keep_orig keep1 ∧
            keep_le keep_orig keep1 := by
          split at h1
          · rename_i hlf
            exact ⟨add_tiepoint_within ring keep_orig l_idx from_idx to_idx hf ht hl hff hft
              (fun e => hlf e.symm) (fun e => hlt e.symm) (le_of_lt hdl) _ h1,
              add_tiepoint_mono ring _ _ _ h1⟩
          · cases h1; exact ⟨keep_within_refl _ _ _ _, keep_le_refl _⟩
        split at h
        · cases h
        · rename_i err2 keep2 h2
          have hw2 : keep_within ring.pts.length from_idx to_idx keep1 keep2 := by
            split at h2
            · rename_i hgt
              exact add_tiepoint_within ring keep1 _ from_idx to_idx hf ht hg1
                (hw1.2 _ hff) (hw1.2 _ hft) hgf (fun e => hgt e.symm) hg4 _ h2
            · cases h2; exact keep_within_refl _ _ _ _
          split at h
          · cases h
            refine keep_within_trans (keep_within_trans hw1.1 hw2)
              (keep_within_foldl_set _ _ _ _ _ (fun x hx => ?_))
            obtain ⟨hx1, hx2⟩ := cyc_range_dist _ _ _ _ hl hx
            have hdl2 : cyc_dist ring.pts.length from_idx l_idx ≤
                cyc_dist ring.pts.length from_idx (keep_linears_longest sqrt ring l_idx
                  (cyc_range ring.pts.length ((l_idx + 1) % ring.pts.length) to_idx) 0 l_idx) := by
              omega
            obtain ⟨_, hx4⟩ := cyc_dist_add ring.pts.length from_idx l_idx x _ hf hl hx1 hg1
              hdl2 hx2
            omega
          · exact ih _ _ _ hrest hff hft h
    · exact ih _ _ _ hrest hff hft h

/-- `keep_linears` on the gap between the kept vertices `from_idx` and `to_idx`
only sets flags on the way from one to the other. -/
theorem keep_linears_within (sqrt : ℚ → ℚ) (ring : Ring) (keep_orig : List Bool)
    (from_idx to_idx : Nat) (touchpts : List Bool)
    (hf : from_idx < ring.pts.length) (ht : to_idx < ring.pts.length)
    (hff : flag keep_orig from_idx = true) (hft : flag keep_orig to_idx = true)
    (res : Bool × List Bool × List Bool)
    (h : keep_linears sqrt ring keep_orig from_idx to_idx touchpts = .ok res) :
    keep_within ring.pts.length from_idx to_idx keep_orig res.2.1 := by
  unfold keep_linears at h
  dsimp only at h
  split at h
  · cases h; exact keep_within_refl _ _ _ _
  · refine keep_linears_loop_within sqrt ring from_idx to_idx hf ht _ _ _ _ ?_ hff hft h
    intro l hl
    rw [List.mem_map] at hl
    obtain ⟨k, hk, rfl⟩ := hl
    rw [List.mem_range] at hk
    have hk' : k < cyc_dist ring.pts.length from_idx to_idx := hk
    have hd : cyc_dist ring.pts.length from_idx to_idx < ring.pts.length :=
      Nat.mod_lt _ (by omega)
    exact ⟨Nat.mod_lt _ (by omega), by rw [cyc_dist_step _ _ _ hf (by omega)]; exact hk'⟩


/-- The test points of `refine_seg` are the vertices strictly between
`from_idx` and `to_idx`. -/
theorem cyc_between_dist (n a b x : Nat) (ha : a < n) (hb : b < n) (hab : a ≠ b)
    (hx : x ∈ cyc_between n a b) :
    x < n ∧ a ≠ x ∧ b ≠ x ∧ cyc_dist n a x ≤ cyc_dist n a b := by
  have hlen : (b + n - a - 1) % n = cyc_dist n a b - 1 ∧ 0 < cyc_dist n a b ∧
      cyc_dist n a b < n := by
    rw [cyc_dist_eq n a b ha hb]
    split
    · have : b + n - a - 1 = (b - a - 1) + n := by omega
      rw [this, Nat.add_mod_right, Nat.mod_eq_of_lt (by omega)]
      omega
    · rw [Nat.mod_eq_of_lt (by omega)]
      omega
  unfold cyc_between at hx
  rw [List.mem_map] at hx
  obtain ⟨k, hk, rfl⟩ := hx
  rw [List.mem_range, hlen.1] at hk
  have e : a + 1 + k = a + (k + 1) := by omega
  have hstep := cyc_dist_step n a (k + 1) ha (by omega)
  have h0 : cyc_dist n a a = 0 := by rw [cyc_dist_eq _ _ _ ha ha]; simp
  rw [e]
  refine ⟨Nat.mod_lt _ (by omega), ?_, ?_, by omega⟩
  · intro e2; rw [← e2, h0] at hstep; omega
  · intro e2; rw [← e2] at hstep; omega

/-- The candidate loop of `refine_seg` on the gap between the kept vertices
`from_idx` and `to_idx` holds in `keep_best` flags that were only set on the
way from one to the other. -/
theorem refine_seg_loop_within (sqrt : ℚ → ℚ) (ring : Ring) (keep_orig : List Bool)
    (from_idx to_idx : Nat) (start_area start_perim : ℚ)
    (hf : from_idx < ring.pts.length) (ht : to_idx < ring.pts.length)
    (hff : flag keep_orig from_idx = true) (hft : flag keep_orig to_idx = true) :
    ∀ (ts : List Nat) (st res : BestState),
      (∀ t ∈ ts, t < ring.pts.length ∧ from_idx ≠ t ∧ to_idx ≠ t ∧
        cyc_dist ring.pts.length from_idx t ≤ cyc_dist ring.pts.length from_idx to_idx) →
      keep_within ring.pts.length from_idx to_idx keep_orig st.keep_best →
      refine_seg_loop sqrt ring keep_orig from_idx to_idx start_area start_perim ts st = .ok res →
      keep_within ring.pts.length from_idx to_idx keep_orig res.keep_best := by
  intro ts
  induction ts with
  | nil => intro st res _ hst h; simp [refine_seg_loop] at h; subst h; exact hst
  | cons testpt rest ih =>
    intro st res hts hst h
    obtain ⟨t1, t2, t3, t4⟩ := hts testpt (List.mem_cons_self _ _)
    have hrest := fun t ht => hts t (List.mem_cons_of_mem _ ht)
    unfold refine_seg_loop at h
    dsimp only at h
    split at h
    · cases h
    · exact ih _ _ hrest hst h
    · rename_i keep_new hadd
      split at h
      · cases h
      · split at h
        · cases h
        · refine ih _ _ hrest ?_ h
          split
          · exact add_tiepoint_within ring keep_orig testpt from_idx to_idx hf ht t1 hff hft
              t2 t3 t4 _ hadd
          · exact hst

/-- `refine_seg` on the gap between the kept vertices `from_idx` and `to_idx`
only sets flags on the way from one to the other. -/
theorem refine_seg_within (sqrt : ℚ → ℚ) (ring : Ring) (keep_orig : List Bool)
    (from_idx to_idx : Nat)
    (hf : from_idx < ring.pts.length) (ht : to_idx < ring.pts.length) (hne : from_idx ≠ to_idx)
    (hff : flag keep_orig from_idx = true) (hft : flag keep_orig to_idx = true)
    (res : Int × List Bool)
    (h : refine_seg sqrt ring keep_orig from_idx to_idx = .ok res) :
    keep_within ring.pts.length from_idx to_idx keep_orig res.2 := by
  unfold refine_seg at h
  dsimp only at h
  split at h
  · cases h
  · split at h
    · cases h
    · rename_i st hloop
      split at h
      · cases h
        exact refine_seg_loop_within sqrt ring keep_orig from_idx to_idx _ _ hf ht hff hft _ _ _
          (fun t htm => cyc_between_dist _ _ _ _ hf ht hne htm)
          (keep_within_refl _ _ _ _) hloop
      · cases h; exact keep_within_refl _ _ _ _

/-- In the candidate loop of `refine_seg` a best improvement other than its
initial `0` comes with a best touch point. -/
theorem refine_seg_loop_touchpt (sqrt : ℚ → ℚ) (ring : Ring) (keep_orig : List Bool)
    (from_idx to_idx : Nat) (start_area start_perim : ℚ) :
    ∀ (ts : List Nat) (st res : BestState),
      (st.best_touchpt < 0 → st.best_improvement = 0) →
      refine_seg_loop sqrt ring keep_orig from_idx to_idx start_area start_perim ts st = .ok res →
      (res.best_touchpt < 0 → res.best_improvement = 0) := by
  intro ts
  induction ts with
  | nil => intro st res hst h; simp [refine_seg_loop] at h; subst h; exact hst
  | cons testpt rest ih =>
    intro st res hst h
    unfold refine_seg_loop at h
    dsimp only at h
    split at h
    · cases h
    · exact ih _ _ hst h
    · split at h
      · cases h
      · split at h
        · cases h
        · refine ih _ _ ?_ h
          split
          · intro hneg
            dsimp only at hneg
            omega
          · exact hst

/-- When `refine_seg` returns -1 (no touch point) the keep flags are as they
were on entry. -/
theorem refine_seg_none (sqrt : ℚ → ℚ) (ring : Ring) (keep_orig : List Bool)
    (from_idx to_idx : Nat) (touchpt : Int) (keep : List Bool)
    (h : refine_seg sqrt ring keep_orig from_idx to_idx = .ok (touchpt, keep))
    (hneg : ¬ touchpt ≥ 0) : keep = keep_orig := by
  unfold refine_seg at h
  dsimp only at h
  split at h
  · cases h
  · split at h
    · cases h
    · rename_i st hloop
      have hinv := refine_seg_loop_touchpt sqrt ring keep_orig from_idx to_idx _ _ _ _ _
        (fun _ => rfl) hloop
      split at h
      · rename_i hbest
        injection h with h
        injection h with h1 h2
        subst h1
        exact absurd (hinv (by omega)) hbest
      · injection h with h
        injection h with h1 h2
        exact h2.symm


/-- A successful `subring_area` call had a non-negative shoelace sum, of which
it returns the half. -/
theorem subring_area_ok (ring : Ring) (a b : Nat) (area : ℚ)
    (h : subring_area ring a b = .ok area) :
    0 ≤ subring_accum ring a b ∧ area = subring_accum ring a b / 2 := by
  unfold subring_area at h
  dsimp only at h
  split at h
  · cases h
  · rename_i hneg
    injection h with h
    exact ⟨not_lt.mp hneg, h.symm⟩

/-- The gap from a vertex to itself has the shoelace sum 0. -/
theorem subring_accum_self (ring : Ring) (i : Nat) (hi : i < ring.pts.length) :
    subring_accum ring i i = 0 := by
  unfold subring_accum cyc_range
  have e : (i + ring.pts.length - i) % ring.pts.length = 0 := by
    have : i + ring.pts.length - i = ring.pts.length := by omega
    rw [this, Nat.mod_self]
  dsimp only
  rw [e, show List.range (0 + 1) = [0] from rfl]
  simp [Nat.mod_eq_of_lt hi]

/-- The inner loop of `refine_ring` at the kept vertex `i`: it only sets flags
on the way from `i` to the next kept vertex, and the gap from `i` to the next
kept vertex it leaves has a non-negative shoelace sum. -/
theorem refine_ring_gap_spec (sqrt : ℚ → ℚ) (ring : Ring) (i : Nat)
    (hi : i < ring.pts.length) :
    ∀ (fuel : Nat) (keep touchpts : List Bool) (res : List Bool × List Bool),
      flag keep i = true →
      refine_ring_gap sqrt ring i fuel keep touchpts = .ok res →
      keep_within ring.pts.length i (next_keep ring.pts.length keep i) keep res.1 ∧
      0 ≤ subring_accum ring i (next_keep ring.pts.length res.1 i) := by
  intro fuel
  induction fuel with
  | zero => intro keep touchpts res _ h; simp [refine_ring_gap] at h
  | succ fuel ih =>
    intro keep touchpts res hfi h
    unfold refine_ring_gap at h
    dsimp only at h
    split at h
    · cases h
    · rename_i area hsa
      obtain ⟨hnn, harea⟩ := subring_area_ok ring _ _ _ hsa
      split at h
      · rename_i hpos
        have hji : next_keep ring.pts.length keep i ≠ i := by
          intro e
          rw [e, subring_accum_self ring i hi] at harea
          rw [harea] at hpos
          simp at hpos
        have hj : next_keep ring.pts.length keep i < ring.pts.length ∧
            flag keep (next_keep ring.pts.length keep i) = true := by
          rcases next_keep_cases ring.pts.length keep i hi with
            ⟨_, h2, h3, _⟩ | ⟨_, ⟨h1, h2, _⟩ | ⟨h1, _⟩⟩
          · exact ⟨h2, h3⟩
          · exact ⟨by omega, h2⟩
          · exact absurd h1 hji
        have hstep : ∀ (k1 t1 : List Bool),
            keep_le keep k1 →
            keep_within ring.pts.length i (next_keep ring.pts.length keep i) keep k1 →
            refine_ring_gap sqrt ring i fuel k1 t1 = .ok res →
            keep_within ring.pts.length i (next_keep ring.pts.length keep i) keep res.1 ∧
            0 ≤ subring_accum ring i (next_keep ring.pts.length res.1 i) := by
          intro k1 t1 hle hw hrec
          obtain ⟨w2, nn2⟩ := ih k1 t1 res (hle i hfi) hrec
          obtain ⟨_, _, _, hd⟩ := next_keep_spec ring.pts.length k1 i _ hi hj.1 hji
            (hle _ hj.2)
          exact ⟨keep_within_trans hw (keep_within_weaken hd w2), nn2⟩
        split at h
        · cases h
        · rename_i k1 t1 hkl
          exact hstep k1 t1 (keep_linears_mono sqrt ring _ _ _ _ _ hkl)
            (keep_linears_within sqrt ring keep i _ touchpts hi hj.1 hfi hj.2 _ hkl) h
        · rename_i k1 t1 hkl
          obtain ⟨e1, e2⟩ := keep_linears_false sqrt ring keep i _ touchpts k1 t1 hkl
          subst e1
          split at h
          · cases h
          · rename_i touchpt k2 hrs
            split at h
            · exact hstep k2 _ (refine_seg_mono sqrt ring _ _ _ _ hrs)
                (refine_seg_within sqrt ring k1 i _ hi hj.1 (fun e => hji e.symm) hfi hj.2 _ hrs) h
            · rename_i hneg
              have e3 := refine_seg_none sqrt ring k1 i _ touchpt k2 hrs hneg
              subst e3
              cases h
              exact ⟨keep_within_refl _ _ _ _, hnn⟩
      · cases h
        exact ⟨keep_within_refl _ _ _ _, hnn⟩


/-- The next kept vertex of `x` is the same for two keep-sets that agree up to
a kept vertex `i` after `x`. -/
theorem next_keep_agree (n : Nat) (k1 k2 : List Bool) (x i : Nat) (hxi : x < i) (hi : i < n)
    (hfi : flag k1 i = true) (hag : ∀ z, z ≤ i → flag k2 z = flag k1 z) :
    next_keep n k2 x = next_keep n k1 x := by
  rcases next_keep_cases n k1 x (by omega) with ⟨h1, h2, h3, h4⟩ | ⟨h0, _⟩
  · have hle : next_keep n k1 x ≤ i := by
      by_contra hgt
      have := h4 i hxi (by omega)
      rw [hfi] at this
      exact absurd this (by decide)
    exact next_keep_linear n k2 x _ h1 h2 (by rw [hag _ hle]; exact h3)
      (fun z hz1 hz2 => by rw [hag z (by omega)]; exact h4 z hz1 hz2)
  · have := h0 i hxi hi
    rw [hfi] at this
    exact absurd this (by decide)

/-- The outer loop of `refine_ring`, when no flag is set in front of the kept
vertex `f0`: every kept vertex it has passed keeps a gap to its next kept vertex
with a non-negative shoelace sum. -/
theorem refine_ring_loop_gaps (sqrt : ℚ → ℚ) (ring : Ring) (f0 : Nat)
    (_hf0 : f0 < ring.pts.length) :
    ∀ (len lo : Nat) (keep touchpts : List Bool) (res : List Bool × List Bool),
      lo + len = ring.pts.length → flag keep f0 = true →
      refine_ring_loop sqrt ring (List.range' lo len) keep touchpts = .ok res →
      (∀ z, z < f0 → flag res.1 z = false) →
      (∀ x, x < lo → flag keep x = true →
        0 ≤ subring_accum ring x (next_keep ring.pts.length keep x)) →
      ∀ x, x < ring.pts.length → flag res.1 x = true →
        0 ≤ subring_accum ring x (next_keep ring.pts.length res.1 x) := by
  intro len
  induction len with
  | zero =>
    intro lo keep touchpts res hlen _ h _ hinv x hx hfx
    simp [refine_ring_loop] at h
    subst h
    exact hinv x (by omega) hfx
  | succ len ih =>
    intro lo keep touchpts res hlen hff h hlow hinv
    rw [List.range'_succ] at h
    unfold refine_ring_loop at h
    split at h
    · rename_i hnot
      refine ih (lo + 1) keep touchpts res (by omega) hff h hlow (fun x hx hfx => ?_)
      rcases Nat.eq_or_lt_of_le (Nat.le_of_lt_succ hx) with e | e
      · subst e; rw [hfx] at hnot; exact absurd hnot (by decide)
      · exact hinv x e hfx
    · rename_i hyes
      have hfi : flag keep lo = true := by simpa using hyes
      have hlo : lo < ring.pts.length := by omega
      split at h
      · cases h
      · rename_i k1 t1 hgap
        obtain ⟨hw, hnn⟩ := refine_ring_gap_spec sqrt ring lo hlo _ _ _ _ hfi hgap
        have hle1 : keep_le keep k1 := refine_ring_gap_mono sqrt ring lo _ _ _ _ hgap
        have hle2 : keep_le k1 res.1 := refine_ring_loop_mono sqrt ring _ _ _ _ h
        -- the flags up to `lo` are as they were
        have hag : ∀ z, z ≤ lo → flag k1 z = flag keep z := by
          intro z hz
          cases hk : flag keep z with
          | true => exact hle1 z hk
          | false =>
            cases hk1 : flag k1 z with
            | false => rfl
            | true =>
              exfalso
              have hzf : f0 ≤ z := by
                by_contra hlt
                have := hlow z (by omega)
                rw [hle2 z hk1] at this
                exact absurd this (by decide)
              rcases hw z (by omega) hk1 with e | e
              · rw [hk] at e; exact absurd e (by decide)
              · have hzlo : z < lo := by
                  rcases Nat.eq_or_lt_of_le hz with e2 | e2
                  · subst e2; rw [hfi] at hk; exact absurd hk (by decide)
                  · exact e2
                rcases next_keep_cases ring.pts.length keep lo hlo with
                  ⟨h1, h2, _, _⟩ | ⟨_, ⟨h1, h2, h3⟩ | ⟨h1, _⟩⟩
                · rw [cyc_dist_eq _ _ _ hlo (by omega), cyc_dist_eq _ _ _ hlo h2] at e
                  split_ifs at e <;> omega
                · rw [cyc_dist_eq _ _ _ hlo (by omega), cyc_dist_eq _ _ _ hlo (by omega)] at e
                  have hj0 : next_keep ring.pts.length keep lo ≤ f0 := by
                    by_contra hgt
                    have := h3 f0 (by omega)
                    rw [hff] at this
                    exact absurd this (by decide)
                  have hzj : z = next_keep ring.pts.length keep lo := by
                    split_ifs at e <;> omega
                  rw [hzj, h2] at hk
                  exact absurd hk (by decide)
                · rw [h1, cyc_dist_eq _ _ _ hlo (by omega), cyc_dist_eq _ _ _ hlo hlo] at e
                  split_ifs at e <;> omega
        refine ih (lo + 1) k1 t1 res (by omega) (hle1 _ hff) h hlow (fun x hx hfx => ?_)
        rcases Nat.eq_or_lt_of_le (Nat.le_of_lt_succ hx) with e | e
        · subst e; exact hnn
        · rw [next_keep_agree ring.pts.length keep k1 x lo e hlo hfi hag]
          exact hinv x e (by rw [← hag x (by omega)]; exact hfx)

/-- Gaps left by `refine_ring`. When no flag ends up set in front of a vertex
`f0` that was kept on entry, the gap from every kept vertex to its next kept
vertex, the one that wraps round the end of the array included, has a
non-negative shoelace sum. -/
theorem refine_ring_gaps (sqrt : ℚ → ℚ) (ring : Ring) (keep touchpts : List Bool)
    (res : List Bool × List Bool) (f0 : Nat) (hf0 : f0 < ring.pts.length)
    (hff : flag keep f0 = true)
    (h : refine_ring sqrt ring keep touchpts = .ok res)
    (hlow : ∀ z, z < f0 → flag res.1 z = false) :
    ∀ x, x < ring.pts.length → flag res.1 x = true →
      0 ≤ subring_accum ring x (next_keep ring.pts.length res.1 x) := by
  unfold refine_ring at h
  rw [List.range_eq_range'] at h
  exact refine_ring_loop_gaps sqrt ring f0 hf0 _ 0 keep touchpts res (by omega) hff h hlow
    (fun x hx _ => by omega)


/-- A scan of `find_next_convex` that selects nothing never saw an angle
difference below its `min_angdiff`. -/
theorem find_next_convex_scan_none (pts : List Vertex) (v0 : Vertex) (limit_idx : Nat)
    (start_ang : Angle) :
    ∀ (l : List Nat) (st st' : ScanState),
      find_next_convex_scan pts v0 limit_idx start_ang l st = some st' →
      st'.best_vert = none → limit_idx ∉ l →
      st.best_vert = none ∧
      ∀ i ∈ l, (angdiff (seg_ang v0 (vtx pts i)) start_ang).lt st.min_angdiff = false := by
  intro l
  induction l with
  | nil =>
    intro st st' h hb _
    simp [find_next_convex_scan] at h
    subst h
    exact ⟨hb, fun i hi => by simp at hi⟩
  | cons i rest ih =>
    intro st st' h hb hlim
    have hil : ¬ i = limit_idx := fun e => hlim (by rw [e]; exact List.mem_cons_self _ _)
    have hrl : limit_idx ∉ rest := fun e => hlim (List.mem_cons_of_mem _ e)
    unfold find_next_convex_scan at h
    dsimp only at h
    split at h
    · exact absurd h (by simp)
    · by_cases hlt : (angdiff (seg_ang v0 (vtx pts i)) start_ang).lt st.min_angdiff = true
      · rw [if_pos hlt] at h
        obtain ⟨c1, _⟩ := ih _ _ h hb hrl
        simp at c1
      · rw [if_neg hlt] at h
        obtain ⟨c1, c2⟩ := ih _ _ h hb hrl
        refine ⟨c1, fun j hj => ?_⟩
        rcases List.mem_cons.mp hj with e | e
        · subst e; simpa using hlt
        · exact c2 j e

/-- A ring whose vertices all have the same `y` has the signed area 0. -/
theorem ring_oriented_area_flat (ring : Ring) (y0 : ℚ)
    (h : ∀ j, j < ring.pts.length → (vtx ring.pts j).y = y0) :
    ring_oriented_area ring = 0 := by
  rw [ring_oriented_area_eq_sum]
  rcases Nat.eq_zero_or_pos ring.pts.length with h0 | hpos
  · simp [h0]
  · have key : ∑ i ∈ Finset.range ring.pts.length,
          edge_cross ring.pts i ((i + 1) % ring.pts.length)
        = ∑ i ∈ Finset.range ring.pts.length,
            ((vtx ring.pts i).x * y0 - (vtx ring.pts ((i + 1) % ring.pts.length)).x * y0) := by
      apply Finset.sum_congr rfl
      intro i hi
      unfold edge_cross
      rw [h i (Finset.mem_range.mp hi), h _ (Nat.mod_lt _ hpos)]
    rw [key, Finset.sum_sub_distrib, ← Finset.sum_mul, ← Finset.sum_mul,
      sum_cyclic_shift (fun j => (vtx ring.pts j).x)]
    simp

/-- A vertex strictly above the start of the sweep has an angle difference
below `π` from the first reference direction. -/
theorem angdiff_above (v0 v1 : Vertex) (h : v0.y < v1.y) :
    (angdiff (seg_ang v0 v1) Angle.zero).lt AngDiff.pi = true := by
  unfold seg_ang Angle.zero
  dsimp only
  rw [angdiff_dirs _ _ _ _ (fun e => by linarith [e.2]) (by simp)]
  have hs : (0 : ℚ) < 1 * (v1.y - v0.y) - 0 * (v1.x - v0.x) := by linarith
  have h1 : (AngDiff.turn (1 * (v1.x - v0.x) + 0 * (v1.y - v0.y))
      (1 * (v1.y - v0.y) - 0 * (v1.x - v0.x))).lt_pi = true := by
    simp only [AngDiff.lt_pi, decide_eq_true_eq]
    exact Or.inl hs
  have h2 : (AngDiff.turn (-1) 0).lt_pi = false := by decide
  simp [AngDiff.lt, AngDiff.pi, h1, h2]
  exact Or.inr h


/-- The first step of the loop of `find_chull`: the sweep ends at once with the
flags it was given, or it flags the vertex found. -/
theorem find_chull_loop_first (ring : Ring) (start_idx : Nat) (ang : Angle) :
    ∀ (fuel : Nat) (keep res : List Bool), fuel ≠ 0 →
      find_chull_loop ring start_idx fuel start_idx ang keep = .ok res →
      (find_next_convex ring start_idx start_idx ang).error = false ∧
      (((find_next_convex ring start_idx start_idx ang).idx = start_idx ∧ res = keep) ∨
        ((find_next_convex ring start_idx start_idx ang).idx ≠ start_idx ∧
          keep_le (keep.set (find_next_convex ring start_idx start_idx ang).idx true) res)) := by
  intro fuel keep res hfuel h
  cases fuel with
  | zero => exact absurd rfl hfuel
  | succ fuel =>
    unfold find_chull_loop at h
    dsimp only at h
    split at h
    · cases h
    · rename_i herr
      refine ⟨by simpa using herr, ?_⟩
      split at h
      · rename_i hidx
        injection h with h
        exact Or.inl ⟨hidx, h.symm⟩
      · rename_i hidx
        exact Or.inr ⟨hidx, find_chull_loop_mono ring _ _ _ _ _ _ h⟩

/-- A call of `find_next_convex` that scans the whole ring (its limit is its
start): it comes back to the start only when no vertex was seen at an angle
difference below `π`. -/
theorem find_next_convex_self (ring : Ring) (start_idx : Nat) (ang : Angle)
    (hs : start_idx < ring.pts.length)
    (herr : (find_next_convex ring start_idx start_idx ang).error = false) :
    ((find_next_convex ring start_idx start_idx ang).idx = start_idx ∧
      ∀ i ∈ cyc_after ring.pts.length start_idx,
        (angdiff (seg_ang (vtx ring.pts start_idx) (vtx ring.pts i)) ang).lt AngDiff.pi = false) ∨
    ((find_next_convex ring start_idx start_idx ang).idx ≠ start_idx ∧
      (find_next_convex ring start_idx start_idx ang).idx < ring.pts.length) := by
  have h0 : cyc_dist ring.pts.length start_idx start_idx = 0 := by
    rw [cyc_dist_eq _ _ _ hs hs]; simp
  have hel : ∀ k, k < ring.pts.length - 1 →
      (start_idx + 1 + k) % ring.pts.length < ring.pts.length ∧
      (start_idx + 1 + k) % ring.pts.length ≠ start_idx := by
    intro k hk
    refine ⟨Nat.mod_lt _ (by omega), fun e => ?_⟩
    have hstep := cyc_dist_step ring.pts.length start_idx (k + 1) hs (by omega)
    have e1 : start_idx + 1 + k = start_idx + (k + 1) := by omega
    rw [← e1, e, h0] at hstep
    omega
  have hnot : start_idx ∉ cyc_after ring.pts.length start_idx := by
    unfold cyc_after
    intro hm
    rw [List.mem_map] at hm
    obtain ⟨k, hk, e⟩ := hm
    exact (hel k (List.mem_range.mp hk)).2 e
  unfold find_next_convex at herr ⊢
  dsimp only at herr ⊢
  cases hscan : find_next_convex_scan ring.pts (vtx ring.pts start_idx) start_idx ang
      (cyc_after ring.pts.length start_idx) ⟨AngDiff.pi, none, none, .atan2 0 1⟩ with
  | none =>
    rw [hscan] at herr
    exact absurd herr (by simp [FindNextConvexRetval.ERROR])
  | some st =>
    rw [hscan] at herr
    dsimp only at herr ⊢
    cases hb : st.best_vert with
    | none =>
      left
      exact ⟨rfl, (find_next_convex_scan_none ring.pts _ start_idx ang _ _ _ hscan hb hnot).2⟩
    | some v =>
      right
      rw [hb] at herr
      dsimp only at herr ⊢
      split at herr
      · exact absurd herr (by simp [FindNextConvexRetval.ERROR])
      · rename_i hge
        rw [if_neg hge]
        dsimp only
        unfold cyc_after at hscan
        rw [List.range_eq_range'] at hscan
        have := find_next_convex_scan_best ring.pts _ start_idx ang _
          (fun v => v ≠ start_idx ∧ v < ring.pts.length)
          _ _ _ st hscan (fun w hw => by simp at hw)
          (fun k _ hk _ => ⟨(hel k (by omega)).2, (hel k (by omega)).1⟩) v hb
        exact this

/-- On a ring with a signed area other than 0 the sweep of `find_chull` keeps a
second vertex besides the lowest one. -/
theorem find_chull_two (ring : Ring) (keep0 : List Bool)
    (h : find_chull ring = .ok keep0) (hA : ring_oriented_area ring ≠ 0) :
    ∃ b, b < ring.pts.length ∧ b ≠ find_bottom_pt ring ∧ flag keep0 b = true := by
  unfold find_chull at h
  split at h
  · cases h
  · rename_i hn
    dsimp only at h
    obtain ⟨hs, hmin, _⟩ := find_bottom_pt_spec ring (by omega)
    obtain ⟨herr, hcase⟩ := find_chull_loop_first ring _ _ _ _ _ hn h
    rcases find_next_convex_self ring _ _ hs herr with ⟨hidx, hall⟩ | ⟨hidx, hlt⟩
    · exfalso
      apply hA
      apply ring_oriented_area_flat ring (vtx ring.pts (find_bottom_pt ring)).y
      intro j hj
      by_cases e : j = find_bottom_pt ring
      · rw [e]
      · by_contra hy
        have hlt : (vtx ring.pts (find_bottom_pt ring)).y < (vtx ring.pts j).y :=
          lt_of_le_of_ne (hmin j hj) (fun e2 => hy e2.symm)
        have hmem : j ∈ cyc_after ring.pts.length (find_bottom_pt ring) := by
          obtain ⟨u, hu1, hu2⟩ := cyc_reach ring.pts.length (find_bottom_pt ring) j hs hj
          have hu0 : u ≠ 0 := by
            intro e0
            subst e0
            rw [Nat.add_zero, Nat.mod_eq_of_lt hs] at hu2
            exact e hu2.symm
          unfold cyc_after
          rw [List.mem_map]
          refine ⟨u - 1, List.mem_range.mpr (by omega), ?_⟩
          have : find_bottom_pt ring + 1 + (u - 1) = find_bottom_pt ring + u := by omega
          rw [this]
          exact hu2
        have := hall j hmem
        rw [angdiff_above _ _ hlt] at this
        exact absurd this (by decide)
    · rcases hcase with ⟨c1, _⟩ | ⟨_, c2⟩
      · exact absurd c1 hidx
      · exact ⟨_, hlt, hidx, c2 _ (flag_set_self _ _ (by simpa using hlt))⟩


/-- Area of the kept polygon. On a ring with a signed area other than 0, when
no vertex that `refine_ring` leaves kept lies in front of the first vertex kept
by `find_chull`, the polygon of the kept vertices has a signed area not smaller
than that of the ring. -/
theorem kept_area_ge (sqrt : ℚ → ℚ) (ring : Ring) (keep0 keep touch0 touch : List Bool)
    (hch : find_chull ring = .ok keep0)
    (href : refine_ring sqrt ring keep0 touch0 = .ok (keep, touch))
    (hfirst : ∀ z, flag keep z = true → ∃ f, f ≤ z ∧ flag keep0 f = true)
    (hA : ring_oriented_area ring ≠ 0) (meta : Ring) :
    ring_oriented_area ring
      ≤ ring_oriented_area { meta with pts := kept_pts ring.pts keep } := by
  have hmono : keep_le keep0 keep := refine_ring_mono sqrt ring _ _ _ href
  have hn : 0 < ring.pts.length := by
    unfold find_chull at hch
    split at hch
    · cases hch
    · omega
  have hs := (find_bottom_pt_spec ring hn).1
  have hfs := find_chull_keeps_bottom ring keep0 hch
  obtain ⟨b, hb, hbs, hfb⟩ := find_chull_two ring keep0 hch hA
  -- the first vertex kept by the sweep
  obtain ⟨f0, hf0, hff0, hz0⟩ : ∃ f0, f0 < ring.pts.length ∧ flag keep0 f0 = true ∧
      ∀ z, z < f0 → flag keep0 z = false := by
    rcases kept_range_cases ring.pts.length keep0 ring.pts.length 0 (by omega) with e | e
    · exfalso
      have : find_bottom_pt ring ∈ (List.range' 0 ring.pts.length).filter (flag keep0) :=
        List.mem_filter.mpr ⟨List.mem_range'_1.mpr ⟨by omega, by omega⟩, hfs⟩
      rw [e] at this
      simp at this
    · obtain ⟨f, L, _, _, c3, c4, c5, _, _⟩ := e
      exact ⟨f, c3, c4, fun z hz => c5 z (by omega) hz⟩
  have hlow : ∀ z, z < f0 → flag keep z = false := by
    intro z hz
    cases hk : flag keep z with
    | false => rfl
    | true =>
      obtain ⟨f, hf1, hf2⟩ := hfirst z hk
      have := hz0 f (by omega)
      rw [hf2] at this
      exact absurd this (by decide)
  have H := refine_ring_gaps sqrt ring keep0 touch0 (keep, touch) f0 hf0 hff0 href hlow
  -- the kept vertices of the result
  have hms : find_bottom_pt ring ∈ (List.range' 0 ring.pts.length).filter (flag keep) :=
    List.mem_filter.mpr ⟨List.mem_range'_1.mpr ⟨by omega, by omega⟩, hmono _ hfs⟩
  have hmb : b ∈ (List.range' 0 ring.pts.length).filter (flag keep) :=
    List.mem_filter.mpr ⟨List.mem_range'_1.mpr ⟨by omega, by omega⟩, hmono _ hfb⟩
  rcases kept_range_cases ring.pts.length keep ring.pts.length 0 (by omega) with e | e
  · rw [e] at hms
    simp at hms
  · obtain ⟨f, L, c1, _, c3, c4, c5, c6, c7⟩ := e
    have hL : L ≠ [] := by
      intro hnil
      rw [c1, hnil] at hms hmb
      simp at hms hmb
      exact hbs (hmb.trans hms.symm)
    have hK : kept_idx ring.pts.length keep = f :: L := by
      unfold kept_idx
      rw [List.range_eq_range']
      exact c1
    have hdec := area_decomposition ring keep f L hK hL meta
    have hsum := gap_chain_nonneg ring keep H L f c6 c4
    obtain ⟨l1, l2, l3, _⟩ := gap_chain_last ring.pts.length keep L f c6 c3 c4
    have hwrap := next_keep_wrap ring.pts.length keep _ f l2 l1 c4
      (fun z hz => c5 z (by omega) hz) c7
    have hlast := H _ l2 l3
    rw [hwrap] at hlast
    linarith


/-- What `pinch_ring_excursions` returns, given the results of its two
stages. -/
theorem pinch_ring_excursions_eq (sqrt : ℚ → ℚ) (ring_in : Ring) (keep0 keep touch : List Bool)
    (hch : find_chull (oriented_ring ring_in) = .ok keep0)
    (href : refine_ring sqrt (oriented_ring ring_in) keep0
      (List.replicate (oriented_ring ring_in).pts.length false) = .ok (keep, touch)) :
    pinch_ring_excursions sqrt ring_in
      = .ok { (oriented_ring ring_in).copyMetadata with
              pts := kept_pts (oriented_ring ring_in).pts keep } := by
  unfold pinch_ring_excursions
  dsimp only
  rw [hch]
  dsimp only
  rw [href]

/-- C3 (amended). When `pinch_ring_excursions` completes and none of the
vertices it keeps lies, in the order of the orientation-normalised ring, in
front of the first vertex marked by `find_chull`, the enclosed area of the
output is at least the enclosed area of the input: gaps are filled in, nothing
is cut off. -/
theorem pinch_ring_excursions_area_not_smaller (sqrt : ℚ → ℚ) (ring_in : Ring)
    (keep0 keep touch : List Bool)
    (hch : find_chull (oriented_ring ring_in) = .ok keep0)
    (href : refine_ring sqrt (oriented_ring ring_in) keep0
      (List.replicate (oriented_ring ring_in).pts.length false) = .ok (keep, touch))
    (hfirst : ∀ z, flag keep z = true → ∃ f, f ≤ z ∧ flag keep0 f = true) :
    ∃ out, pinch_ring_excursions sqrt ring_in = .ok out ∧
      ring_area ring_in ≤ ring_area out := by
  refine ⟨_, pinch_ring_excursions_eq sqrt ring_in keep0 keep touch hch href, ?_⟩
  have harea := oriented_ring_area ring_in
  unfold ring_area
  by_cases hA : ring_oriented_area (oriented_ring ring_in) = 0
  · rw [← harea, hA]
    exact abs_nonneg _
  · have hge := kept_area_ge sqrt (oriented_ring ring_in) keep0 keep _ touch hch href hfirst hA
      (oriented_ring ring_in).copyMetadata
    rw [← harea]
    exact le_trans hge (le_abs_self _)

/-- Witness for C3 (amended): a square with a deep wedge, whose tip the
refinement keeps, and a shallow notch, which is filled in; the area grows from
54 to 55. -/
theorem pinch_ring_excursions_area_not_smaller_witness :
    ∃ out, pinch_ring_excursions sqrt_trunc ring_wedge = .ok out ∧
      ring_area ring_wedge ≤ ring_area out :=
  pinch_ring_excursions_area_not_smaller sqrt_trunc ring_wedge
    [true, true, true, false, true, true, false, true]
    [true, true, true, true, true, true, false, true]
    [false, false, false, true, false, false, false, false]
    (by decide!) (by decide!) (fun z _ => ⟨0, Nat.zero_le z, by decide⟩)

/-- C3 as stated fails on a simple counter-clockwise pentagon: no vertex is
inserted by the refinement (the keep flags and touch points come back from
`refine_ring` as `find_chull` left them), and the output encloses the area 4,
more than the area 3 of the input. -/
theorem pinch_ring_excursions_area_grows :
    is_simple_ring ring_notch.pts ∧ ring_is_ccw ring_notch = true ∧
      find_chull (oriented_ring ring_notch) = .ok [true, true, false, true, true] ∧
      refine_ring sqrt_trunc (oriented_ring ring_notch) [true, true, false, true, true]
        (List.replicate 5 false) = .ok ([true, true, false, true, true], List.replicate 5 false) ∧
      pinch_ring_excursions sqrt_trunc ring_notch = .ok ring_notch_out ∧
      ring_area ring_notch = 3 ∧ ring_area ring_notch_out = 4 := by
  decide!

/-- C6 (amended). When `pinch_ring_excursions` completes on a ring whose signed
area is not 0, whatever its winding, and none of the vertices it keeps lies, in
the order of the orientation-normalised ring, in front of the first vertex
marked by `find_chull`, the output is counter-clockwise: its signed area is
strictly positive, at least the enclosed area of the input. -/
theorem pinch_ring_excursions_ccw (sqrt : ℚ → ℚ) (ring_in : Ring)
    (keep0 keep touch : List Bool)
    (hch : find_chull (oriented_ring ring_in) = .ok keep0)
    (href : refine_ring sqrt (oriented_ring ring_in) keep0
      (List.replicate (oriented_ring ring_in).pts.length false) = .ok (keep, touch))
    (hfirst : ∀ z, flag keep z = true → ∃ f, f ≤ z ∧ flag keep0 f = true)
    (hne : ring_oriented_area ring_in ≠ 0) :
    ∃ out, pinch_ring_excursions sqrt ring_in = .ok out ∧ ring_is_ccw out = true ∧
      0 < ring_oriented_area out ∧ ring_area ring_in ≤ ring_oriented_area out := by
  refine ⟨_, pinch_ring_excursions_eq sqrt ring_in keep0 keep touch hch href, ?_⟩
  have harea := oriented_ring_area ring_in
  have hpos : 0 < ring_oriented_area (oriented_ring ring_in) := by
    rw [harea]; exact abs_pos.mpr hne
  have hge := kept_area_ge sqrt (oriented_ring ring_in) keep0 keep _ touch hch href hfirst
    (ne_of_gt hpos) (oriented_ring ring_in).copyMetadata
  have h0 := lt_of_lt_of_le hpos hge
  refine ⟨?_, h0, ?_⟩
  · unfold ring_is_ccw
    exact decide_eq_true h0
  · unfold ring_area
    rw [← harea]
    exact hge

/-- Witness for C6 (amended): the square with a wedge and a notch, given in
clockwise order. -/
theorem pinch_ring_excursions_ccw_witness :
    ring_is_ccw ring_wedge_cw = false ∧
      ∃ out, pinch_ring_excursions sqrt_trunc ring_wedge_cw = .ok out ∧
        ring_is_ccw out = true ∧ 0 < ring_oriented_area out ∧
        ring_area ring_wedge_cw ≤ ring_oriented_area out :=
  ⟨by decide!,
   pinch_ring_excursions_ccw sqrt_trunc ring_wedge_cw
    [true, true, true, false, true, true, false, true]
    [true, true, true, true, true, true, false, true]
    [false, false, false, true, false, false, false, false]
    (by decide!) (by decide!) (fun z _ => ⟨0, Nat.zero_le z, by decide⟩) (by decide!)⟩

/-- C6 as stated fails on a symmetric bow-tie, a ring of four distinct vertices
with the signed area 0: `pinch_ring_excursions` completes and returns two
vertices, a ring with the signed area 0, which is not counter-clockwise. -/
theorem pinch_ring_excursions_not_ccw :
    ring_oriented_area ring_eight = 0 ∧
      pinch_ring_excursions sqrt_trunc ring_eight = .ok ring_eight_out ∧
      ring_oriented_area ring_eight_out = 0 ∧ ring_is_ccw ring_eight_out = false := by
  decide!

/-! ## Reconciliation of two crossing rings -/

/-- C11. For exactly two pinched rings `r1`, `r2` that the classifier reports as
crossing: when the external union hands back a polygon, the result is the
single ring that is the outer ring of that polygon, marked as a non-hole with
parent 0 (the holes of the polygon are dropped); when it hands back no geometry
or a geometry of another type, `ring_ring_union` ends the run with its fatal
error. -/
theorem pinch_excursions2_two_rings_crossing (sqrt : ℚ → ℚ)
    (rel : Ring → Ring → RingRelation) (un : Ring → Ring → OGRGeom) (mp_in : Mpoly)
    (r1 r2 : Ring) (hp : pinch_rings sqrt mp_in.rings = .ok [r1, r2])
    (hrel : rel r1 r2 = .RINGREL_CROSSES) :
    (∀ outer holes, un r1 r2 = .polygon outer holes →
      pinch_excursions2 sqrt rel un mp_in
        = .ok { rings := [{ outer with is_hole := false, parent_id := 0 }] }) ∧
    (un r1 r2 = .null →
      pinch_excursions2 sqrt rel un mp_in = .error (.fatal "OGR_G_Union failed")) ∧
    (un r1 r2 = .other →
      pinch_excursions2 sqrt rel un mp_in
        = .error (.fatal "result of ring union wasn't a wkbPolygon")) := by
  refine ⟨fun outer holes hun => ?_, fun hun => ?_, fun hun => ?_⟩
  · unfold pinch_excursions2 reconcile
    rw [hp]
    simp only
    rw [reconcile_loop]
    simp only [List.length_cons, List.length_nil, List.getD_cons_zero, List.getD_cons_succ,
      hrel, ring_ring_union, hun]
    simp [reconcile_loop, deleteRing]
  · unfold pinch_excursions2 reconcile
    rw [hp]
    simp only
    rw [reconcile_loop]
    simp [hrel, ring_ring_union, hun]
  · unfold pinch_excursions2 reconcile
    rw [hp]
    simp only
    rw [reconcile_loop]
    simp [hrel, ring_ring_union, hun]

/-- Witness for C11: the two C-shaped rings of the annulus scenario, which
cross; their union is the big square with a hole, and the result is the big
square alone. -/
theorem pinch_excursions2_two_rings_crossing_witness :
    pinch_rings sqrt_trunc (Mpoly.mk [ring_B, ring_C]).rings = .ok [ring_B, ring_C] ∧
      rel_annulus ring_B ring_C = .RINGREL_CROSSES ∧
      union_annulus ring_B ring_C = .polygon ring_U [ring_H] ∧
      pinch_excursions2 sqrt_trunc rel_annulus union_annulus (Mpoly.mk [ring_B, ring_C])
        = .ok { rings := [ring_U] } :=
  ⟨by decide!, by decide!, by decide!,
   (pinch_excursions2_two_rings_crossing sqrt_trunc rel_annulus union_annulus
     (Mpoly.mk [ring_B, ring_C]) ring_B ring_C (by decide!) (by decide!)).1
     ring_U [ring_H] (by decide!)⟩


/-! ## Bounding boxes -/

/-- The widening loop of `get_ring_bbox` leaves the empty flag as it is. -/
theorem get_ring_bbox_fold_empty (pts : List Vertex) :
    ∀ bb : bbox_t, (pts.foldl (fun bbox v =>
      ({ empty := bbox.empty
         min_x := if v.x < bbox.min_x then v.x else bbox.min_x
         min_y := if v.y < bbox.min_y then v.y else bbox.min_y
         max_x := if v.x > bbox.max_x then v.x else bbox.max_x
         max_y := if v.y > bbox.max_y then v.y else bbox.max_y } : bbox_t)) bb).empty
      = bb.empty := by
  induction pts with
  | nil => intro bb; rfl
  | cons v pts ih => intro bb; rw [List.foldl_cons, ih]

/-- The box of a ring is empty with all bounds 0 when the ring has no points,
and is not empty otherwise. -/
theorem get_ring_bbox_cases (ring : Ring) :
    get_ring_bbox ring = ⟨0, 0, 0, 0, 1⟩ ∨ (get_ring_bbox ring).empty = 0 := by
  unfold get_ring_bbox
  split
  · exact Or.inl rfl
  · exact Or.inr (get_ring_bbox_fold_empty _ _)

/-- C12 (amended). A box `e` with the empty flag set is a left identity of
`union_bbox` field for field, and a right identity field for field on every box
that is not empty; the union of an empty box `b` with `e` is `e`, again an
empty box, with the bounds of `e`.  On the boxes that `get_ring_bbox` builds,
whose empty box is the one with all bounds 0 and flag 1, that empty box is an
identity on both sides. -/
theorem union_bbox_empty (e b : bbox_t) (he : e.empty ≠ 0) :
    union_bbox e b = b ∧
    (b.empty = 0 → union_bbox b e = b) ∧
    (b.empty ≠ 0 → union_bbox b e = e) ∧
    ((union_bbox b e).empty ≠ 0 ↔ b.empty ≠ 0) ∧
    (∀ r0 r : Ring, r0.pts.length = 0 →
      union_bbox (get_ring_bbox r0) (get_ring_bbox r) = get_ring_bbox r ∧
      union_bbox (get_ring_bbox r) (get_ring_bbox r0) = get_ring_bbox r) := by
  refine ⟨?_, ?_, ?_, ?_, ?_⟩
  rotate_left 4
  · intro r0 r h0
    have e0 : get_ring_bbox r0 = ⟨0, 0, 0, 0, 1⟩ := by
      unfold get_ring_bbox
      rw [if_pos h0]
    rw [e0]
    refine ⟨rfl, ?_⟩
    rcases get_ring_bbox_cases r with h | h
    · rw [h]
      rfl
    · unfold union_bbox
      rw [if_neg (by simpa using h), if_pos (by decide)]
  · unfold union_bbox
    rw [if_pos he]
  · intro hb
    unfold union_bbox
    rw [if_neg (by simpa using hb), if_pos he]
  · intro hb
    unfold union_bbox
    rw [if_pos hb]
  · unfold union_bbox
    by_cases hb : b.empty ≠ 0
    · rw [if_pos hb]
      exact ⟨fun _ => hb, fun _ => he⟩
    · rw [if_neg hb, if_pos he]

/-- Witness for C12 (amended): an empty box and the box `[1, 2] × [3, 4]`. -/
theorem union_bbox_empty_witness :
    union_bbox ⟨0, 0, 0, 0, 1⟩ ⟨1, 2, 3, 4, 0⟩ = ⟨1, 2, 3, 4, 0⟩ ∧
      union_bbox ⟨1, 2, 3, 4, 0⟩ ⟨0, 0, 0, 0, 1⟩ = ⟨1, 2, 3, 4, 0⟩ :=
  ⟨(union_bbox_empty ⟨0, 0, 0, 0, 1⟩ ⟨1, 2, 3, 4, 0⟩ (by decide)).1,
   (union_bbox_empty ⟨0, 0, 0, 0, 1⟩ ⟨1, 2, 3, 4, 0⟩ (by decide)).2.1 rfl⟩

/-- C12 as stated fails for two empty boxes with different bounds: with `b` the
empty box at `0` and `e` the empty box at `5`, `union_bbox(b, e)` is `e`, whose
bounds are not those of `b`. -/
theorem union_bbox_empty_not_right_identity :
    (⟨5, 5, 5, 5, 1⟩ : bbox_t).empty ≠ 0 ∧
      union_bbox ⟨0, 0, 0, 0, 1⟩ ⟨5, 5, 5, 5, 1⟩ = ⟨5, 5, 5, 5, 1⟩ ∧
      union_bbox ⟨0, 0, 0, 0, 1⟩ ⟨5, 5, 5, 5, 1⟩ ≠ ⟨0, 0, 0, 0, 1⟩ := by
  decide!


/-! ## Lowest vertex -/

/-- C14. On a non-empty ring `find_bottom_pt` returns the index of a vertex
whose `y` is the minimum over all vertices, and no vertex with a smaller index
has that same `y`. -/
theorem find_bottom_pt_first_lowest (ring : Ring) (hn : 0 < ring.pts.length) :
    find_bottom_pt ring < ring.pts.length ∧
    (∀ j, j < ring.pts.length →
      (vtx ring.pts (find_bottom_pt ring)).y ≤ (vtx ring.pts j).y) ∧
    (∀ j, j < find_bottom_pt ring →
      (vtx ring.pts j).y ≠ (vtx ring.pts (find_bottom_pt ring)).y) := by
  obtain ⟨h1, h2, h3⟩ := find_bottom_pt_spec ring hn
  exact ⟨h1, h2, fun j hj => ne_of_gt (h3 j hj)⟩

/-- Witness for C14: in the clockwise wedge ring the lowest vertices `(10, 0)`
and `(0, 0)` have the indices 6 and 7, and the first of them is returned. -/
theorem find_bottom_pt_first_lowest_witness :
    find_bottom_pt ring_wedge_cw = 6 ∧
      (vtx ring_wedge_cw.pts 7).y = (vtx ring_wedge_cw.pts 6).y ∧
      (∀ j, j < ring_wedge_cw.pts.length →
        (vtx ring_wedge_cw.pts (find_bottom_pt ring_wedge_cw)).y ≤ (vtx ring_wedge_cw.pts j).y) :=
  ⟨by decide!, by decide!, (find_bottom_pt_first_lowest ring_wedge_cw (by decide)).2.1⟩


/-! ## Vertices of the output -/

/-- Filtering while mapping gives a sublist of the mapped list. -/
theorem filterMap_sublist_map {α β : Type} (f : α → Option β) (g : α → β)
    (h : ∀ a, f a = some (g a) ∨ f a = none) :
    ∀ l : List α, (l.filterMap f).Sublist (l.map g) := by
  intro l
  induction l with
  | nil => exact List.Sublist.slnil
  | cons a l ih =>
    rcases h a with e | e
    · rw [List.filterMap_cons_some e, List.map_cons]
      exact List.Sublist.cons₂ _ ih
    · rw [List.filterMap_cons_none e, List.map_cons]
      exact List.Sublist.cons _ ih

/-- A point array is the list of its vertices by index. -/
theorem pts_eq_map_vtx (pts : List Vertex) :
    pts = (List.range pts.length).map (vtx pts) := by
  apply List.ext_getElem
  · simp
  · intro i h1 h2
    simp [vtx, List.getD_eq_getElem?_getD, List.getElem?_eq_getElem h1]

/-- The kept vertices are a subsequence of the point array. -/
theorem kept_pts_sublist (pts : List Vertex) (keep : List Bool) :
    (kept_pts pts keep).Sublist pts := by
  have h := filterMap_sublist_map
    (fun i => if flag keep i then some (vtx pts i) else none) (vtx pts)
    (fun i => by by_cases hf : flag keep i = true <;> simp [hf]) (List.range pts.length)
  rw [← pts_eq_map_vtx] at h
  exact h

/-- C15. The ring returned by `pinch_ring_excursions` holds exactly the
vertices whose keep flag is set when `refine_ring` returns, in the order of the
orientation-normalised ring; so its vertex sequence is a subsequence of the
input's vertex sequence when the input is counter-clockwise and of the reversed
sequence otherwise, and every vertex of the output is a vertex of the input. -/
theorem pinch_ring_excursions_subsequence (sqrt : ℚ → ℚ) (ring_in out : Ring)
    (h : pinch_ring_excursions sqrt ring_in = .ok out) :
    ∃ keep0 keep touchpts,
      find_chull (oriented_ring ring_in) = .ok keep0 ∧
      refine_ring sqrt (oriented_ring ring_in) keep0
        (List.replicate (oriented_ring ring_in).pts.length false) = .ok (keep, touchpts) ∧
      out.pts = (kept_idx (oriented_ring ring_in).pts.length keep).map
        (vtx (oriented_ring ring_in).pts) ∧
      (oriented_ring ring_in).pts
        = (if ring_is_ccw ring_in then ring_in.pts else ring_in.pts.reverse) ∧
      out.pts.Sublist (if ring_is_ccw ring_in then ring_in.pts else ring_in.pts.reverse) ∧
      ∀ v ∈ out.pts, v ∈ ring_in.pts := by
  have hor : (oriented_ring ring_in).pts
      = (if ring_is_ccw ring_in then ring_in.pts else ring_in.pts.reverse) := by
    unfold oriented_ring
    by_cases hc : ring_is_ccw ring_in = true <;> simp [hc]
  unfold pinch_ring_excursions at h
  dsimp only at h
  split at h
  · cases h
  · rename_i keep0 hch
    split at h
    · cases h
    · rename_i keep tp href
      cases h
      have hsub := kept_pts_sublist (oriented_ring ring_in).pts keep
      refine ⟨keep0, keep, tp, hch, href, kept_pts_eq_map _ _, hor, ?_, ?_⟩
      · rw [← hor]; exact hsub
      · intro v hv
        have hm := hsub.subset hv
        rw [hor] at hm
        by_cases hc : ring_is_ccw ring_in = true
        · simpa [hc] using hm
        · simpa [hc] using hm

/-- Witness for C15: the clockwise wedge ring; the output is a subsequence of
its reversal. -/
theorem pinch_ring_excursions_subsequence_witness :
    pinch_ring_excursions sqrt_trunc ring_wedge_cw = .ok ring_wedge_out ∧
      ring_is_ccw ring_wedge_cw = false ∧
      ring_wedge_out.pts.Sublist ring_wedge_cw.pts.reverse :=
  ⟨by decide!, by decide!, by
    obtain ⟨_, _, _, _, _, _, _, hs, _⟩ :=
      pinch_ring_excursions_subsequence sqrt_trunc ring_wedge_cw ring_wedge_out (by decide!)
    have hc : ring_is_ccw ring_wedge_cw = false := by decide!
    simpa [hc] using hs⟩


/-! ## Growth of the keep flags and commit on success -/

/-- C16. Every flag that is set in the keep array passed to `reach_point`,
`add_tiepoint`, `keep_linears`, `refine_seg` or `refine_ring` is still set in
that array when the call returns, whatever it returns (for the first two the
returned `bool` may report failure). -/
theorem keep_flags_only_grow (sqrt : ℚ → ℚ) (ring : Ring) (keep : List Bool) :
    (∀ from_idx to_idx ang res,
      reach_point ring keep from_idx to_idx ang = .ok res → keep_le keep res.2) ∧
    (∀ mid res, add_tiepoint ring keep mid = .ok res → keep_le keep res.2) ∧
    (∀ from_idx to_idx touchpts res,
      keep_linears sqrt ring keep from_idx to_idx touchpts = .ok res → keep_le keep res.2.1) ∧
    (∀ from_idx to_idx res,
      refine_seg sqrt ring keep from_idx to_idx = .ok res → keep_le keep res.2) ∧
    (∀ touchpts res, refine_ring sqrt ring keep touchpts = .ok res → keep_le keep res.1) :=
  ⟨fun from_idx to_idx ang res h => reach_point_mono ring keep from_idx to_idx ang res h,
   fun mid res h => add_tiepoint_mono ring keep mid res h,
   fun from_idx to_idx touchpts res h =>
     keep_linears_mono sqrt ring keep from_idx to_idx touchpts res h,
   fun from_idx to_idx res h => refine_seg_mono sqrt ring keep from_idx to_idx res h,
   fun touchpts res h => refine_ring_mono sqrt ring keep touchpts res h⟩

/-- Witness for C16: on the dented hexagon `add_tiepoint` at vertex 5 fails
after it has set the flags 4 and 5; the three flags it was given are still
set. -/
theorem keep_flags_only_grow_witness :
    add_tiepoint ring_dent [true, true, true, false, false, false] 5
        = .ok (true, [true, true, true, false, true, true]) ∧
      keep_le [true, true, true, false, false, false] [true, true, true, false, true, true] :=
  ⟨by decide!,
   (keep_flags_only_grow sqrt_trunc ring_dent [true, true, true, false, false, false]).2.1 5
     (true, [true, true, true, false, true, true]) (by decide!)⟩

/-- C17. When `keep_linears` returns 0 the keep array and the touch points it
was given are unchanged, and when `refine_seg` returns a negative index (its
`-1`) the keep array it was given is unchanged: the candidates are tried on
scratch copies. -/
theorem refinement_commits_on_success (sqrt : ℚ → ℚ) (ring : Ring) (keep_orig : List Bool)
    (from_idx to_idx : Nat) :
    (∀ touchpts keep touch,
      keep_linears sqrt ring keep_orig from_idx to_idx touchpts = .ok (false, keep, touch) →
      keep = keep_orig ∧ touch = touchpts) ∧
    (∀ touchpt keep,
      refine_seg sqrt ring keep_orig from_idx to_idx = .ok (touchpt, keep) →
      touchpt < 0 → touchpt = -1 ∧ keep = keep_orig) := by
  refine ⟨fun touchpts keep touch h =>
    keep_linears_false sqrt ring keep_orig from_idx to_idx touchpts keep touch h, ?_⟩
  intro touchpt keep h hneg
  refine ⟨?_, refine_seg_none sqrt ring keep_orig from_idx to_idx touchpt keep h (by omega)⟩
  unfold refine_seg at h
  dsimp only at h
  split at h
  · cases h
  · split at h
    · cases h
    · rename_i st hloop
      have hinv := refine_seg_loop_touchpt sqrt ring keep_orig from_idx to_idx _ _ _ _ _
        (fun _ => rfl) hloop
      split at h
      · rename_i hbest
        injection h with h
        injection h with h1 h2
        subst h1
        exact absurd (hinv hneg) hbest
      · injection h with h
        injection h with h1 h2
        exact h1.symm

/-- Witness for C17: on the dented hexagon, in the gap from vertex 2 round to
vertex 0, `add_tiepoint` fails for the candidates 4 and 5 after setting flags
in the scratch copy and the candidate 3 brings no improvement; `refine_seg`
returns `-1` and `keep_linears` returns 0, both with the flags they were
given. -/
theorem refinement_commits_on_success_witness :
    add_tiepoint ring_dent [true, true, true, false, false, false] 4
        = .ok (true, [true, true, true, false, true, false]) ∧
      refine_seg sqrt_trunc ring_dent [true, true, true, false, false, false] 2 0
        = .ok (-1, [true, true, true, false, false, false]) ∧
      keep_linears sqrt_trunc ring_dent [true, true, true, false, false, false] 2 0
          (List.replicate 6 false)
        = .ok (false, [true, true, true, false, false, false], List.replicate 6 false) :=
  ⟨by decide!,
   by
    have h : ∃ r, refine_seg sqrt_trunc ring_dent [true, true, true, false, false, false] 2 0
        = .ok r ∧ r.1 < 0 := ⟨(-1, [true, true, true, false, false, false]), by decide!, by decide⟩
    obtain ⟨⟨t, k⟩, h1, h2⟩ := h
    obtain ⟨e1, e2⟩ := (refinement_commits_on_success sqrt_trunc ring_dent
      [true, true, true, false, false, false] 2 0).2 t k h1 h2
    rw [h1, e1, e2],
   by decide!⟩


/-! ## The error flag of `find_next_convex` -/

/-- An angle difference is below the constant `M_PI` exactly when it is below
`π` as a direction. -/
theorem lt_pi_const (a : AngDiff) : a.lt AngDiff.pi = a.lt_pi := by
  cases a with
  | nan => rfl
  | turn c s =>
    have h2 : (AngDiff.turn (-1) 0).lt_pi = false := by decide
    by_cases h1 : (AngDiff.turn c s).lt_pi = true
    · simp [AngDiff.lt, AngDiff.pi, h1, h2]
    · have h1' : (AngDiff.turn c s).lt_pi = false := by simpa using h1
      have hs : ¬ (0 : ℚ) < s := by
        intro hs
        simp [AngDiff.lt_pi, hs] at h1'
      simp [AngDiff.lt, AngDiff.pi, h1', h2, hs]

/-- An angle difference below one that is below `π` is below `π`. -/
theorem lt_pi_of_lt (a b : AngDiff) (h : a.lt b = true) (hb : b.lt_pi = true) :
    a.lt_pi = true := by
  cases a with
  | nan => simp [AngDiff.lt] at h
  | turn c1 s1 =>
    cases b with
    | nan => simp [AngDiff.lt] at h
    | turn c2 s2 =>
      by_contra h1
      have h1' : (AngDiff.turn c1 s1).lt_pi = false := by simpa using h1
      simp [AngDiff.lt, h1', hb] at h

/-- In the scan of `find_next_convex` a selected vertex always comes with a
`min_angdiff` below `π`; with no vertex selected `min_angdiff` is still `M_PI`. -/
theorem find_next_convex_scan_inv (pts : List Vertex) (v0 : Vertex) (limit_idx : Nat)
    (start_ang : Angle) :
    ∀ (l : List Nat) (st st' : ScanState),
      find_next_convex_scan pts v0 limit_idx start_ang l st = some st' →
      ((st.best_vert = none ∧ st.min_angdiff = AngDiff.pi) ∨
        (st.best_vert ≠ none ∧ st.min_angdiff.lt_pi = true)) →
      ((st'.best_vert = none ∧ st'.min_angdiff = AngDiff.pi) ∨
        (st'.best_vert ≠ none ∧ st'.min_angdiff.lt_pi = true)) := by
  intro l
  induction l with
  | nil =>
    intro st st' h hinv
    simp [find_next_convex_scan] at h
    subst h
    exact hinv
  | cons i rest ih =>
    intro st st' h hinv
    unfold find_next_convex_scan at h
    dsimp only at h
    split at h
    · exact absurd h (by simp)
    · have hst2 : ∀ st2 : ScanState,
          st2 = (if (angdiff (seg_ang v0 (vtx pts i)) start_ang).lt st.min_angdiff = true then
            { min_angdiff := angdiff (seg_ang v0 (vtx pts i)) start_ang,
              last_ad := some (angdiff (seg_ang v0 (vtx pts i)) start_ang),
              best_vert := some i, best_segang := seg_ang v0 (vtx pts i) }
          else
            { min_angdiff := st.min_angdiff,
              last_ad := some (angdiff (seg_ang v0 (vtx pts i)) start_ang),
              best_vert := st.best_vert, best_segang := st.best_segang }) →
          ((st2.best_vert = none ∧ st2.min_angdiff = AngDiff.pi) ∨
            (st2.best_vert ≠ none ∧ st2.min_angdiff.lt_pi = true)) := by
        intro st2 e
        by_cases hlt : (angdiff (seg_ang v0 (vtx pts i)) start_ang).lt st.min_angdiff = true
        · rw [if_pos hlt] at e
          subst e
          right
          refine ⟨by simp, ?_⟩
          rcases hinv with ⟨_, hm⟩ | ⟨_, hm⟩
          · rw [hm, lt_pi_const] at hlt; exact hlt
          · exact lt_pi_of_lt _ _ hlt hm
        · rw [if_neg hlt] at e
          subst e
          exact hinv
      by_cases hlim : i = limit_idx
      · rw [if_pos hlim] at h
        injection h with h
        exact hst2 st' h.symm
      · rw [if_neg hlim] at h
        exact ih _ st' h (hst2 _ rfl)

/-- A scan of `find_next_convex` in which no scanned candidate has an angle
difference below `min_angdiff` leaves the selection as it was. -/
theorem find_next_convex_scan_keeps (pts : List Vertex) (v0 : Vertex) (limit_idx : Nat)
    (start_ang : Angle) :
    ∀ (l : List Nat) (st st' : ScanState),
      (∀ i ∈ scan_prefix limit_idx l,
        (angdiff (seg_ang v0 (vtx pts i)) start_ang).lt st.min_angdiff = false) →
      find_next_convex_scan pts v0 limit_idx start_ang l st = some st' →
      st'.best_vert = st.best_vert ∧ st'.min_angdiff = st.min_angdiff := by
  intro l
  induction l with
  | nil =>
    intro st st' _ h
    simp [find_next_convex_scan] at h
    subst h
    exact ⟨rfl, rfl⟩
  | cons i rest ih =>
    intro st st' hall h
    have hi : (angdiff (seg_ang v0 (vtx pts i)) start_ang).lt st.min_angdiff = false := by
      apply hall
      unfold scan_prefix
      split <;> simp
    unfold find_next_convex_scan at h
    dsimp only at h
    split at h
    · exact absurd h (by simp)
    · simp only [hi, Bool.false_eq_true, if_false] at h
      by_cases hlim : i = limit_idx
      · rw [if_pos hlim] at h
        injection h with h
        subst h
        exact ⟨rfl, rfl⟩
      · rw [if_neg hlim] at h
        have hrec := ih
          { min_angdiff := st.min_angdiff,
            last_ad := some (angdiff (seg_ang v0 (vtx pts i)) start_ang),
            best_vert := st.best_vert, best_segang := st.best_segang } st'
          (fun j hj => hall j (by
            unfold scan_prefix
            rw [if_neg hlim]
            exact List.mem_cons_of_mem _ hj)) h
        exact hrec


/-- An angle difference in `[π, 2π)` is not below the constant `M_PI`. -/
theorem not_lt_pi_of_ge_pi (a : AngDiff) (h : a.ge_pi = true) : a.lt AngDiff.pi = false := by
  rw [lt_pi_const]
  cases a with
  | nan => rfl
  | turn c s => simpa [AngDiff.ge_pi] using h

/-- C18 (amended). `find_next_convex` sets its error flag exactly when the
ray-crossing check fires during the scan; the test `min_angdiff >= M_PI` never
does, because a vertex is only selected at an angle difference below the
initial `min_angdiff = M_PI`.  When the check does not fire and every scanned
candidate has an angle difference in `[π, 2π)`, nothing is selected and the
result is `limit_idx` with a NaN angle and the error flag not set. -/
theorem find_next_convex_error_flag (ring : Ring) (start_idx limit_idx : Nat)
    (start_ang : Angle) :
    ((find_next_convex ring start_idx limit_idx start_ang).error = true ↔
      find_next_convex_scan ring.pts (vtx ring.pts start_idx) limit_idx start_ang
        (cyc_after ring.pts.length start_idx) ⟨AngDiff.pi, none, none, .atan2 0 1⟩ = none) ∧
    (find_next_convex_scan ring.pts (vtx ring.pts start_idx) limit_idx start_ang
        (cyc_after ring.pts.length start_idx) ⟨AngDiff.pi, none, none, .atan2 0 1⟩ ≠ none →
      (∀ i ∈ scanned ring.pts.length start_idx limit_idx,
        (angdiff (seg_ang (vtx ring.pts start_idx) (vtx ring.pts i)) start_ang).ge_pi = true) →
      find_next_convex ring start_idx limit_idx start_ang = ⟨false, limit_idx, .nan⟩) := by
  unfold find_next_convex
  dsimp only
  cases hscan : find_next_convex_scan ring.pts (vtx ring.pts start_idx) limit_idx start_ang
      (cyc_after ring.pts.length start_idx) ⟨AngDiff.pi, none, none, .atan2 0 1⟩ with
  | none =>
    dsimp only
    exact ⟨⟨fun _ => rfl, fun _ => rfl⟩, fun h => absurd rfl h⟩
  | some st =>
    dsimp only
    have hinv := find_next_convex_scan_inv ring.pts _ limit_idx start_ang _ _ st hscan
      (Or.inl ⟨rfl, rfl⟩)
    cases hb : st.best_vert with
    | none =>
      dsimp only
      exact ⟨⟨fun h => by simp at h, fun h => by simp at h⟩, fun _ _ => rfl⟩
    | some v =>
      dsimp only
      have hlt : st.min_angdiff.lt_pi = true := by
        rcases hinv with ⟨h1, _⟩ | ⟨_, h2⟩
        · rw [hb] at h1; simp at h1
        · exact h2
      have hge : st.min_angdiff.ge_pi = false := by
        cases hm : st.min_angdiff with
        | nan => rfl
        | turn c s => rw [hm] at hlt; simp [AngDiff.ge_pi, hlt]
      rw [hge]
      simp only [Bool.false_eq_true, if_false]
      refine ⟨⟨fun h => by simp at h, fun h => by simp at h⟩, fun _ hall => ?_⟩
      exfalso
      have hk := find_next_convex_scan_keeps ring.pts (vtx ring.pts start_idx) limit_idx
        start_ang (cyc_after ring.pts.length start_idx) ⟨AngDiff.pi, none, none, .atan2 0 1⟩ st
        (fun i hi => not_lt_pi_of_ge_pi _ (hall i hi)) hscan
      rw [hb] at hk
      simp at hk

/-- C18 as stated fails on the simple counter-clockwise octagon `ring_spur`,
for the call that `reach_point` makes when `add_tiepoint` tries vertex 4 between
the kept vertices 3 and 6: from vertex 3, with the direction to vertex 6 as
reference and vertex 4 as limit, the only scanned candidate is vertex 4, at an
angle difference in `(π, 2π)`; the ray-crossing check has nothing to compare,
and the result is vertex 4 with a NaN angle and no error. -/
theorem find_next_convex_wrong_side_accepted :
    is_simple_ring ring_spur.pts ∧ ring_is_ccw ring_spur = true ∧
      scanned ring_spur.pts.length 3 4 = [4] ∧
      angdiff (seg_ang (vtx ring_spur.pts 3) (vtx ring_spur.pts 4))
          (seg_ang (vtx ring_spur.pts 3) (vtx ring_spur.pts 6)) = .turn (-3) (-5) ∧
      (AngDiff.turn (-3) (-5)).ge_pi = true ∧
      find_next_convex ring_spur 3 4 (seg_ang (vtx ring_spur.pts 3) (vtx ring_spur.pts 6))
        = ⟨false, 4, .nan⟩ := by
  decide!


/-! ## The intersection test of `reach_point` -/

/-- Segments whose bounding boxes are apart do not intersect for
`line_intersects_line`. -/
theorem line_intersects_line_apart (p1 p2 p3 p4 : Vertex) (f : Bool)
    (h : max p1.x p2.x < min p3.x p4.x ∨ min p1.x p2.x > max p3.x p4.x ∨
      max p1.y p2.y < min p3.y p4.y ∨ min p1.y p2.y > max p3.y p4.y) :
    line_intersects_line p1 p2 p3 p4 f = 0 := by
  unfold line_intersects_line
  rw [if_pos h]

/-- When the guarded test of `reach_point` does not hit for an edge that shares
no endpoint index with the new segment, `line_intersects_line` reports no
intersection of the two. -/
theorem seg_hits_false (pts : List Vertex) (pk nk i i2 : Nat)
    (h : seg_hits pts pk nk i i2 = false)
    (h1 : i ≠ pk) (h2 : i ≠ nk) (h3 : i2 ≠ pk) (h4 : i2 ≠ nk) :
    line_intersects_line (vtx pts pk) (vtx pts nk) (vtx pts i) (vtx pts i2) false = 0 := by
  unfold seg_hits at h
  dsimp only at h
  split at h
  · simpa using h
  · rename_i hc
    have hc' := not_not.mp hc
    apply line_intersects_line_apart
    rcases hc' with a | a | a | a | a | a | a | a
    · exact Or.inl a
    · exact Or.inr (Or.inl a)
    · exact Or.inr (Or.inr (Or.inl a))
    · exact Or.inr (Or.inr (Or.inr a))
    · exact absurd a h1
    · exact absurd a h2
    · exact absurd a h3
    · exact absurd a h4

/-- The checking loop of `reach_point`, when it ends without a hit: for every
kept vertex `pk` it passes before it gets to `to_idx`, the guarded test missed
on every edge of the ring. -/
theorem reach_point_check_clear (pts : List Vertex) (npts : Nat) (keep : List Bool)
    (to_idx : Nat) :
    ∀ (fuel pk : Nat), reach_point_check pts npts keep to_idx fuel pk = .ok false →
      ∀ k, (∀ j, j ≤ k → (next_keep npts keep)^[j] pk ≠ to_idx) →
        ∀ i, i < npts →
          seg_hits pts ((next_keep npts keep)^[k] pk)
            (next_keep npts keep ((next_keep npts keep)^[k] pk))
            i (if i + 1 < npts then i + 1 else 0) = false := by
  intro fuel
  induction fuel with
  | zero => intro pk h; simp [reach_point_check] at h
  | succ fuel ih =>
    intro pk h k hk i hi
    unfold reach_point_check at h
    dsimp only at h
    split at h
    · rename_i hpk
      exact absurd hpk (hk 0 (Nat.zero_le _))
    · split at h
      · simp at h
      · rename_i hany
        split at h
        · cases h
        · simp at h
        · cases k with
          | zero =>
            rw [Function.iterate_zero, id]
            have hany' : ((List.range npts).any fun i =>
                seg_hits pts pk (next_keep npts keep pk) i
                  (if i + 1 < npts then i + 1 else 0)) = false := by
              simpa using hany
            rw [List.any_eq_false] at hany'
            have := hany' i (List.mem_range.mpr hi)
            simpa using this
          | succ k =>
            rw [Function.iterate_succ_apply]
            refine ih _ h k (fun j hj => ?_) i hi
            have := hk (j + 1) (by omega)
            rw [Function.iterate_succ_apply] at this
            exact this

/-- C19. When `reach_point` reports success, every segment between a kept
vertex `pk` on the way from `from_idx` to `to_idx` and its next kept vertex
`nk` is free of every edge `(i, i+1 mod n)` of the ring that shares no endpoint
index with it: `line_intersects_line` reports no intersection.  The kept
vertices on the way are those reached from `from_idx` by `next_keep` before
`to_idx` is reached. -/
theorem reach_point_success_clear (ring : Ring) (keep : List Bool) (from_idx to_idx : Nat)
    (ang : Angle) (keep1 : List Bool)
    (h : reach_point ring keep from_idx to_idx ang = .ok (false, keep1)) :
    ∀ k, (∀ j, j ≤ k → (next_keep ring.pts.length keep1)^[j] from_idx ≠ to_idx) →
      ∀ i, i < ring.pts.length →
        i ≠ (next_keep ring.pts.length keep1)^[k] from_idx →
        i ≠ next_keep ring.pts.length keep1 ((next_keep ring.pts.length keep1)^[k] from_idx) →
        (i + 1) % ring.pts.length ≠ (next_keep ring.pts.length keep1)^[k] from_idx →
        (i + 1) % ring.pts.length
          ≠ next_keep ring.pts.length keep1 ((next_keep ring.pts.length keep1)^[k] from_idx) →
        line_intersects_line
          (vtx ring.pts ((next_keep ring.pts.length keep1)^[k] from_idx))
          (vtx ring.pts
            (next_keep ring.pts.length keep1 ((next_keep ring.pts.length keep1)^[k] from_idx)))
          (vtx ring.pts i) (vtx ring.pts ((i + 1) % ring.pts.length)) false = 0 := by
  intro k hk i hi h1 h2 h3 h4
  have hi2 : (if i + 1 < ring.pts.length then i + 1 else 0) = (i + 1) % ring.pts.length := by
    rcases Nat.lt_or_ge 1 ring.pts.length with hn | hn
    · rw [cyc_add_eq ring.pts.length i 1 hi hn]
      split <;> omega
    · have hn1 : ring.pts.length = 1 := by omega
      have hi0 : i = 0 := by omega
      rw [hn1, hi0]
      rfl
  unfold reach_point at h
  dsimp only at h
  split at h
  · cases h
  · cases h
  · rename_i keep2 hstep
    split at h
    · cases h
    · rename_i err hcheck
      injection h with h
      injection h with e1 e2
      subst e1
      subst e2
      have := reach_point_check_clear ring.pts ring.pts.length keep2 to_idx _ _ hcheck k hk i hi
      rw [hi2] at this
      exact seg_hits_false ring.pts _ _ i _ this h1 h2 h3 h4

/-- Witness for C19: on the dented hexagon, with the vertices 0 to 3 kept,
`reach_point` from vertex 3 to vertex 0 succeeds and keeps vertex 5 on the way;
the new segment from vertex 3 to vertex 5 is free of the ring edge from vertex
0 to vertex 1. -/
theorem reach_point_success_clear_witness :
    reach_point ring_dent [true, true, true, true, false, false] 3 0
        (seg_ang (vtx ring_dent.pts 3) (vtx ring_dent.pts 2))
      = .ok (false, [true, true, true, true, false, true]) ∧
    next_keep ring_dent.pts.length [true, true, true, true, false, true] 3 = 5 ∧
    line_intersects_line (vtx ring_dent.pts 3) (vtx ring_dent.pts 5)
      (vtx ring_dent.pts 0) (vtx ring_dent.pts 1) false = 0 :=
  ⟨by decide!, by decide!,
   reach_point_success_clear ring_dent [true, true, true, true, false, false] 3 0
     (seg_ang (vtx ring_dent.pts 3) (vtx ring_dent.pts 2))
     [true, true, true, true, false, true] (by decide!) 0
     (fun j hj => by
       have hj0 : j = 0 := by omega
       subst hj0
       decide)
     0 (by decide) (by decide) (by decide) (by decide) (by decide)⟩


/-! ## The segment intersection test -/

/-- A point of the line through `a` and `b`, which differ in their first
coordinate, whose first coordinate lies between theirs is a point of the
segment from `a` to `b`. -/
theorem on_seg (ax ay bx by' qx qy : ℚ)
    (hc : (bx - ax) * (qy - ay) - (by' - ay) * (qx - ax) = 0) (hne : ax ≠ bx)
    (h1 : min ax bx ≤ qx) (h2 : qx ≤ max ax bx) :
    ∃ t : ℚ, 0 ≤ t ∧ t ≤ 1 ∧ qx = ax + t * (bx - ax) ∧ qy = ay + t * (by' - ay) := by
  have hd : bx - ax ≠ 0 := sub_ne_zero.mpr (Ne.symm hne)
  refine ⟨(qx - ax) / (bx - ax), ?_, ?_, ?_, ?_⟩
  · rcases lt_or_gt_of_ne hne with h | h
    · rw [min_eq_left (le_of_lt h)] at h1
      exact div_nonneg (by linarith) (by linarith)
    · rw [max_eq_left (le_of_lt h)] at h2
      exact div_nonneg_of_nonpos (by linarith) (by linarith)
  · rcases lt_or_gt_of_ne hne with h | h
    · rw [max_eq_right (le_of_lt h)] at h2
      rw [div_le_one (by linarith)]
      linarith
    · rw [min_eq_right (le_of_lt h)] at h1
      rw [div_le_one_of_neg (by linarith)]
      linarith
  · field_simp
  · have : (qy - ay) * (bx - ax) = (qx - ax) * (by' - ay) := by linarith
    field_simp
    linarith

/-- A convex combination of two numbers lies between them. -/
theorem conv_between (a b s : ℚ) (h0 : 0 ≤ s) (h1 : s ≤ 1) :
    min a b ≤ a + s * (b - a) ∧ a + s * (b - a) ≤ max a b := by
  rcases le_total a b with h | h
  · rw [min_eq_left h, max_eq_right h]
    constructor
    · nlinarith
    · nlinarith
  · rw [min_eq_right h, max_eq_left h]
    constructor
    · nlinarith
    · nlinarith

/-- Two collinear segments whose ranges of first coordinates overlap, the first
of them not vertical, have a point in common: an end of one of them lies on the
other. -/
theorem collinear_meet (x1 y1 x2 y2 x3 y3 x4 y4 : ℚ)
    (hd : (y4 - y3) * (x2 - x1) - (x4 - x3) * (y2 - y1) = 0)
    (ha : (x4 - x3) * (y1 - y3) - (y4 - y3) * (x1 - x3) = 0)
    (hb : (x2 - x1) * (y1 - y3) - (y2 - y1) * (x1 - x3) = 0)
    (hne : x1 ≠ x2)
    (hov1 : min x3 x4 ≤ max x1 x2) (hov2 : min x1 x2 ≤ max x3 x4) :
    ∃ s t : ℚ, 0 ≤ s ∧ s ≤ 1 ∧ 0 ≤ t ∧ t ≤ 1 ∧
      x1 + s * (x2 - x1) = x3 + t * (x4 - x3) ∧
      y1 + s * (y2 - y1) = y3 + t * (y4 - y3) := by
  by_cases h3 : min x1 x2 ≤ x3 ∧ x3 ≤ max x1 x2
  · obtain ⟨s, s0, s1, ex, ey⟩ := on_seg x1 y1 x2 y2 x3 y3 (by linarith) hne h3.1 h3.2
    exact ⟨s, 0, s0, s1, le_refl _, by norm_num, by linarith, by linarith⟩
  by_cases h4 : min x1 x2 ≤ x4 ∧ x4 ≤ max x1 x2
  · obtain ⟨s, s0, s1, ex, ey⟩ := on_seg x1 y1 x2 y2 x4 y4 (by linarith) hne h4.1 h4.2
    exact ⟨s, 1, s0, s1, by norm_num, le_refl _, by linarith, by linarith⟩
  have hm : min x1 x2 ≤ x1 := min_le_left _ _
  have hM : x1 ≤ max x1 x2 := le_max_left _ _
  have hmM : min x1 x2 ≤ max x1 x2 := le_trans hm hM
  have key : x3 ≠ x4 ∧ min x3 x4 ≤ x1 ∧ x1 ≤ max x3 x4 := by
    rcases lt_or_le x3 (min x1 x2) with a3 | a3
    · rcases lt_or_le x4 (min x1 x2) with a4 | a4
      · exact absurd hov2 (not_le.mpr (max_lt a3 a4))
      · have b4 : max x1 x2 < x4 := by
          by_contra hc
          exact h4 ⟨a4, not_lt.mp hc⟩
        refine ⟨by intro e; rw [e] at a3; linarith, ?_, ?_⟩
        · exact le_trans (min_le_left _ _) (by linarith)
        · exact le_trans (by linarith) (le_max_right _ _)
    · have b3 : max x1 x2 < x3 := by
        by_contra hc
        exact h3 ⟨a3, not_lt.mp hc⟩
      rcases lt_or_le x4 (min x1 x2) with a4 | a4
      · refine ⟨by intro e; rw [e] at b3; linarith, ?_, ?_⟩
        · exact le_trans (min_le_right _ _) (by linarith)
        · exact le_trans (by linarith) (le_max_left _ _)
      · have b4 : max x1 x2 < x4 := by
          by_contra hc
          exact h4 ⟨a4, not_lt.mp hc⟩
        exact absurd hov1 (not_le.mpr (lt_min b3 b4))
  obtain ⟨t, t0, t1, ex, ey⟩ := on_seg x3 y3 x4 y4 x1 y1 (by linarith) key.1 key.2.1 key.2.2
  exact ⟨0, t, le_refl _, by norm_num, t0, t1, by linarith, by linarith⟩

/-- Having a point in common does not depend on the order of the two
segments. -/
theorem segments_meet_comm (p1 p2 p3 p4 : Vertex) (h : segments_meet p3 p4 p1 p2) :
    segments_meet p1 p2 p3 p4 := by
  obtain ⟨s, t, s0, s1, t0, t1, ex, ey⟩ := h
  exact ⟨t, s, t0, t1, s0, s1, ex.symm, ey.symm⟩

/-- Collinear segments whose bounding boxes overlap have a point in common. -/
theorem coincident_meet (p1 p2 p3 p4 : Vertex)
    (hbox : ¬(max p1.x p2.x < min p3.x p4.x ∨ min p1.x p2.x > max p3.x p4.x ∨
      max p1.y p2.y < min p3.y p4.y ∨ min p1.y p2.y > max p3.y p4.y))
    (hd : (p4.y - p3.y) * (p2.x - p1.x) - (p4.x - p3.x) * (p2.y - p1.y) = 0)
    (ha : (p4.x - p3.x) * (p1.y - p3.y) - (p4.y - p3.y) * (p1.x - p3.x) = 0)
    (hb : (p2.x - p1.x) * (p1.y - p3.y) - (p2.y - p1.y) * (p1.x - p3.x) = 0) :
    segments_meet p1 p2 p3 p4 := by
  simp only [not_or, not_lt, gt_iff_lt] at hbox
  obtain ⟨b1, b2, b3, b4⟩ := hbox
  by_cases hx12 : p1.x ≠ p2.x
  · exact collinear_meet _ _ _ _ _ _ _ _ hd ha hb hx12 b1 b2
  by_cases hy12 : p1.y ≠ p2.y
  · obtain ⟨s, t, s0, s1, t0, t1, ey, ex⟩ := collinear_meet p1.y p1.x p2.y p2.x p3.y p3.x
      p4.y p4.x (by linarith) (by linarith) (by linarith) hy12 b3 b4
    exact ⟨s, t, s0, s1, t0, t1, ex, ey⟩
  by_cases hx34 : p3.x ≠ p4.x
  · apply segments_meet_comm
    exact collinear_meet p3.x p3.y p4.x p4.y p1.x p1.y p2.x p2.y (by linarith) (by linarith)
      (by linarith) hx34 b2 b1
  by_cases hy34 : p3.y ≠ p4.y
  · apply segments_meet_comm
    obtain ⟨s, t, s0, s1, t0, t1, ey, ex⟩ := collinear_meet p3.y p3.x p4.y p4.x p1.y p1.x
      p2.y p2.x (by linarith) (by linarith) (by linarith) hy34 b4 b3
    exact ⟨s, t, s0, s1, t0, t1, ex, ey⟩
  have e1 : p1.x = p2.x := not_not.mp hx12
  have e2 : p1.y = p2.y := not_not.mp hy12
  have e3 : p3.x = p4.x := not_not.mp hx34
  have e4 : p3.y = p4.y := not_not.mp hy34
  rw [← e1, ← e3, max_self, min_self] at b1 b2
  rw [← e2, ← e4, max_self, min_self] at b3 b4
  exact ⟨0, 0, le_refl _, by norm_num, le_refl _, by norm_num, by linarith, by linarith⟩

/-- C13. Over exact arithmetic `line_intersects_line(p1, p2, p3, p4, 0)` is
non-zero if and only if the closed segments `p1 p2` and `p3 p4` have a point in
common, segments of length 0 included. -/
theorem line_intersects_line_iff_meet (p1 p2 p3 p4 : Vertex) :
    line_intersects_line p1 p2 p3 p4 false ≠ 0 ↔ segments_meet p1 p2 p3 p4 := by
  constructor
  · intro h
    unfold line_intersects_line at h
    by_cases hbox : max p1.x p2.x < min p3.x p4.x ∨ min p1.x p2.x > max p3.x p4.x ∨
        max p1.y p2.y < min p3.y p4.y ∨ min p1.y p2.y > max p3.y p4.y
    · rw [if_pos hbox] at h
      exact absurd rfl h
    · rw [if_neg hbox] at h
      dsimp only at h
      by_cases hd : (p4.y - p3.y) * (p2.x - p1.x) - (p4.x - p3.x) * (p2.y - p1.y) = 0
      · rw [if_pos hd] at h
        by_cases hn : (p4.x - p3.x) * (p1.y - p3.y) - (p4.y - p3.y) * (p1.x - p3.x) = 0 ∧
            (p2.x - p1.x) * (p1.y - p3.y) - (p2.y - p1.y) * (p1.x - p3.x) = 0
        · exact coincident_meet p1 p2 p3 p4 hbox hd hn.1 hn.2
        · rw [if_neg hn] at h
          exact absurd rfl h
      · rw [if_neg hd] at h
        by_cases hu :
            ((p4.x - p3.x) * (p1.y - p3.y) - (p4.y - p3.y) * (p1.x - p3.x)) /
                ((p4.y - p3.y) * (p2.x - p1.x) - (p4.x - p3.x) * (p2.y - p1.y)) ≥ 0 ∧
            ((p4.x - p3.x) * (p1.y - p3.y) - (p4.y - p3.y) * (p1.x - p3.x)) /
                ((p4.y - p3.y) * (p2.x - p1.x) - (p4.x - p3.x) * (p2.y - p1.y)) ≤ 1 ∧
            ((p2.x - p1.x) * (p1.y - p3.y) - (p2.y - p1.y) * (p1.x - p3.x)) /
                ((p4.y - p3.y) * (p2.x - p1.x) - (p4.x - p3.x) * (p2.y - p1.y)) ≥ 0 ∧
            ((p2.x - p1.x) * (p1.y - p3.y) - (p2.y - p1.y) * (p1.x - p3.x)) /
                ((p4.y - p3.y) * (p2.x - p1.x) - (p4.x - p3.x) * (p2.y - p1.y)) ≤ 1
        · obtain ⟨u1, u2, u3, u4⟩ := hu
          refine ⟨_, _, u1, u2, u3, u4, ?_, ?_⟩
          · field_simp
            ring
          · field_simp
            ring
        · rw [if_neg hu] at h
          exact absurd rfl h
  · rintro ⟨s, t, s0, s1, t0, t1, ex, ey⟩
    obtain ⟨a1, a2⟩ := conv_between p1.x p2.x s s0 s1
    obtain ⟨a3, a4⟩ := conv_between p3.x p4.x t t0 t1
    obtain ⟨a5, a6⟩ := conv_between p1.y p2.y s s0 s1
    obtain ⟨a7, a8⟩ := conv_between p3.y p4.y t t0 t1
    have hbox : ¬(max p1.x p2.x < min p3.x p4.x ∨ min p1.x p2.x > max p3.x p4.x ∨
        max p1.y p2.y < min p3.y p4.y ∨ min p1.y p2.y > max p3.y p4.y) := by
      rintro (c | c | c | c)
      · linarith
      · have : min p1.x p2.x > max p3.x p4.x := c
        linarith
      · linarith
      · have : min p1.y p2.y > max p3.y p4.y := c
        linarith
    have hna : (p4.x - p3.x) * (p1.y - p3.y) - (p4.y - p3.y) * (p1.x - p3.x)
        = s * ((p4.y - p3.y) * (p2.x - p1.x) - (p4.x - p3.x) * (p2.y - p1.y)) := by
      linear_combination (p4.x - p3.x) * ey - (p4.y - p3.y) * ex
    have hnb : (p2.x - p1.x) * (p1.y - p3.y) - (p2.y - p1.y) * (p1.x - p3.x)
        = t * ((p4.y - p3.y) * (p2.x - p1.x) - (p4.x - p3.x) * (p2.y - p1.y)) := by
      linear_combination (p2.x - p1.x) * ey - (p2.y - p1.y) * ex
    unfold line_intersects_line
    rw [if_neg hbox]
    dsimp only
    by_cases hd : (p4.y - p3.y) * (p2.x - p1.x) - (p4.x - p3.x) * (p2.y - p1.y) = 0
    · rw [if_pos hd, if_pos ⟨by rw [hna, hd, mul_zero], by rw [hnb, hd, mul_zero]⟩]
      simp
    · rw [if_neg hd, hna, hnb, mul_div_assoc, mul_div_assoc, div_self hd, mul_one, mul_one,
        if_pos ⟨s0, s1, t0, t1⟩]
      simp


/-! ## Gaps of zero area -/

/-- A zero result of `subring_area` is a zero shoelace sum. -/
theorem subring_area_zero (ring : Ring) (a b : Nat)
    (h : subring_area ring a b = .ok 0) : subring_accum ring a b = 0 := by
  unfold subring_area at h
  dsimp only at h
  split at h
  · cases h
  · injection h with h
    linarith

/-- When the gap after every kept index of the list has a zero shoelace sum,
the outer loop of `refine_ring` over that list changes nothing. -/
theorem refine_ring_loop_zero_mem (sqrt : ℚ → ℚ) (ring : Ring) (keep touchpts : List Bool) :
    ∀ idxs : List Nat,
      (∀ i ∈ idxs, flag keep i = true →
        subring_accum ring i (next_keep ring.pts.length keep i) = 0) →
      refine_ring_loop sqrt ring idxs keep touchpts = .ok (keep, touchpts) := by
  intro idxs
  induction idxs with
  | nil => intro _; rfl
  | cons i rest ih =>
    intro h
    unfold refine_ring_loop
    by_cases hf : flag keep i = true
    · simp only [hf, Bool.not_true, Bool.false_eq_true, if_false,
        refine_ring_gap_zero sqrt ring i _ keep touchpts (h i (List.mem_cons_self _ _) hf)]
      exact ih (fun j hj => h j (List.mem_cons_of_mem _ hj))
    · simp only [hf, Bool.not_false, if_true]
      exact ih (fun j hj => h j (List.mem_cons_of_mem _ hj))

/-- C21. When `subring_area(i, next_keep(i))` is 0 at every kept vertex `i`,
`refine_ring` returns with the keep flags and the touch points it was given:
at every kept vertex the inner loop is left in its first pass, for every square
root function, since `keep_linears` and `refine_seg` stand behind the test
`area > 0`.  The gap between a vertex and its successor always has area 0. -/
theorem refine_ring_skips_zero_gaps (sqrt : ℚ → ℚ) (ring : Ring) (keep touchpts : List Bool)
    (h : ∀ i, i < ring.pts.length → flag keep i = true →
      subring_area ring i (next_keep ring.pts.length keep i) = .ok 0) :
    refine_ring sqrt ring keep touchpts = .ok (keep, touchpts) ∧
    (∀ i, i < ring.pts.length → flag keep i = true →
      refine_ring_gap sqrt ring i 1 keep touchpts = .ok (keep, touchpts)) ∧
    (∀ i, i < ring.pts.length → subring_area ring i ((i + 1) % ring.pts.length) = .ok 0) := by
  refine ⟨?_, ?_, ?_⟩
  · unfold refine_ring
    apply refine_ring_loop_zero_mem
    intro i hi hf
    exact subring_area_zero ring _ _ (h i (List.mem_range.mp hi) hf)
  · intro i hi hf
    exact refine_ring_gap_zero sqrt ring i 0 keep touchpts
      (subring_area_zero ring _ _ (h i hi hf))
  · intro i hi
    unfold subring_area
    simp [subring_accum_adjacent ring i hi]

/-- Witness for C21: on the pentagon with a vertex on one of its sides, with
that vertex not kept, every gap has area 0 and `refine_ring` changes nothing. -/
theorem refine_ring_skips_zero_gaps_witness :
    next_keep ring_flat.pts.length [true, false, true, true, true] 0 = 2 ∧
      subring_area ring_flat 0 2 = .ok 0 ∧
      refine_ring sqrt_trunc ring_flat [true, false, true, true, true]
          (List.replicate 5 false)
        = .ok ([true, false, true, true, true], List.replicate 5 false) :=
  ⟨by decide!, by decide!,
   (refine_ring_skips_zero_gaps sqrt_trunc ring_flat [true, false, true, true, true]
     (List.replicate 5 false) (by decide!)).1⟩


/-! ## The intersection point of two lines -/

/-- C25. Over exact arithmetic `line_line_intersection` fails with "lines are
parallel" exactly when `denom = 0`; otherwise the lines through `p1`, `p2` and
through `p3`, `p4` are proper lines (`p1 ≠ p2`, `p3 ≠ p4`) and the point written
lies on both: it is `p1 + s (p2 - p1)` and `p3 + t (p4 - p3)` for some `s`,
`t`, and it is collinear with `p1`, `p2` and with `p3`, `p4`. -/
theorem line_line_intersection_on_both_lines (p1 p2 p3 p4 : Vertex) :
    (line_line_intersection p1 p2 p3 p4 = .error (.fatal "lines are parallel") ↔
      (p4.y - p3.y) * (p2.x - p1.x) - (p4.x - p3.x) * (p2.y - p1.y) = 0) ∧
    ((p4.y - p3.y) * (p2.x - p1.x) - (p4.x - p3.x) * (p2.y - p1.y) ≠ 0 →
      p1 ≠ p2 ∧ p3 ≠ p4 ∧
      ∃ p s t, line_line_intersection p1 p2 p3 p4 = .ok p ∧
        p.x = p1.x + s * (p2.x - p1.x) ∧ p.y = p1.y + s * (p2.y - p1.y) ∧
        p.x = p3.x + t * (p4.x - p3.x) ∧ p.y = p3.y + t * (p4.y - p3.y) ∧
        cross2 p1 p2 p = 0 ∧ cross2 p3 p4 p = 0) := by
  constructor
  · unfold line_line_intersection
    dsimp only
    constructor
    · intro h
      by_contra hd
      rw [if_neg hd] at h
      cases h
    · intro hd
      rw [if_pos hd]
  · intro hd
    refine ⟨?_, ?_, ?_⟩
    · intro e
      apply hd
      rw [e]
      ring
    · intro e
      apply hd
      rw [e]
      ring
    · have hres : line_line_intersection p1 p2 p3 p4 = .ok
          { x := p1.x + ((p4.x - p3.x) * (p1.y - p3.y) - (p4.y - p3.y) * (p1.x - p3.x)) /
              ((p4.y - p3.y) * (p2.x - p1.x) - (p4.x - p3.x) * (p2.y - p1.y)) * (p2.x - p1.x),
            y := p1.y + ((p4.x - p3.x) * (p1.y - p3.y) - (p4.y - p3.y) * (p1.x - p3.x)) /
              ((p4.y - p3.y) * (p2.x - p1.x) - (p4.x - p3.x) * (p2.y - p1.y)) * (p2.y - p1.y) } := by
        unfold line_line_intersection
        dsimp only
        rw [if_neg hd]
      refine ⟨_, ((p4.x - p3.x) * (p1.y - p3.y) - (p4.y - p3.y) * (p1.x - p3.x)) /
          ((p4.y - p3.y) * (p2.x - p1.x) - (p4.x - p3.x) * (p2.y - p1.y)),
        ((p2.x - p1.x) * (p1.y - p3.y) - (p2.y - p1.y) * (p1.x - p3.x)) /
          ((p4.y - p3.y) * (p2.x - p1.x) - (p4.x - p3.x) * (p2.y - p1.y)), hres, rfl, rfl,
        ?_, ?_, ?_, ?_⟩
      · dsimp only
        field_simp
        ring
      · dsimp only
        field_simp
        ring
      · unfold cross2
        dsimp only
        field_simp
        ring
      · unfold cross2
        dsimp only
        field_simp
        ring

/-- Witness for C25: the diagonals of the square with corners `(0, 0)` and
`(2, 2)` are not parallel and meet in `(1, 1)`, which lies on both. -/
theorem line_line_intersection_on_both_lines_witness :
    line_line_intersection ⟨0, 0⟩ ⟨2, 2⟩ ⟨0, 2⟩ ⟨2, 0⟩ = .ok ⟨1, 1⟩ ∧
      ∃ p s t, line_line_intersection ⟨0, 0⟩ ⟨2, 2⟩ ⟨0, 2⟩ ⟨2, 0⟩ = .ok p ∧
        p.x = (⟨0, 0⟩ : Vertex).x + s * ((⟨2, 2⟩ : Vertex).x - (⟨0, 0⟩ : Vertex).x) ∧
        p.y = (⟨0, 0⟩ : Vertex).y + s * ((⟨2, 2⟩ : Vertex).y - (⟨0, 0⟩ : Vertex).y) ∧
        p.x = (⟨0, 2⟩ : Vertex).x + t * ((⟨2, 0⟩ : Vertex).x - (⟨0, 2⟩ : Vertex).x) ∧
        p.y = (⟨0, 2⟩ : Vertex).y + t * ((⟨2, 0⟩ : Vertex).y - (⟨0, 2⟩ : Vertex).y) ∧
        cross2 ⟨0, 0⟩ ⟨2, 2⟩ p = 0 ∧ cross2 ⟨0, 2⟩ ⟨2, 0⟩ p = 0 :=
  ⟨by decide!,
   ((line_line_intersection_on_both_lines ⟨0, 0⟩ ⟨2, 2⟩ ⟨0, 2⟩ ⟨2, 0⟩).2 (by decide!)).2.2⟩


/-! ## Orientation normalisation -/

/-- Vertex `j` of a point array after the assignment `pts[i] = v`. -/
theorem vtx_set (p : List Vertex) (i j : Nat) (v : Vertex) (hi : i < p.length) :
    vtx (p.set i v) j = if j = i then v else vtx p j := by
  unfold vtx
  by_cases h : j = i
  · subst h
    simp [List.getD_eq_getElem?_getD, List.getElem?_set, hi]
  · have h2 : i ≠ j := fun e => h e.symm
    simp [List.getD_eq_getElem?_getD, List.getElem?_set, h, h2]

/-- Vertex `j` of a point array, for an index inside the array. -/
theorem vtx_eq_getElem (p : List Vertex) (j : Nat) (h : j < p.length) :
    vtx p j = p.get ⟨j, h⟩ := by
  simp [vtx, List.getD_eq_getElem?_getD, List.getElem?_eq_getElem h]

/-- The swap loop after its first `k` rounds: the first `k` and the last `k`
vertices are exchanged, the others are in place. -/
theorem reverse_loop_inv (pts : List Vertex) :
    ∀ k, k ≤ pts.length / 2 →
      ((List.range k).foldl (fun p i =>
          (p.set i (vtx p (pts.length - 1 - i))).set (pts.length - 1 - i) (vtx p i)) pts).length
        = pts.length ∧
      ∀ j, j < pts.length →
        vtx ((List.range k).foldl (fun p i =>
          (p.set i (vtx p (pts.length - 1 - i))).set (pts.length - 1 - i) (vtx p i)) pts) j
          = if j < k ∨ pts.length - 1 - k < j then vtx pts (pts.length - 1 - j)
            else vtx pts j := by
  intro k
  induction k with
  | zero =>
    intro _
    refine ⟨rfl, fun j hj => ?_⟩
    rw [if_neg (by omega)]
    rfl
  | succ k ih =>
    intro hk
    obtain ⟨hlen, hv⟩ := ih (by omega)
    rw [List.range_succ, List.foldl_append, List.foldl_cons, List.foldl_nil]
    generalize (List.range k).foldl (fun p i =>
      (p.set i (vtx p (pts.length - 1 - i))).set (pts.length - 1 - i) (vtx p i)) pts = P
      at hlen hv ⊢
    have hk2 : 2 * (k + 1) ≤ pts.length := by omega
    refine ⟨by simp [hlen], fun j hj => ?_⟩
    have a1 := vtx_set (P.set k (vtx P (pts.length - 1 - k))) (pts.length - 1 - k) j (vtx P k)
      (by rw [List.length_set, hlen]; omega)
    have a2 := vtx_set P k j (vtx P (pts.length - 1 - k)) (by rw [hlen]; omega)
    have b1 := hv k (by omega)
    have b2 := hv (pts.length - 1 - k) (by omega)
    rw [if_neg (by omega)] at b1 b2
    rw [a1, a2, b1, b2, hv j hj]
    by_cases h1 : j = pts.length - 1 - k
    · rw [if_pos h1, if_pos (by omega), h1]
      congr 1
      omega
    · rw [if_neg h1]
      by_cases h2 : j = k
      · rw [if_pos h2, if_pos (by omega), h2]
      · rw [if_neg h2]
        by_cases h3 : j < k ∨ pts.length - 1 - k < j
        · rw [if_pos h3, if_pos (by omega)]
        · rw [if_neg h3, if_neg (by omega)]

/-- The swap loop of `pinch_ring_excursions` reverses the vertex order. -/
theorem reverse_loop_eq (pts : List Vertex) : reverse_loop pts = pts.reverse := by
  obtain ⟨hlen, hv⟩ := reverse_loop_inv pts (pts.length / 2) (le_refl _)
  unfold reverse_loop
  dsimp only
  apply List.ext_getElem
  · rw [hlen, List.length_reverse]
  · intro j h1 h2
    rw [hlen] at h1
    have e1 := hv j h1
    have e2 := vtx_reverse pts j h1
    have e3 : vtx pts (pts.length - 1 - j) = vtx pts.reverse j := e2.symm
    have hmid : ¬(j < pts.length / 2 ∨ pts.length - 1 - pts.length / 2 < j) →
        pts.length - 1 - j = j := by
      intro h
      omega
    have e4 : vtx ((List.range (pts.length / 2)).foldl (fun p i =>
          (p.set i (vtx p (pts.length - 1 - i))).set (pts.length - 1 - i) (vtx p i)) pts) j
        = vtx pts.reverse j := by
      rw [e1]
      by_cases h : j < pts.length / 2 ∨ pts.length - 1 - pts.length / 2 < j
      · rw [if_pos h, e3]
      · rw [if_neg h, ← e3, hmid h]
    rw [vtx_eq_getElem _ _ (by rw [hlen]; exact h1), vtx_eq_getElem _ _ h2] at e4
    exact e4

/-- C26. The working ring of `pinch_ring_excursions` after the reversal step
has the absolute value of the input's signed area as its signed area: the swap
loop reverses the vertex order, reversing negates `ring_oriented_area`, and the
loop runs exactly when the input is not counter-clockwise. -/
theorem oriented_ring_abs_area (ring_in : Ring) :
    ring_oriented_area (oriented_ring ring_in) = |ring_oriented_area ring_in| ∧
    ring_oriented_area { ring_in with pts := reverse_loop ring_in.pts }
      = - ring_oriented_area ring_in ∧
    (oriented_ring ring_in).pts
      = (if ring_is_ccw ring_in then ring_in.pts else reverse_loop ring_in.pts) ∧
    (ring_is_ccw ring_in = true ↔ 0 < ring_oriented_area ring_in) := by
  refine ⟨oriented_ring_area ring_in, ?_, ?_, ?_⟩
  · rw [reverse_loop_eq]
    exact ring_oriented_area_reverse ring_in
  · rw [reverse_loop_eq]
    unfold oriented_ring
    by_cases hc : ring_is_ccw ring_in = true <;> simp [hc]
  · unfold ring_is_ccw
    simp


/-! ## Area decomposition over the kept vertices -/

/-- Halving every term halves a sum over consecutive pairs. -/
theorem pair_sum_half (G : Nat → Nat → ℚ) : ∀ K : List Nat,
    pair_sum (fun a b => G a b / 2) K = pair_sum G K / 2 := by
  intro K
  induction K with
  | nil => simp [pair_sum]
  | cons a rest ih =>
    cases rest with
    | nil => simp [pair_sum]
    | cons b rest =>
      simp only [pair_sum] at ih ⊢
      rw [ih]; ring

/-- Along a chain of next kept indices, the sum of a gap function over every
index with its `next_keep` is the sum over the consecutive pairs plus the term
of the last index. -/
theorem chain_sum_next_keep (n : Nat) (keep : List Bool) (G : Nat → Nat → ℚ) :
    ∀ (L : List Nat) (x : Nat), List.Chain (gap_rel n keep) x L →
      ((x :: L).map fun i => G i (next_keep n keep i)).sum
        = pair_sum G (x :: L)
          + G ((x :: L).getLast (List.cons_ne_nil _ _))
              (next_keep n keep ((x :: L).getLast (List.cons_ne_nil _ _))) := by
  intro L
  induction L with
  | nil => intro x _; simp [pair_sum]
  | cons y L ih =>
    intro x hc
    rw [List.chain_cons] at hc
    obtain ⟨⟨h1, h2, h3, h4⟩, hc'⟩ := hc
    have hnk := next_keep_linear n keep x y h1 h2 h3 h4
    rw [List.map_cons, List.sum_cons, ih y hc', pair_sum, hnk,
      List.getLast_cons (List.cons_ne_nil _ _)]
    ring

/-- C27. Area decomposition: for a keep-set with at least two kept vertices
whose `subring_area` calls all succeed, the signed area of the polygon of the
kept vertices is `ring_oriented_area(ring)` plus the sum of
`subring_area(i, next_keep(i))` over the kept vertices `i`; so it is not
smaller than the signed area of the ring. -/
theorem kept_polygon_area (ring : Ring) (keep : List Bool) (meta : Ring) (areas : Nat → ℚ)
    (h2 : 2 ≤ (kept_idx ring.pts.length keep).length)
    (hA : ∀ i ∈ kept_idx ring.pts.length keep,
      subring_area ring i (next_keep ring.pts.length keep i) = .ok (areas i)) :
    ring_oriented_area { meta with pts := kept_pts ring.pts keep }
      = ring_oriented_area ring + ((kept_idx ring.pts.length keep).map areas).sum ∧
    ring_oriented_area ring
      ≤ ring_oriented_area { meta with pts := kept_pts ring.pts keep } := by
  have hcases := kept_range_cases ring.pts.length keep ring.pts.length 0 (by omega)
  rw [← List.range_eq_range'] at hcases
  have hK : kept_idx ring.pts.length keep = (List.range ring.pts.length).filter (flag keep) := rfl
  rcases hcases with h | ⟨f, L, h1, _, h3, h4, h5, h6, h7⟩
  · rw [hK, h] at h2
    simp at h2
  · rw [← hK] at h1
    have hL : L ≠ [] := by
      intro e
      rw [h1, e] at h2
      simp at h2
    have hdec := area_decomposition ring keep f L h1 hL meta
    obtain ⟨g1, g2, g3, g4⟩ := gap_chain_last _ keep L f h6 h3 h4
    have hwrap : next_keep ring.pts.length keep ((f :: L).getLast (List.cons_ne_nil _ _)) = f :=
      next_keep_wrap ring.pts.length keep _ f g2 g1 h4 (fun z hz => h5 z (Nat.zero_le _) hz) h7
    have hsum := chain_sum_next_keep ring.pts.length keep
      (fun a b => subring_accum ring a b / 2) L f h6
    rw [pair_sum_half, hwrap] at hsum
    have hmap : (kept_idx ring.pts.length keep).map areas
        = (f :: L).map fun i => subring_accum ring i (next_keep ring.pts.length keep i) / 2 := by
      rw [h1]
      apply List.map_congr_left
      intro i hi
      have := hA i (by rw [h1]; exact hi)
      exact (subring_area_ok ring _ _ _ this).2
    have hnn : 0 ≤ ((kept_idx ring.pts.length keep).map areas).sum := by
      apply List.sum_nonneg
      intro a ha
      obtain ⟨i, hi, rfl⟩ := List.mem_map.mp ha
      obtain ⟨q1, q2⟩ := subring_area_ok ring _ _ _ (hA i hi)
      rw [q2]
      linarith
    have heq : ring_oriented_area { meta with pts := kept_pts ring.pts keep }
        = ring_oriented_area ring + ((kept_idx ring.pts.length keep).map areas).sum := by
      rw [hmap, hsum]
      linarith
    exact ⟨heq, by linarith⟩

/-- Witness for C27: the notched pentagon with its four hull vertices kept; the
notch has area 1, the pentagon area 3 and the square of the kept vertices
area 4. -/
theorem kept_polygon_area_witness :
    ring_oriented_area ring_notch = 3 ∧
      ring_oriented_area { ring_notch with
        pts := kept_pts ring_notch.pts [true, true, false, true, true] }
        = ring_oriented_area ring_notch
          + ((kept_idx ring_notch.pts.length [true, true, false, true, true]).map
              fun i => if i = 1 then (1 : ℚ) else 0).sum :=
  ⟨by decide!,
   (kept_polygon_area ring_notch [true, true, false, true, true] ring_notch
     (fun i => if i = 1 then 1 else 0) (by decide!) (by decide!)).1⟩


/-! ## Termination and size of the reconciliation -/

/-- Deleting a ring at an index inside the list removes exactly one ring. -/
theorem deleteRing_length (rings : List Ring) (idx : Nat) (h : idx < rings.length) :
    (deleteRing rings idx).length + 1 = rings.length := by
  unfold deleteRing
  rw [List.length_map, List.length_eraseIdx, if_pos h]
  omega

/-- The first loop of `pinch_excursions2` returns one ring for every ring. -/
theorem pinch_rings_length (sqrt : ℚ → ℚ) :
    ∀ (rings outs : List Ring), pinch_rings sqrt rings = .ok outs →
      outs.length = rings.length := by
  intro rings
  induction rings with
  | nil => intro outs h; simp [pinch_rings] at h; subst h; rfl
  | cons r rest ih =>
    intro outs h
    unfold pinch_rings at h
    split at h
    · cases h
    · split at h
      · cases h
      · split at h
        · cases h
        · rename_i outs1 hrest
          injection h with h
          subst h
          simp [ih outs1 hrest]

/-- From any loop position with `r1_idx < r2_idx` the reconciliation loop
comes to an end, either with the fatal error of a failed union or with a list
that is not longer than the one it was given and not empty unless that one
was. -/
theorem reconcile_loop_size (rel : Ring → Ring → RingRelation)
    (un : Ring → Ring → OGRGeom) (rings : List Ring) (r1 r2 : Nat) (h12 : r1 < r2) :
    (∃ out, reconcile_loop rel un rings r1 r2 = .ok out ∧ out.length ≤ rings.length ∧
      (1 ≤ rings.length → 1 ≤ out.length)) ∨
    (∃ msg, reconcile_loop rel un rings r1 r2 = .error (.fatal msg)) := by
  induction rings, r1, r2 using reconcile_loop.induct rel un with
  | case1 rings r1 r2 h1 =>
    left
    refine ⟨rings, ?_, le_refl _, fun h => h⟩
    rw [reconcile_loop]; simp [h1]
  | case2 rings r1 r2 h1 h2 ih =>
    rw [reconcile_loop]; simp only [h1, h2, dite_false, dite_true]
    exact ih (by omega)
  | case3 rings r1 r2 h1 h2 ring1 ring2 hrel ih =>
    have hrel2 : rel (rings.getD r1 default) (rings.getD r2 default) = .RINGREL_CONTAINS := hrel
    have hlen := deleteRing_length rings r2 (by omega)
    rw [reconcile_loop, dif_neg h1, dif_neg h2]
    simp only [hrel2]
    rcases ih h12 with ⟨out, e, b1, b2⟩ | ⟨msg, e⟩
    · exact Or.inl ⟨out, e, by omega, fun _ => b2 (by omega)⟩
    · exact Or.inr ⟨msg, e⟩
  | case4 rings r1 r2 h1 h2 ring1 ring2 hrel ih =>
    have hrel2 : rel (rings.getD r1 default) (rings.getD r2 default)
        = .RINGREL_CONTAINED_BY := hrel
    have hlen := deleteRing_length rings r1 (by omega)
    rw [reconcile_loop, dif_neg h1, dif_neg h2]
    simp only [hrel2]
    rcases ih (by omega) with ⟨out, e, b1, b2⟩ | ⟨msg, e⟩
    · exact Or.inl ⟨out, e, by omega, fun _ => b2 (by omega)⟩
    · exact Or.inr ⟨msg, e⟩
  | case5 rings r1 r2 h1 h2 ring1 ring2 hrel e hun =>
    have hrel2 : rel (rings.getD r1 default) (rings.getD r2 default) = .RINGREL_CROSSES := hrel
    have hun2 : ring_ring_union un (rings.getD r1 default) (rings.getD r2 default)
        = .error e := hun
    right
    rw [reconcile_loop, dif_neg h1, dif_neg h2]
    simp only [hrel2, hun2]
    unfold ring_ring_union at hun2
    split at hun2
    · cases hun2; exact ⟨_, rfl⟩
    · cases hun2
    · cases hun2; exact ⟨_, rfl⟩
  | case6 rings r1 r2 h1 h2 ring1 ring2 hrel r3 hun ih =>
    have hrel2 : rel (rings.getD r1 default) (rings.getD r2 default) = .RINGREL_CROSSES := hrel
    have hun2 : ring_ring_union un (rings.getD r1 default) (rings.getD r2 default)
        = .ok r3 := hun
    have hlen := deleteRing_length rings r2 (by omega)
    have hlen2 : ((deleteRing rings r2).set r1 r3).length = (deleteRing rings r2).length :=
      List.length_set _ _ _
    rw [reconcile_loop, dif_neg h1, dif_neg h2]
    simp only [hrel2, hun2]
    rcases ih (by omega) with ⟨out, e, b1, b2⟩ | ⟨msg, e⟩
    · exact Or.inl ⟨out, e, by omega, fun _ => b2 (by omega)⟩
    · exact Or.inr ⟨msg, e⟩
  | case7 rings r1 r2 h1 h2 ring1 ring2 hrel ih =>
    have hrel2 : rel (rings.getD r1 default) (rings.getD r2 default) = .RINGREL_DISJOINT := hrel
    rw [reconcile_loop, dif_neg h1, dif_neg h2]
    simp only [hrel2]
    exact ih (by omega)

/-- C29. For any classifier and any union function the reconciliation loop of
`pinch_excursions2` comes to an end, with a list of rings or with the fatal
error of a failed union; a list it returns has at most as many rings as the
list it started from and at least one ring when that one had one.  At a pair
`r1_idx < rings.size()`, `r2_idx < rings.size()` a contains, contained-by or
crosses answer continues the loop on a list that is exactly one ring shorter.
The same bounds hold for the rings of `pinch_excursions2` against its input. -/
theorem reconciliation_terminates (rel : Ring → Ring → RingRelation)
    (un : Ring → Ring → OGRGeom) (rings : List Ring) :
    ((∃ out, reconcile rel un rings = .ok out ∧ out.length ≤ rings.length ∧
        (1 ≤ rings.length → 1 ≤ out.length)) ∨
      (∃ msg, reconcile rel un rings = .error (.fatal msg))) ∧
    (∀ r1 r2, r1 < rings.length → r2 < rings.length →
      (rel (rings.getD r1 default) (rings.getD r2 default) = .RINGREL_CONTAINS →
        reconcile_loop rel un rings r1 r2
          = reconcile_loop rel un (deleteRing rings r2) r1 r2 ∧
        (deleteRing rings r2).length + 1 = rings.length) ∧
      (rel (rings.getD r1 default) (rings.getD r2 default) = .RINGREL_CONTAINED_BY →
        reconcile_loop rel un rings r1 r2
          = reconcile_loop rel un (deleteRing rings r1) r1 (r1 + 1) ∧
        (deleteRing rings r1).length + 1 = rings.length) ∧
      (rel (rings.getD r1 default) (rings.getD r2 default) = .RINGREL_CROSSES →
        ∀ r3, ring_ring_union un (rings.getD r1 default) (rings.getD r2 default) = .ok r3 →
          reconcile_loop rel un rings r1 r2
            = reconcile_loop rel un ((deleteRing rings r2).set r1 r3) r1 (r1 + 1) ∧
          ((deleteRing rings r2).set r1 r3).length + 1 = rings.length)) ∧
    (∀ (sqrt : ℚ → ℚ) (mp_in mp_out : Mpoly), mp_in.rings = rings →
      pinch_excursions2 sqrt rel un mp_in = .ok mp_out →
      mp_out.rings.length ≤ rings.length ∧ (1 ≤ rings.length → 1 ≤ mp_out.rings.length)) := by
  refine ⟨reconcile_loop_size rel un rings 0 1 (by omega), ?_, ?_⟩
  · intro r1 r2 h1 h2
    refine ⟨fun hrel => ?_, fun hrel => ?_, fun hrel r3 hun => ?_⟩
    · refine ⟨?_, deleteRing_length rings r2 h2⟩
      rw [reconcile_loop, dif_neg (by omega), dif_neg (by omega)]
      simp only [hrel]
    · refine ⟨?_, deleteRing_length rings r1 h1⟩
      rw [reconcile_loop, dif_neg (by omega), dif_neg (by omega)]
      simp only [hrel]
    · refine ⟨?_, ?_⟩
      · rw [reconcile_loop, dif_neg (by omega), dif_neg (by omega)]
        simp only [hrel, hun]
      · rw [List.length_set]
        exact deleteRing_length rings r2 h2
  · intro sqrt mp_in mp_out hin h
    unfold pinch_excursions2 at h
    split at h
    · cases h
    · rename_i pinched hp
      have hlen := pinch_rings_length sqrt _ _ hp
      rw [hin] at hlen
      split at h
      · cases h
      · rename_i out hrec
        injection h with h
        subst h
        dsimp only
        unfold reconcile at hrec
        rcases reconcile_loop_size rel un pinched 0 1 (by omega) with ⟨o, e, b1, b2⟩ | ⟨msg, e⟩
        · rw [e] at hrec
          injection hrec with hrec
          subst hrec
          exact ⟨by omega, fun h1 => b2 (by omega)⟩
        · rw [e] at hrec
          cases hrec

/-- Witness for C29: in the annulus scenario three rings go in, one crossing
step merges two of them, and two rings come out. -/
theorem reconciliation_terminates_witness :
    reconcile rel_annulus union_annulus [ring_A, ring_B, ring_C] = .ok [ring_A, ring_U] ∧
      ((∃ out, reconcile rel_annulus union_annulus [ring_A, ring_B, ring_C] = .ok out ∧
          out.length ≤ [ring_A, ring_B, ring_C].length ∧
          (1 ≤ [ring_A, ring_B, ring_C].length → 1 ≤ out.length)) ∨
        (∃ msg, reconcile rel_annulus union_annulus [ring_A, ring_B, ring_C]
          = .error (.fatal msg))) :=
  ⟨by decide!, (reconciliation_terminates rel_annulus union_annulus [ring_A, ring_B, ring_C]).1⟩


/-! ## The length of the flag arrays -/

/-- The stepping loop of `reach_point` keeps the length of the flag array. -/
theorem reach_point_step_length (ring : Ring) (to_idx : Nat) :
    ∀ (fuel idx : Nat) (ang : Angle) (keep : List Bool) (res : Bool × List Bool),
      reach_point_step ring to_idx fuel idx ang keep = .ok res →
      res.2.length = keep.length := by
  intro fuel
  induction fuel with
  | zero => intro idx ang keep res h; simp [reach_point_step] at h
  | succ fuel ih =>
    intro idx ang keep res h
    unfold reach_point_step at h
    dsimp only at h
    split at h
    · cases h; rfl
    · split at h
      · cases h; exact List.length_set _ _ _
      · rw [ih _ _ _ _ h]; exact List.length_set _ _ _

/-- `reach_point` keeps the length of the flag array. -/
theorem reach_point_length (ring : Ring) (keep : List Bool) (from_idx to_idx : Nat)
    (ang : Angle) (res : Bool × List Bool)
    (h : reach_point ring keep from_idx to_idx ang = .ok res) :
    res.2.length = keep.length := by
  unfold reach_point at h
  dsimp only at h
  split at h
  · cases h
  · rename_i keep1 hstep
    cases h
    exact reach_point_step_length ring to_idx _ _ _ _ _ hstep
  · rename_i keep1 hstep
    split at h
    · cases h
    · cases h
      exact reach_point_step_length ring to_idx _ _ _ _ (false, keep1) hstep

/-- `add_tiepoint` keeps the length of the flag array. -/
theorem add_tiepoint_length (ring : Ring) (keep : List Bool) (mid : Nat)
    (res : Bool × List Bool) (h : add_tiepoint ring keep mid = .ok res) :
    res.2.length = keep.length := by
  unfold add_tiepoint at h
  dsimp only at h
  split at h
  · cases h
  · rename_i keep1 h1
    cases h
    rw [reach_point_length ring _ _ _ _ _ h1]
    exact List.length_set _ _ _
  · rename_i keep1 h1
    split at h
    · cases h
    · rw [reach_point_length ring _ _ _ _ _ h]
      have := reach_point_length ring _ _ _ _ _ h1
      dsimp only at this
      rw [this]
      exact List.length_set _ _ _

/-- A fold of assignments `keep[i] = true` keeps the length of the flag array. -/
theorem foldl_set_length (idxs : List Nat) :
    ∀ k : List Bool, (idxs.foldl (fun k i => k.set i true) k).length = k.length := by
  induction idxs with
  | nil => intro k; rfl
  | cons i rest ih => intro k; rw [List.foldl_cons, ih]; exact List.length_set _ _ _

/-- The outer loop of `keep_linears` keeps the length of the flag array. -/
theorem keep_linears_loop_length (sqrt : ℚ → ℚ) (ring : Ring) (from_idx to_idx : Nat) :
    ∀ (ls : List Nat) (keep_orig touchpts : List Bool) (res : Bool × List Bool × List Bool),
      keep_linears_loop sqrt ring from_idx to_idx ls keep_orig touchpts = .ok res →
      res.2.1.length = keep_orig.length := by
  intro ls
  induction ls with
  | nil => intro keep_orig touchpts res h; simp [keep_linears_loop] at h; subst h; rfl
  | cons l_idx rest ih =>
    intro keep_orig touchpts res h
    unfold keep_linears_loop at h
    dsimp only at h
    split at h
    · split at h
      · cases h
      · rename_i err1 keep1 h1
        have hm1 : keep1.length = keep_orig.length := by
          split at h1
          · exact add_tiepoint_length ring _ _ _ h1
          · cases h1; rfl
        split at h
        · cases h
        · rename_i err2 keep2 h2
          have hm2 : keep2.length = keep1.length := by
            split at h2
            · exact add_tiepoint_length ring _ _ _ h2
            · cases h2; rfl
          split at h
          · cases h
            dsimp only
            rw [foldl_set_length, hm2, hm1]
          · exact ih _ _ _ h
    · exact ih _ _ _ h

/-- `keep_linears` keeps the length of the flag array. -/
theorem keep_linears_length (sqrt : ℚ → ℚ) (ring : Ring) (keep_orig : List Bool)
    (from_idx to_idx : Nat) (touchpts : List Bool) (res : Bool × List Bool × List Bool)
    (h : keep_linears sqrt ring keep_orig from_idx to_idx touchpts = .ok res) :
    res.2.1.length = keep_orig.length := by
  unfold keep_linears at h
  dsimp only at h
  split at h
  · cases h; rfl
  · exact keep_linears_loop_length sqrt ring from_idx to_idx _ _ _ _ h

/-- The candidate loop of `refine_seg` keeps in `keep_best` an array of the
length of `keep_orig`. -/
theorem refine_seg_loop_length (sqrt : ℚ → ℚ) (ring : Ring) (keep_orig : List Bool)
    (from_idx to_idx : Nat) (start_area start_perim : ℚ) :
    ∀ (ts : List Nat) (st res : BestState), st.keep_best.length = keep_orig.length →
      refine_seg_loop sqrt ring keep_orig from_idx to_idx start_area start_perim ts st = .ok res →
      res.keep_best.length = keep_orig.length := by
  intro ts
  induction ts with
  | nil => intro st res hst h; simp [refine_seg_loop] at h; subst h; exact hst
  | cons testpt rest ih =>
    intro st res hst h
    unfold refine_seg_loop at h
    dsimp only at h
    split at h
    · cases h
    · exact ih _ _ hst h
    · rename_i keep_new hadd
      split at h
      · cases h
      · split at h
        · cases h
        · refine ih _ _ ?_ h
          split
          · exact add_tiepoint_length ring _ _ _ hadd
          · exact hst

/-- `refine_seg` keeps the length of the flag array. -/
theorem refine_seg_length (sqrt : ℚ → ℚ) (ring : Ring) (keep_orig : List Bool)
    (from_idx to_idx : Nat) (res : Int × List Bool)
    (h : refine_seg sqrt ring keep_orig from_idx to_idx = .ok res) :
    res.2.length = keep_orig.length := by
  unfold refine_seg at h
  dsimp only at h
  split at h
  · cases h
  · split at h
    · cases h
    · rename_i st hloop
      split at h
      · cases h
        exact refine_seg_loop_length sqrt ring keep_orig from_idx to_idx _ _ _ _ _ rfl hloop
      · cases h; rfl


/-! ## The runs committed by `keep_linears` -/

/-- The inner loop of `keep_linears`: a value of `longest` other than the one
the loop starts with is one of the right ends tried, passes the linearity
test, and the first right end tried alone has brought `perim` over
`min_length`. -/
theorem keep_linears_longest_spec (sqrt : ℚ → ℚ) (ring : Ring) (l_idx : Nat) :
    ∀ (rs : List Nat) (perim : ℚ) (longest : Nat),
      keep_linears_longest sqrt ring l_idx rs perim longest = longest ∨
      (keep_linears_longest sqrt ring l_idx rs perim longest ∈ rs ∧
        is_mostly_linear sqrt ring l_idx
          (keep_linears_longest sqrt ring l_idx rs perim longest) = true ∧
        ∃ r rest, rs = r :: rest ∧
          perim + seg_len sqrt (vtx ring.pts ((r + ring.pts.length - 1) % ring.pts.length))
            (vtx ring.pts r) > min_length) := by
  intro rs
  induction rs with
  | nil => intro perim longest; exact Or.inl rfl
  | cons r rest ih =>
    intro perim longest
    unfold keep_linears_longest
    dsimp only
    split
    · rename_i hc
      right
      rcases ih (perim + seg_len sqrt (vtx ring.pts ((r + ring.pts.length - 1) % ring.pts.length))
          (vtx ring.pts r)) r with h | ⟨h1, h2, _⟩
      · rw [h]
        exact ⟨List.mem_cons_self _ _, hc.2, r, rest, rfl, hc.1⟩
      · exact ⟨List.mem_cons_of_mem _ h1, h2, r, rest, rfl, hc.1⟩
    · exact Or.inl rfl

/-- Flags set by a fold of assignments `keep[i] = true`. -/
theorem flag_foldl_set_mem (idxs : List Nat) :
    ∀ (k : List Bool) (x : Nat), x < k.length → (x ∈ idxs ∨ flag k x = true) →
      flag (idxs.foldl (fun k i => k.set i true) k) x = true := by
  induction idxs with
  | nil =>
    intro k x _ h
    rcases h with h | h
    · cases h
    · exact h
  | cons i rest ih =>
    intro k x hx h
    rw [List.foldl_cons]
    apply ih _ x (by rw [List.length_set]; exact hx)
    rcases h with h | h
    · rcases List.mem_cons.mp h with e | e
      · subst e
        exact Or.inr (flag_set_self k x hx)
      · exact Or.inl e
    · exact Or.inr (flag_set_mono k i x h)

/-- The first element of the index list of a cyclic loop. -/
theorem cyc_range_head (n s t : Nat) (hs : s < n) :
    ∃ rest, cyc_range n s t = s :: rest := by
  unfold cyc_range
  rw [List.range_succ_eq_map, List.map_cons]
  exact ⟨_, by rw [Nat.add_zero, Nat.mod_eq_of_lt hs]⟩

/-- A committing pass of the outer loop of `keep_linears`: the run it commits. -/
theorem keep_linears_loop_run (sqrt : ℚ → ℚ) (ring : Ring) (from_idx to_idx : Nat) :
    ∀ (ls : List Nat) (keep_orig touchpts keep touch : List Bool),
      (∀ l ∈ ls, l < ring.pts.length) →
      keep_linears_loop sqrt ring from_idx to_idx ls keep_orig touchpts
        = .ok (true, keep, touch) →
      ∃ l_idx longest keep_new, l_idx ∈ ls ∧
        longest = keep_linears_longest sqrt ring l_idx
          (cyc_range ring.pts.length ((l_idx + 1) % ring.pts.length) to_idx) 0 l_idx ∧
        longest ≠ l_idx ∧
        longest ∈ cyc_range ring.pts.length ((l_idx + 1) % ring.pts.length) to_idx ∧
        is_mostly_linear sqrt ring l_idx longest = true ∧
        min_length < seg_len sqrt (vtx ring.pts l_idx)
          (vtx ring.pts ((l_idx + 1) % ring.pts.length)) ∧
        touch = (touchpts.set l_idx true).set longest true ∧
        keep_le keep_orig keep_new ∧ keep_new.length = keep_orig.length ∧
        keep = (cyc_range ring.pts.length l_idx longest).foldl (fun k i => k.set i true)
          keep_new := by
  intro ls
  induction ls with
  | nil =>
    intro keep_orig touchpts keep touch _ h
    simp [keep_linears_loop] at h
  | cons l_idx rest ih =>
    intro keep_orig touchpts keep touch hls h
    have hl : l_idx < ring.pts.length := hls l_idx (List.mem_cons_self _ _)
    have hrec : keep_linears_loop sqrt ring from_idx to_idx rest keep_orig touchpts
        = .ok (true, keep, touch) →
        ∃ l_idx1 longest keep_new, l_idx1 ∈ l_idx :: rest ∧
          longest = keep_linears_longest sqrt ring l_idx1
            (cyc_range ring.pts.length ((l_idx1 + 1) % ring.pts.length) to_idx) 0 l_idx1 ∧
          longest ≠ l_idx1 ∧
          longest ∈ cyc_range ring.pts.length ((l_idx1 + 1) % ring.pts.length) to_idx ∧
          is_mostly_linear sqrt ring l_idx1 longest = true ∧
          min_length < seg_len sqrt (vtx ring.pts l_idx1)
            (vtx ring.pts ((l_idx1 + 1) % ring.pts.length)) ∧
          touch = (touchpts.set l_idx1 true).set longest true ∧
          keep_le keep_orig keep_new ∧ keep_new.length = keep_orig.length ∧
          keep = (cyc_range ring.pts.length l_idx1 longest).foldl (fun k i => k.set i true)
            keep_new := by
      intro h'
      obtain ⟨l1, lg, kn, m, rest'⟩ := ih _ _ _ _
        (fun l hl' => hls l (List.mem_cons_of_mem _ hl')) h'
      exact ⟨l1, lg, kn, List.mem_cons_of_mem _ m, rest'⟩
    unfold keep_linears_loop at h
    dsimp only at h
    split at h
    · rename_i hne
      split at h
      · cases h
      · rename_i err1 kn1 h1
        split at h
        · cases h
        · rename_i err2 kn2 h2
          split at h
          · rename_i herr
            injection h with h
            injection h with _ h
            injection h with hk ht
            have hle1 : keep_le keep_orig kn1 := by
              split at h1
              · exact add_tiepoint_mono ring keep_orig l_idx _ h1
              · injection h1 with h1
                injection h1 with _ h1
                subst h1
                exact keep_le_refl _
            have hle2 : keep_le kn1 kn2 := by
              split at h2
              · exact add_tiepoint_mono ring kn1 _ _ h2
              · injection h2 with h2
                injection h2 with _ h2
                subst h2
                exact keep_le_refl _
            have hlen1 : kn1.length = keep_orig.length := by
              split at h1
              · exact add_tiepoint_length ring keep_orig l_idx _ h1
              · injection h1 with h1
                injection h1 with _ h1
                subst h1
                rfl
            have hlen2 : kn2.length = kn1.length := by
              split at h2
              · exact add_tiepoint_length ring kn1 _ _ h2
              · injection h2 with h2
                injection h2 with _ h2
                subst h2
                rfl
            obtain ⟨tl, htl⟩ := cyc_range_head ring.pts.length ((l_idx + 1) % ring.pts.length)
              to_idx (Nat.mod_lt _ (by omega))
            rcases keep_linears_longest_spec sqrt ring l_idx
              (cyc_range ring.pts.length ((l_idx + 1) % ring.pts.length) to_idx) 0 l_idx with
              e | ⟨m1, m2, r, rest1, e1, e2⟩
            · exact absurd e hne
            · rw [htl] at e1
              injection e1 with e1 _
              subst e1
              have e3 : ((l_idx + 1) % ring.pts.length + ring.pts.length - 1) % ring.pts.length
                  = l_idx := by
                rcases Nat.lt_or_ge (l_idx + 1) ring.pts.length with hlt | hge
                · rw [Nat.mod_eq_of_lt hlt]
                  have : l_idx + 1 + ring.pts.length - 1 = l_idx + ring.pts.length := by omega
                  rw [this, Nat.add_mod_right, Nat.mod_eq_of_lt hl]
                · have : l_idx + 1 = ring.pts.length := by omega
                  rw [this, Nat.mod_self, Nat.mod_eq_of_lt (by omega)]
                  omega
              rw [e3, zero_add] at e2
              exact ⟨l_idx, _, kn2, List.mem_cons_self _ _, rfl, hne, m1, m2, e2, ht.symm,
                keep_le_trans hle1 hle2, hlen2.trans hlen1, hk.symm⟩
          · exact hrec h
    · exact hrec h

/-- C22 (amended). Whenever `keep_linears` returns 1, the gap has a vertex
between its ends and the committed run `(l_idx .. longest)` starts at an index
`l_idx` of the gap other than `to`, ends at an index `longest` after it up to
`to`, with `longest ≠ l_idx`; its first edge, from `l_idx` to its successor,
is longer than `min_length = 20` and the run passes `is_mostly_linear`.  Both
ends are marked as touch points and every vertex of the run is kept.  The run
may be that first edge alone. -/
theorem keep_linears_committed_run (sqrt : ℚ → ℚ) (ring : Ring) (keep_orig : List Bool)
    (from_idx to_idx : Nat) (touchpts keep touch : List Bool)
    (hn : 0 < ring.pts.length)
    (h : keep_linears sqrt ring keep_orig from_idx to_idx touchpts = .ok (true, keep, touch)) :
    to_idx ≠ (from_idx + 1) % ring.pts.length ∧
    ∃ l_idx longest,
      l_idx ∈ ((List.range ((to_idx + ring.pts.length - from_idx) % ring.pts.length)).map
        fun k => (from_idx + k) % ring.pts.length) ∧
      longest ∈ cyc_range ring.pts.length ((l_idx + 1) % ring.pts.length) to_idx ∧
      longest ≠ l_idx ∧
      min_length < seg_len sqrt (vtx ring.pts l_idx)
        (vtx ring.pts ((l_idx + 1) % ring.pts.length)) ∧
      is_mostly_linear sqrt ring l_idx longest = true ∧
      touch = (touchpts.set l_idx true).set longest true ∧
      keep_le keep_orig keep ∧
      ∀ x ∈ cyc_range ring.pts.length l_idx longest, x < keep_orig.length →
        flag keep x = true := by
  unfold keep_linears at h
  dsimp only at h
  split at h
  · cases h
  · rename_i hne
    refine ⟨hne, ?_⟩
    obtain ⟨l_idx, longest, kn, m, _, h3, h4, h5, h6, h7, h8, h9, h10⟩ :=
      keep_linears_loop_run sqrt ring from_idx to_idx _ keep_orig touchpts keep touch
        (fun l hl => by
          obtain ⟨k, _, rfl⟩ := List.mem_map.mp hl
          exact Nat.mod_lt _ hn) h
    refine ⟨l_idx, longest, m, h4, h3, h6, h5, h7, ?_, ?_⟩
    · rw [h10]
      exact keep_le_trans h8 (keep_le_foldl_set _ _)
    · intro x hx hxl
      rw [h10]
      exact flag_foldl_set_mem _ _ _ (by rw [h9]; exact hxl) (Or.inl hx)

/-- Witness for C22 (amended): the gap from vertex 1 to vertex 3 of the
quadrilateral with the long edge, which has vertex 2 between its ends. -/
theorem keep_linears_committed_run_witness :
    keep_linears sqrt_trunc ring_long [true, true, false, true] 1 3 (List.replicate 4 false)
        = .ok (true, [true, true, true, true], [false, false, true, true]) ∧
      3 ≠ (1 + 1) % ring_long.pts.length :=
  ⟨by decide!,
   (keep_linears_committed_run sqrt_trunc ring_long [true, true, false, true] 1 3
     (List.replicate 4 false) [true, true, true, true] [false, false, true, true]
     (by decide) (by decide!)).1⟩

/-- C22 as stated fails on a simple counter-clockwise quadrilateral: in the gap
from vertex 1 to vertex 3 left by `find_chull`, `keep_linears` returns 1 for
the run with `l_idx = 2` and `longest = 3 = (l_idx + 1) mod 4`, the single edge
from `(2, 2)` to `(18, 16)` of length over 20; the touch points set are the
two ends of that run. -/
theorem keep_linears_commits_single_edge :
    is_simple_ring ring_long.pts ∧ ring_is_ccw ring_long = true ∧
      find_chull ring_long = .ok [true, true, false, true] ∧
      next_keep ring_long.pts.length [true, true, false, true] 1 = 3 ∧
      keep_linears sqrt_trunc ring_long [true, true, false, true] 1 3 (List.replicate 4 false)
        = .ok (true, [true, true, true, true], [false, false, true, true]) ∧
      keep_linears_longest sqrt_trunc ring_long 1 (cyc_range 4 ((1 + 1) % 4) 3) 0 1 = 1 ∧
      keep_linears_longest sqrt_trunc ring_long 2 (cyc_range 4 ((2 + 1) % 4) 3) 0 2 = 3 ∧
      3 = (2 + 1) % ring_long.pts.length := by
  decide!


/-! ## Selection by best improvement in `refine_seg` -/

/-- One round of the candidate loop of `refine_seg`, in terms of the score of
the test point. -/
theorem refine_seg_loop_cons (sqrt : ℚ → ℚ) (ring : Ring) (keep_orig : List Bool)
    (from_idx to_idx : Nat) (start_area start_perim : ℚ) (testpt : Nat) (rest : List Nat)
    (st : BestState) :
    refine_seg_loop sqrt ring keep_orig from_idx to_idx start_area start_perim
        (testpt :: rest) st
      = match refine_seg_candidate sqrt ring keep_orig from_idx to_idx start_area start_perim
            testpt with
        | .error e => .error e
        | .ok none =>
          refine_seg_loop sqrt ring keep_orig from_idx to_idx start_area start_perim rest st
        | .ok (some (improvement, keep_new)) =>
          refine_seg_loop sqrt ring keep_orig from_idx to_idx start_area start_perim rest
            (if improvement > st.best_improvement then
              { best_improvement := improvement, best_touchpt := (testpt : Int),
                keep_best := keep_new }
             else st) := by
  rw [refine_seg_loop]
  unfold refine_seg_candidate
  dsimp only
  split
  · rfl
  · rfl
  · split
    · rfl
    · split
      · rfl
      · rfl

/-- The candidate loop of `refine_seg`: every test point is scored, the best
improvement only grows and bounds the score of every accepted test point, and
the state is either the one the loop started with or that of the first test
point with the highest score, which is above the starting best improvement. -/
theorem refine_seg_loop_best (sqrt : ℚ → ℚ) (ring : Ring) (keep_orig : List Bool)
    (from_idx to_idx : Nat) (start_area start_perim : ℚ) :
    ∀ (ts : List Nat) (st res : BestState),
      refine_seg_loop sqrt ring keep_orig from_idx to_idx start_area start_perim ts st = .ok res →
      (∀ t ∈ ts, ∃ r, refine_seg_candidate sqrt ring keep_orig from_idx to_idx start_area
        start_perim t = .ok r) ∧
      st.best_improvement ≤ res.best_improvement ∧
      (∀ t ∈ ts, ∀ imp k, refine_seg_candidate sqrt ring keep_orig from_idx to_idx start_area
        start_perim t = .ok (some (imp, k)) → imp ≤ res.best_improvement) ∧
      (res = st ∨ ∃ (j t : Nat) (imp : ℚ), ts[j]? = some t ∧
        refine_seg_candidate sqrt ring keep_orig from_idx to_idx start_area start_perim t
          = .ok (some (imp, res.keep_best)) ∧
        res.best_improvement = imp ∧ res.best_touchpt = (t : Int) ∧
        st.best_improvement < imp ∧
        ∀ (j2 t2 : Nat) (imp2 : ℚ) (k2 : List Bool), j2 < j → ts[j2]? = some t2 →
          refine_seg_candidate sqrt ring keep_orig from_idx to_idx start_area start_perim t2
            = .ok (some (imp2, k2)) → imp2 < imp) := by
  intro ts
  induction ts with
  | nil =>
    intro st res h
    simp [refine_seg_loop] at h
    subst h
    exact ⟨fun t ht => absurd ht (List.not_mem_nil t), le_refl _,
      fun t ht => absurd ht (List.not_mem_nil t), Or.inl rfl⟩
  | cons t0 rest ih =>
    intro st res h
    rw [refine_seg_loop_cons] at h
    cases hc : refine_seg_candidate sqrt ring keep_orig from_idx to_idx start_area start_perim
        t0 with
    | error e => rw [hc] at h; cases h
    | ok r =>
      rw [hc] at h
      cases r with
      | none =>
        dsimp only at h
        obtain ⟨a1, a2, a3, a4⟩ := ih st res h
        refine ⟨?_, a2, ?_, ?_⟩
        · intro t ht
          rcases List.mem_cons.mp ht with e | e
          · subst e; exact ⟨_, hc⟩
          · exact a1 t e
        · intro t ht imp k hk
          rcases List.mem_cons.mp ht with e | e
          · subst e; rw [hc] at hk; cases hk
          · exact a3 t e imp k hk
        · rcases a4 with e | ⟨j, t, imp, b1, b2, b3, b4, b5, b6⟩
          · exact Or.inl e
          · refine Or.inr ⟨j + 1, t, imp, by simpa using b1, b2, b3, b4, b5, ?_⟩
            intro j2 t2 imp2 k2 hj2 ht2 hk2
            cases j2 with
            | zero =>
              simp at ht2
              subst ht2
              rw [hc] at hk2
              cases hk2
            | succ j2 =>
              exact b6 j2 t2 imp2 k2 (by omega) (by simpa using ht2) hk2
      | some p =>
        obtain ⟨imp0, k0⟩ := p
        dsimp only at h
        obtain ⟨a1, a2, a3, a4⟩ := ih _ res h
        have hst : st.best_improvement ≤
            (if imp0 > st.best_improvement then
              ({ best_improvement := imp0, best_touchpt := (t0 : Int), keep_best := k0 } :
                BestState)
             else st).best_improvement ∧
            imp0 ≤ (if imp0 > st.best_improvement then
              ({ best_improvement := imp0, best_touchpt := (t0 : Int), keep_best := k0 } :
                BestState)
             else st).best_improvement := by
          split
          · rename_i hgt
            exact ⟨le_of_lt hgt, le_refl _⟩
          · rename_i hgt
            exact ⟨le_refl _, not_lt.mp hgt⟩
        refine ⟨?_, le_trans hst.1 a2, ?_, ?_⟩
        · intro t ht
          rcases List.mem_cons.mp ht with e | e
          · subst e; exact ⟨_, hc⟩
          · exact a1 t e
        · intro t ht imp k hk
          rcases List.mem_cons.mp ht with e | e
          · subst e
            rw [hc] at hk
            injection hk with hk
            injection hk with hk
            injection hk with hk1 hk2
            subst hk1
            exact le_trans hst.2 a2
          · exact a3 t e imp k hk
        · rcases a4 with e | ⟨j, t, imp, b1, b2, b3, b4, b5, b6⟩
          · by_cases hgt : imp0 > st.best_improvement
            · rw [if_pos hgt] at e
              right
              refine ⟨0, t0, imp0, by simp, ?_, ?_, ?_, hgt, ?_⟩
              · rw [e]; exact hc
              · rw [e]
              · rw [e]
              · intro j2 t2 imp2 k2 hj2
                omega
            · rw [if_neg hgt] at e
              exact Or.inl e
          · refine Or.inr ⟨j + 1, t, imp, by simpa using b1, b2, b3, b4,
              lt_of_le_of_lt hst.1 b5, ?_⟩
            intro j2 t2 imp2 k2 hj2 ht2 hk2
            cases j2 with
            | zero =>
              simp at ht2
              subst ht2
              rw [hc] at hk2
              injection hk2 with hk2
              injection hk2 with hk2
              injection hk2 with hk3 hk4
              subst hk3
              exact lt_of_le_of_lt hst.2 b5
            | succ j2 =>
              exact b6 j2 t2 imp2 k2 (by omega) (by simpa using ht2) hk2

/-- C23. `refine_seg` selects by best improvement.  With `start_area` the area
of the gap, `start_perim` its chord length and every test point strictly
between `from` and `to` scored by `refine_seg_candidate` (its improvement, when
`add_tiepoint` accepts it on a scratch copy): the result is `-1` exactly when
no accepted test point has a positive improvement, and then the keep flags are
unchanged; otherwise the result is an accepted test point whose improvement is
positive and the largest of all accepted ones, the first such in scan order,
and the keep flags are that test point's scratch copy. -/
theorem refine_seg_best_improvement (sqrt : ℚ → ℚ) (ring : Ring) (keep_orig : List Bool)
    (from_idx to_idx : Nat) (touchpt : Int) (keep : List Bool)
    (h : refine_seg sqrt ring keep_orig from_idx to_idx = .ok (touchpt, keep)) :
    ∃ start_area, subring_area ring from_idx to_idx = .ok start_area ∧
      (∀ t ∈ cyc_between ring.pts.length from_idx to_idx,
        ∃ r, refine_seg_candidate sqrt ring keep_orig from_idx to_idx start_area
          (seg_len sqrt (vtx ring.pts from_idx) (vtx ring.pts to_idx)) t = .ok r) ∧
      (touchpt = -1 ↔ ∀ t ∈ cyc_between ring.pts.length from_idx to_idx, ∀ imp k,
        refine_seg_candidate sqrt ring keep_orig from_idx to_idx start_area
          (seg_len sqrt (vtx ring.pts from_idx) (vtx ring.pts to_idx)) t
            = .ok (some (imp, k)) → imp ≤ 0) ∧
      (touchpt = -1 → keep = keep_orig) ∧
      (touchpt ≠ -1 → ∃ (j t : Nat) (imp : ℚ),
        (cyc_between ring.pts.length from_idx to_idx)[j]? = some t ∧ touchpt = (t : Int) ∧
        refine_seg_candidate sqrt ring keep_orig from_idx to_idx start_area
          (seg_len sqrt (vtx ring.pts from_idx) (vtx ring.pts to_idx)) t
            = .ok (some (imp, keep)) ∧
        0 < imp ∧
        (∀ t2 ∈ cyc_between ring.pts.length from_idx to_idx, ∀ imp2 k2,
          refine_seg_candidate sqrt ring keep_orig from_idx to_idx start_area
            (seg_len sqrt (vtx ring.pts from_idx) (vtx ring.pts to_idx)) t2
              = .ok (some (imp2, k2)) → imp2 ≤ imp) ∧
        (∀ (j2 t2 : Nat) (imp2 : ℚ) (k2 : List Bool), j2 < j →
          (cyc_between ring.pts.length from_idx to_idx)[j2]? = some t2 →
          refine_seg_candidate sqrt ring keep_orig from_idx to_idx start_area
            (seg_len sqrt (vtx ring.pts from_idx) (vtx ring.pts to_idx)) t2
              = .ok (some (imp2, k2)) → imp2 < imp)) := by
  unfold refine_seg at h
  dsimp only at h
  split at h
  · cases h
  · rename_i start_area hsa
    refine ⟨start_area, hsa, ?_⟩
    split at h
    · cases h
    · rename_i res hloop
      obtain ⟨a1, a2, a3, a4⟩ := refine_seg_loop_best sqrt ring keep_orig from_idx to_idx
        start_area _ _ _ _ hloop
      dsimp only at a2 a4
      split at h
      · rename_i hbest
        injection h with h
        injection h with e1 e2
        rcases a4 with e | ⟨j, t, imp, b1, b2, b3, b4, b5, b6⟩
        · rw [e] at hbest
          exact absurd rfl hbest
        · have hne : touchpt ≠ -1 := by
            rw [← e1, b4]
            omega
          refine ⟨a1, ⟨fun hm => absurd hm hne, fun hall => ?_⟩, fun hm => absurd hm hne,
            fun _ => ⟨j, t, imp, b1, by rw [← e1, b4], by rw [← e2]; exact b2, b5, ?_, b6⟩⟩
          · have hm := List.getElem?_mem b1
            have := hall t hm imp _ b2
            linarith
          · intro t2 ht2 imp2 k2 hk2
            have := a3 t2 ht2 imp2 k2 hk2
            rw [b3] at this
            exact this
      · rename_i hbest
        have hz : res.best_improvement = 0 := not_not.mp hbest
        injection h with h
        injection h with e1 e2
        refine ⟨a1, ⟨fun _ => ?_, fun _ => e1.symm⟩, fun _ => e2.symm,
          fun hne => absurd e1.symm hne⟩
        intro t ht imp k hk
        have := a3 t ht imp k hk
        rw [hz] at this
        exact this

/-- Witness for C23: in the gap from vertex 0 to vertex 2 of the pentagon
`ring_wrap` the only test point is vertex 1, which is accepted with a positive
improvement and returned. -/
theorem refine_seg_best_improvement_witness :
    refine_seg sqrt_trunc ring_wrap [true, false, true, true, true] 0 2
        = .ok (1, [true, true, true, true, true]) ∧
      ∃ (j t : Nat) (imp : ℚ),
        (cyc_between ring_wrap.pts.length 0 2)[j]? = some t ∧ (1 : Int) = (t : Int) ∧
        0 < imp :=
  ⟨by decide!, by
    obtain ⟨_, _, _, _, _, h5⟩ := refine_seg_best_improvement sqrt_trunc ring_wrap
      [true, false, true, true, true] 0 2 1 [true, true, true, true, true] (by decide!)
    obtain ⟨j, t, imp, a, b, _, d, _⟩ := h5 (by decide)
    exact ⟨j, t, imp, a, b, d⟩⟩


/-! ## Termination of the refinement loops -/

/-- The cyclic distance of two different indices of the ring is not 0 and below
the number of vertices. -/
theorem cyc_dist_pos (n a x : Nat) (ha : a < n) (hx : x < n) (hne : a ≠ x) :
    0 < cyc_dist n a x ∧ cyc_dist n a x < n := by
  rw [cyc_dist_eq n a x ha hx]
  split <;> omega

/-- The cyclic distance is below the number of vertices. -/
theorem cyc_dist_lt (n a x : Nat) (ha : a < n) (hx : x < n) : cyc_dist n a x < n := by
  rw [cyc_dist_eq n a x ha hx]
  split <;> omega

/-- Stepping from `a` to an index `m` on the way to `b` shortens the way to `b`
by the way stepped. -/
theorem cyc_dist_rest (n a m b : Nat) (ha : a < n) (hm : m < n) (hb : b < n)
    (h : cyc_dist n a m ≤ cyc_dist n a b) :
    cyc_dist n m b + cyc_dist n a m = cyc_dist n a b := by
  rw [cyc_dist_eq n a m ha hm, cyc_dist_eq n a b ha hb] at h
  rw [cyc_dist_eq n a m ha hm, cyc_dist_eq n a b ha hb, cyc_dist_eq n m b hm hb]
  split_ifs at h ⊢ <;> omega

/-- The stepping loop of `reach_point` comes to an end within `npts` steps. -/
theorem reach_point_step_terminates (ring : Ring) (to_idx : Nat)
    (ht : to_idx < ring.pts.length) :
    ∀ (fuel idx : Nat) (ang : Angle) (keep : List Bool), idx < ring.pts.length →
      (if idx = to_idx then ring.pts.length else cyc_dist ring.pts.length idx to_idx) ≤ fuel →
      reach_point_step ring to_idx fuel idx ang keep ≠ .error .out_of_fuel := by
  intro fuel
  induction fuel with
  | zero =>
    intro idx ang keep hi hm
    exfalso
    by_cases e : idx = to_idx
    · rw [if_pos e] at hm; omega
    · rw [if_neg e] at hm
      have := (cyc_dist_pos _ _ _ hi ht e).1
      omega
  | succ fuel ih =>
    intro idx ang keep hi hm
    unfold reach_point_step
    dsimp only
    split
    · simp
    · rename_i herr
      have herr2 : (find_next_convex ring idx to_idx ang).error = false := by
        simpa using herr
      split
      · simp
      · rename_i hne
        by_cases e : idx = to_idx
        · rw [if_pos e] at hm
          subst e
          rcases find_next_convex_self ring idx ang hi herr2 with ⟨h1, _⟩ | ⟨h1, h2⟩
          · exact absurd h1 hne
          · apply ih _ _ _ h2
            rw [if_neg hne]
            have := cyc_dist_lt _ _ _ h2 hi
            omega
        · rw [if_neg e] at hm
          obtain ⟨h1, h2, h3⟩ := find_next_convex_idx ring idx to_idx ang hi ht e herr2
          apply ih _ _ _ h1
          rw [if_neg hne]
          have r1 := cyc_dist_rest _ _ _ _ hi h1 ht h3
          have r2 := (cyc_dist_pos _ _ _ hi h1 (fun e2 => h2 e2.symm)).1
          omega

/-- When the stepping loop of `reach_point` ends without error the flag of
`to_idx` is set. -/
theorem reach_point_step_reaches (ring : Ring) (to_idx : Nat) :
    ∀ (fuel idx : Nat) (ang : Angle) (keep keep1 : List Bool), to_idx < keep.length →
      reach_point_step ring to_idx fuel idx ang keep = .ok (false, keep1) →
      flag keep1 to_idx = true := by
  intro fuel
  induction fuel with
  | zero => intro idx ang keep keep1 _ h; simp [reach_point_step] at h
  | succ fuel ih =>
    intro idx ang keep keep1 hl h
    unfold reach_point_step at h
    dsimp only at h
    split at h
    · simp at h
    · split at h
      · rename_i he
        injection h with h
        injection h with _ h
        subst h
        rw [he]
        exact flag_set_self keep to_idx hl
      · exact ih _ _ _ _ (by rw [List.length_set]; exact hl) h


/-- The next kept index lies inside the array. -/
theorem next_keep_lt (n : Nat) (keep : List Bool) (i : Nat) (hi : i < n) :
    next_keep n keep i < n := by
  rcases next_keep_cases n keep i hi with ⟨_, h, _⟩ | ⟨_, ⟨h, _⟩ | ⟨h, _⟩⟩ <;> omega

/-- The previous kept index lies inside the array. -/
theorem prev_keep_lt (n : Nat) (keep : List Bool) (i : Nat) (hi : i < n) :
    prev_keep n keep i < n := by
  unfold prev_keep
  split
  · rename_i j hj
    have hm := List.mem_of_find?_eq_some hj
    obtain ⟨k, _, rfl⟩ := List.mem_map.mp hm
    exact Nat.mod_lt _ (by omega)
  · exact hi

/-- The loop of `reach_point` over the edges of the kept polygon, entered at an
index other than `nk`, comes to an end within the steps that lead to `nk`. -/
theorem reach_point_kept_terminates_from (pts : List Vertex) (n : Nat) (keep : List Bool)
    (pk nk : Nat) (hnk : nk < n) (hf : flag keep nk = true) :
    ∀ (fuel i : Nat), i < n → i ≠ nk → cyc_dist n i nk ≤ fuel →
      reach_point_kept pts n keep pk nk fuel i ≠ .error .out_of_fuel := by
  intro fuel
  induction fuel with
  | zero =>
    intro i hi hne hm
    have := (cyc_dist_pos _ _ _ hi hnk hne).1
    omega
  | succ fuel ih =>
    intro i hi hne hm
    unfold reach_point_kept
    dsimp only
    split
    · simp
    · split
      · simp
      · rename_i hne2
        obtain ⟨h1, _, h3, h4⟩ := next_keep_spec n keep i nk hi hnk (fun e => hne e.symm) hf
        apply ih _ h1 hne2
        have r1 := cyc_dist_rest _ _ _ _ hi h1 hnk h4
        have r2 := (cyc_dist_pos _ _ _ hi h1 (fun e2 => h3 e2.symm)).1
        omega

/-- The loop of `reach_point` over the edges of the kept polygon comes to an
end within `npts` steps. -/
theorem reach_point_kept_terminates (pts : List Vertex) (n : Nat) (keep : List Bool)
    (pk nk : Nat) (hnk : nk < n) (hf : flag keep nk = true) :
    reach_point_kept pts n keep pk nk n nk ≠ .error .out_of_fuel := by
  obtain ⟨m, rfl⟩ : ∃ m, n = m + 1 := ⟨n - 1, by omega⟩
  unfold reach_point_kept
  dsimp only
  split
  · simp
  · split
    · simp
    · rename_i hne2
      have h1 := next_keep_lt (m + 1) keep nk hnk
      apply reach_point_kept_terminates_from pts (m + 1) keep pk nk hnk hf m _ h1 hne2
      have := cyc_dist_lt _ _ _ h1 hnk
      omega

/-- The checking loop of `reach_point` comes to an end within the steps that
lead to `to_idx`. -/
theorem reach_point_check_terminates (pts : List Vertex) (n : Nat) (keep : List Bool)
    (to_idx : Nat) (ht : to_idx < n) (hf : flag keep to_idx = true) :
    ∀ (fuel pk : Nat), pk < n → cyc_dist n pk to_idx < fuel →
      reach_point_check pts n keep to_idx fuel pk ≠ .error .out_of_fuel := by
  intro fuel
  induction fuel with
  | zero => intro pk _ hm; omega
  | succ fuel ih =>
    intro pk hpk hm
    unfold reach_point_check
    dsimp only
    split
    · simp
    · rename_i hne
      obtain ⟨h1, h2, h3, h4⟩ := next_keep_spec n keep pk to_idx hpk ht (fun e => hne e.symm) hf
      split
      · simp
      · have hk := reach_point_kept_terminates pts n keep pk (next_keep n keep pk) h1 h2
        split
        · rename_i e he
          intro hc
          injection hc with hc
          subst hc
          exact hk he
        · simp
        · apply ih _ h1
          have r1 := cyc_dist_rest _ _ _ _ hpk h1 ht h4
          have r2 := (cyc_dist_pos _ _ _ hpk h1 (fun e2 => h3 e2.symm)).1
          omega

/-- `reach_point` comes to an end. -/
theorem reach_point_terminates (ring : Ring) (keep : List Bool) (from_idx to_idx : Nat)
    (ang : Angle) (hf : from_idx < ring.pts.length) (ht : to_idx < ring.pts.length)
    (hl : keep.length = ring.pts.length) :
    reach_point ring keep from_idx to_idx ang ≠ .error .out_of_fuel := by
  have hs := reach_point_step_terminates ring to_idx ht ring.pts.length from_idx ang keep hf
    (by
      split
      · exact le_refl _
      · exact le_of_lt (cyc_dist_lt _ _ _ hf ht))
  unfold reach_point
  dsimp only
  split
  · rename_i e he
    intro hc
    injection hc with hc
    subst hc
    exact hs he
  · simp
  · rename_i keep1 hstep
    have hfl := reach_point_step_reaches ring to_idx _ _ _ _ _ (by rw [hl]; exact ht) hstep
    have hc := reach_point_check_terminates ring.pts ring.pts.length keep1 to_idx ht hfl
      (ring.pts.length + 1) from_idx hf (by
        have := cyc_dist_lt _ _ _ hf ht
        omega)
    split
    · rename_i e he
      intro hc2
      injection hc2 with hc2
      subst hc2
      exact hc he
    · simp

/-- `add_tiepoint` comes to an end. -/
theorem add_tiepoint_terminates (ring : Ring) (keep : List Bool) (mid : Nat)
    (hm : mid < ring.pts.length) (hl : keep.length = ring.pts.length) :
    add_tiepoint ring keep mid ≠ .error .out_of_fuel := by
  unfold add_tiepoint
  dsimp only
  have hl1 : (keep.set mid true).length = ring.pts.length := by
    rw [List.length_set]; exact hl
  have h1 := reach_point_terminates ring (keep.set mid true)
    (prev_keep ring.pts.length (keep.set mid true) mid) mid
    (seg_ang (vtx ring.pts (prev_keep ring.pts.length (keep.set mid true) mid))
      (vtx ring.pts (next_keep ring.pts.length (keep.set mid true) mid)))
    (prev_keep_lt _ _ _ hm) hm hl1
  split
  · rename_i e he
    intro hc
    injection hc with hc
    subst hc
    exact h1 he
  · simp
  · rename_i keep1 hr
    split
    · simp
    · have hl2 := reach_point_length ring _ _ _ _ _ hr
      dsimp only at hl2
      exact reach_point_terminates ring keep1 mid _ _ hm (next_keep_lt _ _ _ hm)
        (by rw [hl2]; exact hl1)


/-- `subring_area` has no loop that could run out of fuel: it fails only with
its fatal error. -/
theorem subring_area_terminates (ring : Ring) (a b : Nat) :
    subring_area ring a b ≠ .error .out_of_fuel := by
  unfold subring_area
  dsimp only
  split <;> simp

/-- The accumulation loops of `refine_seg` come to an end within the steps that
lead to `stop`. -/
theorem refine_seg_sum_terminates (sqrt : ℚ → ℚ) (ring : Ring) (keep : List Bool) (stop : Nat)
    (hs : stop < ring.pts.length) (hf : flag keep stop = true) :
    ∀ (fuel pk : Nat) (area perim : ℚ), pk < ring.pts.length → pk ≠ stop →
      cyc_dist ring.pts.length pk stop ≤ fuel →
      refine_seg_sum sqrt ring keep stop fuel pk area perim ≠ .error .out_of_fuel := by
  intro fuel
  induction fuel with
  | zero =>
    intro pk area perim hpk hne hm
    have := (cyc_dist_pos _ _ _ hpk hs hne).1
    omega
  | succ fuel ih =>
    intro pk area perim hpk hne hm
    unfold refine_seg_sum
    dsimp only
    split
    · rename_i e he
      intro hc
      injection hc with hc
      subst hc
      exact subring_area_terminates ring _ _ he
    · split
      · simp
      · rename_i hne2
        obtain ⟨h1, _, h3, h4⟩ := next_keep_spec ring.pts.length keep pk stop hpk hs
          (fun e => hne e.symm) hf
        apply ih _ _ _ h1 hne2
        have r1 := cyc_dist_rest _ _ _ _ hpk h1 hs h4
        have r2 := (cyc_dist_pos _ _ _ hpk h1 (fun e2 => h3 e2.symm)).1
        omega

/-- After `add_tiepoint` the flag of the tie point is set. -/
theorem add_tiepoint_mid (ring : Ring) (keep : List Bool) (mid : Nat)
    (res : Bool × List Bool) (hm : mid < keep.length)
    (h : add_tiepoint ring keep mid = .ok res) : flag res.2 mid = true := by
  have h0 : flag (keep.set mid true) mid = true := flag_set_self keep mid hm
  unfold add_tiepoint at h
  dsimp only at h
  split at h
  · cases h
  · rename_i keep1 h1
    cases h
    exact reach_point_mono ring _ _ _ _ _ h1 mid h0
  · rename_i keep1 h1
    split at h
    · cases h
    · exact reach_point_mono ring _ _ _ _ _ h mid (reach_point_mono ring _ _ _ _ _ h1 mid h0)

/-- The indices strictly between two indices of the ring in cyclic order lie
inside the array and differ from both. -/
theorem cyc_between_mem (n a b x : Nat) (ha : a < n) (hb : b < n)
    (hx : x ∈ cyc_between n a b) : x < n ∧ x ≠ a ∧ x ≠ b := by
  unfold cyc_between at hx
  obtain ⟨k, hk, rfl⟩ := List.mem_map.mp hx
  have hk' := List.mem_range.mp hk
  have hlen : (b + n - a - 1) % n = if a < b then b - a - 1 else b + n - a - 1 := by
    split
    · have : b + n - a - 1 = (b - a - 1) + n := by omega
      rw [this, Nat.add_mod_right, Nat.mod_eq_of_lt (by omega)]
    · rw [Nat.mod_eq_of_lt (by omega)]
  rw [hlen] at hk'
  have hk1 : 1 + k < n := by split at hk' <;> omega
  have e : (a + 1 + k) % n = (a + (1 + k)) % n := by rw [Nat.add_assoc]
  rw [e, cyc_add_eq n a (1 + k) ha hk1]
  split at hk' <;> split <;> omega

/-- The candidate loop of `refine_seg` comes to an end. -/
theorem refine_seg_loop_terminates (sqrt : ℚ → ℚ) (ring : Ring) (keep_orig : List Bool)
    (from_idx to_idx : Nat) (start_area start_perim : ℚ)
    (hf : from_idx < ring.pts.length) (ht : to_idx < ring.pts.length)
    (hft : flag keep_orig to_idx = true) (hl : keep_orig.length = ring.pts.length) :
    ∀ (ts : List Nat) (st : BestState),
      (∀ t ∈ ts, t < ring.pts.length ∧ t ≠ from_idx ∧ t ≠ to_idx) →
      refine_seg_loop sqrt ring keep_orig from_idx to_idx start_area start_perim ts st
        ≠ .error .out_of_fuel := by
  intro ts
  induction ts with
  | nil => intro st _; simp [refine_seg_loop]
  | cons t rest ih =>
    intro st hts
    obtain ⟨h1, h2, h3⟩ := hts t (List.mem_cons_self _ _)
    have hrest := fun st2 => ih st2 (fun t2 ht2 => hts t2 (List.mem_cons_of_mem _ ht2))
    unfold refine_seg_loop
    dsimp only
    split
    · rename_i e he
      intro hc
      injection hc with hc
      subst hc
      exact add_tiepoint_terminates ring keep_orig t h1 hl he
    · exact hrest _
    · rename_i keep_new hadd
      have hmid := add_tiepoint_mid ring keep_orig t _ (by rw [hl]; exact h1) hadd
      have hto := add_tiepoint_mono ring keep_orig t _ hadd to_idx hft
      dsimp only at hmid hto
      have s1 := refine_seg_sum_terminates sqrt ring keep_new t h1 hmid ring.pts.length
        from_idx 0 0 hf (fun e => h2 e.symm) (le_of_lt (cyc_dist_lt _ _ _ hf h1))
      have s2 := refine_seg_sum_terminates sqrt ring keep_new to_idx ht hto ring.pts.length
        t 0 0 h1 h3 (le_of_lt (cyc_dist_lt _ _ _ h1 ht))
      split
      · rename_i e he
        intro hc
        injection hc with hc
        subst hc
        exact s1 he
      · split
        · rename_i e he
          intro hc
          injection hc with hc
          subst hc
          exact s2 he
        · exact hrest _

/-- `refine_seg` comes to an end. -/
theorem refine_seg_terminates (sqrt : ℚ → ℚ) (ring : Ring) (keep_orig : List Bool)
    (from_idx to_idx : Nat)
    (hf : from_idx < ring.pts.length) (ht : to_idx < ring.pts.length)
    (hft : flag keep_orig to_idx = true) (hl : keep_orig.length = ring.pts.length) :
    refine_seg sqrt ring keep_orig from_idx to_idx ≠ .error .out_of_fuel := by
  unfold refine_seg
  dsimp only
  split
  · rename_i e he
    intro hc
    injection hc with hc
    subst hc
    exact subring_area_terminates ring _ _ he
  · rename_i start_area _
    have hloop := refine_seg_loop_terminates sqrt ring keep_orig from_idx to_idx start_area
      (seg_len sqrt (vtx ring.pts from_idx) (vtx ring.pts to_idx)) hf ht hft hl
      (cyc_between ring.pts.length from_idx to_idx) ⟨0, -1, keep_orig⟩
      (fun t htm => cyc_between_mem _ _ _ _ hf ht htm)
    split
    · rename_i e he
      intro hc
      injection hc with hc
      subst hc
      exact hloop he
    · split <;> simp


/-- The outer loop of `keep_linears` comes to an end. -/
theorem keep_linears_loop_terminates (sqrt : ℚ → ℚ) (ring : Ring) (from_idx to_idx : Nat) :
    ∀ (ls : List Nat) (keep_orig touchpts : List Bool),
      (∀ l ∈ ls, l < ring.pts.length) → keep_orig.length = ring.pts.length →
      keep_linears_loop sqrt ring from_idx to_idx ls keep_orig touchpts
        ≠ .error .out_of_fuel := by
  intro ls
  induction ls with
  | nil => intro keep_orig touchpts _ _; simp [keep_linears_loop]
  | cons l_idx rest ih =>
    intro keep_orig touchpts hls hl
    have hlt : l_idx < ring.pts.length := hls l_idx (List.mem_cons_self _ _)
    have hrest := ih keep_orig touchpts (fun l hl2 => hls l (List.mem_cons_of_mem _ hl2)) hl
    have hlong : keep_linears_longest sqrt ring l_idx
        (cyc_range ring.pts.length ((l_idx + 1) % ring.pts.length) to_idx) 0 l_idx
        < ring.pts.length := by
      rcases keep_linears_longest_mem sqrt ring l_idx
        (cyc_range ring.pts.length ((l_idx + 1) % ring.pts.length) to_idx) 0 l_idx with e | e
      · rw [e]; exact hlt
      · exact (cyc_range_dist _ _ _ _ (Nat.mod_lt _ (by omega)) e).1
    unfold keep_linears_loop
    dsimp only
    split
    · split
      · rename_i e he
        intro hc
        injection hc with hc
        subst hc
        split at he
        · exact add_tiepoint_terminates ring keep_orig l_idx hlt hl he
        · cases he
      · rename_i err1 kn1 h1
        have hl1 : kn1.length = ring.pts.length := by
          split at h1
          · rw [add_tiepoint_length ring keep_orig l_idx _ h1]; exact hl
          · injection h1 with h1
            injection h1 with _ h1
            subst h1
            exact hl
        split
        · rename_i e he
          intro hc
          injection hc with hc
          subst hc
          split at he
          · exact add_tiepoint_terminates ring kn1 _ hlong hl1 he
          · cases he
        · split
          · simp
          · exact hrest
    · exact hrest

/-- `keep_linears` comes to an end. -/
theorem keep_linears_terminates (sqrt : ℚ → ℚ) (ring : Ring) (keep_orig : List Bool)
    (from_idx to_idx : Nat) (touchpts : List Bool)
    (hn : 0 < ring.pts.length) (hl : keep_orig.length = ring.pts.length) :
    keep_linears sqrt ring keep_orig from_idx to_idx touchpts ≠ .error .out_of_fuel := by
  unfold keep_linears
  dsimp only
  split
  · simp
  · apply keep_linears_loop_terminates sqrt ring from_idx to_idx _ _ _ _ hl
    intro l hlm
    obtain ⟨k, _, rfl⟩ := List.mem_map.mp hlm
    exact Nat.mod_lt _ hn

/-- The number of kept vertices is at most the number of vertices. -/
theorem kept_count_le (n : Nat) (keep : List Bool) : (kept_idx n keep).length ≤ n := by
  unfold kept_idx
  exact le_trans (List.length_filter_le _ _) (by rw [List.length_range])

/-- The number of kept vertices among the first `n + 1`. -/
theorem kept_count_succ (n : Nat) (keep : List Bool) :
    (kept_idx (n + 1) keep).length
      = (kept_idx n keep).length + (if flag keep n = true then 1 else 0) := by
  unfold kept_idx
  rw [List.range_succ, List.filter_append, List.length_append]
  by_cases h : flag keep n = true
  · rw [List.filter_cons_of_pos h, if_pos h]; rfl
  · rw [List.filter_cons_of_neg h, if_neg h]; rfl

/-- Setting flags does not lower the number of kept vertices. -/
theorem kept_count_mono (k1 k2 : List Bool) (hle : keep_le k1 k2) :
    ∀ n, (kept_idx n k1).length ≤ (kept_idx n k2).length := by
  intro n
  induction n with
  | zero => simp [kept_idx]
  | succ n ih =>
    rw [kept_count_succ, kept_count_succ]
    by_cases h : flag k1 n = true
    · rw [if_pos h, if_pos (hle n h)]; omega
    · rw [if_neg h]
      split <;> omega

/-- Setting a flag that was not set raises the number of kept vertices. -/
theorem kept_count_lt (k1 k2 : List Bool) (hle : keep_le k1 k2) :
    ∀ n x, x < n → flag k1 x = false → flag k2 x = true →
      (kept_idx n k1).length < (kept_idx n k2).length := by
  intro n
  induction n with
  | zero => intro x hx; omega
  | succ n ih =>
    intro x hx h1 h2
    rw [kept_count_succ, kept_count_succ]
    rcases Nat.eq_or_lt_of_le (Nat.lt_succ_iff.mp hx) with e | e
    · subst e
      rw [if_neg (by simp [h1]), if_pos h2]
      have := kept_count_mono k1 k2 hle x
      omega
    · have := ih x e h1 h2
      by_cases h : flag k1 n = true
      · rw [if_pos h, if_pos (hle n h)]; omega
      · rw [if_neg h]
        split <;> omega


/-- The successor of an index of the ring, without `%`. -/
theorem succ_mod_eq (n l : Nat) (hl : l < n) :
    (l + 1) % n = if l + 1 < n then l + 1 else 0 := by
  split
  · rename_i h; exact Nat.mod_eq_of_lt h
  · have : l + 1 = n := by omega
    rw [this, Nat.mod_self]

/-- An index between a kept vertex and its next kept vertex is not kept. -/
theorem between_unkept (n : Nat) (keep : List Bool) (a x : Nat) (ha : a < n) (hx : x < n)
    (hne : x ≠ a) (hd : cyc_dist n a x < cyc_dist n a (next_keep n keep a)) :
    flag keep x = false := by
  by_contra hf
  have hf2 : flag keep x = true := by simpa using hf
  have := (next_keep_spec n keep a x ha hx hne hf2).2.2.2
  omega

/-- An index on the way from `s` to `t` is one of the indices of the cyclic loop
from `s` to `t`. -/
theorem cyc_range_of_dist (n s t x : Nat) (hs : s < n) (hx : x < n)
    (hd : cyc_dist n s x ≤ cyc_dist n s t) : x ∈ cyc_range n s t := by
  unfold cyc_range
  refine List.mem_map.mpr ⟨cyc_dist n s x, List.mem_range.mpr ?_, ?_⟩
  · unfold cyc_dist at hd ⊢
    omega
  · rw [cyc_add_eq n s _ hs (cyc_dist_lt n s x hs hx), cyc_dist_eq n s x hs hx]
    split_ifs <;> omega

/-- When `keep_linears` returns 1 for the gap between a kept vertex and its next
kept vertex, the number of kept vertices has grown. -/
theorem keep_linears_count (sqrt : ℚ → ℚ) (ring : Ring) (keep : List Bool)
    (from_idx : Nat) (touchpts keep1 touch1 : List Bool)
    (hf : from_idx < ring.pts.length) (hl : keep.length = ring.pts.length)
    (h : keep_linears sqrt ring keep from_idx (next_keep ring.pts.length keep from_idx) touchpts
      = .ok (true, keep1, touch1)) :
    (kept_idx ring.pts.length keep).length < (kept_idx ring.pts.length keep1).length := by
  have hle := keep_linears_mono sqrt ring keep from_idx _ touchpts _ h
  dsimp only at hle
  have ht := next_keep_lt ring.pts.length keep from_idx hf
  unfold keep_linears at h
  dsimp only at h
  split at h
  · cases h
  · rename_i hguard
    obtain ⟨l, g, kn, m, _, h3, h4, _, _, _, h8, h9, h10⟩ :=
      keep_linears_loop_run sqrt ring from_idx _ _ keep touchpts keep1 touch1
        (fun l hl2 => by
          obtain ⟨k, _, rfl⟩ := List.mem_map.mp hl2
          exact Nat.mod_lt _ (by omega)) h
    obtain ⟨k, hk, rfl⟩ := List.mem_map.mp m
    have hk' : k < cyc_dist ring.pts.length from_idx
        (next_keep ring.pts.length keep from_idx) := List.mem_range.mp hk
    have hkn : k < ring.pts.length := lt_trans hk' (cyc_dist_lt _ _ _ hf ht)
    have hdl := cyc_dist_step ring.pts.length from_idx k hf hkn
    have hln : (from_idx + k) % ring.pts.length < ring.pts.length := Nat.mod_lt _ (by omega)
    have hsn : ((from_idx + k) % ring.pts.length + 1) % ring.pts.length < ring.pts.length :=
      Nat.mod_lt _ (by omega)
    obtain ⟨hgn, hdg⟩ := cyc_range_dist _ _ _ _ hsn h4
    have hs := succ_mod_eq ring.pts.length _ hln
    have hs0 := succ_mod_eq ring.pts.length _ hf
    -- the vertex whose flag is new
    have key : ∃ x, x < ring.pts.length ∧ x ≠ from_idx ∧
        cyc_dist ring.pts.length from_idx x
          < cyc_dist ring.pts.length from_idx (next_keep ring.pts.length keep from_idx) ∧
        cyc_dist ring.pts.length ((from_idx + k) % ring.pts.length) x
          ≤ cyc_dist ring.pts.length ((from_idx + k) % ring.pts.length) g := by
      generalize (from_idx + k) % ring.pts.length = l at *
      generalize next_keep ring.pts.length keep from_idx = t at *
      generalize (l + 1) % ring.pts.length = s at *
      generalize (from_idx + 1) % ring.pts.length = s0 at *
      by_cases c1 : l = from_idx
      · by_cases c2 : g = t
        · refine ⟨s0, by rw [hs0]; split <;> omega, ?_, ?_, ?_⟩
          · rw [hs0]; split <;> omega
          · rw [cyc_dist_eq _ _ _ hf ht, cyc_dist_eq _ _ _ hf (by rw [hs0]; split <;> omega)]
            rw [cyc_dist_eq _ _ _ hf ht] at hk'
            rw [hs0] at hguard ⊢
            split_ifs at hk' hguard ⊢ <;> omega
          · subst c1 c2
            rw [cyc_dist_eq _ _ _ hf ht, cyc_dist_eq _ _ _ hf (by rw [hs0]; split <;> omega)]
            rw [cyc_dist_eq _ _ _ hf ht] at hk'
            rw [hs0] at hguard ⊢
            split_ifs at hk' hguard ⊢ <;> omega
        · refine ⟨g, hgn, by omega, ?_, le_refl _⟩
          subst c1
          rw [cyc_dist_eq _ _ _ hsn hgn, cyc_dist_eq _ _ _ hsn ht] at hdg
          rw [cyc_dist_eq _ _ _ hf ht] at hk' ⊢
          rw [cyc_dist_eq _ _ _ hf hgn]
          rw [hs] at hdg
          split_ifs at hdg hk' ⊢ <;> omega
      · refine ⟨l, hln, c1, ?_, ?_⟩
        · rw [hdl]; exact hk'
        · rw [cyc_dist_eq _ _ _ hln hln, cyc_dist_eq _ _ _ hln hgn]
          split_ifs <;> omega
    obtain ⟨x, x1, x2, x3, x4⟩ := key
    apply kept_count_lt keep keep1 hle _ x x1 (between_unkept _ _ _ _ hf x1 x2 x3)
    rw [h10]
    exact flag_foldl_set_mem _ _ _ (by rw [h9, hl]; exact x1)
      (Or.inl (cyc_range_of_dist _ _ _ _ hln x1 x4))


/-- An accepted test point of `refine_seg` is one that `add_tiepoint` accepts on
the scratch copy, which becomes its keep-set. -/
theorem refine_seg_candidate_accepted (sqrt : ℚ → ℚ) (ring : Ring) (keep_orig : List Bool)
    (from_idx to_idx : Nat) (start_area start_perim : ℚ) (t : Nat) (imp : ℚ) (k : List Bool)
    (h : refine_seg_candidate sqrt ring keep_orig from_idx to_idx start_area start_perim t
      = .ok (some (imp, k))) :
    add_tiepoint ring keep_orig t = .ok (false, k) := by
  unfold refine_seg_candidate at h
  dsimp only at h
  split at h
  · cases h
  · cases h
  · rename_i keep_new hadd
    split at h
    · cases h
    · split at h
      · cases h
      · injection h with h
        injection h with h
        injection h with _ h
        subst h
        exact hadd

/-- A touch point returned by `refine_seg` is a test point strictly between
`from` and `to` that `add_tiepoint` accepts on the scratch copy, and the keep
flags returned are that scratch copy. -/
theorem refine_seg_some (sqrt : ℚ → ℚ) (ring : Ring) (keep_orig : List Bool)
    (from_idx to_idx : Nat) (touchpt : Int) (keep : List Bool)
    (h : refine_seg sqrt ring keep_orig from_idx to_idx = .ok (touchpt, keep))
    (hpos : touchpt ≥ 0) :
    ∃ t ∈ cyc_between ring.pts.length from_idx to_idx, touchpt = (t : Int) ∧
      add_tiepoint ring keep_orig t = .ok (false, keep) := by
  unfold refine_seg at h
  dsimp only at h
  split at h
  · cases h
  · split at h
    · cases h
    · rename_i res hloop
      obtain ⟨_, _, _, a4⟩ := refine_seg_loop_best sqrt ring keep_orig from_idx to_idx
        _ _ _ _ _ hloop
      split at h
      · rename_i hbest
        injection h with h
        injection h with e1 e2
        rcases a4 with e | ⟨j, t, imp, b1, b2, _, b4, _, _⟩
        · rw [e] at hbest
          exact absurd rfl hbest
        · refine ⟨t, List.getElem?_mem b1, by rw [← e1, b4], ?_⟩
          rw [← e2]
          exact refine_seg_candidate_accepted sqrt ring keep_orig from_idx to_idx _ _ t imp _ b2
      · injection h with h
        injection h with e1 e2
        omega

/-- When `refine_seg` returns a touch point for the gap between a kept vertex
and its next kept vertex, the number of kept vertices has grown. -/
theorem refine_seg_count (sqrt : ℚ → ℚ) (ring : Ring) (keep : List Bool)
    (from_idx : Nat) (touchpt : Int) (keep1 : List Bool)
    (hf : from_idx < ring.pts.length) (hl : keep.length = ring.pts.length)
    (h : refine_seg sqrt ring keep from_idx (next_keep ring.pts.length keep from_idx)
      = .ok (touchpt, keep1))
    (hpos : touchpt ≥ 0) :
    (kept_idx ring.pts.length keep).length < (kept_idx ring.pts.length keep1).length := by
  have ht := next_keep_lt ring.pts.length keep from_idx hf
  obtain ⟨t, htm, _, hadd⟩ := refine_seg_some sqrt ring keep from_idx _ touchpt keep1 h hpos
  obtain ⟨t1, t2, t3⟩ := cyc_between_mem _ _ _ _ hf ht htm
  have hunk : flag keep t = false := by
    by_cases e : next_keep ring.pts.length keep from_idx = from_idx
    · rcases next_keep_cases ring.pts.length keep from_idx hf with
        ⟨c1, _⟩ | ⟨c0, ⟨c1, _⟩ | ⟨_, c2⟩⟩
      · omega
      · omega
      · rcases Nat.lt_or_gt_of_ne t2 with hlt | hgt
        · exact c2 t hlt
        · exact c0 t hgt t1
    · obtain ⟨_, _, _, d4⟩ := cyc_between_dist _ _ _ _ hf ht (fun e2 => e e2.symm) htm
      have hlt : cyc_dist ring.pts.length from_idx t
          < cyc_dist ring.pts.length from_idx (next_keep ring.pts.length keep from_idx) := by
        rw [cyc_dist_eq _ _ _ hf t1, cyc_dist_eq _ _ _ hf ht] at d4 ⊢
        split_ifs at d4 ⊢ <;> omega
      exact between_unkept _ _ _ _ hf t1 t2 hlt
  apply kept_count_lt keep keep1 (add_tiepoint_mono ring keep t _ hadd) _ t t1 hunk
  exact add_tiepoint_mid ring keep t _ (by rw [hl]; exact t1) hadd


/-- The inner loop of `refine_ring` with the counter of repeats returns what the
loop itself returns. -/
theorem refine_ring_gap_repeats_eq (sqrt : ℚ → ℚ) (ring : Ring) (i : Nat) :
    ∀ (fuel : Nat) (keep touchpts : List Bool),
      refine_ring_gap sqrt ring i fuel keep touchpts
        = (refine_ring_gap_repeats sqrt ring i fuel keep touchpts).map
            fun r => (r.1, r.2.1) := by
  intro fuel
  induction fuel with
  | zero => intro keep touchpts; rfl
  | succ fuel ih =>
    intro keep touchpts
    unfold refine_ring_gap refine_ring_gap_repeats
    dsimp only
    cases h1 : subring_area ring i (next_keep ring.pts.length keep i) with
    | error e => rfl
    | ok area =>
      dsimp only
      by_cases ha : area > 0
      · rw [if_pos ha, if_pos ha]
        cases h2 : keep_linears sqrt ring keep i (next_keep ring.pts.length keep i) touchpts with
        | error e => rfl
        | ok r2 =>
          obtain ⟨b, k1, t1⟩ := r2
          cases b with
          | true =>
            dsimp only
            rw [ih k1 t1]
            cases refine_ring_gap_repeats sqrt ring i fuel k1 t1 with
            | error e => rfl
            | ok r3 => rfl
          | false =>
            dsimp only
            cases h3 : refine_seg sqrt ring k1 i (next_keep ring.pts.length keep i) with
            | error e => rfl
            | ok r3 =>
              obtain ⟨tp, k2⟩ := r3
              dsimp only
              by_cases hp : tp ≥ 0
              · rw [if_pos hp, if_pos hp, ih]
                cases refine_ring_gap_repeats sqrt ring i fuel k2 (t1.set tp.toNat true) with
                | error e => rfl
                | ok r4 => rfl
              · rw [if_neg hp, if_neg hp]
                rfl
      · rw [if_neg ha, if_neg ha]
        rfl

/-- The outer loop of `refine_ring` with the counter of repeats returns what the
loop itself returns. -/
theorem refine_ring_loop_repeats_eq (sqrt : ℚ → ℚ) (ring : Ring) :
    ∀ (idxs : List Nat) (keep touchpts : List Bool),
      refine_ring_loop sqrt ring idxs keep touchpts
        = (refine_ring_loop_repeats sqrt ring idxs keep touchpts).map
            fun r => (r.1, r.2.1) := by
  intro idxs
  induction idxs with
  | nil => intro keep touchpts; rfl
  | cons i rest ih =>
    intro keep touchpts
    unfold refine_ring_loop refine_ring_loop_repeats
    by_cases hf : (!flag keep i) = true
    · rw [if_pos hf, if_pos hf]
      exact ih keep touchpts
    · rw [if_neg hf, if_neg hf, refine_ring_gap_repeats_eq]
      cases refine_ring_gap_repeats sqrt ring i (ring.pts.length + 1) keep touchpts with
      | error e => rfl
      | ok r =>
        obtain ⟨k1, t1, n1⟩ := r
        simp only [Except.map]
        rw [ih k1 t1]
        cases refine_ring_loop_repeats sqrt ring rest k1 t1 with
        | error e => rfl
        | ok r2 => rfl


/-- The next kept vertex of a kept vertex is kept. -/
theorem next_keep_flag (n : Nat) (keep : List Bool) (i : Nat) (hi : i < n)
    (hf : flag keep i = true) : flag keep (next_keep n keep i) = true := by
  rcases next_keep_cases n keep i hi with ⟨_, _, h, _⟩ | ⟨_, ⟨_, h, _⟩ | ⟨h, _⟩⟩
  · exact h
  · exact h
  · rw [h]; exact hf

/-- The inner loop of `refine_ring` at a kept vertex comes to an end when its
fuel exceeds the number of vertices not kept, and it repeats at most as often
as it adds kept vertices. -/
theorem refine_ring_gap_repeats_bound (sqrt : ℚ → ℚ) (ring : Ring) (i : Nat)
    (hi : i < ring.pts.length) :
    ∀ (fuel : Nat) (keep touchpts : List Bool),
      flag keep i = true → keep.length = ring.pts.length →
      ring.pts.length - (kept_idx ring.pts.length keep).length < fuel →
      refine_ring_gap_repeats sqrt ring i fuel keep touchpts ≠ .error .out_of_fuel ∧
      ∀ k1 t1 r, refine_ring_gap_repeats sqrt ring i fuel keep touchpts = .ok (k1, t1, r) →
        r + (kept_idx ring.pts.length keep).length ≤ (kept_idx ring.pts.length k1).length ∧
        k1.length = ring.pts.length := by
  intro fuel
  induction fuel with
  | zero => intro keep touchpts _ _ hm; omega
  | succ fuel ih =>
    intro keep touchpts hfi hl hm
    have hj := next_keep_lt ring.pts.length keep i hi
    have hfj := next_keep_flag ring.pts.length keep i hi hfi
    unfold refine_ring_gap_repeats
    dsimp only
    cases h1 : subring_area ring i (next_keep ring.pts.length keep i) with
    | error e =>
      dsimp only
      refine ⟨?_, fun k1 t1 r h => by cases h⟩
      intro hc
      injection hc with hc
      subst hc
      exact subring_area_terminates ring _ _ h1
    | ok area =>
      dsimp only
      by_cases ha : area > 0
      · rw [if_pos ha]
        cases h2 : keep_linears sqrt ring keep i (next_keep ring.pts.length keep i) touchpts with
        | error e =>
          dsimp only
          refine ⟨?_, fun k1 t1 r h => by cases h⟩
          intro hc
          injection hc with hc
          subst hc
          exact keep_linears_terminates sqrt ring keep i _ touchpts (by omega) hl h2
        | ok r2 =>
          obtain ⟨b, k1, t1⟩ := r2
          have hl1 : k1.length = ring.pts.length := by
            rw [keep_linears_length sqrt ring keep i _ touchpts _ h2]; exact hl
          have hle1 := keep_linears_mono sqrt ring keep i _ touchpts _ h2
          dsimp only at hle1
          cases b with
          | true =>
            dsimp only
            have hc1 := keep_linears_count sqrt ring keep i touchpts k1 t1 hi hl h2
            have hb1 := kept_count_le ring.pts.length k1
            obtain ⟨i1, i2⟩ := ih k1 t1 (hle1 i hfi) hl1 (by omega)
            cases h3 : refine_ring_gap_repeats sqrt ring i fuel k1 t1 with
            | error e =>
              dsimp only
              refine ⟨?_, fun k2 t2 r h => by cases h⟩
              intro hc
              injection hc with hc
              subst hc
              exact i1 h3
            | ok r3 =>
              obtain ⟨k2, t2, n2⟩ := r3
              dsimp only
              refine ⟨by simp, fun k3 t3 r h => ?_⟩
              injection h with h
              injection h with e1 h
              injection h with e2 e3
              subst e1 e3
              obtain ⟨j1, j2⟩ := i2 k2 t2 n2 h3
              exact ⟨by omega, j2⟩
          | false =>
            dsimp only
            obtain ⟨e1, _⟩ := keep_linears_false sqrt ring keep i _ touchpts k1 t1 h2
            subst e1
            cases h4 : refine_seg sqrt ring k1 i (next_keep ring.pts.length k1 i) with
            | error e =>
              dsimp only
              refine ⟨?_, fun k2 t2 r h => by cases h⟩
              intro hc
              injection hc with hc
              subst hc
              exact refine_seg_terminates sqrt ring k1 i _ hi hj hfj hl h4
            | ok r4 =>
              obtain ⟨tp, k2⟩ := r4
              have hl2 : k2.length = ring.pts.length := by
                rw [refine_seg_length sqrt ring k1 i _ _ h4]; exact hl
              have hle2 := refine_seg_mono sqrt ring k1 i _ _ h4
              dsimp only at hle2
              dsimp only
              by_cases hp : tp ≥ 0
              · rw [if_pos hp]
                have hc2 := refine_seg_count sqrt ring k1 i tp k2 hi hl h4 hp
                have hb2 := kept_count_le ring.pts.length k2
                obtain ⟨i1, i2⟩ := ih k2 (t1.set tp.toNat true) (hle2 i hfi) hl2 (by omega)
                cases h5 : refine_ring_gap_repeats sqrt ring i fuel k2
                    (t1.set tp.toNat true) with
                | error e =>
                  dsimp only
                  refine ⟨?_, fun k3 t3 r h => by cases h⟩
                  intro hc
                  injection hc with hc
                  subst hc
                  exact i1 h5
                | ok r5 =>
                  obtain ⟨k3, t3, n3⟩ := r5
                  dsimp only
                  refine ⟨by simp, fun k4 t4 r h => ?_⟩
                  injection h with h
                  injection h with e1 h
                  injection h with e2 e3
                  subst e1 e3
                  obtain ⟨j1, j2⟩ := i2 k3 t3 n3 h5
                  exact ⟨by omega, j2⟩
              · rw [if_neg hp]
                refine ⟨by simp, fun k4 t4 r h => ?_⟩
                injection h with h
                injection h with e1 h
                injection h with e2 e3
                subst e1 e3
                have := kept_count_mono k1 k2 hle2 ring.pts.length
                exact ⟨by omega, hl2⟩
      · rw [if_neg ha]
        refine ⟨by simp, fun k4 t4 r h => ?_⟩
        injection h with h
        injection h with e1 h
        injection h with e2 e3
        subst e1 e3
        exact ⟨by omega, hl⟩


/-- The outer loop of `refine_ring` comes to an end, and the repeats of its
inner loop, summed over the kept vertices visited, are at most the kept
vertices added. -/
theorem refine_ring_loop_repeats_bound (sqrt : ℚ → ℚ) (ring : Ring) :
    ∀ (idxs : List Nat) (keep touchpts : List Bool),
      (∀ i ∈ idxs, i < ring.pts.length) → keep.length = ring.pts.length →
      refine_ring_loop_repeats sqrt ring idxs keep touchpts ≠ .error .out_of_fuel ∧
      ∀ k1 t1 r, refine_ring_loop_repeats sqrt ring idxs keep touchpts = .ok (k1, t1, r) →
        r + (kept_idx ring.pts.length keep).length ≤ (kept_idx ring.pts.length k1).length ∧
        k1.length = ring.pts.length := by
  intro idxs
  induction idxs with
  | nil =>
    intro keep touchpts _ hl
    refine ⟨by simp [refine_ring_loop_repeats], fun k1 t1 r h => ?_⟩
    simp [refine_ring_loop_repeats] at h
    obtain ⟨e1, _, e3⟩ := h
    subst e1 e3
    exact ⟨by omega, hl⟩
  | cons i rest ih =>
    intro keep touchpts hidx hl
    have hi := hidx i (List.mem_cons_self _ _)
    have hrest := fun k t hk => ih k t (fun j hj => hidx j (List.mem_cons_of_mem _ hj)) hk
    unfold refine_ring_loop_repeats
    by_cases hf : (!flag keep i) = true
    · rw [if_pos hf]
      exact hrest keep touchpts hl
    · rw [if_neg hf]
      have hfi : flag keep i = true := by simpa using hf
      have hb := kept_count_le ring.pts.length keep
      obtain ⟨g1, g2⟩ := refine_ring_gap_repeats_bound sqrt ring i hi (ring.pts.length + 1)
        keep touchpts hfi hl (by omega)
      cases h1 : refine_ring_gap_repeats sqrt ring i (ring.pts.length + 1) keep touchpts with
      | error e =>
        dsimp only
        refine ⟨?_, fun k1 t1 r h => by cases h⟩
        intro hc
        injection hc with hc
        subst hc
        exact g1 h1
      | ok r1 =>
        obtain ⟨k1, t1, n1⟩ := r1
        obtain ⟨c1, c2⟩ := g2 k1 t1 n1 h1
        obtain ⟨i1, i2⟩ := hrest k1 t1 c2
        dsimp only
        cases h2 : refine_ring_loop_repeats sqrt ring rest k1 t1 with
        | error e =>
          dsimp only
          refine ⟨?_, fun k2 t2 r h => by cases h⟩
          intro hc
          injection hc with hc
          subst hc
          exact i1 h2
        | ok r2 =>
          obtain ⟨k2, t2, n2⟩ := r2
          dsimp only
          refine ⟨by simp, fun k3 t3 r h => ?_⟩
          injection h with h
          injection h with e1 h
          injection h with e2 e3
          subst e1 e3
          obtain ⟨j1, j2⟩ := i2 k2 t2 n2 h2
          exact ⟨by omega, j2⟩

/-- C28. Termination of the refinement.  For a flag array of the ring's size:
whenever `keep_linears` returns 1 or `refine_seg` returns a non-negative index
for the gap from a vertex to its next kept vertex, the number of kept vertices
has strictly increased; `refine_ring` comes to an end (with its result or a
fatal error, never by running out of the fuel of the embedding), and when it
returns, the repeats of its inner loop, counted over the whole run, are at
most `n` minus the initial number of kept vertices. -/
theorem refine_ring_terminates (sqrt : ℚ → ℚ) (ring : Ring) (keep touchpts : List Bool)
    (hl : keep.length = ring.pts.length) :
    (∀ from_idx tp keep1 tp1, from_idx < ring.pts.length →
      keep_linears sqrt ring keep from_idx (next_keep ring.pts.length keep from_idx) tp
        = .ok (true, keep1, tp1) →
      (kept_idx ring.pts.length keep).length < (kept_idx ring.pts.length keep1).length) ∧
    (∀ from_idx touchpt keep1, from_idx < ring.pts.length →
      refine_seg sqrt ring keep from_idx (next_keep ring.pts.length keep from_idx)
        = .ok (touchpt, keep1) → touchpt ≥ 0 →
      (kept_idx ring.pts.length keep).length < (kept_idx ring.pts.length keep1).length) ∧
    refine_ring sqrt ring keep touchpts ≠ .error .out_of_fuel ∧
    (∀ keep1 tp1, refine_ring sqrt ring keep touchpts = .ok (keep1, tp1) →
      ∃ repeats, refine_ring_loop_repeats sqrt ring (List.range ring.pts.length) keep touchpts
          = .ok (keep1, tp1, repeats) ∧
        repeats + (kept_idx ring.pts.length keep).length
          ≤ (kept_idx ring.pts.length keep1).length ∧
        repeats ≤ ring.pts.length - (kept_idx ring.pts.length keep).length) := by
  obtain ⟨b1, b2⟩ := refine_ring_loop_repeats_bound sqrt ring (List.range ring.pts.length)
    keep touchpts (fun i hi => List.mem_range.mp hi) hl
  have heq := refine_ring_loop_repeats_eq sqrt ring (List.range ring.pts.length) keep touchpts
  refine ⟨fun from_idx tp keep1 tp1 hf h => keep_linears_count sqrt ring keep from_idx tp keep1
      tp1 hf hl h,
    fun from_idx touchpt keep1 hf h hp => refine_seg_count sqrt ring keep from_idx touchpt keep1
      hf hl h hp, ?_, ?_⟩
  · unfold refine_ring
    rw [heq]
    cases h : refine_ring_loop_repeats sqrt ring (List.range ring.pts.length) keep touchpts with
    | error e =>
      intro hc
      simp only [Except.map] at hc
      injection hc with hc
      subst hc
      exact b1 h
    | ok r => simp [Except.map]
  · intro keep1 tp1 h
    unfold refine_ring at h
    rw [heq] at h
    cases h2 : refine_ring_loop_repeats sqrt ring (List.range ring.pts.length) keep touchpts with
    | error e => rw [h2] at h; simp [Except.map] at h
    | ok r =>
      obtain ⟨k1, t1, n1⟩ := r
      rw [h2] at h
      simp only [Except.map] at h
      injection h with h
      injection h with e1 e2
      subst e1 e2
      obtain ⟨c1, _⟩ := b2 k1 t1 n1 h2
      have := kept_count_le ring.pts.length k1
      exact ⟨n1, rfl, c1, by omega⟩

/-- Witness for C28: on the wedge ring with the flags of its hull, six of eight
vertices kept, `refine_ring` repeats its inner loop once, for the one vertex it
adds. -/
theorem refine_ring_terminates_witness :
    find_chull ring_wedge = .ok [true, true, true, false, true, true, false, true] ∧
      refine_ring_loop_repeats sqrt_trunc ring_wedge (List.range ring_wedge.pts.length)
          [true, true, true, false, true, true, false, true] (List.replicate 8 false)
        = .ok ([true, true, true, true, true, true, false, true],
            [false, false, false, true, false, false, false, false], 1) ∧
      refine_ring sqrt_trunc ring_wedge [true, true, true, false, true, true, false, true]
          (List.replicate 8 false) ≠ .error .out_of_fuel :=
  ⟨by decide!, by decide!,
   (refine_ring_terminates sqrt_trunc ring_wedge
     [true, true, true, false, true, true, false, true] (List.replicate 8 false)
     (by decide)).2.2.1⟩


/-! ## Small excursions -/

/-- A vertex at an index inside the point array is a member of the array. -/
theorem vtx_mem (pts : List Vertex) (i : Nat) (hi : i < pts.length) : vtx pts i ∈ pts := by
  rw [vtx_eq_getElem pts i hi]
  exact List.get_mem _ _ _

/-- The accumulation loops of `refine_seg` only add non-negative areas, and by
the triangle inequality the chord lengths they add up are at least the length
of the chord from where the loop starts to where it stops. -/
theorem refine_seg_sum_bounds (sqrt : ℚ → ℚ) (ring : Ring) (keep : List Bool) (stop : Nat)
    (hs : stop < ring.pts.length) (hm : lengths_metric sqrt ring.pts) :
    ∀ (fuel pk : Nat) (area0 perim0 area perim : ℚ), pk < ring.pts.length →
      refine_seg_sum sqrt ring keep stop fuel pk area0 perim0 = .ok (area, perim) →
      area0 ≤ area ∧
      perim0 + seg_len sqrt (vtx ring.pts pk) (vtx ring.pts stop) ≤ perim := by
  intro fuel
  induction fuel with
  | zero => intro pk area0 perim0 area perim _ h; simp [refine_seg_sum] at h
  | succ fuel ih =>
    intro pk area0 perim0 area perim hpk h
    have hnk := next_keep_lt ring.pts.length keep pk hpk
    unfold refine_seg_sum at h
    dsimp only at h
    split at h
    · cases h
    · rename_i a ha
      obtain ⟨q1, q2⟩ := subring_area_ok ring _ _ _ ha
      have ha0 : 0 ≤ a := by rw [q2]; linarith
      split at h
      · rename_i he
        injection h with h
        injection h with e1 e2
        subst e1 e2
        rw [he]
        exact ⟨by linarith, le_refl _⟩
      · obtain ⟨i1, i2⟩ := ih _ _ _ _ _ hnk h
        have tri := (hm _ (vtx_mem _ _ hpk) _ (vtx_mem _ _ hnk) _ (vtx_mem _ _ hs)).2
        exact ⟨by linarith, by linarith⟩

/-- The improvement of `refine_seg` is not positive when the start area is at
most 2, the area left is not negative and the perimeter is not shorter than the
start perimeter. -/
theorem improvement_nonpos (start_area area perim start_perim : ℚ)
    (h1 : start_area ≤ 2) (h2 : 0 ≤ area) (h3 : start_perim ≤ perim) (h4 : 0 ≤ start_perim) :
    ((start_area + 2) / (area + 2)) / (perim / start_perim) ^ 2 - 2 ≤ 0 := by
  rcases eq_or_lt_of_le h4 with e | hpos
  · rw [← e]
    simp
  · have hx : (start_area + 2) / (area + 2) ≤ 2 := by
      rw [div_le_iff₀ (by linarith)]
      linarith
    have hy1 : 1 ≤ perim / start_perim := by
      rw [le_div_iff₀ hpos]
      linarith
    have hy : 1 ≤ (perim / start_perim) ^ 2 := by nlinarith
    have : (start_area + 2) / (area + 2) / (perim / start_perim) ^ 2 ≤ 2 := by
      rw [div_le_iff₀ (by linarith)]
      nlinarith
    linarith

/-- In a gap of area at most 2 every accepted test point of `refine_seg` has an
improvement that is not positive. -/
theorem refine_seg_candidate_small (sqrt : ℚ → ℚ) (ring : Ring) (keep_orig : List Bool)
    (from_idx to_idx : Nat) (start_area : ℚ) (t : Nat) (imp : ℚ) (k : List Bool)
    (hf : from_idx < ring.pts.length) (ht : to_idx < ring.pts.length)
    (htn : t < ring.pts.length) (hm : lengths_metric sqrt ring.pts)
    (hsa : start_area ≤ 2)
    (h : refine_seg_candidate sqrt ring keep_orig from_idx to_idx start_area
      (seg_len sqrt (vtx ring.pts from_idx) (vtx ring.pts to_idx)) t = .ok (some (imp, k))) :
    imp ≤ 0 := by
  unfold refine_seg_candidate at h
  dsimp only at h
  split at h
  · cases h
  · cases h
  · rename_i keep_new hadd
    split at h
    · cases h
    · rename_i la lp hleft
      split at h
      · cases h
      · rename_i ra rp hright
        injection h with h
        injection h with h
        injection h with e1 e2
        subst e1
        obtain ⟨l1, l2⟩ := refine_seg_sum_bounds sqrt ring keep_new t htn hm _ _ _ _ _ _ hf hleft
        obtain ⟨r1, r2⟩ := refine_seg_sum_bounds sqrt ring keep_new to_idx ht hm _ _ _ _ _ _ htn
          hright
        obtain ⟨n1, tri⟩ := hm _ (vtx_mem _ _ hf) _ (vtx_mem _ _ htn) _ (vtx_mem _ _ ht)
        have n2 := (hm _ (vtx_mem _ _ hf) _ (vtx_mem _ _ ht) _ (vtx_mem _ _ ht)).1
        exact improvement_nonpos start_area (la + ra) (lp + rp) _ hsa (by linarith)
          (by linarith) n2

/-- C30. Small excursions are never refined by insertion: for a gap whose
excursion area `start_area` is at most 2, on a ring whose computed lengths are
not negative and obey the triangle inequality, every test point that
`add_tiepoint` accepts has an improvement that is not positive, so `refine_seg`
never returns an index: when it returns, it returns `-1` with the keep flags it
was given; and it does come to an end. -/
theorem refine_seg_small_gap (sqrt : ℚ → ℚ) (ring : Ring) (keep_orig : List Bool)
    (from_idx to_idx : Nat) (start_area : ℚ)
    (hf : from_idx < ring.pts.length) (ht : to_idx < ring.pts.length)
    (hft : flag keep_orig to_idx = true) (hl : keep_orig.length = ring.pts.length)
    (hm : lengths_metric sqrt ring.pts)
    (ha : subring_area ring from_idx to_idx = .ok start_area) (hsa : start_area ≤ 2) :
    refine_seg sqrt ring keep_orig from_idx to_idx ≠ .error .out_of_fuel ∧
    (∀ touchpt keep, refine_seg sqrt ring keep_orig from_idx to_idx = .ok (touchpt, keep) →
      touchpt = -1 ∧ keep = keep_orig) ∧
    (∀ t ∈ cyc_between ring.pts.length from_idx to_idx, ∀ imp k,
      refine_seg_candidate sqrt ring keep_orig from_idx to_idx start_area
        (seg_len sqrt (vtx ring.pts from_idx) (vtx ring.pts to_idx)) t = .ok (some (imp, k)) →
      imp ≤ 0) := by
  have hcand : ∀ t ∈ cyc_between ring.pts.length from_idx to_idx, ∀ imp k,
      refine_seg_candidate sqrt ring keep_orig from_idx to_idx start_area
        (seg_len sqrt (vtx ring.pts from_idx) (vtx ring.pts to_idx)) t = .ok (some (imp, k)) →
      imp ≤ 0 := by
    intro t htm imp k hk
    exact refine_seg_candidate_small sqrt ring keep_orig from_idx to_idx start_area t imp k hf ht
      (cyc_between_mem _ _ _ _ hf ht htm).1 hm hsa hk
  refine ⟨refine_seg_terminates sqrt ring keep_orig from_idx to_idx hf ht hft hl, ?_, hcand⟩
  intro touchpt keep h
  unfold refine_seg at h
  dsimp only at h
  rw [ha] at h
  dsimp only at h
  split at h
  · cases h
  · rename_i res hloop
    obtain ⟨_, _, _, a4⟩ := refine_seg_loop_best sqrt ring keep_orig from_idx to_idx
      _ _ _ _ _ hloop
    have hz : res.best_improvement = 0 := by
      rcases a4 with e | ⟨j, t, imp, b1, b2, b3, _, b5, _⟩
      · rw [e]
      · have := hcand t (List.getElem?_mem b1) imp _ b2
        dsimp only at b5
        linarith
    rw [if_neg (by simp [hz])] at h
    injection h with h
    injection h with e1 e2
    exact ⟨e1.symm, e2.symm⟩

/-- Witness for C30: the notch of the notched pentagon, a gap of area 1 between
the kept vertices 1 and 3; its one test point, vertex 2, is accepted and has a
negative improvement, and `refine_seg` returns `-1`. -/
theorem refine_seg_small_gap_witness :
    lengths_metric sqrt_trunc ring_notch.pts ∧ subring_area ring_notch 1 3 = .ok 1 ∧
      refine_seg sqrt_trunc ring_notch [true, true, false, true, true] 1 3
        = .ok (-1, [true, true, false, true, true]) ∧
      refine_seg sqrt_trunc ring_notch [true, true, false, true, true] 1 3
        ≠ .error .out_of_fuel :=
  ⟨by decide!, by decide!, by decide!,
   (refine_seg_small_gap sqrt_trunc ring_notch [true, true, false, true, true] 1 3 1
     (by decide) (by decide) (by decide) (by decide) (by decide!) (by decide!)
     (by decide!)).1⟩


/-! ## Gaps that `refine_ring` does not visit -/

/-- C24 fails on the simple counter-clockwise pentagon `ring_wrap`.  The hull
sweep keeps the vertices 2, 3, 4; the only gap with an excursion is the one
that wraps round from vertex 4 to vertex 2, which `refine_ring` refines at
`i = 4`, its last index, by keeping vertex 0.  The new gap from vertex 0 to
vertex 2 has area 5 and is never visited, as the loop is past index 0: when
`refine_ring` has returned, `keep_linears` leaves that gap alone but
`refine_seg` still changes the keep flags, by keeping vertex 1. -/
theorem refine_ring_leaves_gap_unrefined :
    is_simple_ring ring_wrap.pts ∧ ring_is_ccw ring_wrap = true ∧
      find_chull ring_wrap = .ok [false, false, true, true, true] ∧
      refine_ring sqrt_trunc ring_wrap [false, false, true, true, true] (List.replicate 5 false)
        = .ok ([true, false, true, true, true], [true, false, false, false, false]) ∧
      next_keep ring_wrap.pts.length [true, false, true, true, true] 0 = 2 ∧
      subring_area ring_wrap 0 2 = .ok 5 ∧
      keep_linears sqrt_trunc ring_wrap [true, false, true, true, true] 0 2
          [true, false, false, false, false]
        = .ok (false, [true, false, true, true, true], [true, false, false, false, false]) ∧
      refine_seg sqrt_trunc ring_wrap [true, false, true, true, true] 0 2
        = .ok (1, [true, true, true, true, true]) ∧
      pinch_ring_excursions sqrt_trunc ring_wrap
        = .ok (mk_ring [(4, 1), (2, 8), (0, 0), (9, 2)]) := by
  decide!


/-! ## Progress of the hull sweep -/

/-- An index other than `a` and `b` that is not farther from `a` than `b` is, in
ring order, lies strictly between them; when `a = b` every other index does. -/
theorem cyc_between_of_dist (n a b x : Nat) (ha : a < n) (hb : b < n) (hx : x < n)
    (hxa : x ≠ a) (hxb : x ≠ b)
    (h : a ≠ b → cyc_dist n a x ≤ cyc_dist n a b) : x ∈ cyc_between n a b := by
  unfold cyc_between
  have hlen : (b + n - a - 1) % n = if a < b then b - a - 1 else b + n - a - 1 := by
    split
    · have : b + n - a - 1 = (b - a - 1) + n := by omega
      rw [this, Nat.add_mod_right, Nat.mod_eq_of_lt (by omega)]
    · rw [Nat.mod_eq_of_lt (by omega)]
  have hd := cyc_dist_eq n a x ha hx
  have hp := (cyc_dist_pos n a x ha hx (fun e => hxa e.symm)).1
  have hl := cyc_dist_lt n a x ha hx
  refine List.mem_map.mpr ⟨cyc_dist n a x - 1, List.mem_range.mpr ?_, ?_⟩
  · rw [hlen]
    by_cases e : a = b
    · subst e
      rw [if_neg (by omega)]
      omega
    · have h2 := h e
      rw [cyc_dist_eq n a b ha hb] at h2
      generalize cyc_dist n a x = d at hd hp hl h2 ⊢
      split_ifs at hd h2 ⊢ <;> omega
  · have e : a + 1 + (cyc_dist n a x - 1) = a + cyc_dist n a x := by omega
    rw [e, cyc_add_eq n a _ ha hl]
    generalize cyc_dist n a x = d at hd hp hl ⊢
    split_ifs at hd ⊢ <;> omega

/-- The index of a non-error result of `find_next_convex` is `limit_idx` or lies
strictly between `start_idx` and `limit_idx` in ring order. -/
theorem find_next_convex_between (ring : Ring) (start_idx limit_idx : Nat) (ang : Angle)
    (hs : start_idx < ring.pts.length) (hl : limit_idx < ring.pts.length)
    (herr : (find_next_convex ring start_idx limit_idx ang).error = false) :
    (find_next_convex ring start_idx limit_idx ang).idx = limit_idx ∨
      (find_next_convex ring start_idx limit_idx ang).idx
        ∈ cyc_between ring.pts.length start_idx limit_idx := by
  by_cases e : (find_next_convex ring start_idx limit_idx ang).idx = limit_idx
  · exact Or.inl e
  · right
    by_cases e2 : start_idx = limit_idx
    · subst e2
      rcases find_next_convex_self ring start_idx ang hs herr with ⟨h1, _⟩ | ⟨h1, h2⟩
      · exact absurd h1 e
      · exact cyc_between_of_dist _ _ _ _ hs hs h2 h1 h1 (fun c => absurd rfl c)
    · obtain ⟨h1, h2, h3⟩ := find_next_convex_idx ring start_idx limit_idx ang hs hl e2 herr
      exact cyc_between_of_dist _ _ _ _ hs hl h1 h2 e (fun _ => h3)


/-- The number of steps left to a loop that walks to `target` by non-error
results of `find_next_convex`: a whole turn of the ring when it stands on the
target, the way to the target otherwise. -/
theorem sweep_measure_pos (n idx target : Nat) (hi : idx < n) (ht : target < n) :
    1 ≤ (if idx = target then n else cyc_dist n idx target) := by
  by_cases e : idx = target
  · rw [if_pos e]; omega
  · rw [if_neg e]
    exact (cyc_dist_pos _ _ _ hi ht e).1

/-- A non-error result of `find_next_convex` other than the target brings the
loop at least one step nearer to the target. -/
theorem find_next_convex_measure (ring : Ring) (idx target : Nat) (ang : Angle)
    (hi : idx < ring.pts.length) (ht : target < ring.pts.length)
    (herr : (find_next_convex ring idx target ang).error = false)
    (hne : (find_next_convex ring idx target ang).idx ≠ target) :
    (find_next_convex ring idx target ang).idx < ring.pts.length ∧
    cyc_dist ring.pts.length (find_next_convex ring idx target ang).idx target + 1
      ≤ (if idx = target then ring.pts.length else cyc_dist ring.pts.length idx target) := by
  by_cases e : idx = target
  · rw [if_pos e]
    subst e
    rcases find_next_convex_self ring idx ang hi herr with ⟨h1, _⟩ | ⟨_, h2⟩
    · exact absurd h1 hne
    · refine ⟨h2, ?_⟩
      have := cyc_dist_lt _ _ _ h2 hi
      omega
  · rw [if_neg e]
    obtain ⟨h1, h2, h3⟩ := find_next_convex_idx ring idx target ang hi ht e herr
    refine ⟨h1, ?_⟩
    have r1 := cyc_dist_rest _ _ _ _ hi h1 ht h3
    have r2 := (cyc_dist_pos _ _ _ hi h1 (fun e2 => h2 e2.symm)).1
    omega

/-- The counter of `find_chull_loop_calls` runs out of fuel exactly when the
loop of `find_chull` does. -/
theorem find_chull_loop_calls_none (ring : Ring) (start_idx : Nat) :
    ∀ (fuel idx : Nat) (ang : Angle) (keep : List Bool),
      find_chull_loop ring start_idx fuel idx ang keep = .error .out_of_fuel ↔
        find_chull_loop_calls ring start_idx fuel idx ang = none := by
  intro fuel
  induction fuel with
  | zero =>
    intro idx ang keep
    simp [find_chull_loop, find_chull_loop_calls]
  | succ fuel ih =>
    intro idx ang keep
    unfold find_chull_loop find_chull_loop_calls
    dsimp only
    by_cases herr : (find_next_convex ring idx start_idx ang).error = true
    · rw [if_pos herr, if_pos herr]
      simp
    · rw [if_neg herr, if_neg herr]
      by_cases hs : (find_next_convex ring idx start_idx ang).idx = start_idx
      · rw [if_pos hs, if_pos hs]
        simp
      · rw [if_neg hs, if_neg hs, ih]
        cases find_chull_loop_calls ring start_idx fuel
          (find_next_convex ring idx start_idx ang).idx
          (find_next_convex ring idx start_idx ang).ang <;> simp

/-- The counter of `reach_point_step_calls` runs out of fuel exactly when the
stepping loop of `reach_point` does. -/
theorem reach_point_step_calls_none (ring : Ring) (to_idx : Nat) :
    ∀ (fuel idx : Nat) (ang : Angle) (keep : List Bool),
      reach_point_step ring to_idx fuel idx ang keep = .error .out_of_fuel ↔
        reach_point_step_calls ring to_idx fuel idx ang = none := by
  intro fuel
  induction fuel with
  | zero =>
    intro idx ang keep
    simp [reach_point_step, reach_point_step_calls]
  | succ fuel ih =>
    intro idx ang keep
    unfold reach_point_step reach_point_step_calls
    dsimp only
    by_cases herr : (find_next_convex ring idx to_idx ang).error = true
    · rw [if_pos herr, if_pos herr]
      simp
    · rw [if_neg herr, if_neg herr]
      by_cases hs : (find_next_convex ring idx to_idx ang).idx = to_idx
      · rw [if_pos hs, if_pos hs]
        simp
      · rw [if_neg hs, if_neg hs, ih]
        cases reach_point_step_calls ring to_idx fuel
          (find_next_convex ring idx to_idx ang).idx
          (find_next_convex ring idx to_idx ang).ang <;> simp

/-- With fuel for the steps left, the loop of `find_chull` ends after at most
that many calls of `find_next_convex`. -/
theorem find_chull_loop_calls_bound (ring : Ring) (start_idx : Nat)
    (hs : start_idx < ring.pts.length) :
    ∀ (fuel idx : Nat) (ang : Angle), idx < ring.pts.length →
      (if idx = start_idx then ring.pts.length
        else cyc_dist ring.pts.length idx start_idx) ≤ fuel →
      ∃ calls, find_chull_loop_calls ring start_idx fuel idx ang = some calls ∧
        1 ≤ calls ∧
        calls ≤ (if idx = start_idx then ring.pts.length
          else cyc_dist ring.pts.length idx start_idx) := by
  intro fuel
  induction fuel with
  | zero =>
    intro idx ang hi hm
    have := sweep_measure_pos _ _ _ hi hs
    omega
  | succ fuel ih =>
    intro idx ang hi hm
    have hpos := sweep_measure_pos _ _ _ hi hs
    unfold find_chull_loop_calls
    dsimp only
    by_cases herr : (find_next_convex ring idx start_idx ang).error = true
    · rw [if_pos herr]
      exact ⟨1, rfl, le_refl _, hpos⟩
    · rw [if_neg herr]
      by_cases he : (find_next_convex ring idx start_idx ang).idx = start_idx
      · rw [if_pos he]
        exact ⟨1, rfl, le_refl _, hpos⟩
      · rw [if_neg he]
        obtain ⟨h1, h2⟩ := find_next_convex_measure ring idx start_idx ang hi hs
          (by simpa using herr) he
        have hm2 : (if (find_next_convex ring idx start_idx ang).idx = start_idx
            then ring.pts.length
            else cyc_dist ring.pts.length (find_next_convex ring idx start_idx ang).idx
              start_idx) ≤ fuel := by
          rw [if_neg he]; omega
        obtain ⟨c, hc, hc1, hc2⟩ := ih _ (find_next_convex ring idx start_idx ang).ang h1 hm2
        rw [if_neg he] at hc2
        rw [hc]
        exact ⟨c + 1, rfl, by omega, by omega⟩

/-- With fuel for the steps left, the stepping loop of `reach_point` ends after
at most that many calls of `find_next_convex`. -/
theorem reach_point_step_calls_bound (ring : Ring) (to_idx : Nat)
    (ht : to_idx < ring.pts.length) :
    ∀ (fuel idx : Nat) (ang : Angle), idx < ring.pts.length →
      (if idx = to_idx then ring.pts.length
        else cyc_dist ring.pts.length idx to_idx) ≤ fuel →
      ∃ calls, reach_point_step_calls ring to_idx fuel idx ang = some calls ∧
        1 ≤ calls ∧
        calls ≤ (if idx = to_idx then ring.pts.length
          else cyc_dist ring.pts.length idx to_idx) := by
  intro fuel
  induction fuel with
  | zero =>
    intro idx ang hi hm
    have := sweep_measure_pos _ _ _ hi ht
    omega
  | succ fuel ih =>
    intro idx ang hi hm
    have hpos := sweep_measure_pos _ _ _ hi ht
    unfold reach_point_step_calls
    dsimp only
    by_cases herr : (find_next_convex ring idx to_idx ang).error = true
    · rw [if_pos herr]
      exact ⟨1, rfl, le_refl _, hpos⟩
    · rw [if_neg herr]
      by_cases he : (find_next_convex ring idx to_idx ang).idx = to_idx
      · rw [if_pos he]
        exact ⟨1, rfl, le_refl _, hpos⟩
      · rw [if_neg he]
        obtain ⟨h1, h2⟩ := find_next_convex_measure ring idx to_idx ang hi ht
          (by simpa using herr) he
        have hm2 : (if (find_next_convex ring idx to_idx ang).idx = to_idx
            then ring.pts.length
            else cyc_dist ring.pts.length (find_next_convex ring idx to_idx ang).idx
              to_idx) ≤ fuel := by
          rw [if_neg he]; omega
        obtain ⟨c, hc, hc1, hc2⟩ := ih _ (find_next_convex ring idx to_idx ang).ang h1 hm2
        rw [if_neg he] at hc2
        rw [hc]
        exact ⟨c + 1, rfl, by omega, by omega⟩

/-- The measure of the steps left is at most the number of vertices. -/
theorem sweep_measure_le (n idx target : Nat) (hi : idx < n) (ht : target < n) :
    (if idx = target then n else cyc_dist n idx target) ≤ n := by
  split
  · exact le_refl _
  · exact Nat.le_of_lt (cyc_dist_lt _ _ _ hi ht)

/-- The sweep of `find_chull` never runs out of the fuel of one unit for each
vertex. -/
theorem find_chull_terminates (ring : Ring) : find_chull ring ≠ .error .out_of_fuel := by
  unfold find_chull
  split
  · simp
  · rename_i hn
    dsimp only
    have hb := (find_bottom_pt_spec ring (Nat.pos_of_ne_zero hn)).1
    intro h
    have h2 := (find_chull_loop_calls_none ring _ _ _ _ _).mp h
    obtain ⟨c, hc, _⟩ := find_chull_loop_calls_bound ring _ hb ring.pts.length _
      Angle.zero hb (by rw [if_pos rfl])
    rw [hc] at h2
    cases h2


/-- C31: on a ring of `n` vertices and for indices below `n`, the index of every
non-error result of `find_next_convex` is `limit_idx` or one of the indices
strictly between `start_idx` and `limit_idx` in ring order (all the other
indices when the two are equal, as in the first call of `find_chull`).
Consequently the sweep of `find_chull` never runs out of its `n` units of fuel
and its loop ends after at most `n` calls of `find_next_convex` whatever the
fuel from `n` on, and so does the stepping loop of `reach_point` from every
index to every index. -/
theorem hull_sweep_progress (ring : Ring) :
    (∀ (start_idx limit_idx : Nat) (ang : Angle),
      start_idx < ring.pts.length → limit_idx < ring.pts.length →
      (find_next_convex ring start_idx limit_idx ang).error = false →
      (find_next_convex ring start_idx limit_idx ang).idx = limit_idx ∨
        (find_next_convex ring start_idx limit_idx ang).idx
          ∈ cyc_between ring.pts.length start_idx limit_idx) ∧
    find_chull ring ≠ .error .out_of_fuel ∧
    (0 < ring.pts.length → ∀ fuel, ring.pts.length ≤ fuel →
      ∃ calls, find_chull_loop_calls ring (find_bottom_pt ring) fuel (find_bottom_pt ring)
          Angle.zero = some calls ∧ calls ≤ ring.pts.length) ∧
    (∀ (from_idx to_idx : Nat) (ang : Angle) (keep : List Bool),
      from_idx < ring.pts.length → to_idx < ring.pts.length →
      reach_point_step ring to_idx ring.pts.length from_idx ang keep ≠ .error .out_of_fuel ∧
      ∀ fuel, ring.pts.length ≤ fuel →
        ∃ calls, reach_point_step_calls ring to_idx fuel from_idx ang = some calls ∧
          calls ≤ ring.pts.length) := by
  refine ⟨?_, find_chull_terminates ring, ?_, ?_⟩
  · intro start_idx limit_idx ang hs hl herr
    exact find_next_convex_between ring start_idx limit_idx ang hs hl herr
  · intro hn fuel hf
    have hb := (find_bottom_pt_spec ring hn).1
    obtain ⟨c, hc, _, hc2⟩ := find_chull_loop_calls_bound ring _ hb fuel _ Angle.zero hb
      (by rw [if_pos rfl]; exact hf)
    rw [if_pos rfl] at hc2
    exact ⟨c, hc, hc2⟩
  · intro from_idx to_idx ang keep hf ht
    have hm := sweep_measure_le _ _ _ hf ht
    refine ⟨reach_point_step_terminates ring to_idx ht _ _ ang keep hf hm, ?_⟩
    intro fuel hfuel
    obtain ⟨c, hc, _, hc2⟩ := reach_point_step_calls_bound ring to_idx ht fuel from_idx ang hf
      (le_trans hm hfuel)
    exact ⟨c, hc, le_trans hc2 hm⟩

/-- C31 at work: on the hexagon `ring_hex` the first call of the hull sweep,
from the lowest vertex 1 with the limit 1, returns vertex 2, and the sweep ends
after 3 calls with a result; on the convex `ring_square` the sweep makes as many
calls as there are vertices. -/
theorem hull_sweep_progress_witness :
    (find_next_convex ring_hex 1 1 Angle.zero).error = false ∧
      (find_next_convex ring_hex 1 1 Angle.zero).idx = 2 ∧
      cyc_between ring_hex.pts.length 1 1 = [2, 3, 4, 5, 0] ∧
      ((find_next_convex ring_hex 1 1 Angle.zero).idx = 1 ∨
        (find_next_convex ring_hex 1 1 Angle.zero).idx ∈ cyc_between ring_hex.pts.length 1 1) ∧
      find_chull ring_hex = .ok [false, true, true, true, false, false] ∧
      find_chull_loop_calls ring_hex (find_bottom_pt ring_hex) 6 (find_bottom_pt ring_hex)
        Angle.zero = some 3 ∧
      find_chull_loop_calls ring_square (find_bottom_pt ring_square) 4
        (find_bottom_pt ring_square) Angle.zero = some 4 ∧
      reach_point_step_calls ring_spur 0 8 4 Angle.zero = some 3 :=
  ⟨by decide!, by decide!, by decide!,
   (hull_sweep_progress ring_hex).1 1 1 Angle.zero (by decide) (by decide) (by decide!),
   by decide!, by decide!, by decide!, by decide!⟩


/-! ## Symmetry of the segment intersection test -/

/-- The decision of `line_intersects_line` after the bounding-box test, on the
two numerators and the denominator, is the same when the numerators change
places and all three change sign, which is what exchanging the two segments
does to them. -/
theorem intersect_decision_swap (numer_a numer_b denom : ℚ) (f : Bool) :
    (if denom = 0 then
        if numer_a = 0 ∧ numer_b = 0 then (if f then 0 else 1) else 0
      else if numer_a / denom ≥ 0 ∧ numer_a / denom ≤ 1 ∧
          numer_b / denom ≥ 0 ∧ numer_b / denom ≤ 1 then 1 else (0 : Nat)) =
    (if -denom = 0 then
        if -numer_b = 0 ∧ -numer_a = 0 then (if f then 0 else 1) else 0
      else if -numer_b / -denom ≥ 0 ∧ -numer_b / -denom ≤ 1 ∧
          -numer_a / -denom ≥ 0 ∧ -numer_a / -denom ≤ 1 then 1 else (0 : Nat)) := by
  simp only [neg_eq_zero, neg_div_neg_eq]
  by_cases hd : denom = 0
  · rw [if_pos hd, if_pos hd]
    by_cases hn : numer_a = 0 ∧ numer_b = 0
    · rw [if_pos hn, if_pos (And.intro hn.2 hn.1)]
    · have hn2 : ¬(numer_b = 0 ∧ numer_a = 0) := fun c => hn ⟨c.2, c.1⟩
      rw [if_neg hn, if_neg hn2]
  · rw [if_neg hd, if_neg hd]
    by_cases hn : numer_a / denom ≥ 0 ∧ numer_a / denom ≤ 1 ∧
        numer_b / denom ≥ 0 ∧ numer_b / denom ≤ 1
    · have hn2 : numer_b / denom ≥ 0 ∧ numer_b / denom ≤ 1 ∧
          numer_a / denom ≥ 0 ∧ numer_a / denom ≤ 1 := ⟨hn.2.2.1, hn.2.2.2, hn.1, hn.2.1⟩
      rw [if_pos hn, if_pos hn2]
    · have hn2 : ¬(numer_b / denom ≥ 0 ∧ numer_b / denom ≤ 1 ∧
          numer_a / denom ≥ 0 ∧ numer_a / denom ≤ 1) :=
        fun c => hn ⟨c.2.2.1, c.2.2.2, c.1, c.2.1⟩
      rw [if_neg hn, if_neg hn2]

/-- The decision of `line_intersects_line` after the bounding-box test is the
same when the denominator and the second numerator change sign and the first
numerator loses the denominator, which is what reversing the first segment does
to them. -/
theorem intersect_decision_reverse (numer_a numer_b denom : ℚ) (f : Bool) :
    (if denom = 0 then
        if numer_a = 0 ∧ numer_b = 0 then (if f then 0 else 1) else 0
      else if numer_a / denom ≥ 0 ∧ numer_a / denom ≤ 1 ∧
          numer_b / denom ≥ 0 ∧ numer_b / denom ≤ 1 then 1 else (0 : Nat)) =
    (if -denom = 0 then
        if numer_a - denom = 0 ∧ -numer_b = 0 then (if f then 0 else 1) else 0
      else if (numer_a - denom) / -denom ≥ 0 ∧ (numer_a - denom) / -denom ≤ 1 ∧
          -numer_b / -denom ≥ 0 ∧ -numer_b / -denom ≤ 1 then 1 else (0 : Nat)) := by
  simp only [neg_eq_zero, neg_div_neg_eq]
  by_cases hd : denom = 0
  · rw [if_pos hd, if_pos hd, hd, sub_zero]
  · rw [if_neg hd, if_neg hd]
    have e : (numer_a - denom) / -denom = 1 - numer_a / denom := by
      rw [div_neg, sub_div, div_self hd]
      ring
    rw [e]
    by_cases hn : numer_a / denom ≥ 0 ∧ numer_a / denom ≤ 1 ∧
        numer_b / denom ≥ 0 ∧ numer_b / denom ≤ 1
    · have hn2 : 1 - numer_a / denom ≥ 0 ∧ 1 - numer_a / denom ≤ 1 ∧
          numer_b / denom ≥ 0 ∧ numer_b / denom ≤ 1 :=
        ⟨by linarith [hn.2.1], by linarith [hn.1], hn.2.2⟩
      rw [if_pos hn, if_pos hn2]
    · have hn2 : ¬(1 - numer_a / denom ≥ 0 ∧ 1 - numer_a / denom ≤ 1 ∧
          numer_b / denom ≥ 0 ∧ numer_b / denom ≤ 1) :=
        fun c => hn ⟨by linarith [c.2.1], by linarith [c.1], c.2.2⟩
      rw [if_neg hn, if_neg hn2]

/-- Exchanging the two segments does not change the result of
`line_intersects_line`. -/
theorem line_intersects_line_swap (p1 p2 p3 p4 : Vertex) (f : Bool) :
    line_intersects_line p1 p2 p3 p4 f = line_intersects_line p3 p4 p1 p2 f := by
  unfold line_intersects_line
  dsimp only
  have hB : (max p3.x p4.x < min p1.x p2.x ∨ min p3.x p4.x > max p1.x p2.x ∨
      max p3.y p4.y < min p1.y p2.y ∨ min p3.y p4.y > max p1.y p2.y) ↔
      (max p1.x p2.x < min p3.x p4.x ∨ min p1.x p2.x > max p3.x p4.x ∨
      max p1.y p2.y < min p3.y p4.y ∨ min p1.y p2.y > max p3.y p4.y) := by
    simp only [gt_iff_lt]
    tauto
  by_cases hb : max p1.x p2.x < min p3.x p4.x ∨ min p1.x p2.x > max p3.x p4.x ∨
      max p1.y p2.y < min p3.y p4.y ∨ min p1.y p2.y > max p3.y p4.y
  · rw [if_pos hb, if_pos (hB.mpr hb)]
  · rw [if_neg hb, if_neg (fun c => hb (hB.mp c))]
    have hd : (p2.y - p1.y) * (p4.x - p3.x) - (p2.x - p1.x) * (p4.y - p3.y)
        = -((p4.y - p3.y) * (p2.x - p1.x) - (p4.x - p3.x) * (p2.y - p1.y)) := by ring
    have ha : (p2.x - p1.x) * (p3.y - p1.y) - (p2.y - p1.y) * (p3.x - p1.x)
        = -((p2.x - p1.x) * (p1.y - p3.y) - (p2.y - p1.y) * (p1.x - p3.x)) := by ring
    have hn : (p4.x - p3.x) * (p3.y - p1.y) - (p4.y - p3.y) * (p3.x - p1.x)
        = -((p4.x - p3.x) * (p1.y - p3.y) - (p4.y - p3.y) * (p1.x - p3.x)) := by ring
    rw [hd, ha, hn]
    exact intersect_decision_swap _ _ _ f

/-- Reversing the first segment does not change the result of
`line_intersects_line`. -/
theorem line_intersects_line_reverse (p1 p2 p3 p4 : Vertex) (f : Bool) :
    line_intersects_line p1 p2 p3 p4 f = line_intersects_line p2 p1 p3 p4 f := by
  unfold line_intersects_line
  dsimp only
  rw [max_comm p2.x p1.x, min_comm p2.x p1.x, max_comm p2.y p1.y, min_comm p2.y p1.y]
  by_cases hb : max p1.x p2.x < min p3.x p4.x ∨ min p1.x p2.x > max p3.x p4.x ∨
      max p1.y p2.y < min p3.y p4.y ∨ min p1.y p2.y > max p3.y p4.y
  · rw [if_pos hb, if_pos hb]
  · rw [if_neg hb, if_neg hb]
    have hd : (p4.y - p3.y) * (p1.x - p2.x) - (p4.x - p3.x) * (p1.y - p2.y)
        = -((p4.y - p3.y) * (p2.x - p1.x) - (p4.x - p3.x) * (p2.y - p1.y)) := by ring
    have ha : (p4.x - p3.x) * (p2.y - p3.y) - (p4.y - p3.y) * (p2.x - p3.x)
        = ((p4.x - p3.x) * (p1.y - p3.y) - (p4.y - p3.y) * (p1.x - p3.x))
          - ((p4.y - p3.y) * (p2.x - p1.x) - (p4.x - p3.x) * (p2.y - p1.y)) := by ring
    have hn : (p1.x - p2.x) * (p2.y - p3.y) - (p1.y - p2.y) * (p2.x - p3.x)
        = -((p2.x - p1.x) * (p1.y - p3.y) - (p2.y - p1.y) * (p1.x - p3.x)) := by ring
    rw [hd, ha, hn]
    exact intersect_decision_reverse _ _ _ f


/-- C32: over exact arithmetic and for either value of `fail_on_coincident`, the
result of `line_intersects_line` is the same when the two segments change
places and when the first segment is reversed, and so also when the second
segment is reversed. -/
theorem line_intersects_line_symmetric (p1 p2 p3 p4 : Vertex) (f : Bool) :
    line_intersects_line p1 p2 p3 p4 f = line_intersects_line p3 p4 p1 p2 f ∧
    line_intersects_line p3 p4 p1 p2 f = line_intersects_line p2 p1 p3 p4 f ∧
    line_intersects_line p1 p2 p3 p4 f = line_intersects_line p1 p2 p4 p3 f := by
  refine ⟨line_intersects_line_swap p1 p2 p3 p4 f, ?_, ?_⟩
  · rw [← line_intersects_line_swap p1 p2 p3 p4 f]
    exact line_intersects_line_reverse p1 p2 p3 p4 f
  · rw [line_intersects_line_swap p1 p2 p3 p4 f, line_intersects_line_reverse p3 p4 p1 p2 f]
    exact line_intersects_line_swap p4 p3 p1 p2 f


/-! ## The hull sweep on a ring whose hull vertices are in ring order -/

/-- The comparison of two angle differences in `[0, π]`, the first below `π`,
by the sign of their cross product: a positive one makes the first smaller. -/
theorem lt_of_cross_pos (cj sj ci si : ℚ) (hj : (AngDiff.turn cj sj).lt_pi = true)
    (h : 0 < cj * si - sj * ci) :
    (AngDiff.turn cj sj).lt (.turn ci si) = true := by
  simp only [AngDiff.lt, hj, Bool.true_and, Bool.not_true, Bool.false_and,
    Bool.false_eq_true, if_false]
  split
  · rfl
  · exact decide_eq_true h

/-- A candidate whose cross product with the selected one is not negative is
not smaller than it. -/
theorem not_lt_of_cross_nonneg (cj sj ci si : ℚ) (hj : (AngDiff.turn cj sj).lt_pi = true)
    (h : 0 ≤ cj * si - sj * ci) :
    (AngDiff.turn ci si).lt (.turn cj sj) = false := by
  simp only [AngDiff.lt, hj, Bool.not_true, Bool.and_false, Bool.false_eq_true, if_false,
    Bool.and_true]
  split
  · rfl
  · simp only [decide_eq_false_iff_not, not_lt]
    linarith

/-- The scan passes over candidates at angles in `[0, π]` that are all larger
than a later one: no error, and that one is still smaller than the minimum. -/
theorem find_next_convex_scan_skip (pts : List Vertex) (v0 : Vertex) (limit_idx : Nat)
    (start_ang : Angle) (cj sj : ℚ) (rest : List Nat) :
    ∀ (pre : List Nat) (st : ScanState),
      (st.last_ad = none ∨ ∃ c0 s0, st.last_ad = some (.turn c0 s0) ∧ 0 ≤ s0) →
      (AngDiff.turn cj sj).lt st.min_angdiff = true →
      (∀ i ∈ pre, i ≠ limit_idx ∧ ∃ c s,
        angdiff (seg_ang v0 (vtx pts i)) start_ang = .turn c s ∧ 0 ≤ s ∧
        (AngDiff.turn cj sj).lt (.turn c s) = true) →
      ∃ st1, find_next_convex_scan pts v0 limit_idx start_ang (pre ++ rest) st
          = find_next_convex_scan pts v0 limit_idx start_ang rest st1 ∧
        (st1.last_ad = none ∨ ∃ c0 s0, st1.last_ad = some (.turn c0 s0) ∧ 0 ≤ s0) ∧
        (AngDiff.turn cj sj).lt st1.min_angdiff = true := by
  intro pre
  induction pre with
  | nil => intro st h1 h2 _; exact ⟨st, rfl, h1, h2⟩
  | cons i pre ih =>
    intro st hlast hmin hall
    obtain ⟨hil, c, s, had, hs, hlt⟩ := hall i (List.mem_cons_self _ _)
    have hstep : find_next_convex_scan pts v0 limit_idx start_ang (i :: (pre ++ rest)) st
        = find_next_convex_scan pts v0 limit_idx start_ang (pre ++ rest)
          (if (AngDiff.turn c s).lt st.min_angdiff then
            { min_angdiff := .turn c s, last_ad := some (.turn c s), best_vert := some i,
              best_segang := seg_ang v0 (vtx pts i) }
          else { st with last_ad := some (.turn c s) }) := by
      conv_lhs => unfold find_next_convex_scan
      rcases hlast with h | ⟨c0, s0, h, hs0⟩
      · simp only [had, h, Bool.false_eq_true, if_false, if_neg hil]
      · simp only [had, h, no_ray_crossing c0 s0 c s hs0 hs, Bool.false_eq_true, if_false,
          if_neg hil]
    rw [List.cons_append, hstep]
    apply ih
    · right
      split <;> exact ⟨c, s, rfl, hs⟩
    · split
      · exact hlt
      · exact hmin
    · intro i' hi'
      exact hall i' (List.mem_cons_of_mem _ hi')

/-- The scan selects a candidate below `π` that is smaller than every earlier
candidate and not larger than any later one, all at angles in `[0, π]`. -/
theorem find_next_convex_scan_select (pts : List Vertex) (v0 : Vertex) (limit_idx : Nat)
    (start_ang a0 : Angle) (pre post : List Nat) (j : Nat) (cj sj : ℚ)
    (had : angdiff (seg_ang v0 (vtx pts j)) start_ang = .turn cj sj) (hs : 0 ≤ sj)
    (hpi : (AngDiff.turn cj sj).lt_pi = true)
    (hpre : ∀ i ∈ pre, i ≠ limit_idx ∧ ∃ c s,
      angdiff (seg_ang v0 (vtx pts i)) start_ang = .turn c s ∧ 0 ≤ s ∧
      (AngDiff.turn cj sj).lt (.turn c s) = true)
    (hpost : ∀ i ∈ post, ∃ c s,
      angdiff (seg_ang v0 (vtx pts i)) start_ang = .turn c s ∧ 0 ≤ s ∧
      (AngDiff.turn c s).lt (.turn cj sj) = false) :
    ∃ st', find_next_convex_scan pts v0 limit_idx start_ang (pre ++ j :: post)
        ⟨AngDiff.pi, none, none, a0⟩ = some st' ∧
      st'.best_vert = some j ∧ st'.best_segang = seg_ang v0 (vtx pts j) ∧
      st'.min_angdiff = .turn cj sj := by
  have hlt0 : (AngDiff.turn cj sj).lt AngDiff.pi = true := by
    rw [lt_pi_const]; exact hpi
  obtain ⟨st1, h1, hlast, hmin⟩ := find_next_convex_scan_skip pts v0 limit_idx start_ang cj sj
    (j :: post) pre ⟨AngDiff.pi, none, none, a0⟩ (Or.inl rfl) hlt0 hpre
  rw [h1]
  have hstep : find_next_convex_scan pts v0 limit_idx start_ang (j :: post) st1
      = if j = limit_idx then
          some ⟨.turn cj sj, some (.turn cj sj), some j, seg_ang v0 (vtx pts j)⟩
        else find_next_convex_scan pts v0 limit_idx start_ang post
          ⟨.turn cj sj, some (.turn cj sj), some j, seg_ang v0 (vtx pts j)⟩ := by
    conv_lhs => unfold find_next_convex_scan
    rcases hlast with h | ⟨c0, s0, h, hs0⟩
    · simp only [had, h, Bool.false_eq_true, if_false, hmin, if_true]
    · simp only [had, h, no_ray_crossing c0 s0 cj sj hs0 hs, Bool.false_eq_true, if_false,
        hmin, if_true]
  rw [hstep]
  split
  · exact ⟨_, rfl, rfl, rfl, rfl⟩
  · exact find_next_convex_scan_stays pts v0 limit_idx start_ang post
      ⟨.turn cj sj, some (.turn cj sj), some j, seg_ang v0 (vtx pts j)⟩ cj sj rfl hs hpost

/-- What `find_next_convex` returns when its scan selects a candidate. -/
theorem find_next_convex_select (ring : Ring) (start_idx limit_idx : Nat) (start_ang : Angle)
    (pre post : List Nat) (j : Nat) (cj sj : ℚ)
    (hc : cyc_after ring.pts.length start_idx = pre ++ j :: post)
    (had : angdiff (seg_ang (vtx ring.pts start_idx) (vtx ring.pts j)) start_ang
      = .turn cj sj)
    (hs : 0 ≤ sj) (hpi : (AngDiff.turn cj sj).lt_pi = true)
    (hpre : ∀ i ∈ pre, i ≠ limit_idx ∧ ∃ c s,
      angdiff (seg_ang (vtx ring.pts start_idx) (vtx ring.pts i)) start_ang = .turn c s ∧
      0 ≤ s ∧ (AngDiff.turn cj sj).lt (.turn c s) = true)
    (hpost : ∀ i ∈ post, ∃ c s,
      angdiff (seg_ang (vtx ring.pts start_idx) (vtx ring.pts i)) start_ang = .turn c s ∧
      0 ≤ s ∧ (AngDiff.turn c s).lt (.turn cj sj) = false) :
    find_next_convex ring start_idx limit_idx start_ang =
      ⟨false, j, seg_ang (vtx ring.pts start_idx) (vtx ring.pts j)⟩ := by
  obtain ⟨st', h1, h2, h3, h4⟩ := find_next_convex_scan_select ring.pts
    (vtx ring.pts start_idx) limit_idx start_ang (.atan2 0 1) pre post j cj sj had hs hpi
    hpre hpost
  unfold find_next_convex
  simp only [hc, h1, h2, h4]
  have : (AngDiff.turn cj sj).ge_pi = false := by simp [AngDiff.ge_pi, hpi]
  simp [this, h3]


/-- The candidates of the scan are ring indices other than the start. -/
theorem cyc_after_mem (n k i : Nat) (hk : k < n) (hi : i ∈ cyc_after n k) :
    i < n ∧ i ≠ k := by
  unfold cyc_after at hi
  obtain ⟨t, ht, rfl⟩ := List.mem_map.mp hi
  have ht' := List.mem_range.mp ht
  refine ⟨Nat.mod_lt _ (by omega), ?_⟩
  have e : k + 1 + t = k + (1 + t) := by omega
  rw [e, cyc_add_eq n k (1 + t) hk (by omega)]
  split <;> omega

/-- The scan order from `k` is: the indices strictly between `k` and `j`, then
`j`, then further indices. -/
theorem cyc_after_split (n k j : Nat) (hk : k < n) (hj : j < n) (hne : k ≠ j) :
    ∃ post, cyc_after n k = cyc_between n k j ++ j :: post ∧
      ∀ i ∈ post, i < n ∧ i ≠ k := by
  have hd := cyc_dist_eq n k j hk hj
  have hp := cyc_dist_pos n k j hk hj hne
  have hlen : (j + n - k - 1) % n = cyc_dist n k j - 1 := by
    rw [hd]
    split
    · have : j + n - k - 1 = (j - k - 1) + n := by omega
      rw [this, Nat.add_mod_right, Nat.mod_eq_of_lt (by omega)]
    · rw [Nat.mod_eq_of_lt (by omega)]
  have hsplit : n - 1 = (cyc_dist n k j - 1) + ((n - 1 - cyc_dist n k j) + 1) := by omega
  have hj' : (k + 1 + (cyc_dist n k j - 1)) % n = j := by
    have e : k + 1 + (cyc_dist n k j - 1) = k + cyc_dist n k j := by omega
    rw [e, cyc_add_eq n k _ hk hp.2, hd]
    split_ifs <;> omega
  have hca : cyc_after n k = cyc_between n k j ++ j ::
      ((List.range (n - 1 - cyc_dist n k j)).map fun t =>
        (k + 1 + (cyc_dist n k j - 1 + (t + 1))) % n) := by
    unfold cyc_after cyc_between
    rw [hlen]
    conv_lhs => rw [hsplit, List.range_add, List.map_append, List.range_succ_eq_map]
    simp only [List.map_cons, List.map_map, Nat.add_zero]
    rw [hj']
    rfl
  refine ⟨_, hca, ?_⟩
  intro i hi
  apply cyc_after_mem n k i hk
  rw [hca]
  exact List.mem_append_right _ (List.mem_cons_of_mem _ hi)

/-- The cross product of two vectors, seen in the frame of a direction `r`. -/
theorem frame_cross (rx ry vx vy wx wy : ℚ) :
    (rx * vx + ry * vy) * (rx * wy - ry * wx) - (rx * vy - ry * vx) * (rx * wx + ry * wy)
      = (rx * rx + ry * ry) * (vx * wy - vy * wx) := by
  ring

/-- A direction that is not zero has a positive squared length. -/
theorem dir_sq_pos (rx ry : ℚ) (hr : ¬(rx = 0 ∧ ry = 0)) : 0 < rx * rx + ry * ry := by
  rcases not_and_or.mp hr with h | h
  · have := mul_self_pos.mpr h; nlinarith [mul_self_nonneg ry]
  · have := mul_self_pos.mpr h; nlinarith [mul_self_nonneg rx]

/-- A ring whose vertices all lie on one line through a vertex is collinear. -/
theorem ring_collinear_of_line (n : Nat) (f : Nat → Vertex) (k : Nat) (rx ry : ℚ)
    (hr : ¬(rx = 0 ∧ ry = 0))
    (h : ∀ i, i < n → rx * ((f i).y - (f k).y) - ry * ((f i).x - (f k).x) = 0) :
    ring_collinear n f := by
  intro a ha b hb c hc
  have hrr := dir_sq_pos rx ry hr
  have e1 := frame_cross rx ry ((f a).x - (f k).x) ((f a).y - (f k).y)
    ((f b).x - (f k).x) ((f b).y - (f k).y)
  have e2 := frame_cross rx ry ((f a).x - (f k).x) ((f a).y - (f k).y)
    ((f c).x - (f k).x) ((f c).y - (f k).y)
  have e3 := frame_cross rx ry ((f b).x - (f k).x) ((f b).y - (f k).y)
    ((f c).x - (f k).x) ((f c).y - (f k).y)
  rw [h a ha, h b hb] at e1
  rw [h a ha, h c hc] at e2
  rw [h b hb, h c hc] at e3
  have z1 : ((f a).x - (f k).x) * ((f b).y - (f k).y)
      - ((f a).y - (f k).y) * ((f b).x - (f k).x) = 0 := by
    rcases mul_eq_zero.mp (by linarith : (rx * rx + ry * ry) *
      (((f a).x - (f k).x) * ((f b).y - (f k).y)
        - ((f a).y - (f k).y) * ((f b).x - (f k).x)) = 0) with h0 | h0
    · linarith
    · exact h0
  have z2 : ((f a).x - (f k).x) * ((f c).y - (f k).y)
      - ((f a).y - (f k).y) * ((f c).x - (f k).x) = 0 := by
    rcases mul_eq_zero.mp (by linarith : (rx * rx + ry * ry) *
      (((f a).x - (f k).x) * ((f c).y - (f k).y)
        - ((f a).y - (f k).y) * ((f c).x - (f k).x)) = 0) with h0 | h0
    · linarith
    · exact h0
  have z3 : ((f b).x - (f k).x) * ((f c).y - (f k).y)
      - ((f b).y - (f k).y) * ((f c).x - (f k).x) = 0 := by
    rcases mul_eq_zero.mp (by linarith : (rx * rx + ry * ry) *
      (((f b).x - (f k).x) * ((f c).y - (f k).y)
        - ((f b).y - (f k).y) * ((f c).x - (f k).x)) = 0) with h0 | h0
    · linarith
    · exact h0
  unfold cross2
  linarith

/-- From a boundary vertex there is a first boundary vertex in ring order, when
there is another boundary vertex at all. -/
theorem next_boundary_exists (n : Nat) (f : Nat → Vertex) (k b : Nat) (hk : k < n)
    (hb : b < n) (hkb : k ≠ b) (hbd : ring_boundary n f b) :
    ∃ j, j < n ∧ k ≠ j ∧ ring_boundary n f j ∧
      (∀ m ∈ cyc_between n k j, ¬ring_boundary n f m) ∧
      cyc_dist n k j ≤ cyc_dist n k b := by
  classical
  have hex : ∃ t, ∃ j, j < n ∧ k ≠ j ∧ ring_boundary n f j ∧ cyc_dist n k j = t :=
    ⟨_, b, hb, hkb, hbd, rfl⟩
  obtain ⟨j, hj, hkj, hjb, hjt⟩ := Nat.find_spec hex
  refine ⟨j, hj, hkj, hjb, ?_, ?_⟩
  · intro m hm hmb
    obtain ⟨hmn, hkm, hjm, hle⟩ := cyc_between_dist n k j m hk hj hkj hm
    have hlt : cyc_dist n k m < Nat.find hex := by
      rw [← hjt]
      rcases Nat.lt_or_ge (cyc_dist n k m) (cyc_dist n k j) with h | h
      · exact h
      · exfalso
        have e : cyc_dist n k m = cyc_dist n k j := by omega
        rw [cyc_dist_eq n k m hk hmn, cyc_dist_eq n k j hk hj] at e
        split_ifs at e <;> omega
    exact Nat.find_min hex hlt ⟨m, hmn, hkm, hmb, rfl⟩
  · rw [hjt]
    exact Nat.find_min' hex ⟨b, hb, hkb, hbd, rfl⟩


/-- Two vertices that differ have a direction between them that is not zero. -/
theorem dir_ne_zero (p q : Vertex) (h : q ≠ p) : ¬(q.x - p.x = 0 ∧ q.y - p.y = 0) := by
  intro ⟨h1, h2⟩
  apply h
  cases p; cases q
  simp only [Vertex.mk.injEq]
  simp only at h1 h2
  exact ⟨by linarith, by linarith⟩

/-- The squared length of a vector, seen in the frame of a direction `r`. -/
theorem frame_norm (rx ry vx vy : ℚ) :
    (rx * vx + ry * vy) * (rx * vx + ry * vy) + (rx * vy - ry * vx) * (rx * vy - ry * vx)
      = (rx * rx + ry * ry) * (vx * vx + vy * vy) := by
  ring

/-- One step of the hull sweep: from vertex `k`, with a reference direction
that supports the ring there, `find_next_convex` selects the vertex `j` when no
vertex lies to the right of the line from `k` to `j` and the vertices between
`k` and `j` in ring order lie strictly to its left. -/
theorem hull_sweep_step (ring : Ring)
    (hnd : ∀ i, i < ring.pts.length → ∀ j, j < ring.pts.length → i ≠ j →
      vtx ring.pts i ≠ vtx ring.pts j)
    (hnc : ¬ring_collinear ring.pts.length (vtx ring.pts))
    (k j limit_idx : Nat) (hk : k < ring.pts.length) (hj : j < ring.pts.length)
    (hkj : k ≠ j) (rx ry : ℚ)
    (hsup : ring_supports ring.pts.length (vtx ring.pts) k rx ry)
    (hleft : ∀ i, i < ring.pts.length →
      0 ≤ cross2 (vtx ring.pts k) (vtx ring.pts j) (vtx ring.pts i))
    (hbetween : ∀ m ∈ cyc_between ring.pts.length k j,
      m ≠ limit_idx ∧ 0 < cross2 (vtx ring.pts k) (vtx ring.pts j) (vtx ring.pts m)) :
    find_next_convex ring k limit_idx (.atan2 ry rx) =
      ⟨false, j, seg_ang (vtx ring.pts k) (vtx ring.pts j)⟩ := by
  obtain ⟨hr, hs⟩ := hsup
  have hrr := dir_sq_pos rx ry hr
  obtain ⟨post, hca, hpost⟩ := cyc_after_split ring.pts.length k j hk hj hkj
  have hdj := dir_ne_zero (vtx ring.pts k) (vtx ring.pts j) (hnd j hj k hk (Ne.symm hkj))
  have hcr : ∀ i, i < ring.pts.length →
      0 ≤ (rx * ((vtx ring.pts j).x - (vtx ring.pts k).x)
          + ry * ((vtx ring.pts j).y - (vtx ring.pts k).y))
          * (rx * ((vtx ring.pts i).y - (vtx ring.pts k).y)
            - ry * ((vtx ring.pts i).x - (vtx ring.pts k).x))
        - (rx * ((vtx ring.pts j).y - (vtx ring.pts k).y)
          - ry * ((vtx ring.pts j).x - (vtx ring.pts k).x))
          * (rx * ((vtx ring.pts i).x - (vtx ring.pts k).x)
            + ry * ((vtx ring.pts i).y - (vtx ring.pts k).y)) := by
    intro i hi
    rw [frame_cross]
    have := hleft i hi
    unfold cross2 at this
    exact mul_nonneg (le_of_lt hrr) this
  have hpi : (AngDiff.turn
      (rx * ((vtx ring.pts j).x - (vtx ring.pts k).x)
        + ry * ((vtx ring.pts j).y - (vtx ring.pts k).y))
      (rx * ((vtx ring.pts j).y - (vtx ring.pts k).y)
        - ry * ((vtx ring.pts j).x - (vtx ring.pts k).x))).lt_pi = true := by
    simp only [AngDiff.lt_pi, decide_eq_true_eq]
    rcases lt_or_eq_of_le (hs j hj) with h | h
    · exact Or.inl h
    · right
      refine ⟨h.symm, ?_⟩
      by_contra hc
      have hc0 : rx * ((vtx ring.pts j).x - (vtx ring.pts k).x)
          + ry * ((vtx ring.pts j).y - (vtx ring.pts k).y) ≤ 0 := not_lt.mp hc
      rcases lt_or_eq_of_le hc0 with hneg | hzero
      · apply hnc
        apply ring_collinear_of_line _ _ k rx ry hr
        intro i hi
        have h1 := hcr i hi
        rw [← h] at h1
        have h2 := hs i hi
        nlinarith [h1, h2, hneg]
      · have hn := frame_norm rx ry ((vtx ring.pts j).x - (vtx ring.pts k).x)
          ((vtx ring.pts j).y - (vtx ring.pts k).y)
        rw [hzero, ← h] at hn
        have hv : ((vtx ring.pts j).x - (vtx ring.pts k).x)
            * ((vtx ring.pts j).x - (vtx ring.pts k).x)
            + ((vtx ring.pts j).y - (vtx ring.pts k).y)
              * ((vtx ring.pts j).y - (vtx ring.pts k).y) = 0 := by
          rcases mul_eq_zero.mp (by linarith : (rx * rx + ry * ry) *
            (((vtx ring.pts j).x - (vtx ring.pts k).x)
              * ((vtx ring.pts j).x - (vtx ring.pts k).x)
              + ((vtx ring.pts j).y - (vtx ring.pts k).y)
                * ((vtx ring.pts j).y - (vtx ring.pts k).y)) = 0) with h0 | h0
          · linarith
          · exact h0
        apply hdj
        constructor
        · nlinarith [mul_self_nonneg ((vtx ring.pts j).x - (vtx ring.pts k).x),
            mul_self_nonneg ((vtx ring.pts j).y - (vtx ring.pts k).y)]
        · nlinarith [mul_self_nonneg ((vtx ring.pts j).x - (vtx ring.pts k).x),
            mul_self_nonneg ((vtx ring.pts j).y - (vtx ring.pts k).y)]
  apply find_next_convex_select ring k limit_idx (.atan2 ry rx) _ post j _ _ hca
  · unfold seg_ang
    exact angdiff_dirs _ _ rx ry hdj hr
  · exact hs j hj
  · exact hpi
  · intro i hi
    obtain ⟨hin, hik, _⟩ := cyc_between_mem _ _ _ _ hk hj hi
    obtain ⟨hil, hpos⟩ := hbetween i hi
    have hdi := dir_ne_zero (vtx ring.pts k) (vtx ring.pts i) (hnd i hin k hk hik)
    refine ⟨hil, _, _, by unfold seg_ang; exact angdiff_dirs _ _ rx ry hdi hr, hs i hin, ?_⟩
    apply lt_of_cross_pos _ _ _ _ hpi
    rw [frame_cross]
    unfold cross2 at hpos
    exact mul_pos hrr hpos
  · intro i hi
    obtain ⟨hin, hik⟩ := hpost i hi
    have hdi := dir_ne_zero (vtx ring.pts k) (vtx ring.pts i) (hnd i hin k hk hik)
    refine ⟨_, _, by unfold seg_ang; exact angdiff_dirs _ _ rx ry hdi hr, hs i hin, ?_⟩
    exact not_lt_of_cross_nonneg _ _ _ _ hpi (hcr i hin)


/-- A vertex on a line that has the whole ring on its left lies on the boundary
of the convex hull. -/
theorem ring_boundary_of_on_line (n : Nat) (f : Nat → Vertex) (k j m : Nat)
    (hjk : f j ≠ f k) (hleft : ∀ i, i < n → 0 ≤ cross2 (f k) (f j) (f i))
    (hm : cross2 (f k) (f j) (f m) = 0) : ring_boundary n f m := by
  refine ⟨(f j).x - (f k).x, (f j).y - (f k).y, dir_ne_zero _ _ hjk, ?_⟩
  intro i hi
  have := hleft i hi
  unfold cross2 at this hm
  linarith

/-- The distance in ring order from a start `b`: an index farther from `b` than
`k` and not farther than `j` lies between `k` and `j`. -/
theorem cyc_between_of_start (n b k j m : Nat) (hb : b < n) (hk : k < n) (hj : j < n)
    (hm : m < n) (hmj : m ≠ j) (h1 : cyc_dist n b k < cyc_dist n b m)
    (h2 : j = b ∨ cyc_dist n b m ≤ cyc_dist n b j) : m ∈ cyc_between n k j := by
  have e1 := cyc_dist_eq n b k hb hk
  have e2 := cyc_dist_eq n b m hb hm
  have e3 := cyc_dist_eq n b j hb hj
  apply cyc_between_of_dist n k j m hk hj hm
  · intro e; subst e; omega
  · exact hmj
  · intro _
    rw [cyc_dist_eq n k m hk hm, cyc_dist_eq n k j hk hj]
    rcases h2 with h2 | h2
    · subst h2
      generalize cyc_dist n j k = dk at e1 h1
      generalize cyc_dist n j m = dm at e2 h1
      split_ifs at e1 e2 ⊢ <;> omega
    · generalize cyc_dist n b k = dk at e1 h1
      generalize cyc_dist n b m = dm at e2 h1 h2
      generalize cyc_dist n b j = dj at e3 h2
      split_ifs at e1 e2 e3 ⊢ <;> omega

/-- The loop of `find_chull` on a ring of distinct vertices, not all on one
line, whose hull vertices are in ring order: started at a boundary vertex with
a reference direction that supports the ring there and with the earlier
boundary vertices kept, it ends with every boundary vertex kept. -/
theorem hull_sweep_loop (ring : Ring)
    (hnd : ∀ i, i < ring.pts.length → ∀ j, j < ring.pts.length → i ≠ j →
      vtx ring.pts i ≠ vtx ring.pts j)
    (hnc : ¬ring_collinear ring.pts.length (vtx ring.pts))
    (hord : hull_order ring.pts.length (vtx ring.pts))
    (b : Nat) (hb : b < ring.pts.length)
    (hbb : ring_boundary ring.pts.length (vtx ring.pts) b) :
    ∀ (fuel k : Nat) (rx ry : ℚ) (keep res : List Bool),
      k < ring.pts.length → keep.length = ring.pts.length →
      ring_supports ring.pts.length (vtx ring.pts) k rx ry →
      (∀ m, m < ring.pts.length → ring_boundary ring.pts.length (vtx ring.pts) m →
        cyc_dist ring.pts.length b m ≤ cyc_dist ring.pts.length b k → flag keep m = true) →
      find_chull_loop ring b fuel k (.atan2 ry rx) keep = .ok res →
      ∀ m, m < ring.pts.length → ring_boundary ring.pts.length (vtx ring.pts) m →
        flag res m = true := by
  intro fuel
  induction fuel with
  | zero => intro k rx ry keep res _ _ _ _ h; simp [find_chull_loop] at h
  | succ fuel ih =>
    intro k rx ry keep res hk hlen hsup hinv h m hm hmb
    have hmono := find_chull_loop_mono ring b _ _ _ _ _ h
    by_cases hother : ∃ b', b' < ring.pts.length ∧ k ≠ b' ∧
        ring_boundary ring.pts.length (vtx ring.pts) b' ∧ (k ≠ b → b' = b)
    · obtain ⟨b', hb', hkb', hbd', hbt⟩ := hother
      obtain ⟨j, hj, hkj, hjb, hnone, hdist⟩ :=
        next_boundary_exists _ _ k b' hk hb' hkb' hbd'
      obtain ⟨hjk, hleft⟩ := hord k hk j hj hkj ⟨rx, ry, hsup⟩ hjb hnone
      have hstep := hull_sweep_step ring hnd hnc k j b hk hj hkj rx ry hsup hleft (by
        intro i hi
        refine ⟨fun e => hnone i hi (e ▸ hbb), ?_⟩
        obtain ⟨hin, _, _⟩ := cyc_between_mem _ _ _ _ hk hj hi
        rcases lt_or_eq_of_le (hleft i hin) with h0 | h0
        · exact h0
        · exact absurd (ring_boundary_of_on_line _ _ k j i hjk hleft h0.symm) (hnone i hi))
      unfold find_chull_loop at h
      rw [hstep] at h
      simp only [Bool.false_eq_true, if_false] at h
      split at h
      · rename_i hjb'
        cases h
        by_cases hle : cyc_dist ring.pts.length b m ≤ cyc_dist ring.pts.length b k
        · exact hinv m hm hmb hle
        · exfalso
          have hmj : m ≠ j := by
            intro e
            rw [e, hjb', cyc_dist_eq _ b b hb hb] at hle
            simp at hle
          exact hnone m (cyc_between_of_start _ b k j m hb hk hj hm hmj (by omega)
            (Or.inl hjb')) hmb
      · rename_i hjb'
        have hsup' : ring_supports ring.pts.length (vtx ring.pts) j
            ((vtx ring.pts j).x - (vtx ring.pts k).x)
            ((vtx ring.pts j).y - (vtx ring.pts k).y) := by
          refine ⟨dir_ne_zero _ _ hjk, ?_⟩
          intro i hi
          have := hleft i hi
          unfold cross2 at this
          linarith
        unfold seg_ang at h
        apply ih j _ _ (keep.set j true) res hj (by simp [hlen]) hsup' _ h m hm hmb
        intro m' hm' hmb' hle'
        by_cases e : m' = j
        · rw [e]
          exact flag_set_self _ _ (by rw [hlen]; exact hj)
        · apply flag_set_mono
          by_cases hle : cyc_dist ring.pts.length b m' ≤ cyc_dist ring.pts.length b k
          · exact hinv m' hm' hmb' hle
          · exfalso
            exact hnone m' (cyc_between_of_start _ b k j m' hb hk hj hm' e (by omega)
              (Or.inr hle')) hmb'
    · -- no boundary vertex lies ahead: the start is the only one
      have hkb : k = b := by
        by_contra hkb
        exact hother ⟨b, hb, hkb, hbb, fun _ => rfl⟩
      have hmk : m = k := by
        by_contra hmk
        exact hother ⟨m, hm, fun e => hmk e.symm, hmb, fun e => absurd hkb e⟩
      apply hmono
      apply hinv m hm hmb
      rw [hmk]

/-- On a ring of distinct vertices, not all on one line, whose hull vertices
are in ring order, `find_chull` keeps every vertex on the boundary of the
convex hull. -/
theorem find_chull_flags_boundary (ring : Ring)
    (hnd : ∀ i, i < ring.pts.length → ∀ j, j < ring.pts.length → i ≠ j →
      vtx ring.pts i ≠ vtx ring.pts j)
    (hnc : ¬ring_collinear ring.pts.length (vtx ring.pts))
    (hord : hull_order ring.pts.length (vtx ring.pts))
    (keep0 : List Bool) (h : find_chull ring = .ok keep0) :
    ∀ m, m < ring.pts.length → ring_boundary ring.pts.length (vtx ring.pts) m →
      flag keep0 m = true := by
  unfold find_chull at h
  split at h
  · cases h
  · rename_i hn
    dsimp only at h
    obtain ⟨hb, hlow, _⟩ := find_bottom_pt_spec ring (Nat.pos_of_ne_zero hn)
    have hsup : ring_supports ring.pts.length (vtx ring.pts) (find_bottom_pt ring) 1 0 := by
      refine ⟨by simp, ?_⟩
      intro i hi
      have := hlow i hi
      linarith
    apply hull_sweep_loop ring hnd hnc hord _ hb ⟨1, 0, hsup⟩ _ _ 1 0 _ keep0 hb
      (by simp) hsup _ h
    intro m hm _ hle
    have e : m = find_bottom_pt ring := by
      rw [cyc_dist_eq _ _ _ hb hm, cyc_dist_eq _ _ _ hb hb] at hle
      split_ifs at hle <;> omega
    rw [e]
    exact flag_set_self _ _ (by simpa using hb)


/-- A vertex of the convex hull is a vertex of the ring on the boundary of the
hull, when the ring has a second point. -/
theorem hull_vertex_on_boundary (pts : List Vertex) (p : Vertex)
    (hp : is_hull_vertex pts p) (hq : ∃ q ∈ pts, q ≠ p) :
    ∃ k, k < pts.length ∧ vtx pts k = p ∧ ring_boundary pts.length (vtx pts) k := by
  obtain ⟨hmem, u, v, hmin⟩ := hp
  obtain ⟨⟨k, hk⟩, hget⟩ := List.mem_iff_get.mp hmem
  have hkp : vtx pts k = p := by rw [vtx_eq_getElem pts k hk]; exact hget
  refine ⟨k, hk, hkp, v, -u, ?_, ?_⟩
  · intro ⟨h1, h2⟩
    obtain ⟨q, hqm, hqp⟩ := hq
    have := hmin q hqm hqp
    have hu : u = 0 := by linarith
    rw [h1, hu] at this
    simp at this
  · intro i hi
    rw [hkp]
    by_cases e : vtx pts i = p
    · rw [e]; simp
    · have := hmin _ (vtx_mem pts i hi) e
      linarith

/-- A ring that is not collinear has a point other than any given one. -/
theorem exists_other_point (pts : List Vertex) (p : Vertex)
    (hnc : ¬ring_collinear pts.length (vtx pts)) : ∃ q ∈ pts, q ≠ p := by
  by_contra hall
  apply hnc
  intro i hi j hj l hl
  have e : ∀ m, m < pts.length → vtx pts m = p := by
    intro m hm
    by_contra hne
    exact hall ⟨_, vtx_mem pts m hm, hne⟩
  rw [e i hi, e j hj, e l hl]
  unfold cross2
  ring

/-- When `pinch_ring_excursions` completes on a ring whose orientation-normalised
vertices are distinct, not all on one line, and have the hull vertices in ring
order, every vertex of the convex hull of the input is in the output. -/
theorem pinch_ring_excursions_hull_of_order (sqrt : ℚ → ℚ) (ring_in out : Ring)
    (h : pinch_ring_excursions sqrt ring_in = .ok out)
    (hnd : ∀ i, i < (oriented_ring ring_in).pts.length →
      ∀ j, j < (oriented_ring ring_in).pts.length → i ≠ j →
      vtx (oriented_ring ring_in).pts i ≠ vtx (oriented_ring ring_in).pts j)
    (hnc : ¬ring_collinear (oriented_ring ring_in).pts.length
      (vtx (oriented_ring ring_in).pts))
    (hord : hull_order (oriented_ring ring_in).pts.length (vtx (oriented_ring ring_in).pts))
    (p : Vertex) (hp : is_hull_vertex ring_in.pts p) : p ∈ out.pts := by
  have hp' : is_hull_vertex (oriented_ring ring_in).pts p := by
    unfold oriented_ring
    split
    · obtain ⟨h1, u, v, h2⟩ := hp
      exact ⟨List.mem_reverse.mpr h1, u, v, fun q hq => h2 q (List.mem_reverse.mp hq)⟩
    · exact hp
  obtain ⟨k, hk, hkp, hbd⟩ := hull_vertex_on_boundary _ p hp' (exists_other_point _ p hnc)
  unfold pinch_ring_excursions at h
  dsimp only at h
  split at h
  · cases h
  · rename_i keep0 hch
    split at h
    · cases h
    · rename_i keep1 tp1 href
      cases h
      rw [← hkp]
      exact mem_kept_pts _ _ k hk (refine_ring_mono sqrt _ _ _ _ href k
        (find_chull_flags_boundary _ hnd hnc hord keep0 hch k hk hbd))


/-! ## Simple rings: what the absence of crossings gives -/

/-- Two points with the same coordinates are equal. -/
theorem vertex_eq (p q : Vertex) (hx : p.x = q.x) (hy : p.y = q.y) : p = q := by
  cases p; cases q
  simp only [Vertex.mk.injEq]
  exact ⟨hx, hy⟩

/-- The two ends of a segment as points of it. -/
theorem seg_pt_zero (p q : Vertex) : seg_pt p q 0 = p := by
  apply vertex_eq <;> simp [seg_pt]

theorem seg_pt_one (p q : Vertex) : seg_pt p q 1 = q := by
  apply vertex_eq <;> simp [seg_pt]

/-- A segment read from its other end. -/
theorem seg_pt_rev (p q : Vertex) (t : ℚ) : seg_pt p q t = seg_pt q p (1 - t) := by
  apply vertex_eq <;> simp only [seg_pt] <;> ring

/-- Two segments meet when they have a point in common. -/
theorem segments_meet_of_pt (p1 p2 p3 p4 : Vertex) (s t : ℚ) (hs0 : 0 ≤ s) (hs1 : s ≤ 1)
    (ht0 : 0 ≤ t) (ht1 : t ≤ 1) (h : seg_pt p1 p2 s = seg_pt p3 p4 t) :
    segments_meet p1 p2 p3 p4 := by
  refine ⟨s, t, hs0, hs1, ht0, ht1, ?_, ?_⟩
  · exact congrArg Vertex.x h
  · exact congrArg Vertex.y h

/-- Two segments that meet have a point in common. -/
theorem pt_of_segments_meet (p1 p2 p3 p4 : Vertex) (h : segments_meet p1 p2 p3 p4) :
    ∃ s t : ℚ, 0 ≤ s ∧ s ≤ 1 ∧ 0 ≤ t ∧ t ≤ 1 ∧ seg_pt p1 p2 s = seg_pt p3 p4 t := by
  obtain ⟨s, t, hs0, hs1, ht0, ht1, hx, hy⟩ := h
  exact ⟨s, t, hs0, hs1, ht0, ht1, vertex_eq _ _ hx hy⟩

/-- Meeting does not depend on the direction of the first segment. -/
theorem segments_meet_rev_left (p1 p2 p3 p4 : Vertex) (h : segments_meet p1 p2 p3 p4) :
    segments_meet p2 p1 p3 p4 := by
  obtain ⟨s, t, hs0, hs1, ht0, ht1, e⟩ := pt_of_segments_meet _ _ _ _ h
  apply segments_meet_of_pt _ _ _ _ (1 - s) t (by linarith) (by linarith) ht0 ht1
  rw [← e, seg_pt_rev p2 p1]
  congr 1
  ring

/-- Meeting does not depend on the direction of the second segment. -/
theorem segments_meet_rev_right (p1 p2 p3 p4 : Vertex) (h : segments_meet p1 p2 p3 p4) :
    segments_meet p1 p2 p4 p3 := by
  obtain ⟨s, t, hs0, hs1, ht0, ht1, e⟩ := pt_of_segments_meet _ _ _ _ h
  apply segments_meet_of_pt _ _ _ _ s (1 - t) hs0 hs1 (by linarith) (by linarith)
  rw [e, seg_pt_rev p4 p3]
  congr 1
  ring

/-- The index before `j` in a ring of `n` vertices. -/
theorem pred_mod_eq (n j : Nat) (hj : j < n) :
    (j + n - 1) % n = if j = 0 then n - 1 else j - 1 := by
  split
  · rename_i h
    subst h
    rw [Nat.zero_add, Nat.mod_eq_of_lt (by omega)]
  · have : j + n - 1 = (j - 1) + n := by omega
    rw [this, Nat.add_mod_right, Nat.mod_eq_of_lt (by omega)]

/-- In a simple ring of at least four vertices a vertex that lies on an edge is
one of its two ends. -/
theorem simple_vertex_on_edge (n : Nat) (f : Nat → Vertex) (hs : ring_simple n f)
    (hn : 4 ≤ n) (i j : Nat) (hi : i < n) (hj : j < n) (t : ℚ) (ht0 : 0 ≤ t) (ht1 : t ≤ 1)
    (h : f j = seg_pt (f i) (f ((i + 1) % n)) t) : j = i ∨ j = (i + 1) % n := by
  by_contra hne
  push_neg at hne
  obtain ⟨h1, h2⟩ := hne
  have ei := succ_mod_eq n i hi
  have ej := succ_mod_eq n j hj
  by_cases h3 : (j + 1) % n = i
  · -- the edge that ends in `j`
    have ep := pred_mod_eq n j hj
    have hp : (j + n - 1) % n < n := Nat.mod_lt _ (by omega)
    have ep1 : ((j + n - 1) % n + 1) % n = j := by
      rw [succ_mod_eq n _ hp, ep]
      split_ifs <;> omega
    apply hs i hi ((j + n - 1) % n) hp
    · refine ⟨?_, ?_, ?_⟩
      · rw [ep]; rw [ej] at h3; split_ifs at h3 ⊢ <;> omega
      · rw [ep, ei]; rw [ej] at h3; split_ifs at h3 ⊢ <;> omega
      · rw [ep1]; exact h1
    · rw [ep1]
      apply segments_meet_of_pt _ _ _ _ t 1 ht0 ht1 (by norm_num) (by norm_num)
      rw [seg_pt_one, h]
  · apply hs i hi j hj ⟨fun e => h1 e.symm, fun e => h2 e.symm, h3⟩
    apply segments_meet_of_pt _ _ _ _ t 0 ht0 ht1 (by norm_num) (by norm_num)
    rw [seg_pt_zero, h]

/-- The vertices of a simple ring of at least four vertices are distinct
points. -/
theorem simple_vertices_distinct (n : Nat) (f : Nat → Vertex) (hs : ring_simple n f)
    (hn : 4 ≤ n) (i j : Nat) (hi : i < n) (hj : j < n) (hij : i ≠ j) : f i ≠ f j := by
  intro e
  have hp : (i + n - 1) % n < n := Nat.mod_lt _ (by omega)
  have ep := pred_mod_eq n i hi
  have ei := succ_mod_eq n i hi
  have ep1 : ((i + n - 1) % n + 1) % n = i := by
    rw [succ_mod_eq n _ hp, ep]
    split_ifs <;> omega
  have a1 := simple_vertex_on_edge n f hs hn i j hi hj 0 (by norm_num) (by norm_num)
    (by rw [seg_pt_zero]; exact e.symm)
  have a2 := simple_vertex_on_edge n f hs hn ((i + n - 1) % n) j hp hj 1 (by norm_num)
    (by norm_num) (by rw [seg_pt_one, ep1]; exact e.symm)
  rw [ep1] at a2
  rw [ei] at a1
  rw [ep] at a2
  split_ifs at a1 a2 <;> omega

/-- Two segments `A B` and `B C` that meet away from `B`, the second taking the
shorter way: the start `A` lies on the second segment. -/
theorem overlap_start (A B C : Vertex) (s t : ℚ) (hs : s < 1)
    (h : seg_pt A B s = seg_pt B C t) : A = seg_pt B C (t / (1 - s)) := by
  have hx := congrArg Vertex.x h
  have hy := congrArg Vertex.y h
  simp only [seg_pt] at hx hy
  have hs' : (1 - s) ≠ 0 := by linarith
  apply vertex_eq <;> simp only [seg_pt] <;> field_simp <;> linarith

/-- Two segments `A B` and `B C` that meet away from `B`: the end `C` lies on
the line of the first at the parameter `1 - (1 - s) / t`. -/
theorem overlap_end (A B C : Vertex) (s t : ℚ) (ht : 0 < t)
    (h : seg_pt A B s = seg_pt B C t) : C = seg_pt A B (1 - (1 - s) / t) := by
  have hx := congrArg Vertex.x h
  have hy := congrArg Vertex.y h
  simp only [seg_pt] at hx hy
  have ht' : t ≠ 0 := by linarith
  apply vertex_eq <;> simp only [seg_pt] <;> field_simp <;> linarith

/-- In a simple ring of at least four vertices two edges that follow each other
meet in their common vertex only. -/
theorem simple_adjacent_edges (n : Nat) (f : Nat → Vertex) (hs : ring_simple n f)
    (hn : 4 ≤ n) (i : Nat) (hi : i < n) (s t : ℚ) (hs0 : 0 ≤ s) (hs1 : s ≤ 1)
    (ht0 : 0 ≤ t) (ht1 : t ≤ 1)
    (h : seg_pt (f i) (f ((i + 1) % n)) s
      = seg_pt (f ((i + 1) % n)) (f (((i + 1) % n + 1) % n)) t) :
    seg_pt (f i) (f ((i + 1) % n)) s = f ((i + 1) % n) := by
  have hi1 : (i + 1) % n < n := Nat.mod_lt _ (by omega)
  have hi2 : ((i + 1) % n + 1) % n < n := Nat.mod_lt _ (by omega)
  have ei := succ_mod_eq n i hi
  have ei1 := succ_mod_eq n _ hi1
  by_cases e1 : s = 1
  · rw [e1, seg_pt_one]
  by_cases e0 : t = 0
  · rw [h, e0, seg_pt_zero]
  exfalso
  have hs' : 0 < 1 - s := by
    rcases lt_or_eq_of_le hs1 with h' | h'
    · linarith
    · exact absurd h' e1
  have ht' : 0 < t := lt_of_le_of_ne ht0 (Ne.symm e0)
  by_cases hle : t ≤ 1 - s
  · -- the start of the first edge lies on the second
    have := simple_vertex_on_edge n f hs hn ((i + 1) % n) i hi1 hi (t / (1 - s))
      (div_nonneg ht0 (le_of_lt hs')) ((div_le_one hs').mpr hle)
      (overlap_start _ _ _ s t (by linarith) h)
    generalize ((i + 1) % n + 1) % n = i2 at *
    generalize (i + 1) % n = i1 at *
    split_ifs at ei ei1 <;> omega
  · -- the end of the second edge lies on the first
    have hlt : 1 - s < t := not_le.mp hle
    have := simple_vertex_on_edge n f hs hn i (((i + 1) % n + 1) % n) hi hi2
      (1 - (1 - s) / t)
      (by
        have : (1 - s) / t ≤ 1 := (div_le_one ht').mpr (le_of_lt hlt)
        linarith)
      (by
        have : 0 ≤ (1 - s) / t := div_nonneg (le_of_lt hs') ht0
        linarith)
      (overlap_end _ _ _ s t ht' h)
    generalize ((i + 1) % n + 1) % n = i2 at *
    generalize (i + 1) % n = i1 at *
    split_ifs at ei ei1 <;> omega


/-! ## The order of directions around a point of the hull boundary -/

/-- The dot product of two vectors, seen in the frame of a direction `r`. -/
theorem frame_dot (rx ry vx vy wx wy : ℚ) :
    (rx * vx + ry * vy) * (rx * wx + ry * wy) + (rx * vy - ry * vx) * (rx * wy - ry * wx)
      = (rx * rx + ry * ry) * (vx * wx + vy * wy) := by
  ring

/-- The relation `turn_before` in the frame of the supporting direction: with
`(c, s)` the dot and cross product of the direction with a vector. -/
theorem turn_before_iff_frame (dx dy : ℚ) (hd : ¬(dx = 0 ∧ dy = 0)) (x p q : Vertex) :
    turn_before dx dy x p q ↔
      (0 < (dx * (p.x - x.x) + dy * (p.y - x.y)) * (dx * (q.y - x.y) - dy * (q.x - x.x))
          - (dx * (p.y - x.y) - dy * (p.x - x.x)) * (dx * (q.x - x.x) + dy * (q.y - x.y)) ∨
        ((dx * (p.x - x.x) + dy * (p.y - x.y)) * (dx * (q.y - x.y) - dy * (q.x - x.x))
          - (dx * (p.y - x.y) - dy * (p.x - x.x)) * (dx * (q.x - x.x) + dy * (q.y - x.y)) = 0 ∧
         (dx * (p.x - x.x) + dy * (p.y - x.y)) * (dx * (q.x - x.x) + dy * (q.y - x.y))
          + (dx * (p.y - x.y) - dy * (p.x - x.x)) * (dx * (q.y - x.y) - dy * (q.x - x.x)) < 0 ∧
         0 < dx * (p.x - x.x) + dy * (p.y - x.y))) := by
  have hrr := dir_sq_pos dx dy hd
  rw [frame_cross, frame_dot]
  unfold turn_before cross2 dot2
  constructor
  · rintro (h | ⟨h1, h2, h3⟩)
    · exact Or.inl (mul_pos hrr h)
    · exact Or.inr ⟨by rw [h1, mul_zero], mul_neg_of_pos_of_neg hrr h2, h3⟩
  · rintro (h | ⟨h1, h2, h3⟩)
    · left
      by_contra hc
      have := mul_nonpos_of_nonneg_of_nonpos (le_of_lt hrr) (not_lt.mp hc)
      linarith
    · refine Or.inr ⟨?_, ?_, h3⟩
      · rcases mul_eq_zero.mp h1 with h0 | h0
        · linarith
        · exact h0
      · by_contra hc
        have := mul_nonneg (le_of_lt hrr) (not_lt.mp hc)
        linarith

/-- Opposite directions in the upper half of a frame both lie on its axis. -/
theorem frame_opposite (cp sp cq sq : ℚ) (hp : 0 ≤ sp) (hq : 0 ≤ sq)
    (h1 : cp * sq - sp * cq = 0) (h2 : cp * cq + sp * sq < 0) (h3 : 0 < cp) :
    sp = 0 ∧ sq = 0 ∧ cq < 0 := by
  have hcq : cq < 0 := by
    by_contra hc
    have hc' : 0 ≤ cq := not_lt.mp hc
    nlinarith [mul_nonneg (le_of_lt h3) hc', mul_nonneg hp hq]
  have e : cp * sq = sp * cq := by linarith
  have a1 : 0 ≤ cp * sq := mul_nonneg (le_of_lt h3) hq
  have a2 : sp * cq ≤ 0 := mul_nonpos_of_nonneg_of_nonpos hp (le_of_lt hcq)
  have z1 : cp * sq = 0 := by linarith
  have z2 : sp * cq = 0 := by linarith
  refine ⟨?_, ?_, hcq⟩
  · rcases mul_eq_zero.mp z2 with h | h
    · exact h
    · linarith
  · rcases mul_eq_zero.mp z1 with h | h
    · linarith
    · exact h

/-- The order of directions in the upper half of a frame is transitive. -/
theorem frame_before_trans (cp sp cq sq cr sr : ℚ) (hp : 0 ≤ sp) (hq : 0 ≤ sq)
    (hr : 0 ≤ sr)
    (h1 : 0 < cp * sq - sp * cq ∨
      (cp * sq - sp * cq = 0 ∧ cp * cq + sp * sq < 0 ∧ 0 < cp))
    (h2 : 0 < cq * sr - sq * cr ∨
      (cq * sr - sq * cr = 0 ∧ cq * cr + sq * sr < 0 ∧ 0 < cq)) :
    0 < cp * sr - sp * cr ∨
      (cp * sr - sp * cr = 0 ∧ cp * cr + sp * sr < 0 ∧ 0 < cp) := by
  rcases h1 with hX | ⟨hX0, hXd, hXc⟩
  · rcases h2 with hY | ⟨hY0, hYd, hYc⟩
    · have hpl : (cp * sr - sp * cr) * sq
          = (cp * sq - sp * cq) * sr + (cq * sr - sq * cr) * sp := by ring
      rcases lt_or_eq_of_le hq with hsq | hsq
      · have hZ : 0 ≤ cp * sr - sp * cr := by
          by_contra hc
          have := mul_neg_of_neg_of_pos (not_le.mp hc) hsq
          nlinarith [mul_nonneg (le_of_lt hX) hr, mul_nonneg (le_of_lt hY) hp]
        rcases lt_or_eq_of_le hZ with hZ' | hZ'
        · exact Or.inl hZ'
        · right
          have t1 : 0 ≤ (cp * sq - sp * cq) * sr := mul_nonneg (le_of_lt hX) hr
          have t2 : 0 ≤ (cq * sr - sq * cr) * sp := mul_nonneg (le_of_lt hY) hp
          rw [← hZ', zero_mul] at hpl
          have z1 : (cp * sq - sp * cq) * sr = 0 := by linarith
          have z2 : (cq * sr - sq * cr) * sp = 0 := by linarith
          have hsr : sr = 0 := by
            rcases mul_eq_zero.mp z1 with h | h
            · linarith
            · exact h
          have hsp : sp = 0 := by
            rcases mul_eq_zero.mp z2 with h | h
            · linarith
            · exact h
          rw [hsp] at hX
          rw [hsr] at hY
          have hcp : 0 < cp := by
            by_contra hc
            have := mul_nonpos_of_nonpos_of_nonneg (not_lt.mp hc) (le_of_lt hsq)
            linarith
          have hcr : cr < 0 := by
            by_contra hc
            have := mul_nonneg (le_of_lt hsq) (not_lt.mp hc)
            linarith
          refine ⟨hZ'.symm, ?_, hcp⟩
          rw [hsp, hsr]
          have := mul_neg_of_pos_of_neg hcp hcr
          linarith
      · exfalso
        rw [← hsq] at hX hY
        have hcq : cq < 0 := by
          by_contra hc
          have := mul_nonneg hp (not_lt.mp hc)
          linarith
        have := mul_nonpos_of_nonpos_of_nonneg (le_of_lt hcq) hr
        linarith
    · exfalso
      obtain ⟨e1, e2, _⟩ := frame_opposite cq sq cr sr hq hr hY0 hYd hYc
      rw [e1] at hX
      have := mul_nonneg hp (le_of_lt hYc)
      linarith
  · exfalso
    obtain ⟨e1, e2, e3⟩ := frame_opposite cp sp cq sq hp hq hX0 hXd hXc
    rcases h2 with hY | ⟨_, _, hYc⟩
    · rw [e2] at hY
      have := mul_nonpos_of_nonpos_of_nonneg (le_of_lt e3) hr
      linarith
    · linarith

/-- The order of directions in the upper half of a frame is asymmetric. -/
theorem frame_before_asymm (cp sp cq sq : ℚ) (hp : 0 ≤ sp) (hq : 0 ≤ sq)
    (h1 : 0 < cp * sq - sp * cq ∨
      (cp * sq - sp * cq = 0 ∧ cp * cq + sp * sq < 0 ∧ 0 < cp))
    (h2 : 0 < cq * sp - sq * cp ∨
      (cq * sp - sq * cp = 0 ∧ cq * cp + sq * sp < 0 ∧ 0 < cq)) : False := by
  rcases h1 with hX | ⟨hX0, hXd, hXc⟩
  · rcases h2 with hY | ⟨hY0, _, _⟩
    · linarith
    · linarith
  · obtain ⟨_, _, e3⟩ := frame_opposite cp sp cq sq hp hq hX0 hXd hXc
    rcases h2 with hY | ⟨_, _, hYc⟩
    · linarith
    · linarith

/-- Two directions in the upper half of a frame, neither zero: one comes before
the other or they are the same direction. -/
theorem frame_before_total (cp sp cq sq : ℚ) (hp : 0 ≤ sp) (hq : 0 ≤ sq)
    (hp0 : ¬(cp = 0 ∧ sp = 0)) (hq0 : ¬(cq = 0 ∧ sq = 0)) :
    (0 < cp * sq - sp * cq ∨
      (cp * sq - sp * cq = 0 ∧ cp * cq + sp * sq < 0 ∧ 0 < cp)) ∨
    (0 < cq * sp - sq * cp ∨
      (cq * sp - sq * cp = 0 ∧ cq * cp + sq * sp < 0 ∧ 0 < cq)) ∨
    (cp * sq - sp * cq = 0 ∧ 0 < cp * cq + sp * sq) := by
  rcases lt_trichotomy (cp * sq - sp * cq) 0 with h | h | h
  · right; left; left; linarith
  · rcases lt_trichotomy (cp * cq + sp * sq) 0 with h' | h' | h'
    · -- opposite directions: both on the axis
      have hn : (cp * sq - sp * cq) * (cp * sq - sp * cq)
          + (cp * cq + sp * sq) * (cp * cq + sp * sq)
          = (cp * cp + sp * sp) * (cq * cq + sq * sq) := by ring
      have e : cp * sq = sp * cq := by linarith
      by_cases hcp : 0 < cp
      · left; right; exact ⟨h, h', hcp⟩
      · right; left; right
        refine ⟨by linarith, by linarith, ?_⟩
        by_contra hcq
        have a1 : 0 ≤ cp * cq := mul_nonneg_of_nonpos_of_nonpos (not_lt.mp hcp) (not_lt.mp hcq)
        have a2 : 0 ≤ sp * sq := mul_nonneg hp hq
        linarith
    · exfalso
      have hn : (cp * sq - sp * cq) * (cp * sq - sp * cq)
          + (cp * cq + sp * sq) * (cp * cq + sp * sq)
          = (cp * cp + sp * sp) * (cq * cq + sq * sq) := by ring
      rw [h, h'] at hn
      have hP := dir_sq_pos cp sp hp0
      have hQ := dir_sq_pos cq sq hq0
      have := mul_pos hP hQ
      linarith
    · right; right; exact ⟨h, h'⟩
  · left; left; exact h


/-- Seen from a point of the hull boundary, the order of the directions to
points on the supported side is transitive. -/
theorem turn_before_trans (dx dy : ℚ) (hd : ¬(dx = 0 ∧ dy = 0)) (x p q r : Vertex)
    (hp : 0 ≤ dx * (p.y - x.y) - dy * (p.x - x.x))
    (hq : 0 ≤ dx * (q.y - x.y) - dy * (q.x - x.x))
    (hr : 0 ≤ dx * (r.y - x.y) - dy * (r.x - x.x))
    (h1 : turn_before dx dy x p q) (h2 : turn_before dx dy x q r) :
    turn_before dx dy x p r := by
  rw [turn_before_iff_frame dx dy hd] at h1 h2 ⊢
  exact frame_before_trans _ _ _ _ _ _ hp hq hr h1 h2

/-- The order of the directions is asymmetric. -/
theorem turn_before_asymm (dx dy : ℚ) (hd : ¬(dx = 0 ∧ dy = 0)) (x p q : Vertex)
    (hp : 0 ≤ dx * (p.y - x.y) - dy * (p.x - x.x))
    (hq : 0 ≤ dx * (q.y - x.y) - dy * (q.x - x.x))
    (h1 : turn_before dx dy x p q) (h2 : turn_before dx dy x q p) : False := by
  rw [turn_before_iff_frame dx dy hd] at h1 h2
  exact frame_before_asymm _ _ _ _ hp hq h1 h2

/-- A vector that is not zero has coordinates in a frame that are not both
zero. -/
theorem frame_ne_zero (dx dy vx vy : ℚ) (hd : ¬(dx = 0 ∧ dy = 0)) (hv : ¬(vx = 0 ∧ vy = 0)) :
    ¬(dx * vx + dy * vy = 0 ∧ dx * vy - dy * vx = 0) := by
  intro ⟨h1, h2⟩
  have hn := frame_norm dx dy vx vy
  rw [h1, h2] at hn
  have := mul_pos (dir_sq_pos dx dy hd) (dir_sq_pos vx vy hv)
  linarith

/-- Two directions to points on the supported side: one comes before the
other, or they are the same direction. -/
theorem turn_before_total (dx dy : ℚ) (hd : ¬(dx = 0 ∧ dy = 0)) (x p q : Vertex)
    (hp : 0 ≤ dx * (p.y - x.y) - dy * (p.x - x.x))
    (hq : 0 ≤ dx * (q.y - x.y) - dy * (q.x - x.x))
    (hpx : p ≠ x) (hqx : q ≠ x) :
    turn_before dx dy x p q ∨ turn_before dx dy x q p ∨
      (cross2 x p q = 0 ∧ 0 < dot2 x p q) := by
  have hrr := dir_sq_pos dx dy hd
  rcases frame_before_total _ _ _ _ hp hq
    (frame_ne_zero dx dy _ _ hd (dir_ne_zero x p hpx))
    (frame_ne_zero dx dy _ _ hd (dir_ne_zero x q hqx)) with h | h | ⟨h1, h2⟩
  · left; rw [turn_before_iff_frame dx dy hd]; exact h
  · right; left; rw [turn_before_iff_frame dx dy hd]; exact h
  · right; right
    rw [frame_cross] at h1
    rw [frame_dot] at h2
    unfold cross2 dot2
    constructor
    · rcases mul_eq_zero.mp h1 with h0 | h0
      · linarith
      · exact h0
    · by_contra hc
      have := mul_nonpos_of_nonneg_of_nonpos (le_of_lt hrr) (not_lt.mp hc)
      linarith

/-- Two points in the same direction from `x`: one of them lies on the segment
from `x` to the other. -/
theorem same_ray_on_seg (x p q : Vertex) (hpx : p ≠ x) (h1 : cross2 x p q = 0)
    (h2 : 0 < dot2 x p q) :
    (∃ t : ℚ, 0 ≤ t ∧ t ≤ 1 ∧ q = seg_pt x p t) ∨
      (∃ t : ℚ, 0 ≤ t ∧ t ≤ 1 ∧ p = seg_pt x q t) := by
  unfold cross2 at h1
  unfold dot2 at h2
  have hpp := dir_sq_pos _ _ (dir_ne_zero x p hpx)
  have hP : ((p.x - x.x) * (p.x - x.x) + (p.y - x.y) * (p.y - x.y)) ≠ 0 := by linarith
  have hD : (p.x - x.x) * (q.x - x.x) + (p.y - x.y) * (q.y - x.y) ≠ 0 := by linarith
  -- `q - x = l (p - x)` with `l = dot / |p - x|^2`
  have ex : (q.x - x.x) * ((p.x - x.x) * (p.x - x.x) + (p.y - x.y) * (p.y - x.y))
      = ((p.x - x.x) * (q.x - x.x) + (p.y - x.y) * (q.y - x.y)) * (p.x - x.x) := by
    linear_combination (-(p.y - x.y)) * h1
  have ey : (q.y - x.y) * ((p.x - x.x) * (p.x - x.x) + (p.y - x.y) * (p.y - x.y))
      = ((p.x - x.x) * (q.x - x.x) + (p.y - x.y) * (q.y - x.y)) * (p.y - x.y) := by
    linear_combination (p.x - x.x) * h1
  by_cases hle : (p.x - x.x) * (q.x - x.x) + (p.y - x.y) * (q.y - x.y)
      ≤ (p.x - x.x) * (p.x - x.x) + (p.y - x.y) * (p.y - x.y)
  · left
    refine ⟨((p.x - x.x) * (q.x - x.x) + (p.y - x.y) * (q.y - x.y))
      / ((p.x - x.x) * (p.x - x.x) + (p.y - x.y) * (p.y - x.y)),
      div_nonneg (le_of_lt h2) (le_of_lt hpp), (div_le_one hpp).mpr hle, ?_⟩
    apply vertex_eq <;> simp only [seg_pt] <;> field_simp <;> linarith
  · right
    refine ⟨((p.x - x.x) * (p.x - x.x) + (p.y - x.y) * (p.y - x.y))
      / ((p.x - x.x) * (q.x - x.x) + (p.y - x.y) * (q.y - x.y)),
      div_nonneg (le_of_lt hpp) (le_of_lt h2),
      (div_le_one h2).mpr (le_of_lt (not_le.mp hle)), ?_⟩
    apply vertex_eq <;> simp only [seg_pt] <;> field_simp <;> linarith

/-! ## The orientation of a ring in a vertex of the hull boundary -/

/-- In a vertex of the hull boundary a ring cannot turn both ways. -/
theorem ring_turns_unique (n : Nat) (f : Nat → Vertex) (k : Nat) (hn : 0 < n) (dx dy : ℚ)
    (hsup : ring_supports n f k dx dy)
    (h1 : ring_turns n f true k dx dy) (h2 : ring_turns n f false k dx dy) : False := by
  simp only [ring_turns, if_true, Bool.false_eq_true, if_false] at h1 h2
  exact turn_before_asymm dx dy hsup.1 _ _ _
    (hsup.2 _ (Nat.mod_lt _ hn)) (hsup.2 _ (Nat.mod_lt _ hn)) h1 h2

/-- A simple ring of at least four vertices turns one way or the other in each
vertex of the hull boundary. -/
theorem ring_turns_exists (n : Nat) (f : Nat → Vertex) (hs : ring_simple n f) (hn : 4 ≤ n)
    (k : Nat) (hk : k < n) (dx dy : ℚ) (hsup : ring_supports n f k dx dy) :
    ring_turns n f true k dx dy ∨ ring_turns n f false k dx dy := by
  have hs1 : (k + 1) % n < n := Nat.mod_lt _ (by omega)
  have hp1 : (k + n - 1) % n < n := Nat.mod_lt _ (by omega)
  have es := succ_mod_eq n k hk
  have ep := pred_mod_eq n k hk
  have ep1 : ((k + n - 1) % n + 1) % n = k := by
    rw [succ_mod_eq n _ hp1, ep]
    split_ifs <;> omega
  have hsk : (k + 1) % n ≠ k := by rw [es]; split_ifs <;> omega
  have hpk : (k + n - 1) % n ≠ k := by rw [ep]; split_ifs <;> omega
  have hsp : (k + n - 1) % n ≠ (k + 1) % n := by rw [es, ep]; split_ifs <;> omega
  simp only [ring_turns, if_true, Bool.false_eq_true, if_false]
  rcases turn_before_total dx dy hsup.1 (f k) (f ((k + 1) % n)) (f ((k + n - 1) % n))
    (hsup.2 _ hs1) (hsup.2 _ hp1)
    (simple_vertices_distinct n f hs hn _ _ hs1 hk hsk)
    (simple_vertices_distinct n f hs hn _ _ hp1 hk hpk) with h | h | ⟨h1, h2⟩
  · exact Or.inl h
  · exact Or.inr h
  · exfalso
    rcases same_ray_on_seg _ _ _ (simple_vertices_distinct n f hs hn _ _ hs1 hk hsk) h1 h2
      with ⟨t, ht0, ht1, e⟩ | ⟨t, ht0, ht1, e⟩
    · rcases simple_vertex_on_edge n f hs hn k _ hk hp1 t ht0 ht1 e with h | h
      · exact hpk h
      · exact hsp h
    · rw [seg_pt_rev] at e
      have e' : f ((k + 1) % n)
          = seg_pt (f ((k + n - 1) % n)) (f (((k + n - 1) % n + 1) % n)) (1 - t) := by
        rw [ep1]; exact e
      rcases simple_vertex_on_edge n f hs hn _ _ hp1 hs1 (1 - t) (by linarith) (by linarith) e'
        with h | h
      · exact hsp h.symm
      · rw [ep1] at h; exact hsk h

/-- The three vertices of a triangle that is not flat. -/
theorem triangle_cross_ne (f : Nat → Vertex) (hnc : ¬ring_collinear 3 f) :
    cross2 (f 0) (f 1) (f 2) ≠ 0 := by
  intro h
  apply hnc
  intro i hi j hj l hl
  unfold cross2 at h ⊢
  interval_cases i <;> interval_cases j <;> interval_cases l <;> linarith

/-- Twice the area of a triangle. -/
theorem triangle_area2 (f : Nat → Vertex) : ring_area2 3 f = cross2 (f 0) (f 1) (f 2) := by
  unfold ring_area2 cross2 vcross
  simp [Finset.sum_range_succ]
  ring

/-- A triangle that is not flat turns the same way in its three vertices, the
way of the sign of its area. -/
theorem triangle_orientation (f : Nat → Vertex) (hnc : ¬ring_collinear 3 f) :
    ∃ s : Bool, (∀ k, k < 3 → ∀ dx dy : ℚ, ring_turns 3 f s k dx dy) ∧
      (if s then 0 < ring_area2 3 f else ring_area2 3 f < 0) := by
  have hD := triangle_cross_ne f hnc
  rw [triangle_area2]
  rcases lt_or_gt_of_ne hD with h | h
  · refine ⟨false, ?_, by simpa using h⟩
    intro k hk dx dy
    simp only [ring_turns, Bool.false_eq_true, if_false]
    left
    unfold cross2 at h ⊢
    interval_cases k <;> simp <;> linarith
  · refine ⟨true, ?_, by simpa using h⟩
    intro k hk dx dy
    simp only [ring_turns, if_true]
    left
    unfold cross2 at h ⊢
    interval_cases k <;> simp <;> linarith


/-! ## Splitting a ring along a chord from its first vertex -/

/-- The vertices of a ring read from vertex `z` on, before the end of the
ring. -/
theorem sub_ring_lt (n : Nat) (f : Nat → Vertex) (z t : Nat) (h : z + t < n) :
    sub_ring n f z t = f (z + t) := by
  unfold sub_ring
  rw [Nat.mod_eq_of_lt h]

/-- Read from vertex `z` on, the ring comes back to its first vertex. -/
theorem sub_ring_end (n : Nat) (f : Nat → Vertex) (z : Nat) (hz : z ≤ n) :
    sub_ring n f z (n - z) = f 0 := by
  unfold sub_ring
  have : z + (n - z) = n := by omega
  rw [this, Nat.mod_self]

/-- The part of a simple ring from its first vertex to vertex `z`, closed by
the chord back, is a simple ring when the chord meets no edge of the ring that
has no end in the two vertices. -/
theorem split_simple_first (n : Nat) (f : Nat → Vertex) (z : Nat) (hz2 : 2 ≤ z)
    (hzn : z + 2 ≤ n) (hs : ring_simple n f)
    (hclean : ∀ m, m < n → m ≠ 0 → m ≠ z → (m + 1) % n ≠ 0 → (m + 1) % n ≠ z →
      ¬segments_meet (f 0) (f z) (f m) (f ((m + 1) % n))) :
    ring_simple (z + 1) f := by
  intro i hi j hj ⟨hij, h1, h2⟩
  have ei := succ_mod_eq (z + 1) i hi
  have ej := succ_mod_eq (z + 1) j hj
  rcases Nat.lt_or_ge i z with hiz | hiz
  · have ei' : (i + 1) % n = i + 1 := Nat.mod_eq_of_lt (by omega)
    have e1 : (i + 1) % (z + 1) = i + 1 := Nat.mod_eq_of_lt (by omega)
    rcases Nat.lt_or_ge j z with hjz | hjz
    · have ej' : (j + 1) % n = j + 1 := Nat.mod_eq_of_lt (by omega)
      have e2 : (j + 1) % (z + 1) = j + 1 := Nat.mod_eq_of_lt (by omega)
      rw [e1, e2]
      rw [e1] at h1
      rw [e2] at h2
      have := hs i (by omega) j (by omega) ⟨hij, by rw [ei']; exact h1, by rw [ej']; exact h2⟩
      rw [ei', ej'] at this
      exact this
    · have hjz' : j = z := by omega
      subst hjz'
      rw [e1, Nat.mod_self]
      rw [e1] at h1
      rw [Nat.mod_self] at h2
      intro hm
      apply hclean i (by omega) (fun e => h2 e.symm) hij (by rw [ei']; omega)
        (by rw [ei']; exact h1)
      rw [ei']
      exact segments_meet_rev_left _ _ _ _ (segments_meet_comm _ _ _ _ hm)
  · have hiz' : i = z := by omega
    subst hiz'
    have hjz : j < i := by omega
    have ej' : (j + 1) % n = j + 1 := Nat.mod_eq_of_lt (by omega)
    have e2 : (j + 1) % (i + 1) = j + 1 := Nat.mod_eq_of_lt (by omega)
    rw [e2, Nat.mod_self]
    rw [Nat.mod_self] at h1
    rw [e2] at h2
    intro hm
    apply hclean j (by omega) (fun e => h1 e.symm) (fun e => hij e.symm) (by rw [ej']; omega)
      (by rw [ej']; exact h2)
    rw [ej']
    exact segments_meet_rev_left _ _ _ _ hm

/-- The part of a simple ring from vertex `z` back to its first vertex, closed
by the chord, is a simple ring when the chord meets no edge of the ring that
has no end in the two vertices. -/
theorem split_simple_second (n : Nat) (f : Nat → Vertex) (z : Nat) (hz2 : 2 ≤ z)
    (hzn : z + 2 ≤ n) (hs : ring_simple n f)
    (hclean : ∀ m, m < n → m ≠ 0 → m ≠ z → (m + 1) % n ≠ 0 → (m + 1) % n ≠ z →
      ¬segments_meet (f 0) (f z) (f m) (f ((m + 1) % n))) :
    ring_simple (n - z + 1) (sub_ring n f z) := by
  have hend := sub_ring_end n f z (by omega)
  have hz0 : sub_ring n f z 0 = f z := by
    rw [sub_ring_lt n f z 0 (by omega)]; rfl
  intro i hi j hj ⟨hij, h1, h2⟩
  rcases Nat.lt_or_ge i (n - z) with hiz | hiz
  · have e1 : (i + 1) % (n - z + 1) = i + 1 := Nat.mod_eq_of_lt (by omega)
    have vi : sub_ring n f z i = f (z + i) := sub_ring_lt n f z i (by omega)
    have vi1 : sub_ring n f z (i + 1) = f ((z + i + 1) % n) := by
      unfold sub_ring; rfl
    rcases Nat.lt_or_ge j (n - z) with hjz | hjz
    · have e2 : (j + 1) % (n - z + 1) = j + 1 := Nat.mod_eq_of_lt (by omega)
      have vj : sub_ring n f z j = f (z + j) := sub_ring_lt n f z j (by omega)
      have vj1 : sub_ring n f z (j + 1) = f ((z + j + 1) % n) := by
        unfold sub_ring; rfl
      rw [e1, e2, vi, vi1, vj, vj1]
      rw [e1] at h1
      rw [e2] at h2
      apply hs (z + i) (by omega) (z + j) (by omega)
      have si := succ_mod_eq n (z + i) (by omega)
      have sj := succ_mod_eq n (z + j) (by omega)
      refine ⟨by omega, ?_, ?_⟩
      · rw [si]; split_ifs <;> omega
      · rw [sj]; split_ifs <;> omega
    · have hjz' : j = n - z := by omega
      subst hjz'
      rw [e1, Nat.mod_self, vi, vi1, hend, hz0]
      rw [e1] at h1
      rw [Nat.mod_self] at h2
      have si := succ_mod_eq n (z + i) (by omega)
      intro hm
      apply hclean (z + i) (by omega) (by omega) (by omega)
        (by rw [si]; split_ifs <;> omega) (by rw [si]; split_ifs <;> omega)
      exact segments_meet_comm _ _ _ _ hm
  · have hiz' : i = n - z := by omega
    subst hiz'
    have hjz : j < n - z := by omega
    have e2 : (j + 1) % (n - z + 1) = j + 1 := Nat.mod_eq_of_lt (by omega)
    have vj : sub_ring n f z j = f (z + j) := sub_ring_lt n f z j (by omega)
    have vj1 : sub_ring n f z (j + 1) = f ((z + j + 1) % n) := by
      unfold sub_ring; rfl
    rw [e2, Nat.mod_self, vj, vj1, hend, hz0]
    rw [Nat.mod_self] at h1
    rw [e2] at h2
    have sj := succ_mod_eq n (z + j) (by omega)
    apply hclean (z + j) (by omega) (by omega) (by omega)
      (by rw [sj]; split_ifs <;> omega) (by rw [sj]; split_ifs <;> omega)

/-- The shoelace sum of a ring is the sum of those of its two parts along a
chord. -/
theorem split_area2 (n : Nat) (f : Nat → Vertex) (z : Nat) (hzn : z + 1 ≤ n) :
    ring_area2 n f = ring_area2 (z + 1) f + ring_area2 (n - z + 1) (sub_ring n f z) := by
  have hend := sub_ring_end n f z (by omega)
  have hz0 : sub_ring n f z 0 = f z := by
    rw [sub_ring_lt n f z 0 (by omega)]; rfl
  unfold ring_area2
  rw [Finset.sum_range_succ, Finset.sum_range_succ, Nat.mod_self, Nat.mod_self, hend, hz0]
  have hn : n = z + (n - z) := by omega
  conv_lhs => rw [hn, Finset.sum_range_add]
  have e1 : ∑ i ∈ Finset.range z, vcross (f i) (f ((i + 1) % (z + (n - z))))
      = ∑ i ∈ Finset.range z, vcross (f i) (f ((i + 1) % (z + 1))) := by
    apply Finset.sum_congr rfl
    intro i hi
    have hi' := Finset.mem_range.mp hi
    rw [Nat.mod_eq_of_lt (by omega), Nat.mod_eq_of_lt (by omega)]
  have e2 : ∑ i ∈ Finset.range (n - z), vcross (f (z + i)) (f ((z + i + 1) % (z + (n - z))))
      = ∑ i ∈ Finset.range (n - z),
          vcross (sub_ring n f z i) (sub_ring n f z ((i + 1) % (n - z + 1))) := by
    apply Finset.sum_congr rfl
    intro i hi
    have hi' := Finset.mem_range.mp hi
    rw [Nat.mod_eq_of_lt (by omega : i + 1 < n - z + 1), sub_ring_lt n f z i (by omega),
      ← hn]
    rfl
  rw [e1, e2]
  unfold vcross
  ring

/-! ## Coordinates in a triangle -/

/-- The first coordinate is affine along a segment. -/
theorem tri_a_seg (x a c P Q : Vertex) (t : ℚ) :
    tri_a x a c (seg_pt P Q t) = tri_a x a c P + t * (tri_a x a c Q - tri_a x a c P) := by
  unfold tri_a cross2 seg_pt
  ring

/-- The second coordinate is affine along a segment. -/
theorem tri_c_seg (x a c P Q : Vertex) (t : ℚ) :
    tri_c x a c (seg_pt P Q t) = tri_c x a c P + t * (tri_c x a c Q - tri_c x a c P) := by
  unfold tri_c cross2 seg_pt
  ring

/-- A point is given by its two coordinates in a triangle that is not flat. -/
theorem tri_point (x a c q : Vertex) (hD : cross2 x a c ≠ 0) :
    q = ⟨x.x + tri_a x a c q * (a.x - x.x) + tri_c x a c q * (c.x - x.x),
         x.y + tri_a x a c q * (a.y - x.y) + tri_c x a c q * (c.y - x.y)⟩ := by
  unfold tri_a tri_c
  unfold cross2 at hD ⊢
  apply vertex_eq
  · show q.x = _
    field_simp
    ring
  · show q.y = _
    field_simp
    ring

/-- A point whose second coordinate is zero lies on the line of the first
side. -/
theorem tri_on_side_a (x a c q : Vertex) (hD : cross2 x a c ≠ 0) (h : tri_c x a c q = 0) :
    q = seg_pt x a (tri_a x a c q) := by
  have hq := tri_point x a c q hD
  rw [h] at hq
  have hx := congrArg Vertex.x hq
  have hy := congrArg Vertex.y hq
  simp only at hx hy
  apply vertex_eq <;> simp only [seg_pt] <;> linarith

/-- A point whose first coordinate is zero lies on the line of the second
side. -/
theorem tri_on_side_c (x a c q : Vertex) (hD : cross2 x a c ≠ 0) (h : tri_a x a c q = 0) :
    q = seg_pt x c (tri_c x a c q) := by
  have hq := tri_point x a c q hD
  rw [h] at hq
  have hx := congrArg Vertex.x hq
  have hy := congrArg Vertex.y hq
  simp only at hx hy
  apply vertex_eq <;> simp only [seg_pt] <;> linarith

/-- The coordinates of the three corners. -/
theorem tri_corner_x (x a c : Vertex) : tri_a x a c x = 0 ∧ tri_c x a c x = 0 := by
  unfold tri_a tri_c cross2
  constructor <;> simp

theorem tri_corner_a (x a c : Vertex) (hD : cross2 x a c ≠ 0) :
    tri_a x a c a = 1 ∧ tri_c x a c a = 0 := by
  unfold tri_a tri_c
  refine ⟨div_self hD, ?_⟩
  unfold cross2
  simp
  left
  ring

theorem tri_corner_c (x a c : Vertex) (hD : cross2 x a c ≠ 0) :
    tri_a x a c c = 0 ∧ tri_c x a c c = 1 := by
  unfold tri_a tri_c
  refine ⟨?_, div_self hD⟩
  unfold cross2
  simp
  left
  ring

/-- Two quantities that change linearly from non-negative values, one of them
to a negative value: at some moment both are still non-negative and one of
them is zero. -/
theorem first_exit (ap aP cp cP : ℚ) (h1 : 0 ≤ ap) (h2 : 0 ≤ cp) (h3 : aP < 0 ∨ cP < 0) :
    ∃ τ : ℚ, 0 ≤ τ ∧ τ ≤ 1 ∧ 0 ≤ ap + τ * (aP - ap) ∧ 0 ≤ cp + τ * (cP - cp) ∧
      (ap + τ * (aP - ap) = 0 ∨ cp + τ * (cP - cp) = 0) := by
  have key : ∀ u U v V : ℚ, 0 ≤ u → 0 ≤ v → U < 0 → v * U ≤ u * V →
      ∃ τ : ℚ, 0 ≤ τ ∧ τ ≤ 1 ∧ u + τ * (U - u) = 0 ∧ 0 ≤ v + τ * (V - v) := by
    intro u U v V hu hv hU hle
    have hd : 0 < u - U := by linarith
    refine ⟨u / (u - U), div_nonneg hu (le_of_lt hd), ?_, ?_, ?_⟩
    · rw [div_le_one hd]; linarith
    · field_simp
      ring
    · have e : v + u / (u - U) * (V - v) = (u * V - v * U) / (u - U) := by
        field_simp
        ring
      rw [e]
      exact div_nonneg (by linarith) (le_of_lt hd)
  by_cases hc : cp * aP ≤ ap * cP
  · by_cases ha : aP < 0
    · obtain ⟨τ, t0, t1, e, g⟩ := key ap aP cp cP h1 h2 ha hc
      exact ⟨τ, t0, t1, by rw [e], g, Or.inl e⟩
    · have hcP : cP < 0 := by
        rcases h3 with h | h
        · exact absurd h ha
        · exact h
      have ha' : 0 ≤ aP := not_lt.mp ha
      have : ap * cP ≤ cp * aP := by
        have := mul_nonneg h2 ha'
        have := mul_nonpos_of_nonneg_of_nonpos h1 (le_of_lt hcP)
        linarith
      obtain ⟨τ, t0, t1, e, g⟩ := key cp cP ap aP h2 h1 hcP this
      exact ⟨τ, t0, t1, g, by rw [e], Or.inr e⟩
  · have hc' : ap * cP < cp * aP := not_le.mp hc
    have hcP : cP < 0 := by
      by_contra hn
      have hn' : 0 ≤ cP := not_lt.mp hn
      rcases h3 with h | h
      · have := mul_nonneg h1 hn'
        have := mul_nonpos_of_nonneg_of_nonpos h2 (le_of_lt h)
        linarith
      · exact hn h
    obtain ⟨τ, t0, t1, e, g⟩ := key cp cP ap aP h2 h1 hcP (le_of_lt hc')
    exact ⟨τ, t0, t1, g, by rw [e], Or.inr e⟩

/-- Leaving a triangle.  A segment has a point in the triangle `x a c` and its
end `P` is outside, with a coordinate sum not above that of the point: then the
segment has a point on the side `x a` or on the side `x c`, whose parameter on
that side is at most the coordinate sum of the first point. -/
theorem tri_exit (x a c P Q : Vertex) (hD : cross2 x a c ≠ 0) (t : ℚ) (ht0 : 0 ≤ t)
    (ht1 : t ≤ 1) (hp : tri_has x a c (seg_pt P Q t)) (hP : ¬tri_has x a c P)
    (hg : tri_a x a c P + tri_c x a c P
      ≤ tri_a x a c (seg_pt P Q t) + tri_c x a c (seg_pt P Q t)) :
    ∃ τ u : ℚ, 0 ≤ τ ∧ τ ≤ 1 ∧ 0 ≤ u ∧
      u ≤ tri_a x a c (seg_pt P Q t) + tri_c x a c (seg_pt P Q t) ∧
      (seg_pt P Q τ = seg_pt x a u ∨ seg_pt P Q τ = seg_pt x c u) := by
  obtain ⟨hpa, hpc, hps⟩ := hp
  have hout : tri_a x a c P < 0 ∨ tri_c x a c P < 0 := by
    by_contra hn
    push_neg at hn
    exact hP ⟨hn.1, hn.2, by linarith⟩
  obtain ⟨τ, t0, t1, ga, gc, gz⟩ := first_exit _ _ _ _ hpa hpc hout
  have epar : seg_pt (seg_pt P Q t) P τ = seg_pt P Q ((1 - τ) * t) := by
    apply vertex_eq <;> simp only [seg_pt] <;> ring
  have ea : tri_a x a c (seg_pt P Q ((1 - τ) * t))
      = tri_a x a c (seg_pt P Q t) + τ * (tri_a x a c P - tri_a x a c (seg_pt P Q t)) := by
    rw [← epar, tri_a_seg x a c (seg_pt P Q t) P τ]
  have ec : tri_c x a c (seg_pt P Q ((1 - τ) * t))
      = tri_c x a c (seg_pt P Q t) + τ * (tri_c x a c P - tri_c x a c (seg_pt P Q t)) := by
    rw [← epar, tri_c_seg x a c (seg_pt P Q t) P τ]
  have hτ1 : 0 ≤ (1 - τ) * t := mul_nonneg (by linarith) ht0
  have hτ2 : (1 - τ) * t ≤ 1 := by
    have := mul_le_mul (by linarith : 1 - τ ≤ 1) ht1 ht0 (by norm_num : (0 : ℚ) ≤ 1)
    linarith
  have hdrop : τ * ((tri_a x a c P + tri_c x a c P)
      - (tri_a x a c (seg_pt P Q t) + tri_c x a c (seg_pt P Q t))) ≤ 0 :=
    mul_nonpos_of_nonneg_of_nonpos t0 (by linarith)
  rcases gz with gz | gz
  · refine ⟨(1 - τ) * t, tri_c x a c (seg_pt P Q ((1 - τ) * t)), hτ1, hτ2, ?_, ?_, Or.inr ?_⟩
    · rw [ec]; exact gc
    · rw [ec]; nlinarith
    · exact tri_on_side_c x a c _ hD (by rw [ea]; exact gz)
  · refine ⟨(1 - τ) * t, tri_a x a c (seg_pt P Q ((1 - τ) * t)), hτ1, hτ2, ?_, ?_, Or.inl ?_⟩
    · rw [ea]; exact ga
    · rw [ea]; nlinarith
    · exact tri_on_side_a x a c _ hD (by rw [ec]; exact gz)

/-! ## Chords of a simple ring that meet no edge -/

/-- A vertex that cuts off an ear: the chord between the neighbours of vertex 1
meets no edge of the ring that has no end in them, when the triangle of the
three vertices is not flat and holds no other vertex. -/
theorem ear_chord_clean (n : Nat) (f : Nat → Vertex) (hs : ring_simple n f) (hn : 4 ≤ n)
    (hD : cross2 (f 1) (f 0) (f 2) ≠ 0)
    (hempty : ∀ m, 3 ≤ m → m < n → ¬tri_has (f 1) (f 0) (f 2) (f m)) :
    ∀ m, m < n → m ≠ 0 → m ≠ 2 → (m + 1) % n ≠ 0 → (m + 1) % n ≠ 2 →
      ¬segments_meet (f 0) (f 2) (f m) (f ((m + 1) % n)) := by
  intro m hm hm0 hm2 hm10 hm12 hmeet
  have em := succ_mod_eq n m hm
  have hmn : m + 1 < n := by
    by_contra h
    rw [em, if_neg h] at hm10
    exact hm10 rfl
  have hm1 : (m + 1) % n = m + 1 := Nat.mod_eq_of_lt hmn
  rw [hm1] at hmeet hm12
  have hm3 : 3 ≤ m := by omega
  obtain ⟨s, t, hs0, hs1, ht0, ht1, e⟩ := pt_of_segments_meet _ _ _ _ hmeet
  obtain ⟨a1, a2⟩ := tri_corner_a (f 1) (f 0) (f 2) hD
  obtain ⟨c1, c2⟩ := tri_corner_c (f 1) (f 0) (f 2) hD
  have pa : tri_a (f 1) (f 0) (f 2) (seg_pt (f m) (f (m + 1)) t) = 1 - s := by
    rw [← e, tri_a_seg, a1, c1]; ring
  have pc : tri_c (f 1) (f 0) (f 2) (seg_pt (f m) (f (m + 1)) t) = s := by
    rw [← e, tri_c_seg, a2, c2]; ring
  have hpT : tri_has (f 1) (f 0) (f 2) (seg_pt (f m) (f (m + 1)) t) := by
    unfold tri_has
    rw [pa, pc]
    exact ⟨by linarith, hs0, by linarith⟩
  have ga := tri_a_seg (f 1) (f 0) (f 2) (f m) (f (m + 1)) t
  have gc := tri_c_seg (f 1) (f 0) (f 2) (f m) (f (m + 1)) t
  -- the two edges at vertex 1 are apart from the edge
  have hap0 : ¬segments_meet (f 0) (f 1) (f m) (f (m + 1)) := by
    have := hs 0 (by omega) m hm ⟨by omega, by rw [Nat.mod_eq_of_lt (by omega)]; omega,
      by rw [hm1]; omega⟩
    rw [hm1, Nat.mod_eq_of_lt (by omega : 0 + 1 < n)] at this
    exact this
  have hap1 : ¬segments_meet (f 1) (f 2) (f m) (f (m + 1)) := by
    have := hs 1 (by omega) m hm ⟨by omega, by rw [Nat.mod_eq_of_lt (by omega)]; omega,
      by rw [hm1]; omega⟩
    rw [hm1, Nat.mod_eq_of_lt (by omega : 1 + 1 < n)] at this
    exact this
  have fin : ∀ τ u : ℚ, 0 ≤ τ → τ ≤ 1 → 0 ≤ u → u ≤ 1 →
      (seg_pt (f m) (f (m + 1)) τ = seg_pt (f 1) (f 0) u ∨
        seg_pt (f m) (f (m + 1)) τ = seg_pt (f 1) (f 2) u) → False := by
    intro τ u h0 h1 u0 u1 hor
    rcases hor with h | h
    · apply hap0
      apply segments_meet_rev_left
      exact segments_meet_of_pt _ _ _ _ u τ u0 u1 h0 h1 h.symm
    · apply hap1
      exact segments_meet_of_pt _ _ _ _ u τ u0 u1 h0 h1 h.symm
  by_cases hlow : tri_a (f 1) (f 0) (f 2) (f m) + tri_c (f 1) (f 0) (f 2) (f m) ≤ 1
  · obtain ⟨τ, u, h0, h1, u0, u1, hor⟩ := tri_exit (f 1) (f 0) (f 2) (f m) (f (m + 1)) hD t
      ht0 ht1 hpT (hempty m hm3 hm) (by rw [pa, pc]; linarith)
    rw [pa, pc] at u1
    exact fin τ u h0 h1 u0 (by linarith) hor
  · have hlow' : tri_a (f 1) (f 0) (f 2) (f (m + 1)) + tri_c (f 1) (f 0) (f 2) (f (m + 1)) ≤ 1 := by
      rw [pa] at ga
      rw [pc] at gc
      by_contra hc
      push_neg at hlow hc
      have k1 := mul_nonneg ht0 (by linarith : (0 : ℚ) ≤ tri_a (f 1) (f 0) (f 2) (f (m + 1))
        + tri_c (f 1) (f 0) (f 2) (f (m + 1)) - 1)
      have k2 := mul_nonneg (by linarith : (0 : ℚ) ≤ 1 - t) (by linarith : (0 : ℚ)
        ≤ tri_a (f 1) (f 0) (f 2) (f m) + tri_c (f 1) (f 0) (f 2) (f m) - 1)
      rcases le_or_lt t (1 / 2) with ht | ht
      · nlinarith
      · nlinarith
    have erev : seg_pt (f (m + 1)) (f m) (1 - t) = seg_pt (f m) (f (m + 1)) t := by
      rw [seg_pt_rev]; congr 1; ring
    have hpT' : tri_has (f 1) (f 0) (f 2) (seg_pt (f (m + 1)) (f m) (1 - t)) := by
      rw [erev]; exact hpT
    obtain ⟨τ, u, h0, h1, u0, u1, hor⟩ := tri_exit (f 1) (f 0) (f 2) (f (m + 1)) (f m) hD (1 - t)
      (by linarith) (by linarith) hpT' (hempty (m + 1) (by omega) hmn)
      (by rw [erev, pa, pc]; linarith)
    rw [erev, pa, pc] at u1
    rw [seg_pt_rev (f (m + 1)) (f m) τ] at hor
    exact fin (1 - τ) u (by linarith) (by linarith) u0 (by linarith) hor

/-- A point between two others on a line is a point of the segment between
them, strictly inside. -/
theorem between_on_seg (x a c : Vertex) (h1 : cross2 x a c = 0) (h2 : dot2 x a c < 0) :
    ∃ l : ℚ, 0 < l ∧ l < 1 ∧ x = seg_pt a c l := by
  unfold cross2 at h1
  unfold dot2 at h2
  have hcc : 0 < (c.x - x.x) * (c.x - x.x) + (c.y - x.y) * (c.y - x.y) := by
    apply dir_sq_pos
    intro ⟨e1, e2⟩
    rw [e1, e2] at h2
    simp at h2
  have hden : 0 < (c.x - x.x) * (c.x - x.x) + (c.y - x.y) * (c.y - x.y)
      - ((a.x - x.x) * (c.x - x.x) + (a.y - x.y) * (c.y - x.y)) := by linarith
  refine ⟨-((a.x - x.x) * (c.x - x.x) + (a.y - x.y) * (c.y - x.y))
    / ((c.x - x.x) * (c.x - x.x) + (c.y - x.y) * (c.y - x.y)
      - ((a.x - x.x) * (c.x - x.x) + (a.y - x.y) * (c.y - x.y))), ?_, ?_, ?_⟩
  · exact div_pos (by linarith) hden
  · rw [div_lt_one hden]; linarith
  · apply vertex_eq
    · simp only [seg_pt]
      field_simp
      linear_combination (-(c.y - x.y)) * h1
    · simp only [seg_pt]
      field_simp
      linear_combination (c.x - x.x) * h1

/-- A point of a segment lies on one of the two parts in which an inner point
divides the segment. -/
theorem seg_pt_parts (a c : Vertex) (l s : ℚ) (hl0 : 0 < l) (hl1 : l < 1) (hs0 : 0 ≤ s)
    (hs1 : s ≤ 1) :
    (∃ u : ℚ, 0 ≤ u ∧ u ≤ 1 ∧ seg_pt a c s = seg_pt a (seg_pt a c l) u) ∨
      (∃ u : ℚ, 0 ≤ u ∧ u ≤ 1 ∧ seg_pt a c s = seg_pt (seg_pt a c l) c u) := by
  rcases le_or_lt s l with h | h
  · left
    refine ⟨s / l, div_nonneg hs0 (le_of_lt hl0), by rw [div_le_one hl0]; exact h, ?_⟩
    have hl : l ≠ 0 := ne_of_gt hl0
    apply vertex_eq <;> simp only [seg_pt] <;> field_simp <;> ring
  · right
    have hl : 1 - l ≠ 0 := by linarith
    have hl' : 0 < 1 - l := by linarith
    refine ⟨(s - l) / (1 - l), div_nonneg (by linarith) (le_of_lt hl'),
      by rw [div_le_one hl']; linarith, ?_⟩
    apply vertex_eq <;> simp only [seg_pt] <;> field_simp <;> ring

/-- A vertex on the segment between its neighbours: the chord between the
neighbours of vertex 1 meets no edge of the ring that has no end in them. -/
theorem straight_chord_clean (n : Nat) (f : Nat → Vertex) (hs : ring_simple n f) (hn : 4 ≤ n)
    (h0 : cross2 (f 1) (f 0) (f 2) = 0) (hd : dot2 (f 1) (f 0) (f 2) < 0) :
    ∀ m, m < n → m ≠ 0 → m ≠ 2 → (m + 1) % n ≠ 0 → (m + 1) % n ≠ 2 →
      ¬segments_meet (f 0) (f 2) (f m) (f ((m + 1) % n)) := by
  intro m hm hm0 hm2 hm10 hm12 hmeet
  have em := succ_mod_eq n m hm
  have hmn : m + 1 < n := by
    by_contra h
    rw [em, if_neg h] at hm10
    exact hm10 rfl
  have hm1 : (m + 1) % n = m + 1 := Nat.mod_eq_of_lt hmn
  rw [hm1] at hmeet hm12
  have hm3 : 3 ≤ m := by omega
  obtain ⟨s, t, hs0, hs1, ht0, ht1, e⟩ := pt_of_segments_meet _ _ _ _ hmeet
  obtain ⟨l, hl0, hl1, el⟩ := between_on_seg _ _ _ h0 hd
  have hap0 : ¬segments_meet (f 0) (f 1) (f m) (f (m + 1)) := by
    have := hs 0 (by omega) m hm ⟨by omega, by rw [Nat.mod_eq_of_lt (by omega)]; omega,
      by rw [hm1]; omega⟩
    rw [hm1, Nat.mod_eq_of_lt (by omega : 0 + 1 < n)] at this
    exact this
  have hap1 : ¬segments_meet (f 1) (f 2) (f m) (f (m + 1)) := by
    have := hs 1 (by omega) m hm ⟨by omega, by rw [Nat.mod_eq_of_lt (by omega)]; omega,
      by rw [hm1]; omega⟩
    rw [hm1, Nat.mod_eq_of_lt (by omega : 1 + 1 < n)] at this
    exact this
  rcases seg_pt_parts (f 0) (f 2) l s hl0 hl1 hs0 hs1 with ⟨u, u0, u1, eu⟩ | ⟨u, u0, u1, eu⟩
  · rw [← el] at eu
    apply hap0
    exact segments_meet_of_pt _ _ _ _ u t u0 u1 ht0 ht1 (by rw [← eu, e])
  · rw [← el] at eu
    apply hap1
    exact segments_meet_of_pt _ _ _ _ u t u0 u1 ht0 ht1 (by rw [← eu, e])

/-- A value between two others is not below both. -/
theorem convex_low (t gP gQ G : ℚ) (ht0 : 0 ≤ t) (ht1 : t ≤ 1) (h : G = gP + t * (gQ - gP)) :
    gP ≤ G ∨ gQ ≤ G := by
  by_contra hc
  push_neg at hc
  obtain ⟨h1, h2⟩ := hc
  have k1 := mul_nonneg ht0 (le_of_lt (sub_pos.mpr h2))
  have k2 := mul_nonneg (by linarith : (0 : ℚ) ≤ 1 - t) (le_of_lt (sub_pos.mpr h1))
  rcases le_or_lt t (1 / 2) with ht | ht
  · nlinarith
  · nlinarith

/-- A point of a segment that is its far end has parameter one. -/
theorem seg_pt_eq_end (p q : Vertex) (u : ℚ) (hpq : q ≠ p) (h : seg_pt p q u = q) : u = 1 := by
  by_contra hu
  apply hpq
  have hx := congrArg Vertex.x h
  have hy := congrArg Vertex.y h
  simp only [seg_pt] at hx hy
  have hu' : 1 - u ≠ 0 := fun e => hu (by linarith)
  apply vertex_eq
  · have : (1 - u) * (q.x - p.x) = 0 := by linarith
    rcases mul_eq_zero.mp this with h' | h'
    · exact absurd h' hu'
    · linarith
  · have : (1 - u) * (q.y - p.y) = 0 := by linarith
    rcases mul_eq_zero.mp this with h' | h'
    · exact absurd h' hu'
    · linarith

/-- A vertex with another vertex in its triangle: among the vertices in the
closed triangle of vertex 0 and its two neighbours, other than these three,
take one with the least coordinate sum.  The chord from vertex 0 to it meets no
edge of the ring that has no end in the two. -/
theorem corner_chord_clean (n : Nat) (f : Nat → Vertex) (hs : ring_simple n f) (hn : 4 ≤ n)
    (hD : cross2 (f 0) (f (n - 1)) (f 1) ≠ 0) (z : Nat) (hz2 : 2 ≤ z) (hzn : z + 2 ≤ n)
    (hzT : tri_has (f 0) (f (n - 1)) (f 1) (f z))
    (hmin : ∀ m, 2 ≤ m → m + 2 ≤ n → tri_has (f 0) (f (n - 1)) (f 1) (f m) →
      tri_a (f 0) (f (n - 1)) (f 1) (f z) + tri_c (f 0) (f (n - 1)) (f 1) (f z)
        ≤ tri_a (f 0) (f (n - 1)) (f 1) (f m) + tri_c (f 0) (f (n - 1)) (f 1) (f m)) :
    ∀ m, m < n → m ≠ 0 → m ≠ z → (m + 1) % n ≠ 0 → (m + 1) % n ≠ z →
      ¬segments_meet (f 0) (f z) (f m) (f ((m + 1) % n)) := by
  intro m hm hm0 hmz hm10 hm1z hmeet
  have em := succ_mod_eq n m hm
  have hmn : m + 1 < n := by
    by_contra h
    rw [em, if_neg h] at hm10
    exact hm10 rfl
  have hm1 : (m + 1) % n = m + 1 := Nat.mod_eq_of_lt hmn
  have e01 : (0 + 1) % n = 1 := Nat.mod_eq_of_lt (by omega)
  have e12 : (1 + 1) % n = 2 := Nat.mod_eq_of_lt (by omega)
  have en0 : (n - 1 + 1) % n = 0 := by
    have : n - 1 + 1 = n := by omega
    rw [this, Nat.mod_self]
  obtain ⟨s, t, hs0, hs1, ht0, ht1, e⟩ := pt_of_segments_meet _ _ _ _ hmeet
  obtain ⟨x1, x2⟩ := tri_corner_x (f 0) (f (n - 1)) (f 1)
  obtain ⟨a1, a2⟩ := tri_corner_a (f 0) (f (n - 1)) (f 1) hD
  obtain ⟨c1, c2⟩ := tri_corner_c (f 0) (f (n - 1)) (f 1) hD
  obtain ⟨za, zc, zs⟩ := hzT
  have hz : z < n := by omega
  have hax : f (n - 1) ≠ f 0 := simple_vertices_distinct n f hs hn (n - 1) 0 (by omega) (by omega) (by omega)
  have hcx : f 1 ≠ f 0 := simple_vertices_distinct n f hs hn 1 0 (by omega) (by omega) (by omega)
  have hgz : 0 < tri_a (f 0) (f (n - 1)) (f 1) (f z) + tri_c (f 0) (f (n - 1)) (f 1) (f z) := by
    by_contra hc
    have hA : tri_a (f 0) (f (n - 1)) (f 1) (f z) = 0 := by linarith
    have hC : tri_c (f 0) (f (n - 1)) (f 1) (f z) = 0 := by linarith
    have := tri_on_side_a _ _ _ (f z) hD hC
    rw [hA, seg_pt_zero] at this
    exact simple_vertices_distinct n f hs hn z 0 hz (by omega) (by omega) this
  have pa : tri_a (f 0) (f (n - 1)) (f 1) (seg_pt (f m) (f ((m + 1) % n)) t)
      = s * tri_a (f 0) (f (n - 1)) (f 1) (f z) := by
    rw [← e, tri_a_seg, x1]; ring
  have pc : tri_c (f 0) (f (n - 1)) (f 1) (seg_pt (f m) (f ((m + 1) % n)) t)
      = s * tri_c (f 0) (f (n - 1)) (f 1) (f z) := by
    rw [← e, tri_c_seg, x2]; ring
  have hK : ∀ val : ℚ,
      tri_a (f 0) (f (n - 1)) (f 1) (f z) + tri_c (f 0) (f (n - 1)) (f 1) (f z) ≤ val →
      val ≤ s * tri_a (f 0) (f (n - 1)) (f 1) (f z)
        + s * tri_c (f 0) (f (n - 1)) (f 1) (f z) → False := by
    intro val h1 h2
    have hs1' : s = 1 := by
      by_contra hne
      have hlt : s < 1 := lt_of_le_of_ne hs1 hne
      have := mul_pos (by linarith : (0 : ℚ) < 1 - s) hgz
      nlinarith
    rw [hs1', seg_pt_one] at e
    rcases simple_vertex_on_edge n f hs hn m z hm hz t ht0 ht1 e with h | h
    · exact hmz h.symm
    · exact hm1z h.symm
  have hpT : tri_has (f 0) (f (n - 1)) (f 1) (seg_pt (f m) (f ((m + 1) % n)) t) := by
    unfold tri_has
    rw [pa, pc]
    refine ⟨mul_nonneg hs0 za, mul_nonneg hs0 zc, ?_⟩
    have := mul_nonneg (by linarith : (0 : ℚ) ≤ 1 - s) (le_of_lt hgz)
    nlinarith
  have low : ∀ (V W : Vertex) (j : Nat) (t' : ℚ), j < n → j ≠ 0 → j ≠ z → V = f j →
      0 ≤ t' → t' ≤ 1 → seg_pt V W t' = seg_pt (f m) (f ((m + 1) % n)) t →
      (∀ τ : ℚ, 0 ≤ τ → τ ≤ 1 → ∃ τ' : ℚ, 0 ≤ τ' ∧ τ' ≤ 1 ∧
        seg_pt V W τ = seg_pt (f m) (f ((m + 1) % n)) τ') →
      tri_a (f 0) (f (n - 1)) (f 1) V + tri_c (f 0) (f (n - 1)) (f 1) V
        ≤ s * tri_a (f 0) (f (n - 1)) (f 1) (f z)
          + s * tri_c (f 0) (f (n - 1)) (f 1) (f z) → False := by
    intro V W j t' hj hj0 hjz hV ht0' ht1' hpt hsub hg
    by_cases hVT : tri_has (f 0) (f (n - 1)) (f 1) V
    · apply hK _ _ hg
      by_cases hj1 : j = 1
      · rw [hV, hj1, c1, c2]; linarith
      · by_cases hjn : j = n - 1
        · rw [hV, hjn, a1, a2]; linarith
        · rw [hV]
          rw [hV] at hVT
          exact hmin j (by omega) (by omega) hVT
    · have hpT' : tri_has (f 0) (f (n - 1)) (f 1) (seg_pt V W t') := by rw [hpt]; exact hpT
      obtain ⟨τ, u, h0, h1, u0, u1, hor⟩ := tri_exit (f 0) (f (n - 1)) (f 1) V W hD t'
        ht0' ht1' hpT' hVT (by rw [hpt, pa, pc]; exact hg)
      rw [hpt, pa, pc] at u1
      obtain ⟨τ', h0', h1', eτ⟩ := hsub τ h0 h1
      rw [eτ] at hor
      have hu1 : u ≤ 1 := by
        have := mul_nonneg (by linarith : (0 : ℚ) ≤ 1 - s) (le_of_lt hgz)
        nlinarith
      rcases hor with h | h
      · -- a point of the edge before vertex 0
        by_cases hadj : m + 1 = n - 1
        · have hh := simple_adjacent_edges n f hs hn m hm τ' (1 - u) h0' h1' (by linarith)
            (by linarith)
            (by
              rw [h, hm1, hadj, en0, seg_pt_rev (f 0) (f (n - 1)) u])
          rw [h, hm1, hadj] at hh
          have := seg_pt_eq_end _ _ u hax hh
          apply hK 1 zs
          rw [← this]; exact u1
        · apply hs m hm (n - 1) (by omega) ⟨by omega, by rw [hm1]; exact hadj,
            by rw [en0]; omega⟩
          rw [en0]
          apply segments_meet_of_pt _ _ _ _ τ' (1 - u) h0' h1' (by linarith) (by linarith)
          rw [h, seg_pt_rev (f 0) (f (n - 1)) u]
      · -- a point of the edge after vertex 0
        by_cases hadj : m = 1
        · have hh := simple_adjacent_edges n f hs hn 0 (by omega) u τ' u0 hu1 h0' h1'
            (by
              rw [e01, e12, ← h, hadj, e12])
          rw [e01] at hh
          have := seg_pt_eq_end _ _ u hcx hh
          apply hK 1 zs
          rw [← this]; exact u1
        · apply hs 0 (by omega) m hm ⟨by omega, by rw [e01]; omega, hm10⟩
          rw [e01]
          exact segments_meet_of_pt _ _ _ _ u τ' u0 hu1 h0' h1' h.symm
  have ga := tri_a_seg (f 0) (f (n - 1)) (f 1) (f m) (f ((m + 1) % n)) t
  have gc := tri_c_seg (f 0) (f (n - 1)) (f 1) (f m) (f ((m + 1) % n)) t
  rw [pa] at ga
  rw [pc] at gc
  by_cases hlow : tri_a (f 0) (f (n - 1)) (f 1) (f m) + tri_c (f 0) (f (n - 1)) (f 1) (f m)
      ≤ s * tri_a (f 0) (f (n - 1)) (f 1) (f z) + s * tri_c (f 0) (f (n - 1)) (f 1) (f z)
  · exact low (f m) (f ((m + 1) % n)) m t hm hm0 hmz rfl ht0 ht1 rfl
      (fun τ h0 h1 => ⟨τ, h0, h1, rfl⟩) hlow
  · push_neg at hlow
    have hlow' : tri_a (f 0) (f (n - 1)) (f 1) (f ((m + 1) % n))
        + tri_c (f 0) (f (n - 1)) (f 1) (f ((m + 1) % n))
        ≤ s * tri_a (f 0) (f (n - 1)) (f 1) (f z) + s * tri_c (f 0) (f (n - 1)) (f 1) (f z) := by
      rcases convex_low t _ _ _ ht0 ht1 (by linarith : s * tri_a (f 0) (f (n - 1)) (f 1) (f z)
          + s * tri_c (f 0) (f (n - 1)) (f 1) (f z)
        = (tri_a (f 0) (f (n - 1)) (f 1) (f m) + tri_c (f 0) (f (n - 1)) (f 1) (f m))
          + t * ((tri_a (f 0) (f (n - 1)) (f 1) (f ((m + 1) % n))
              + tri_c (f 0) (f (n - 1)) (f 1) (f ((m + 1) % n)))
            - (tri_a (f 0) (f (n - 1)) (f 1) (f m) + tri_c (f 0) (f (n - 1)) (f 1) (f m))))
        with h | h
      · exact absurd h (not_le.mpr hlow)
      · exact h
    have hrev : seg_pt (f ((m + 1) % n)) (f m) (1 - t) = seg_pt (f m) (f ((m + 1) % n)) t := by
      rw [seg_pt_rev]; congr 1; ring
    have hsub : ∀ τ : ℚ, 0 ≤ τ → τ ≤ 1 → ∃ τ' : ℚ, 0 ≤ τ' ∧ τ' ≤ 1 ∧
        seg_pt (f ((m + 1) % n)) (f m) τ = seg_pt (f m) (f ((m + 1) % n)) τ' := by
      intro τ h0 h1
      exact ⟨1 - τ, by linarith, by linarith, seg_pt_rev _ _ _⟩
    exact low (f ((m + 1) % n)) (f m) ((m + 1) % n) (1 - t) (Nat.mod_lt _ (by omega)) hm10 hm1z
      rfl (by linarith) (by linarith) hrev hsub hlow'

/-! ## Supporting directions and turns in the parts of a split ring -/

/-- A direction that supports a ring in a vertex supports every ring made of
vertices of the ring in that vertex. -/
theorem ring_supports_of_vertices (n : Nat) (f : Nat → Vertex) (k : Nat) (dx dy : ℚ)
    (h : ring_supports n f k dx dy) (N : Nat) (g : Nat → Vertex) (t : Nat)
    (hg : ∀ i, i < N → ∃ j, j < n ∧ g i = f j) (ht : g t = f k) :
    ring_supports N g t dx dy := by
  refine ⟨h.1, ?_⟩
  intro i hi
  obtain ⟨j, hj, e⟩ := hg i hi
  rw [e, ht]
  exact h.2 j hj

/-- The vertices of the first part are vertices of the ring. -/
theorem first_part_vertices (n : Nat) (f : Nat → Vertex) (z : Nat) (hzn : z + 1 ≤ n) :
    ∀ i, i < z + 1 → ∃ j, j < n ∧ f i = f j :=
  fun i hi => ⟨i, by omega, rfl⟩

/-- The vertices of a ring read from another vertex on are vertices of the
ring. -/
theorem sub_ring_vertices (n : Nat) (f : Nat → Vertex) (z : Nat) (hn : 0 < n) (N : Nat) :
    ∀ i, i < N → ∃ j, j < n ∧ sub_ring n f z i = f j :=
  fun i _ => ⟨(z + i) % n, Nat.mod_lt _ hn, rfl⟩

/-- Inside the first part the ring turns as before. -/
theorem first_part_turns (n : Nat) (f : Nat → Vertex) (z : Nat) (hzn : z + 1 ≤ n) (s : Bool)
    (k : Nat) (hk0 : 0 < k) (hkz : k < z) (dx dy : ℚ) :
    ring_turns (z + 1) f s k dx dy ↔ ring_turns n f s k dx dy := by
  unfold ring_turns
  have e1 : (k + 1) % (z + 1) = k + 1 := Nat.mod_eq_of_lt (by omega)
  have e2 : (k + 1) % n = k + 1 := Nat.mod_eq_of_lt (by omega)
  have e3 : (k + (z + 1) - 1) % (z + 1) = k - 1 := by
    rw [pred_mod_eq (z + 1) k (by omega), if_neg (by omega)]
  have e4 : (k + n - 1) % n = k - 1 := by
    rw [pred_mod_eq n k (by omega), if_neg (by omega)]
  rw [e1, e2, e3, e4]

/-- Inside the second part the ring turns as before. -/
theorem second_part_turns (n : Nat) (f : Nat → Vertex) (z : Nat) (s : Bool)
    (k : Nat) (hkz : z < k) (hkn : k < n) (dx dy : ℚ) :
    ring_turns (n - z + 1) (sub_ring n f z) s (k - z) dx dy ↔ ring_turns n f s k dx dy := by
  unfold ring_turns
  have e1 : (k - z + 1) % (n - z + 1) = k - z + 1 := Nat.mod_eq_of_lt (by omega)
  have e3 : (k - z + (n - z + 1) - 1) % (n - z + 1) = k - z - 1 := by
    rw [pred_mod_eq (n - z + 1) (k - z) (by omega), if_neg (by omega)]
  have e4 : (k + n - 1) % n = k - 1 := by
    rw [pred_mod_eq n k (by omega), if_neg (by omega)]
  have v0 : sub_ring n f z (k - z) = f k := by
    rw [sub_ring_lt n f z (k - z) (by omega)]
    congr 1; omega
  have v1 : sub_ring n f z (k - z + 1) = f ((k + 1) % n) := by
    unfold sub_ring
    congr 2; omega
  have v2 : sub_ring n f z (k - z - 1) = f (k - 1) := by
    rw [sub_ring_lt n f z (k - z - 1) (by omega)]
    congr 1; omega
  rw [e1, e3, e4, v0, v1, v2]

/-- The turn of the first part in vertex 0. -/
theorem first_part_turns_zero (f : Nat → Vertex) (z : Nat) (hz : 1 ≤ z) (s : Bool)
    (dx dy : ℚ) :
    ring_turns (z + 1) f s 0 dx dy ↔
      (if s then turn_before dx dy (f 0) (f 1) (f z)
       else turn_before dx dy (f 0) (f z) (f 1)) := by
  unfold ring_turns
  have e1 : (0 + 1) % (z + 1) = 1 := Nat.mod_eq_of_lt (by omega)
  have e3 : (0 + (z + 1) - 1) % (z + 1) = z := by
    rw [pred_mod_eq (z + 1) 0 (by omega), if_pos rfl]; omega
  rw [e1, e3]

/-- The turn of the first part in its last vertex. -/
theorem first_part_turns_last (f : Nat → Vertex) (z : Nat) (hz : 1 ≤ z) (s : Bool)
    (dx dy : ℚ) :
    ring_turns (z + 1) f s z dx dy ↔
      (if s then turn_before dx dy (f z) (f 0) (f (z - 1))
       else turn_before dx dy (f z) (f (z - 1)) (f 0)) := by
  unfold ring_turns
  have e1 : (z + 1) % (z + 1) = 0 := Nat.mod_self _
  have e3 : (z + (z + 1) - 1) % (z + 1) = z - 1 := by
    rw [pred_mod_eq (z + 1) z (by omega), if_neg (by omega)]
  rw [e1, e3]

/-- The turn of the second part in its first vertex. -/
theorem second_part_turns_zero (n : Nat) (f : Nat → Vertex) (z : Nat) (hzn : z + 1 ≤ n)
    (s : Bool) (dx dy : ℚ) :
    ring_turns (n - z + 1) (sub_ring n f z) s 0 dx dy ↔
      (if s then turn_before dx dy (f z) (f ((z + 1) % n)) (f 0)
       else turn_before dx dy (f z) (f 0) (f ((z + 1) % n))) := by
  unfold ring_turns
  have e1 : (0 + 1) % (n - z + 1) = 1 := Nat.mod_eq_of_lt (by omega)
  have e3 : (0 + (n - z + 1) - 1) % (n - z + 1) = n - z := by
    rw [pred_mod_eq (n - z + 1) 0 (by omega), if_pos rfl]; omega
  have v0 : sub_ring n f z 0 = f z := by
    rw [sub_ring_lt n f z 0 (by omega)]; rfl
  have v1 : sub_ring n f z 1 = f ((z + 1) % n) := rfl
  rw [e1, e3, v0, v1, sub_ring_end n f z (by omega)]

/-- The turn of the second part in its last vertex, vertex 0 of the ring. -/
theorem second_part_turns_last (n : Nat) (f : Nat → Vertex) (z : Nat) (hz : 1 ≤ z)
    (hzn : z + 1 ≤ n) (s : Bool) (dx dy : ℚ) :
    ring_turns (n - z + 1) (sub_ring n f z) s (n - z) dx dy ↔
      (if s then turn_before dx dy (f 0) (f z) (f (n - 1))
       else turn_before dx dy (f 0) (f (n - 1)) (f z)) := by
  unfold ring_turns
  have e1 : (n - z + 1) % (n - z + 1) = 0 := Nat.mod_self _
  have e3 : (n - z + (n - z + 1) - 1) % (n - z + 1) = n - z - 1 := by
    rw [pred_mod_eq (n - z + 1) (n - z) (by omega), if_neg (by omega)]
  have v0 : sub_ring n f z 0 = f z := by
    rw [sub_ring_lt n f z 0 (by omega)]; rfl
  have v2 : sub_ring n f z (n - z - 1) = f (n - 1) := by
    rw [sub_ring_lt n f z (n - z - 1) (by omega)]
    congr 1; omega
  rw [e1, e3, v0, v2, sub_ring_end n f z (by omega)]

/-- The turn of a ring in vertex 0. -/
theorem ring_turns_zero (n : Nat) (f : Nat → Vertex) (hn : 2 ≤ n) (s : Bool) (dx dy : ℚ) :
    ring_turns n f s 0 dx dy ↔
      (if s then turn_before dx dy (f 0) (f 1) (f (n - 1))
       else turn_before dx dy (f 0) (f (n - 1)) (f 1)) := by
  unfold ring_turns
  have e1 : (0 + 1) % n = 1 := Nat.mod_eq_of_lt (by omega)
  have e3 : (0 + n - 1) % n = n - 1 := by
    rw [pred_mod_eq n 0 (by omega), if_pos rfl]
  rw [e1, e3]

/-- The turn of a ring in a vertex that is not vertex 0. -/
theorem ring_turns_pos (n : Nat) (f : Nat → Vertex) (k : Nat) (hk0 : 0 < k) (hk : k < n)
    (s : Bool) (dx dy : ℚ) :
    ring_turns n f s k dx dy ↔
      (if s then turn_before dx dy (f k) (f ((k + 1) % n)) (f (k - 1))
       else turn_before dx dy (f k) (f (k - 1)) (f ((k + 1) % n))) := by
  unfold ring_turns
  have e3 : (k + n - 1) % n = k - 1 := by
    rw [pred_mod_eq n k hk, if_neg (by omega)]
  rw [e3]

/-! ## The steps of the induction on the number of vertices -/

/-- The coordinates of a point in a triangle, as cross products. -/
theorem tri_a_mul (x a c q : Vertex) (hD : cross2 x a c ≠ 0) :
    tri_a x a c q * cross2 x a c = cross2 x q c := by
  unfold tri_a
  exact div_mul_cancel₀ _ hD

theorem tri_c_mul (x a c q : Vertex) (hD : cross2 x a c ≠ 0) :
    tri_c x a c q * cross2 x a c = cross2 x a q := by
  unfold tri_c
  exact div_mul_cancel₀ _ hD

/-- Swapping the last two points changes the sign of the cross product. -/
theorem cross2_swap (a b c : Vertex) : cross2 a c b = -cross2 a b c := by
  unfold cross2; ring

/-- The cross product does not change when its three points are rotated. -/
theorem cross2_rot (a b c : Vertex) : cross2 b c a = cross2 a b c := by
  unfold cross2; ring

/-- Step of the induction at a vertex with another vertex in its triangle:
splitting the ring along the chord from vertex 0 to a vertex nearest to it in
the triangle, the two parts turn one way, and so does the ring. -/
theorem corner_step (n : Nat) (f : Nat → Vertex) (hn : 4 ≤ n) (hs : ring_simple n f)
    (IH : ∀ m, m < n → ∀ g : Nat → Vertex, 3 ≤ m → ring_simple m g → ¬ring_collinear m g →
      ring_turns_one_way m g)
    (dx0 dy0 : ℚ) (hsup0 : ring_supports n f 0 dx0 dy0)
    (hD : cross2 (f 0) (f (n - 1)) (f 1) ≠ 0) (z : Nat) (hz2 : 2 ≤ z) (hzn : z + 2 ≤ n)
    (hzT : tri_has (f 0) (f (n - 1)) (f 1) (f z))
    (hmin : ∀ m, 2 ≤ m → m + 2 ≤ n → tri_has (f 0) (f (n - 1)) (f 1) (f m) →
      tri_a (f 0) (f (n - 1)) (f 1) (f z) + tri_c (f 0) (f (n - 1)) (f 1) (f z)
        ≤ tri_a (f 0) (f (n - 1)) (f 1) (f m) + tri_c (f 0) (f (n - 1)) (f 1) (f m)) :
    ring_turns_one_way n f := by
  have hclean := corner_chord_clean n f hs hn hD z hz2 hzn hzT hmin
  have hs1 := split_simple_first n f z hz2 hzn hs hclean
  have hs2 := split_simple_second n f z hz2 hzn hs hclean
  have e01 : (0 + 1) % n = 1 := Nat.mod_eq_of_lt (by omega)
  have en0 : (n - 1 + 1) % n = 0 := by
    have : n - 1 + 1 = n := by omega
    rw [this, Nat.mod_self]
  obtain ⟨za, zc, zs⟩ := hzT
  have hz : z < n := by omega
  -- the vertex is strictly inside the angle
  have zc' : 0 < tri_c (f 0) (f (n - 1)) (f 1) (f z) := by
    rcases lt_or_eq_of_le zc with h | h
    · exact h
    · exfalso
      have hon := tri_on_side_a _ _ _ (f z) hD h.symm
      rw [seg_pt_rev] at hon
      have := simple_vertex_on_edge n f hs hn (n - 1) z (by omega) hz
        (1 - tri_a (f 0) (f (n - 1)) (f 1) (f z)) (by linarith) (by linarith)
        (by rw [en0]; exact hon)
      rw [en0] at this
      omega
  have za' : 0 < tri_a (f 0) (f (n - 1)) (f 1) (f z) := by
    rcases lt_or_eq_of_le za with h | h
    · exact h
    · exfalso
      have hon := tri_on_side_c _ _ _ (f z) hD h.symm
      have := simple_vertex_on_edge n f hs hn 0 z (by omega) hz
        (tri_c (f 0) (f (n - 1)) (f 1) (f z)) (by linarith) (by linarith)
        (by rw [e01]; exact hon)
      rw [e01] at this
      omega
  have ma := tri_a_mul (f 0) (f (n - 1)) (f 1) (f z) hD
  have mc := tri_c_mul (f 0) (f (n - 1)) (f 1) (f z) hD
  have hend := sub_ring_end n f z (by omega)
  have hz0 : sub_ring n f z 0 = f z := by
    rw [sub_ring_lt n f z 0 (by omega)]; rfl
  have hzl : sub_ring n f z (n - z - 1) = f (n - 1) := by
    rw [sub_ring_lt n f z (n - z - 1) (by omega)]
    congr 1; omega
  have hnc1 : ¬ring_collinear (z + 1) f := by
    intro h
    have h1 := h 0 (by omega) z (by omega) 1 (by omega)
    rw [h1] at ma
    rcases mul_eq_zero.mp ma with h' | h'
    · linarith
    · exact hD h'
  have hnc2 : ¬ring_collinear (n - z + 1) (sub_ring n f z) := by
    intro h
    have h1 := h (n - z) (by omega) (n - z - 1) (by omega) 0 (by omega)
    rw [hend, hz0, hzl] at h1
    rw [h1] at mc
    rcases mul_eq_zero.mp mc with h' | h'
    · linarith
    · exact hD h'
  obtain ⟨s1, ht1, ha1⟩ := IH (z + 1) (by omega) f (by omega) hs1 hnc1
  obtain ⟨s2, ht2, ha2⟩ := IH (n - z + 1) (by omega) (sub_ring n f z) (by omega) hs2 hnc2
  have sup1 : ∀ k, k ≤ z → ∀ dx dy : ℚ, ring_supports n f k dx dy →
      ring_supports (z + 1) f k dx dy := fun k _ dx dy h =>
    ring_supports_of_vertices n f k dx dy h (z + 1) f k (first_part_vertices n f z (by omega)) rfl
  have sup2 : ∀ k t, sub_ring n f z t = f k → ∀ dx dy : ℚ, ring_supports n f k dx dy →
      ring_supports (n - z + 1) (sub_ring n f z) t dx dy := fun k t e dx dy h =>
    ring_supports_of_vertices n f k dx dy h (n - z + 1) (sub_ring n f z) t
      (sub_ring_vertices n f z (by omega) _) e
  have t10 := ht1 0 (by omega) dx0 dy0 (sup1 0 (by omega) dx0 dy0 hsup0)
  have t20 := ht2 (n - z) (by omega) dx0 dy0 (sup2 0 (n - z) hend dx0 dy0 hsup0)
  rw [first_part_turns_zero f z (by omega)] at t10
  rw [second_part_turns_last n f z (by omega) (by omega)] at t20
  have hd0 := hsup0.1
  have hz_in := hsup0.2 z hz
  have h1_in := hsup0.2 1 (by omega)
  have hl_in := hsup0.2 (n - 1) (by omega)
  -- the way the ring turns in vertex 0 is the way of both parts
  have key : ∀ s : Bool, (if s then cross2 (f 0) (f (n - 1)) (f 1) < 0
      else 0 < cross2 (f 0) (f (n - 1)) (f 1)) → s1 = s ∧ s2 = s := by
    intro s hsD
    cases s
    · simp only [Bool.false_eq_true, if_false] at hsD
      have p1 : turn_before dx0 dy0 (f 0) (f z) (f 1) := Or.inl (by rw [← ma]; exact mul_pos za' hsD)
      have p2 : turn_before dx0 dy0 (f 0) (f (n - 1)) (f z) :=
        Or.inl (by rw [← mc]; exact mul_pos zc' hsD)
      constructor
      · cases s1
        · rfl
        · exfalso
          simp only [if_true] at t10
          exact turn_before_asymm dx0 dy0 hd0 _ _ _ hz_in h1_in p1 t10
      · cases s2
        · rfl
        · exfalso
          simp only [if_true] at t20
          exact turn_before_asymm dx0 dy0 hd0 _ _ _ hl_in hz_in p2 t20
    · simp only [if_true] at hsD
      have p1 : turn_before dx0 dy0 (f 0) (f 1) (f z) := by
        left
        rw [cross2_swap, ← ma]
        have := mul_pos_of_neg_of_neg (neg_neg_of_pos za') hsD
        linarith
      have p2 : turn_before dx0 dy0 (f 0) (f z) (f (n - 1)) := by
        left
        rw [cross2_swap, ← mc]
        have := mul_pos_of_neg_of_neg (neg_neg_of_pos zc') hsD
        linarith
      constructor
      · cases s1
        · exfalso
          simp only [Bool.false_eq_true, if_false] at t10
          exact turn_before_asymm dx0 dy0 hd0 _ _ _ h1_in hz_in p1 t10
        · rfl
      · cases s2
        · exfalso
          simp only [Bool.false_eq_true, if_false] at t20
          exact turn_before_asymm dx0 dy0 hd0 _ _ _ hz_in hl_in p2 t20
        · rfl
  have concl : ∀ s : Bool, (if s then cross2 (f 0) (f (n - 1)) (f 1) < 0
      else 0 < cross2 (f 0) (f (n - 1)) (f 1)) → ring_turns_one_way n f := by
    intro s hsD
    obtain ⟨e1, e2⟩ := key s hsD
    subst e1
    subst e2
    refine ⟨s2, ?_, ?_⟩
    · intro k hk dx dy hsup
      rcases Nat.eq_zero_or_pos k with hk0 | hk0
      · subst hk0
        rw [ring_turns_zero n f (by omega)]
        cases s2
        · simp only [Bool.false_eq_true, if_false] at hsD ⊢
          exact Or.inl hsD
        · simp only [if_true] at hsD ⊢
          exact Or.inl (by rw [cross2_swap]; linarith)
      · rcases Nat.lt_trichotomy k z with hkz | hkz | hkz
        · exact (first_part_turns n f z (by omega) s2 k hk0 hkz dx dy).mp
            (ht1 k (by omega) dx dy (sup1 k (by omega) dx dy hsup))
        · subst hkz
          have q1 := ht1 k (by omega) dx dy (sup1 k (by omega) dx dy hsup)
          have q2 := ht2 0 (by omega) dx dy (sup2 k 0 hz0 dx dy hsup)
          rw [first_part_turns_last f k (by omega)] at q1
          rw [second_part_turns_zero n f k (by omega)] at q2
          rw [ring_turns_pos n f k hk0 hk]
          have i0 := hsup.2 0 (by omega)
          have ip := hsup.2 (k - 1) (by omega)
          have isu := hsup.2 ((k + 1) % n) (Nat.mod_lt _ (by omega))
          cases s2
          · simp only [Bool.false_eq_true, if_false] at q1 q2 ⊢
            exact turn_before_trans dx dy hsup.1 _ _ _ _ ip i0 isu q1 q2
          · simp only [if_true] at q1 q2 ⊢
            exact turn_before_trans dx dy hsup.1 _ _ _ _ isu i0 ip q2 q1
        · have v0 : sub_ring n f z (k - z) = f k := by
            rw [sub_ring_lt n f z (k - z) (by omega)]
            congr 1; omega
          exact (second_part_turns n f z s2 k hkz hk dx dy).mp
            (ht2 (k - z) (by omega) dx dy (sup2 k (k - z) v0 dx dy hsup))
    · rw [split_area2 n f z (by omega)]
      cases s2
      · simp only [Bool.false_eq_true, if_false] at ha1 ha2 ⊢
        linarith
      · simp only [if_true] at ha1 ha2 ⊢
        linarith
  rcases lt_or_gt_of_ne hD with h | h
  · exact concl true (by simpa using h)
  · exact concl false (by simpa using h)

/-- A simple ring of four vertices or more does not lie on one line. -/
theorem simple_not_collinear (n : Nat) (f : Nat → Vertex) (hs : ring_simple n f) (hn : 4 ≤ n) :
    ¬ring_collinear n f := by
  intro hcol
  have h01 : f 1 ≠ f 0 := simple_vertices_distinct n f hs hn 1 0 (by omega) (by omega) (by omega)
  have hr := dir_ne_zero _ _ h01
  have hrr := dir_sq_pos _ _ hr
  obtain ⟨m, hm, hmin⟩ := Finset.exists_min_image (Finset.range n)
    (fun i => ((f 1).x - (f 0).x) * ((f i).x - (f 0).x)
      + ((f 1).y - (f 0).y) * ((f i).y - (f 0).y)) ⟨0, Finset.mem_range.mpr (by omega)⟩
  have hm' : m < n := Finset.mem_range.mp hm
  have es := succ_mod_eq n m hm'
  have ep := pred_mod_eq n m hm'
  have hsn : (m + 1) % n < n := Nat.mod_lt _ (by omega)
  have hpn : (m + n - 1) % n < n := Nat.mod_lt _ (by omega)
  have hsm : (m + 1) % n ≠ m := by rw [es]; split_ifs <;> omega
  have hpm : (m + n - 1) % n ≠ m := by rw [ep]; split_ifs <;> omega
  have hps : (m + n - 1) % n ≠ (m + 1) % n := by rw [es, ep]; split_ifs <;> omega
  have hp1 : ((m + n - 1) % n + 1) % n = m := by
    rw [succ_mod_eq n _ hpn, ep]; split_ifs <;> omega
  -- both neighbours are on the line, not behind the vertex
  have line : ∀ i, i < n → ((f 1).x - (f 0).x) * ((f i).y - (f m).y)
      - ((f 1).y - (f 0).y) * ((f i).x - (f m).x) = 0 := by
    intro i hi
    have h1 := hcol 0 (by omega) 1 (by omega) i hi
    have h2 := hcol 0 (by omega) 1 (by omega) m hm'
    unfold cross2 at h1 h2
    linarith
  have ahead : ∀ i, i < n → 0 ≤ ((f 1).x - (f 0).x) * ((f i).x - (f m).x)
      + ((f 1).y - (f 0).y) * ((f i).y - (f m).y) := by
    intro i hi
    have := hmin i (Finset.mem_range.mpr hi)
    simp only at this
    linarith
  have hpne : f ((m + n - 1) % n) ≠ f m :=
    simple_vertices_distinct n f hs hn _ _ hpn hm' hpm
  have hsne : f ((m + 1) % n) ≠ f m :=
    simple_vertices_distinct n f hs hn _ _ hsn hm' hsm
  have cp := ahead _ hpn
  have cs := ahead _ hsn
  have cp' : 0 < ((f 1).x - (f 0).x) * ((f ((m + n - 1) % n)).x - (f m).x)
      + ((f 1).y - (f 0).y) * ((f ((m + n - 1) % n)).y - (f m).y) := by
    rcases lt_or_eq_of_le cp with h | h
    · exact h
    · exact absurd ⟨h.symm, line _ hpn⟩ (frame_ne_zero _ _ _ _ hr (dir_ne_zero _ _ hpne))
  have cs' : 0 < ((f 1).x - (f 0).x) * ((f ((m + 1) % n)).x - (f m).x)
      + ((f 1).y - (f 0).y) * ((f ((m + 1) % n)).y - (f m).y) := by
    rcases lt_or_eq_of_le cs with h | h
    · exact h
    · exact absurd ⟨h.symm, line _ hsn⟩ (frame_ne_zero _ _ _ _ hr (dir_ne_zero _ _ hsne))
  have hdot : 0 < dot2 (f m) (f ((m + n - 1) % n)) (f ((m + 1) % n)) := by
    have e := frame_dot ((f 1).x - (f 0).x) ((f 1).y - (f 0).y)
      ((f ((m + n - 1) % n)).x - (f m).x) ((f ((m + n - 1) % n)).y - (f m).y)
      ((f ((m + 1) % n)).x - (f m).x) ((f ((m + 1) % n)).y - (f m).y)
    rw [line _ hpn, line _ hsn] at e
    have := mul_pos cp' cs'
    unfold dot2
    by_contra hc
    have := mul_nonpos_of_nonneg_of_nonpos (le_of_lt hrr) (not_lt.mp hc)
    linarith
  rcases same_ray_on_seg (f m) _ _ hpne (hcol m hm' _ hpn _ hsn) hdot with
    ⟨t, t0, t1, e⟩ | ⟨t, t0, t1, e⟩
  · rw [seg_pt_rev] at e
    have := simple_vertex_on_edge n f hs hn ((m + n - 1) % n) ((m + 1) % n) hpn hsn (1 - t)
      (by linarith) (by linarith) (by rw [hp1]; exact e)
    rw [hp1] at this
    rcases this with h | h
    · exact hps h.symm
    · exact hsm h
  · rcases simple_vertex_on_edge n f hs hn m ((m + n - 1) % n) hm' hpn t t0 t1 e with h | h
    · exact hpm h
    · exact hps h

/-- Seen from a point, a direction and a positive multiple of it come before
and after the same directions. -/
theorem turn_before_ray_left (dx dy : ℚ) (x p q : Vertex) (l : ℚ) (hl : 0 < l) :
    turn_before dx dy x (seg_pt x p l) q ↔ turn_before dx dy x p q := by
  have e1 : cross2 x (seg_pt x p l) q = l * cross2 x p q := by
    unfold cross2 seg_pt; ring
  have e2 : dot2 x (seg_pt x p l) q = l * dot2 x p q := by
    unfold dot2 seg_pt; ring
  have e3 : dx * ((seg_pt x p l).x - x.x) + dy * ((seg_pt x p l).y - x.y)
      = l * (dx * (p.x - x.x) + dy * (p.y - x.y)) := by
    unfold seg_pt; ring
  unfold turn_before
  rw [e1, e2, e3, mul_pos_iff_of_pos_left hl, mul_pos_iff_of_pos_left hl,
    mul_eq_zero, mul_neg_iff]
  constructor
  · rintro (h | ⟨h1, h2, h3⟩)
    · exact Or.inl h
    · refine Or.inr ⟨?_, ?_, h3⟩
      · rcases h1 with h | h
        · linarith
        · exact h
      · rcases h2 with ⟨_, h⟩ | ⟨h, _⟩
        · exact h
        · linarith
  · rintro (h | ⟨h1, h2, h3⟩)
    · exact Or.inl h
    · exact Or.inr ⟨Or.inr h1, Or.inl ⟨hl, h2⟩, h3⟩

theorem turn_before_ray_right (dx dy : ℚ) (x p q : Vertex) (l : ℚ) (hl : 0 < l) :
    turn_before dx dy x p (seg_pt x q l) ↔ turn_before dx dy x p q := by
  have e1 : cross2 x p (seg_pt x q l) = l * cross2 x p q := by
    unfold cross2 seg_pt; ring
  have e2 : dot2 x p (seg_pt x q l) = l * dot2 x p q := by
    unfold dot2 seg_pt; ring
  unfold turn_before
  rw [e1, e2, mul_pos_iff_of_pos_left hl, mul_eq_zero, mul_neg_iff]
  constructor
  · rintro (h | ⟨h1, h2, h3⟩)
    · exact Or.inl h
    · refine Or.inr ⟨?_, ?_, h3⟩
      · rcases h1 with h | h
        · linarith
        · exact h
      · rcases h2 with ⟨_, h⟩ | ⟨h, _⟩
        · exact h
        · linarith
  · rintro (h | ⟨h1, h2, h3⟩)
    · exact Or.inl h
    · exact Or.inr ⟨Or.inr h1, Or.inl ⟨hl, h2⟩, h3⟩

/-- The coordinates of a point in a triangle, read from another corner. -/
theorem tri_apex (x a c q : Vertex) (hD : cross2 x a c ≠ 0) :
    tri_c a x c q = tri_c x a c q ∧ tri_a a x c q = 1 - tri_a x a c q - tri_c x a c q := by
  have hD' : cross2 a x c ≠ 0 := by
    intro h
    apply hD
    unfold cross2 at h ⊢
    linarith
  unfold tri_a tri_c
  constructor
  · rw [div_eq_div_iff hD' hD]
    unfold cross2; ring
  · rw [div_eq_iff hD']
    have e : (1 - cross2 x q c / cross2 x a c - cross2 x a q / cross2 x a c) * cross2 a x c
        = (cross2 x a c - cross2 x q c - cross2 x a q) * cross2 a x c / cross2 x a c := by
      field_simp
    rw [e, eq_div_iff hD]
    unfold cross2; ring

/-- The closed triangle does not depend on the corner from which it is read. -/
theorem tri_has_apex (x a c q : Vertex) (hD : cross2 x a c ≠ 0) :
    tri_has a x c q ↔ tri_has x a c q := by
  obtain ⟨e1, e2⟩ := tri_apex x a c q hD
  unfold tri_has
  rw [e1, e2]
  constructor
  · rintro ⟨h1, h2, h3⟩
    exact ⟨by linarith, h2, by linarith⟩
  · rintro ⟨h1, h2, h3⟩
    exact ⟨by linarith, h2, by linarith⟩

/-- The closed triangle does not depend on the order of the two other
corners. -/
theorem tri_has_swap (x a c q : Vertex) : tri_has x c a q ↔ tri_has x a c q := by
  have e1 : tri_a x c a q = tri_c x a c q := by
    unfold tri_a tri_c
    rw [cross2_swap x c a, cross2_swap x a q, neg_div, div_neg]
  have e2 : tri_c x c a q = tri_a x a c q := by
    unfold tri_a tri_c
    rw [cross2_swap x c a, cross2_swap x q c, neg_div, div_neg]
  unfold tri_has
  rw [e1, e2]
  constructor
  · rintro ⟨h1, h2, h3⟩
    exact ⟨h2, h1, by linarith⟩
  · rintro ⟨h1, h2, h3⟩
    exact ⟨h2, h1, by linarith⟩

/-- A point in the closed angle of a triangle at its corner `a` lies in the
triangle, or the segment from `a` to it meets the opposite side. -/
theorem sector_in_or_cross (a x c q : Vertex) (hD : cross2 a x c ≠ 0)
    (h1 : 0 ≤ tri_a a x c q) (h2 : 0 ≤ tri_c a x c q) :
    tri_has a x c q ∨ segments_meet a q x c := by
  by_cases hsum : tri_a a x c q + tri_c a x c q ≤ 1
  · exact Or.inl ⟨h1, h2, hsum⟩
  · right
    push_neg at hsum
    have hq := tri_point a x c q hD
    have hx := congrArg Vertex.x hq
    have hy := congrArg Vertex.y hq
    simp only at hx hy
    have hpos : 0 < tri_a a x c q + tri_c a x c q := by linarith
    have hne : tri_a a x c q + tri_c a x c q ≠ 0 := ne_of_gt hpos
    apply segments_meet_of_pt a q x c (1 / (tri_a a x c q + tri_c a x c q))
      (tri_c a x c q / (tri_a a x c q + tri_c a x c q))
    · exact div_nonneg (by norm_num) (le_of_lt hpos)
    · rw [div_le_one hpos]; linarith
    · exact div_nonneg h2 (le_of_lt hpos)
    · rw [div_le_one hpos]; linarith
    · generalize tri_a a x c q = A at *
      generalize tri_c a x c q = C at *
      apply vertex_eq
      · simp only [seg_pt]
        field_simp
        linear_combination hx
      · simp only [seg_pt]
        field_simp
        linear_combination hy

/-- Seen from the corner `a` of a triangle `a x c`, a point outside the closed
angle of the triangle that comes after the direction to `c` comes after the
direction to `x`. -/
theorem sector_swap_left (dx dy : ℚ) (hd : ¬(dx = 0 ∧ dy = 0)) (a x c q : Vertex)
    (hx : 0 ≤ dx * (x.y - a.y) - dy * (x.x - a.x))
    (hc : 0 ≤ dx * (c.y - a.y) - dy * (c.x - a.x))
    (hq : 0 ≤ dx * (q.y - a.y) - dy * (q.x - a.x))
    (hxa : x ≠ a) (hqa : q ≠ a) (hD : cross2 a x c ≠ 0)
    (hnot : ¬(0 ≤ tri_a a x c q ∧ 0 ≤ tri_c a x c q))
    (h : turn_before dx dy a c q) : turn_before dx dy a x q := by
  rcases lt_or_gt_of_ne hD with hneg | hpos
  · have hcq : 0 ≤ cross2 a c q := by
      rcases h with h | ⟨h, _, _⟩
      · exact le_of_lt h
      · rw [h]
    have fin : cross2 a x q ≤ 0 → False := by
      intro hle
      apply hnot
      unfold tri_a tri_c
      constructor
      · apply div_nonneg_of_nonpos _ (le_of_lt hneg)
        rw [cross2_swap]; linarith
      · exact div_nonneg_of_nonpos hle (le_of_lt hneg)
    rcases turn_before_total dx dy hd a x q hx hq hxa hqa with h' | h' | ⟨h', _⟩
    · exact h'
    · exfalso
      apply fin
      rcases h' with h' | ⟨h', _, _⟩
      · rw [cross2_swap]; linarith
      · rw [cross2_swap, h']; simp
    · exfalso
      exact fin (by rw [h'])
  · exact turn_before_trans dx dy hd a x c q hx hc hq (Or.inl hpos) h

/-- Seen from the corner `a` of a triangle `a x c`, a point outside the closed
angle of the triangle that comes before the direction to `c` comes before the
direction to `x`. -/
theorem sector_swap_right (dx dy : ℚ) (hd : ¬(dx = 0 ∧ dy = 0)) (a x c q : Vertex)
    (hx : 0 ≤ dx * (x.y - a.y) - dy * (x.x - a.x))
    (hc : 0 ≤ dx * (c.y - a.y) - dy * (c.x - a.x))
    (hq : 0 ≤ dx * (q.y - a.y) - dy * (q.x - a.x))
    (hxa : x ≠ a) (hqa : q ≠ a) (hD : cross2 a x c ≠ 0)
    (hnot : ¬(0 ≤ tri_a a x c q ∧ 0 ≤ tri_c a x c q))
    (h : turn_before dx dy a q c) : turn_before dx dy a q x := by
  rcases lt_or_gt_of_ne hD with hneg | hpos
  · exact turn_before_trans dx dy hd a q c x hq hc hx h
      (Or.inl (by rw [cross2_swap]; linarith))
  · have hqc : 0 ≤ cross2 a q c := by
      rcases h with h | ⟨h, _, _⟩
      · exact le_of_lt h
      · rw [h]
    have fin : 0 ≤ cross2 a x q → False := by
      intro hle
      apply hnot
      unfold tri_a tri_c
      exact ⟨div_nonneg hqc (le_of_lt hpos), div_nonneg hle (le_of_lt hpos)⟩
    rcases turn_before_total dx dy hd a q x hq hx hqa hxa with h' | h' | ⟨h', _⟩
    · exact h'
    · exfalso
      apply fin
      rcases h' with h' | ⟨h', _, _⟩
      · exact le_of_lt h'
      · rw [h']
    · exfalso
      apply fin
      rw [cross2_swap, h']; simp

/-- Step of the induction at a vertex that cuts off an ear (its triangle is not
flat and holds no other vertex): without vertex 1 the ring turns one way, so
the ring turns that way in every other vertex, and the shoelace sum of the ring
without the ear has the sign of that way. -/
theorem ear_step (n : Nat) (f : Nat → Vertex) (hn : 4 ≤ n) (hs : ring_simple n f)
    (IH : ∀ m, m < n → ∀ g : Nat → Vertex, 3 ≤ m → ring_simple m g → ¬ring_collinear m g →
      ring_turns_one_way m g)
    (hD : cross2 (f 1) (f 0) (f 2) ≠ 0)
    (hempty : ∀ m, 3 ≤ m → m < n → ¬tri_has (f 1) (f 0) (f 2) (f m)) :
    ∃ s : Bool, (∀ k, k < n → k ≠ 1 → ∀ dx dy : ℚ, ring_supports n f k dx dy →
        ring_turns n f s k dx dy) ∧
      (if s then 0 < ring_area2 n f - cross2 (f 0) (f 1) (f 2)
       else ring_area2 n f - cross2 (f 0) (f 1) (f 2) < 0) := by
  have hclean := ear_chord_clean n f hs hn hD hempty
  have hs2 := split_simple_second n f 2 (by omega) (by omega) hs hclean
  have e01 : (0 + 1) % n = 1 := Nat.mod_eq_of_lt (by omega)
  have e12 : (1 + 1) % n = 2 := Nat.mod_eq_of_lt (by omega)
  have e23 : (2 + 1) % n = 3 := Nat.mod_eq_of_lt (by omega)
  have en0 : (n - 1 + 1) % n = 0 := by
    have : n - 1 + 1 = n := by omega
    rw [this, Nat.mod_self]
  have hend := sub_ring_end n f 2 (by omega)
  have hz0 : sub_ring n f 2 0 = f 2 := by
    rw [sub_ring_lt n f 2 0 (by omega)]
  have hD0 : cross2 (f 0) (f 1) (f 2) ≠ 0 := by
    intro h; apply hD; unfold cross2 at h ⊢; linarith
  have hD2 : cross2 (f 2) (f 1) (f 0) ≠ 0 := by
    intro h; apply hD; unfold cross2 at h ⊢; linarith
  have hD1 : cross2 (f 1) (f 2) (f 0) ≠ 0 := by
    intro h; apply hD; unfold cross2 at h ⊢; linarith
  have hne : ∀ i j, i < n → j < n → i ≠ j → f i ≠ f j :=
    fun i j hi hj hij => simple_vertices_distinct n f hs hn i j hi hj hij
  -- the vertex after vertex 2 is outside the angle of the ear at vertex 2
  have hnot2 : ¬(0 ≤ tri_a (f 2) (f 1) (f 0) (f 3) ∧ 0 ≤ tri_c (f 2) (f 1) (f 0) (f 3)) := by
    intro ⟨h1, h2⟩
    rcases sector_in_or_cross (f 2) (f 1) (f 0) (f 3) hD2 h1 h2 with h | h
    · exact hempty 3 (by omega) (by omega)
        ((tri_has_swap (f 1) (f 0) (f 2) (f 3)).mp ((tri_has_apex (f 1) (f 2) (f 0) (f 3) hD1).mp h))
    · apply hs 2 (by omega) 0 (by omega) ⟨by omega, by rw [e23]; omega, by rw [e01]; omega⟩
      rw [e23, e01]
      exact segments_meet_rev_right _ _ _ _ h
  -- the vertex before vertex 0 is outside the angle of the ear at vertex 0
  have hnot0 : ¬(0 ≤ tri_a (f 0) (f 1) (f 2) (f (n - 1))
      ∧ 0 ≤ tri_c (f 0) (f 1) (f 2) (f (n - 1))) := by
    intro ⟨h1, h2⟩
    rcases sector_in_or_cross (f 0) (f 1) (f 2) (f (n - 1)) hD0 h1 h2 with h | h
    · exact hempty (n - 1) (by omega) (by omega)
        ((tri_has_apex (f 1) (f 0) (f 2) (f (n - 1)) hD).mp h)
    · apply hs (n - 1) (by omega) 1 (by omega) ⟨by omega, by rw [en0]; omega, by rw [e12]; omega⟩
      rw [en0, e12]
      exact segments_meet_rev_left _ _ _ _ h
  have hnc2 : ¬ring_collinear (n - 2 + 1) (sub_ring n f 2) := by
    rcases Nat.lt_or_ge 4 n with h5 | h4
    · exact simple_not_collinear _ _ hs2 (by omega)
    · have hn4 : n = 4 := by omega
      subst hn4
      intro hcol
      have h := hcol 1 (by omega) 2 (by omega) 0 (by omega)
      have v1 : sub_ring 4 f 2 1 = f 3 := rfl
      have v2 : sub_ring 4 f 2 2 = f 0 := rfl
      rw [v1, v2, hz0] at h
      have h30 : f 0 ≠ f 3 := hne 0 3 (by omega) (by omega) (by omega)
      have h32 : f 2 ≠ f 3 := hne 2 3 (by omega) (by omega) (by omega)
      rcases lt_trichotomy (dot2 (f 3) (f 0) (f 2)) 0 with hd | hd | hd
      · obtain ⟨l, l0, l1, e⟩ := between_on_seg _ _ _ h hd
        apply hempty 3 (by omega) (by omega)
        obtain ⟨a1, a2⟩ := tri_corner_a (f 1) (f 0) (f 2) hD
        obtain ⟨c1, c2⟩ := tri_corner_c (f 1) (f 0) (f 2) hD
        unfold tri_has
        rw [e, tri_a_seg, tri_c_seg, a1, a2, c1, c2]
        exact ⟨by linarith, by linarith, by linarith⟩
      · exfalso
        have e := frame_norm ((f 0).x - (f 3).x) ((f 0).y - (f 3).y)
          ((f 2).x - (f 3).x) ((f 2).y - (f 3).y)
        unfold dot2 at hd
        unfold cross2 at h
        rw [hd, h] at e
        have := mul_pos (dir_sq_pos _ _ (dir_ne_zero _ _ h30)) (dir_sq_pos _ _ (dir_ne_zero _ _ h32))
        linarith
      · rcases same_ray_on_seg (f 3) (f 0) (f 2) h30 h hd with ⟨t, t0, t1, e⟩ | ⟨t, t0, t1, e⟩
        · have := simple_vertex_on_edge 4 f hs hn 3 2 (by omega) (by omega) t t0 t1 e
          omega
        · rw [seg_pt_rev] at e
          have := simple_vertex_on_edge 4 f hs hn 2 0 (by omega) (by omega) (1 - t)
            (by linarith) (by linarith) e
          omega
  obtain ⟨s, ht, ha⟩ := IH (n - 2 + 1) (by omega) (sub_ring n f 2) (by omega) hs2 hnc2
  have sup2 : ∀ k t, sub_ring n f 2 t = f k → ∀ dx dy : ℚ, ring_supports n f k dx dy →
      ring_supports (n - 2 + 1) (sub_ring n f 2) t dx dy := fun k t e dx dy h =>
    ring_supports_of_vertices n f k dx dy h (n - 2 + 1) (sub_ring n f 2) t
      (sub_ring_vertices n f 2 (by omega) _) e
  refine ⟨s, ?_, ?_⟩
  · intro k hk hk1 dx dy hsup
    rcases Nat.lt_trichotomy k 2 with hk2 | hk2 | hk2
    · have hk0 : k = 0 := by omega
      subst hk0
      have q := ht (n - 2) (by omega) dx dy (sup2 0 (n - 2) hend dx dy hsup)
      rw [second_part_turns_last n f 2 (by omega) (by omega)] at q
      rw [ring_turns_zero n f (by omega)]
      have i1 := hsup.2 1 (by omega)
      have i2 := hsup.2 2 (by omega)
      have il := hsup.2 (n - 1) (by omega)
      cases s
      · simp only [Bool.false_eq_true, if_false] at q ⊢
        exact sector_swap_right dx dy hsup.1 (f 0) (f 1) (f 2) (f (n - 1)) i1 i2 il
          (hne 1 0 (by omega) (by omega) (by omega))
          (hne (n - 1) 0 (by omega) (by omega) (by omega)) hD0 hnot0 q
      · simp only [if_true] at q ⊢
        exact sector_swap_left dx dy hsup.1 (f 0) (f 1) (f 2) (f (n - 1)) i1 i2 il
          (hne 1 0 (by omega) (by omega) (by omega))
          (hne (n - 1) 0 (by omega) (by omega) (by omega)) hD0 hnot0 q
    · subst hk2
      have q := ht 0 (by omega) dx dy (sup2 2 0 hz0 dx dy hsup)
      rw [second_part_turns_zero n f 2 (by omega), e23] at q
      rw [ring_turns_pos n f 2 (by omega) hk, e23]
      have i1 := hsup.2 1 (by omega)
      have i0 := hsup.2 0 (by omega)
      have i3 := hsup.2 3 (by omega)
      cases s
      · simp only [Bool.false_eq_true, if_false] at q ⊢
        exact sector_swap_left dx dy hsup.1 (f 2) (f 1) (f 0) (f 3) i1 i0 i3
          (hne 1 2 (by omega) (by omega) (by omega))
          (hne 3 2 (by omega) (by omega) (by omega)) hD2 hnot2 q
      · simp only [if_true] at q ⊢
        exact sector_swap_right dx dy hsup.1 (f 2) (f 1) (f 0) (f 3) i1 i0 i3
          (hne 1 2 (by omega) (by omega) (by omega))
          (hne 3 2 (by omega) (by omega) (by omega)) hD2 hnot2 q
    · have v0 : sub_ring n f 2 (k - 2) = f k := by
        rw [sub_ring_lt n f 2 (k - 2) (by omega)]
        congr 1; omega
      exact (second_part_turns n f 2 s k hk2 hk dx dy).mp
        (ht (k - 2) (by omega) dx dy (sup2 k (k - 2) v0 dx dy hsup))
  · have e := split_area2 n f 2 (by omega)
    have e3 : ring_area2 (2 + 1) f = cross2 (f 0) (f 1) (f 2) := triangle_area2 f
    rw [e3] at e
    rw [e]
    cases s
    · simp only [Bool.false_eq_true, if_false] at ha ⊢
      linarith
    · simp only [if_true] at ha ⊢
      linarith

/-- Seen from a point `a` of a supporting line that also holds `c`: a direction
that comes after the one to `c` makes `c` lie ahead on the line, and a
direction that comes before makes it lie behind. -/
theorem on_line_turn (dx dy : ℚ) (hd : ¬(dx = 0 ∧ dy = 0)) (a c p : Vertex) (hca : c ≠ a)
    (hS : dx * (c.y - a.y) - dy * (c.x - a.x) = 0)
    (hp : 0 ≤ dx * (p.y - a.y) - dy * (p.x - a.x)) :
    (turn_before dx dy a c p → 0 < dx * (c.x - a.x) + dy * (c.y - a.y)) ∧
      (turn_before dx dy a p c → dx * (c.x - a.x) + dy * (c.y - a.y) < 0) := by
  have hrr := dir_sq_pos dx dy hd
  have hC : dx * (c.x - a.x) + dy * (c.y - a.y) ≠ 0 := by
    intro h
    exact frame_ne_zero dx dy _ _ hd (dir_ne_zero _ _ hca) ⟨h, hS⟩
  constructor
  · intro h
    rcases h with h | ⟨_, _, h⟩
    · by_contra hc
      have hneg : dx * (c.x - a.x) + dy * (c.y - a.y) ≤ 0 := not_lt.mp hc
      have e := frame_cross dx dy (c.x - a.x) (c.y - a.y) (p.x - a.x) (p.y - a.y)
      rw [hS] at e
      unfold cross2 at h
      have k1 := mul_nonpos_of_nonpos_of_nonneg hneg hp
      have k2 := mul_pos hrr h
      linarith
    · exact h
  · intro h
    by_contra hc
    have hpos : 0 < dx * (c.x - a.x) + dy * (c.y - a.y) :=
      lt_of_le_of_ne (not_lt.mp hc) (Ne.symm hC)
    rcases h with h | ⟨_, h2, h3⟩
    · have e := frame_cross dx dy (p.x - a.x) (p.y - a.y) (c.x - a.x) (c.y - a.y)
      rw [hS] at e
      unfold cross2 at h
      have k1 := mul_nonneg hp (le_of_lt hpos)
      have k2 := mul_pos hrr h
      linarith
    · have e := frame_dot dx dy (p.x - a.x) (p.y - a.y) (c.x - a.x) (c.y - a.y)
      rw [hS] at e
      unfold dot2 at h2
      have k1 := mul_pos h3 hpos
      have k2 := mul_neg_of_pos_of_neg hrr h2
      linarith

/-- Step of the induction at a vertex on the segment between its neighbours:
without vertex 1 the ring turns one way, and so does the ring. -/
theorem straight_step (n : Nat) (f : Nat → Vertex) (hn : 4 ≤ n) (hs : ring_simple n f)
    (IH : ∀ m, m < n → ∀ g : Nat → Vertex, 3 ≤ m → ring_simple m g → ¬ring_collinear m g →
      ring_turns_one_way m g)
    (h0 : cross2 (f 1) (f 0) (f 2) = 0) (hd : dot2 (f 1) (f 0) (f 2) < 0) :
    ring_turns_one_way n f := by
  have hclean := straight_chord_clean n f hs hn h0 hd
  have hs2 := split_simple_second n f 2 (by omega) (by omega) hs hclean
  have e12 : (1 + 1) % n = 2 := Nat.mod_eq_of_lt (by omega)
  have e23 : (2 + 1) % n = 3 := Nat.mod_eq_of_lt (by omega)
  have hend := sub_ring_end n f 2 (by omega)
  have hz0 : sub_ring n f 2 0 = f 2 := by
    rw [sub_ring_lt n f 2 0 (by omega)]
  have hne : ∀ i j, i < n → j < n → i ≠ j → f i ≠ f j :=
    fun i j hi hj hij => simple_vertices_distinct n f hs hn i j hi hj hij
  obtain ⟨l, l0, l1, el⟩ := between_on_seg (f 1) (f 0) (f 2) h0 hd
  have el' : f 1 = seg_pt (f 2) (f 0) (1 - l) := by rw [el]; exact seg_pt_rev _ _ _
  have hx1 := congrArg Vertex.x el
  have hy1 := congrArg Vertex.y el
  simp only [seg_pt] at hx1 hy1
  have hnc2 : ¬ring_collinear (n - 2 + 1) (sub_ring n f 2) := by
    intro hcol
    apply simple_not_collinear n f hs hn
    apply ring_collinear_of_line n f 0 ((f 2).x - (f 0).x) ((f 2).y - (f 0).y)
      (dir_ne_zero _ _ (hne 2 0 (by omega) (by omega) (by omega)))
    intro i hi
    rcases Nat.lt_or_ge i 2 with h2 | h2
    · rcases Nat.eq_zero_or_pos i with hi0 | hi0
      · subst hi0; ring
      · have hi1 : i = 1 := by omega
        subst hi1
        rw [hx1, hy1]; ring
    · have v0 : sub_ring n f 2 (i - 2) = f i := by
        rw [sub_ring_lt n f 2 (i - 2) (by omega)]
        congr 1; omega
      have h := hcol (n - 2) (by omega) 0 (by omega) (i - 2) (by omega)
      rw [hend, hz0, v0] at h
      unfold cross2 at h
      exact h
  obtain ⟨s, ht, ha⟩ := IH (n - 2 + 1) (by omega) (sub_ring n f 2) (by omega) hs2 hnc2
  have sup2 : ∀ k t, sub_ring n f 2 t = f k → ∀ dx dy : ℚ, ring_supports n f k dx dy →
      ring_supports (n - 2 + 1) (sub_ring n f 2) t dx dy := fun k t e dx dy h =>
    ring_supports_of_vertices n f k dx dy h (n - 2 + 1) (sub_ring n f 2) t
      (sub_ring_vertices n f 2 (by omega) _) e
  -- the turn in vertex 0
  have turn0 : ∀ dx dy : ℚ, ring_supports n f 0 dx dy → ring_turns n f s 0 dx dy := by
    intro dx dy hsup
    have q := ht (n - 2) (by omega) dx dy (sup2 0 (n - 2) hend dx dy hsup)
    rw [second_part_turns_last n f 2 (by omega) (by omega)] at q
    rw [ring_turns_zero n f (by omega), el]
    cases s
    · simp only [Bool.false_eq_true, if_false] at q ⊢
      exact (turn_before_ray_right dx dy _ _ _ l l0).mpr q
    · simp only [if_true] at q ⊢
      exact (turn_before_ray_left dx dy _ _ _ l l0).mpr q
  refine ⟨s, ?_, ?_⟩
  · intro k hk dx dy hsup
    rcases Nat.lt_trichotomy k 2 with hk2 | hk2 | hk2
    · rcases Nat.eq_zero_or_pos k with hk0 | hk0
      · subst hk0
        exact turn0 dx dy hsup
      · have hk1 : k = 1 := by omega
        subst hk1
        have i0 := hsup.2 0 (by omega)
        have i2 := hsup.2 2 (by omega)
        rw [hx1, hy1] at i0 i2
        have hS : dx * ((f 2).y - (f 0).y) - dy * ((f 2).x - (f 0).x) = 0 := by
          apply le_antisymm
          · by_contra hc
            have := mul_pos l0 (not_le.mp hc)
            linarith
          · by_contra hc
            have := mul_neg_of_pos_of_neg (by linarith : (0 : ℚ) < 1 - l) (not_le.mp hc)
            linarith
        have hsup0 : ring_supports n f 0 dx dy := by
          refine ⟨hsup.1, fun i hi => ?_⟩
          have := hsup.2 i hi
          rw [hx1, hy1] at this
          have e : l * (dx * ((f 2).y - (f 0).y) - dy * ((f 2).x - (f 0).x)) = 0 := by
            rw [hS]; ring
          linarith
        have T0 := turn0 dx dy hsup0
        rw [ring_turns_zero n f (by omega), el] at T0
        obtain ⟨A1, A2⟩ := on_line_turn dx dy hsup.1 (f 0) (f 2) (f (n - 1))
          (hne 2 0 (by omega) (by omega) (by omega)) hS (hsup0.2 (n - 1) (by omega))
        rw [ring_turns_pos n f 1 (by omega) hk, e12]
        cases s
        · simp only [Bool.false_eq_true, if_false] at T0 ⊢
          have hC := A2 ((turn_before_ray_right dx dy _ _ _ l l0).mp T0)
          refine Or.inr ⟨h0, hd, ?_⟩
          rw [hx1, hy1]
          have := mul_pos_of_neg_of_neg (neg_neg_of_pos l0) hC
          linarith
        · simp only [if_true] at T0 ⊢
          have hC := A1 ((turn_before_ray_left dx dy _ _ _ l l0).mp T0)
          refine Or.inr ⟨?_, ?_, ?_⟩
          · rw [cross2_swap, h0]; simp
          · unfold dot2 at hd ⊢
            linarith
          · rw [hx1, hy1]
            have := mul_pos (by linarith : (0 : ℚ) < 1 - l) hC
            linarith
    · subst hk2
      have q := ht 0 (by omega) dx dy (sup2 2 0 hz0 dx dy hsup)
      rw [second_part_turns_zero n f 2 (by omega), e23] at q
      rw [ring_turns_pos n f 2 (by omega) hk, e23]
      show (if s = true then turn_before dx dy (f 2) (f 3) (f 1)
        else turn_before dx dy (f 2) (f 1) (f 3))
      rw [el']
      cases s
      · simp only [Bool.false_eq_true, if_false] at q ⊢
        exact (turn_before_ray_left dx dy _ _ _ (1 - l) (by linarith)).mpr q
      · simp only [if_true] at q ⊢
        exact (turn_before_ray_right dx dy _ _ _ (1 - l) (by linarith)).mpr q
    · have v0 : sub_ring n f 2 (k - 2) = f k := by
        rw [sub_ring_lt n f 2 (k - 2) (by omega)]
        congr 1; omega
      exact (second_part_turns n f 2 s k hk2 hk dx dy).mp
        (ht (k - 2) (by omega) dx dy (sup2 k (k - 2) v0 dx dy hsup))
  · have e := split_area2 n f 2 (by omega)
    have e3 : ring_area2 (2 + 1) f = cross2 (f 0) (f 1) (f 2) := triangle_area2 f
    have e4 : cross2 (f 0) (f 1) (f 2) = 0 := by
      unfold cross2 at h0 ⊢; linarith
    rw [e3, e4] at e
    rw [e]
    cases s
    · simp only [Bool.false_eq_true, if_false] at ha ⊢
      linarith
    · simp only [if_true] at ha ⊢
      linarith

/-! ## A ring read from another vertex on -/

/-- A sum over the indices of a ring does not depend on the vertex from which
the ring is read. -/
theorem sum_rot (F : Nat → ℚ) (n a : Nat) :
    ∑ i ∈ Finset.range n, F ((a + i) % n) = ∑ i ∈ Finset.range n, F i := by
  induction a with
  | zero =>
    apply Finset.sum_congr rfl
    intro i hi
    rw [Nat.zero_add, Nat.mod_eq_of_lt (Finset.mem_range.mp hi)]
  | succ a ih =>
    rw [← ih, ← sum_cyclic_shift (fun j => F ((a + j) % n)) n]
    apply Finset.sum_congr rfl
    intro i _
    show F ((a + 1 + i) % n) = F ((a + (i + 1) % n) % n)
    rw [Nat.add_mod_mod]
    congr 2
    omega

/-- The index after an index of the ring read from vertex `a` on. -/
theorem sub_ring_succ (n : Nat) (f : Nat → Vertex) (a t : Nat) :
    sub_ring n f a ((t + 1) % n) = f (((a + t) % n + 1) % n) := by
  unfold sub_ring
  rw [Nat.add_mod_mod, Nat.mod_add_mod]
  rfl

/-- The index before an index of the ring read from vertex `a` on. -/
theorem sub_ring_pred (n : Nat) (f : Nat → Vertex) (a t : Nat) (hn : 0 < n) :
    sub_ring n f a ((t + n - 1) % n) = f (((a + t) % n + n - 1) % n) := by
  unfold sub_ring
  have e1 : (a + t) % n + n - 1 = (a + t) % n + (n - 1) := by omega
  rw [Nat.add_mod_mod, e1, Nat.mod_add_mod]
  congr 2
  omega

/-- The shoelace sum does not depend on the vertex from which the ring is
read. -/
theorem rot_area2 (n : Nat) (f : Nat → Vertex) (a : Nat) :
    ring_area2 n (sub_ring n f a) = ring_area2 n f := by
  unfold ring_area2
  rw [← sum_rot (fun i => vcross (f i) (f ((i + 1) % n))) n a]
  apply Finset.sum_congr rfl
  intro i _
  rw [sub_ring_succ]
  rfl

/-- The turn of the ring read from vertex `a` on is the turn of the ring. -/
theorem rot_turns (n : Nat) (f : Nat → Vertex) (a : Nat) (hn : 0 < n) (s : Bool) (t : Nat)
    (dx dy : ℚ) :
    ring_turns n (sub_ring n f a) s t dx dy ↔ ring_turns n f s ((a + t) % n) dx dy := by
  unfold ring_turns
  rw [sub_ring_succ, sub_ring_pred n f a t hn]
  rfl

/-- Every vertex of the ring occurs in the ring read from vertex `a` on. -/
theorem rot_index (n a k : Nat) (ha : a < n) (hk : k < n) :
    (k + n - a) % n < n ∧ (a + (k + n - a) % n) % n = k := by
  refine ⟨Nat.mod_lt _ (by omega), ?_⟩
  rw [Nat.add_mod_mod]
  have : a + (k + n - a) = k + n := by omega
  rw [this, Nat.add_mod_right, Nat.mod_eq_of_lt hk]

/-- The shifted indices of two edges that are apart are apart. -/
theorem rot_edges_apart (n a i j : Nat) (hi : i < n) (hj : j < n) (ha : a < n)
    (h : edges_apart n i j) : edges_apart n ((a + i) % n) ((a + j) % n) := by
  obtain ⟨h1, h2, h3⟩ := h
  have ei := cyc_add_eq n a i ha hi
  have ej := cyc_add_eq n a j ha hj
  have hin : (a + i) % n < n := Nat.mod_lt _ (by omega)
  have hjn : (a + j) % n < n := Nat.mod_lt _ (by omega)
  have si := succ_mod_eq n i hi
  have sj := succ_mod_eq n j hj
  have si' := succ_mod_eq n _ hin
  have sj' := succ_mod_eq n _ hjn
  refine ⟨?_, ?_, ?_⟩
  · rw [ei, ej]; split_ifs <;> omega
  · rw [si', ei, ej]
    rw [si] at h2
    split_ifs at h2 ⊢ <;> omega
  · rw [sj', ei, ej]
    rw [sj] at h3
    split_ifs at h3 ⊢ <;> omega

/-- A simple ring read from another vertex on is simple. -/
theorem rot_simple (n : Nat) (f : Nat → Vertex) (a : Nat) (ha : a < n)
    (hs : ring_simple n f) : ring_simple n (sub_ring n f a) := by
  intro i hi j hj hap
  rw [sub_ring_succ, sub_ring_succ]
  exact hs _ (Nat.mod_lt _ (by omega)) _ (Nat.mod_lt _ (by omega))
    (rot_edges_apart n a i j hi hj ha hap)

/-- What holds for the turns of the ring read from vertex `a` on holds for the
turns of the ring. -/
theorem rot_turns_transfer (n : Nat) (f : Nat → Vertex) (a : Nat) (ha : a < n) (s : Bool)
    (P : Nat → Prop)
    (h : ∀ t, t < n → P ((a + t) % n) → ∀ dx dy : ℚ,
      ring_supports n (sub_ring n f a) t dx dy → ring_turns n (sub_ring n f a) s t dx dy) :
    ∀ k, k < n → P k → ∀ dx dy : ℚ, ring_supports n f k dx dy → ring_turns n f s k dx dy := by
  intro k hk hP dx dy hsup
  obtain ⟨ht, e⟩ := rot_index n a k ha hk
  have h1 := h _ ht (by rw [e]; exact hP) dx dy
    (ring_supports_of_vertices n f k dx dy hsup n (sub_ring n f a) _
      (sub_ring_vertices n f a (by omega) n) (by unfold sub_ring; rw [e]))
  rw [rot_turns n f a (by omega), e] at h1
  exact h1

/-- A ring that turns one way when read from vertex `a` on turns one way. -/
theorem rot_one_way (n : Nat) (f : Nat → Vertex) (a : Nat) (ha : a < n)
    (h : ring_turns_one_way n (sub_ring n f a)) : ring_turns_one_way n f := by
  obtain ⟨s, ht, hsgn⟩ := h
  refine ⟨s, ?_, ?_⟩
  · intro k hk dx dy hsup
    exact rot_turns_transfer n f a ha s (fun _ => True)
      (fun t ht' _ dx dy h' => ht t ht' dx dy h') k hk trivial dx dy hsup
  · rw [rot_area2] at hsgn
    exact hsgn

/-! ## The induction at an arbitrary vertex -/

/-- Step of the induction at vertex 1, in which a direction supports the ring:
the ring turns one way, or it turns one way in all other vertices and its
shoelace sum has the sign of that way if it turns that way in vertex 1 too. -/
theorem vertex_step_one (n : Nat) (g : Nat → Vertex) (hn : 4 ≤ n) (hs : ring_simple n g)
    (IH : ∀ m, m < n → ∀ g : Nat → Vertex, 3 ≤ m → ring_simple m g → ¬ring_collinear m g →
      ring_turns_one_way m g)
    (dx dy : ℚ) (hsup : ring_supports n g 1 dx dy) :
    ring_turns_one_way n g ∨
      ∃ s : Bool, (∀ k, k < n → k ≠ 1 → ∀ dx dy : ℚ, ring_supports n g k dx dy →
          ring_turns n g s k dx dy) ∧
        (ring_turns n g s 1 dx dy →
          if s then 0 < ring_area2 n g else ring_area2 n g < 0) := by
  have hne : ∀ i j, i < n → j < n → i ≠ j → g i ≠ g j :=
    fun i j hi hj hij => simple_vertices_distinct n g hs hn i j hi hj hij
  have e01 : (0 + 1) % n = 1 := Nat.mod_eq_of_lt (by omega)
  have e12 : (1 + 1) % n = 2 := Nat.mod_eq_of_lt (by omega)
  by_cases h0 : cross2 (g 1) (g 0) (g 2) = 0
  · left
    apply straight_step n g hn hs IH h0
    rcases lt_trichotomy (dot2 (g 1) (g 0) (g 2)) 0 with hd | hd | hd
    · exact hd
    · exfalso
      have e := frame_norm ((g 0).x - (g 1).x) ((g 0).y - (g 1).y)
        ((g 2).x - (g 1).x) ((g 2).y - (g 1).y)
      unfold dot2 at hd
      unfold cross2 at h0
      rw [hd, h0] at e
      have := mul_pos (dir_sq_pos _ _ (dir_ne_zero _ _ (hne 0 1 (by omega) (by omega) (by omega))))
        (dir_sq_pos _ _ (dir_ne_zero _ _ (hne 2 1 (by omega) (by omega) (by omega))))
      linarith
    · exfalso
      rcases same_ray_on_seg (g 1) (g 0) (g 2) (hne 0 1 (by omega) (by omega) (by omega)) h0 hd
        with ⟨t, t0, t1, e⟩ | ⟨t, t0, t1, e⟩
      · rw [seg_pt_rev] at e
        have := simple_vertex_on_edge n g hs hn 0 2 (by omega) (by omega) (1 - t)
          (by linarith) (by linarith) (by rw [e01]; exact e)
        rw [e01] at this
        omega
      · have := simple_vertex_on_edge n g hs hn 1 0 (by omega) (by omega) t t0 t1
          (by rw [e12]; exact e)
        rw [e12] at this
        omega
  · by_cases hex : ∃ m, 3 ≤ m ∧ m < n ∧ tri_has (g 1) (g 0) (g 2) (g m)
    · left
      classical
      obtain ⟨m, hm3, hmn, hmT⟩ := hex
      have hne' : ((Finset.range n).filter (fun t => 2 ≤ t ∧ t + 2 ≤ n ∧
          tri_has (g 1) (g 0) (g 2) (g (t + 1)))).Nonempty := by
        refine ⟨m - 1, Finset.mem_filter.mpr ⟨Finset.mem_range.mpr (by omega), by omega, by omega, ?_⟩⟩
        have : m - 1 + 1 = m := by omega
        rw [this]; exact hmT
      obtain ⟨z, hz, hzmin⟩ := Finset.exists_min_image _
        (fun t => tri_a (g 1) (g 0) (g 2) (g (t + 1)) + tri_c (g 1) (g 0) (g 2) (g (t + 1))) hne'
      obtain ⟨_, hz2, hzn, hzT⟩ := Finset.mem_filter.mp hz
      have v0 : sub_ring n g 1 0 = g 1 := by
        rw [sub_ring_lt n g 1 0 (by omega)]
      have v1 : sub_ring n g 1 1 = g 2 := by
        rw [sub_ring_lt n g 1 1 (by omega)]
      have vl : sub_ring n g 1 (n - 1) = g 0 := sub_ring_end n g 1 (by omega)
      have vt : ∀ t, t + 2 ≤ n → sub_ring n g 1 t = g (t + 1) := by
        intro t ht
        rw [sub_ring_lt n g 1 t (by omega), Nat.add_comm]
      apply rot_one_way n g 1 (by omega)
      apply corner_step n (sub_ring n g 1) hn (rot_simple n g 1 (by omega) hs) IH dx dy
        (ring_supports_of_vertices n g 1 dx dy hsup n (sub_ring n g 1) 0
          (sub_ring_vertices n g 1 (by omega) n) v0)
        (by rw [v0, vl, v1]; exact h0) z hz2 hzn
      · rw [v0, vl, v1, vt z hzn]; exact hzT
      · intro t ht2 htn hT
        rw [v0, vl, v1, vt z hzn, vt t htn]
        rw [v0, vl, v1, vt t htn] at hT
        exact hzmin t (Finset.mem_filter.mpr ⟨Finset.mem_range.mpr (by omega), ht2, htn, hT⟩)
    · right
      obtain ⟨s, h1, h2⟩ := ear_step n g hn hs IH h0
        (fun m hm3 hmn hT => hex ⟨m, hm3, hmn, hT⟩)
      refine ⟨s, h1, ?_⟩
      intro hturn
      rw [ring_turns_pos n g 1 (by omega) (by omega), e12] at hturn
      have hrot : cross2 (g 1) (g 2) (g 0) = cross2 (g 0) (g 1) (g 2) := cross2_rot _ _ _
      have hsw : cross2 (g 1) (g 0) (g 2) = -cross2 (g 0) (g 1) (g 2) := by
        unfold cross2; ring
      cases s
      · simp only [Bool.false_eq_true, if_false] at hturn h2 ⊢
        rcases hturn with h | ⟨h, _, _⟩
        · rw [hsw] at h; linarith
        · exact absurd h h0
      · simp only [if_true] at hturn h2 ⊢
        rcases hturn with h | ⟨h, _, _⟩
        · rw [hrot] at h; linarith
        · exfalso; apply h0; rw [hsw, ← hrot, h]; simp

/-- Step of the induction at any vertex `k` in which a direction supports the
ring. -/
theorem vertex_step (n : Nat) (f : Nat → Vertex) (hn : 4 ≤ n) (hs : ring_simple n f)
    (IH : ∀ m, m < n → ∀ g : Nat → Vertex, 3 ≤ m → ring_simple m g → ¬ring_collinear m g →
      ring_turns_one_way m g)
    (k : Nat) (hk : k < n) (dx dy : ℚ) (hsup : ring_supports n f k dx dy) :
    ring_turns_one_way n f ∨
      ∃ s : Bool, (∀ j, j < n → j ≠ k → ∀ dx dy : ℚ, ring_supports n f j dx dy →
          ring_turns n f s j dx dy) ∧
        (ring_turns n f s k dx dy →
          if s then 0 < ring_area2 n f else ring_area2 n f < 0) := by
  have hp : (k + n - 1) % n < n := Nat.mod_lt _ (by omega)
  have ep := pred_mod_eq n k hk
  have e1 : ((k + n - 1) % n + 1) % n = k := by
    rw [succ_mod_eq n _ hp, ep]; split_ifs <;> omega
  have v1 : sub_ring n f ((k + n - 1) % n) 1 = f k := by
    unfold sub_ring; rw [e1]
  rcases vertex_step_one n (sub_ring n f ((k + n - 1) % n)) hn
    (rot_simple n f _ hp hs) IH dx dy
    (ring_supports_of_vertices n f k dx dy hsup n _ 1 (sub_ring_vertices n f _ (by omega) n) v1)
    with h | ⟨s, h1, h2⟩
  · exact Or.inl (rot_one_way n f _ hp h)
  · right
    refine ⟨s, ?_, ?_⟩
    · exact rot_turns_transfer n f _ hp s (fun j => j ≠ k)
        (fun t ht hP => h1 t ht (fun e => hP (by rw [e, e1])))
    · intro hturn
      rw [rot_area2] at h2
      apply h2
      rw [rot_turns n f _ (by omega), e1]
      exact hturn

/-! ## Vertices in which a direction supports the ring -/

/-- A vertex that minimises a linear function over the ring is supported by the
direction along the level line of the function. -/
theorem min_supports (n : Nat) (f : Nat → Vertex) (hn : 0 < n) (u v : ℚ)
    (huv : ¬(u = 0 ∧ v = 0)) :
    ∃ k, k < n ∧ ring_supports n f k v (-u) ∧
      ∀ i, i < n → u * (f k).x + v * (f k).y ≤ u * (f i).x + v * (f i).y := by
  obtain ⟨k, hk, hmin⟩ := Finset.exists_min_image (Finset.range n)
    (fun i => u * (f i).x + v * (f i).y) ⟨0, Finset.mem_range.mpr hn⟩
  have hmin' : ∀ i, i < n → u * (f k).x + v * (f k).y ≤ u * (f i).x + v * (f i).y :=
    fun i hi => hmin i (Finset.mem_range.mpr hi)
  refine ⟨k, Finset.mem_range.mp hk, ⟨?_, ?_⟩, hmin'⟩
  · intro ⟨h1, h2⟩
    exact huv ⟨by linarith, h1⟩
  · intro i hi
    have := hmin' i hi
    linarith

/-- A ring that does not lie on one line has three different vertices in each
of which a direction supports it. -/
theorem three_supported (n : Nat) (f : Nat → Vertex) (hn : 0 < n)
    (hnc : ¬ring_collinear n f) :
    ∃ x y w, x < n ∧ y < n ∧ w < n ∧ x ≠ y ∧ w ≠ x ∧ w ≠ y ∧
      (∃ dx dy : ℚ, ring_supports n f x dx dy) ∧ (∃ dx dy : ℚ, ring_supports n f y dx dy) ∧
      (∃ dx dy : ℚ, ring_supports n f w dx dy) := by
  obtain ⟨x, hx, sx, mx⟩ := min_supports n f hn 0 1 (by norm_num)
  obtain ⟨y, hy, sy, my⟩ := min_supports n f hn 0 (-1) (by norm_num)
  have hxy : (f x).y < (f y).y := by
    by_contra hc
    apply hnc
    apply ring_collinear_of_line n f x 1 0 (by norm_num)
    intro i hi
    have h1 := mx i hi
    have h2 := my i hi
    have h3 := mx y hy
    have : (f i).y = (f x).y := by linarith
    rw [this]; ring
  have hne : x ≠ y := by
    intro e
    rw [e] at hxy
    exact lt_irrefl _ hxy
  have hr : ¬((f y).x - (f x).x = 0 ∧ (f y).y - (f x).y = 0) := by
    intro ⟨_, h⟩
    linarith
  have hr1 : ¬(-((f y).y - (f x).y) = 0 ∧ (f y).x - (f x).x = 0) := by
    intro ⟨h, _⟩
    linarith
  have hr2 : ¬((f y).y - (f x).y = 0 ∧ -((f y).x - (f x).x) = 0) := by
    intro ⟨h, _⟩
    linarith
  obtain ⟨w1, hw1, s1, m1⟩ := min_supports n f hn _ _ hr1
  obtain ⟨w2, hw2, s2, m2⟩ := min_supports n f hn _ _ hr2
  have cx : cross2 (f x) (f y) (f x) = 0 := by unfold cross2; ring
  have cy : cross2 (f x) (f y) (f y) = 0 := by unfold cross2; ring
  by_cases h1 : cross2 (f x) (f y) (f w1) < 0
  · refine ⟨x, y, w1, hx, hy, hw1, hne, ?_, ?_, ⟨_, _, sx⟩, ⟨_, _, sy⟩, ⟨_, _, s1⟩⟩
    · intro e; rw [e, cx] at h1; exact lt_irrefl _ h1
    · intro e; rw [e, cy] at h1; exact lt_irrefl _ h1
  · by_cases h2 : 0 < cross2 (f x) (f y) (f w2)
    · refine ⟨x, y, w2, hx, hy, hw2, hne, ?_, ?_, ⟨_, _, sx⟩, ⟨_, _, sy⟩, ⟨_, _, s2⟩⟩
      · intro e; rw [e, cx] at h2; exact lt_irrefl _ h2
      · intro e; rw [e, cy] at h2; exact lt_irrefl _ h2
    · exfalso
      apply hnc
      apply ring_collinear_of_line n f x _ _ hr
      intro i hi
      have a1 := m1 i hi
      have a2 := m2 i hi
      unfold cross2 at h1 h2
      apply le_antisymm
      · linarith
      · linarith

/-! ## A simple ring turns one way -/

/-- A simple ring that does not lie on one line turns the same way in every
vertex in which a direction supports it: the way of the sign of its shoelace
sum. -/
theorem ring_orientation : ∀ (n : Nat) (f : Nat → Vertex), 3 ≤ n → ring_simple n f →
    ¬ring_collinear n f → ring_turns_one_way n f := by
  intro n
  induction n using Nat.strong_induction_on with
  | _ n IH =>
    intro f h3 hs hnc
    rcases Nat.lt_or_ge 3 n with h4 | h4
    · have IH' : ∀ m, m < n → ∀ g : Nat → Vertex, 3 ≤ m → ring_simple m g →
          ¬ring_collinear m g → ring_turns_one_way m g :=
        fun m hm g hm3 hsg hncg => IH m hm g hm3 hsg hncg
      obtain ⟨x, y, w, hx, hy, hw, hxy, hwx, hwy, ⟨dx, dy, sx⟩, ⟨ex, ey, sy⟩, ⟨gx, gy, sw⟩⟩ :=
        three_supported n f (by omega) hnc
      rcases vertex_step n f h4 hs IH' x hx dx dy sx with h | ⟨s1, a1, b1⟩
      · exact h
      rcases vertex_step n f h4 hs IH' y hy ex ey sy with h | ⟨s2, a2, _⟩
      · exact h
      have t1 := a1 w hw hwx gx gy sw
      have t2 := a2 w hw hwy gx gy sw
      have e12 : s2 = s1 := by
        cases s1 <;> cases s2
        · rfl
        · exact absurd (ring_turns_unique n f w (by omega) gx gy sw t2 t1) id
        · exact absurd (ring_turns_unique n f w (by omega) gx gy sw t1 t2) id
        · rfl
      rw [e12] at a2
      refine ⟨s1, ?_, b1 (a2 x hx hxy dx dy sx)⟩
      intro k hk kx ky hsup
      by_cases hkx : k = x
      · rw [hkx] at hsup ⊢
        exact a2 x hx hxy kx ky hsup
      · exact a1 k hk hkx kx ky hsup
    · have hn3 : n = 3 := by omega
      subst hn3
      obtain ⟨s, h1, h2⟩ := triangle_orientation f hnc
      exact ⟨s, fun k hk dx dy _ => h1 k hk dx dy, h2⟩

/-! ## The next vertex on the convex hull -/

/-- No direction comes before itself. -/
theorem turn_before_irrefl (dx dy : ℚ) (x p : Vertex) : ¬turn_before dx dy x p p := by
  rintro (h | ⟨_, h, _⟩)
  · unfold cross2 at h
    linarith
  · unfold dot2 at h
    nlinarith [mul_self_nonneg (p.x - x.x), mul_self_nonneg (p.y - x.y)]

/-- Among the first `m` vertices of a ring that lies in a closed half plane of
the point `x`, one other than `x` is seen from `x` in a direction before which
no other one comes. -/
theorem first_direction (n : Nat) (f : Nat → Vertex) (x : Vertex) (dx dy : ℚ)
    (hd : ¬(dx = 0 ∧ dy = 0))
    (hin : ∀ i, i < n → 0 ≤ dx * ((f i).y - x.y) - dy * ((f i).x - x.x)) :
    ∀ m, m ≤ n → (∃ i, i < m ∧ f i ≠ x) →
      ∃ y, y < m ∧ f y ≠ x ∧ ∀ i, i < m → f i ≠ x → ¬turn_before dx dy x (f i) (f y) := by
  intro m
  induction m with
  | zero =>
    intro _ ⟨i, hi, _⟩
    omega
  | succ m ih =>
    intro hm hex
    by_cases hprev : ∃ i, i < m ∧ f i ≠ x
    · obtain ⟨y, hy, hyx, hmin⟩ := ih (by omega) hprev
      by_cases hmx : f m = x
      · refine ⟨y, by omega, hyx, ?_⟩
        intro i hi hix
        rcases Nat.lt_or_ge i m with h | h
        · exact hmin i h hix
        · have : i = m := by omega
          rw [this] at hix
          exact absurd hmx hix
      · by_cases hb : turn_before dx dy x (f m) (f y)
        · refine ⟨m, by omega, hmx, ?_⟩
          intro i hi hix
          rcases Nat.lt_or_ge i m with h | h
          · intro hc
            exact hmin i h hix (turn_before_trans dx dy hd x _ _ _ (hin i (by omega))
              (hin m (by omega)) (hin y (by omega)) hc hb)
          · have : i = m := by omega
            rw [this]
            exact turn_before_irrefl dx dy x (f m)
        · refine ⟨y, by omega, hyx, ?_⟩
          intro i hi hix
          rcases Nat.lt_or_ge i m with h | h
          · exact hmin i h hix
          · have : i = m := by omega
            rw [this]
            exact hb
    · obtain ⟨i, hi, hix⟩ := hex
      have him : i = m := by
        by_contra hne
        exact hprev ⟨i, by omega, hix⟩
      rw [him] at hix
      refine ⟨m, by omega, hix, ?_⟩
      intro i' hi' hix'
      have : i' = m := by
        by_contra hne
        exact hprev ⟨i', by omega, hix'⟩
      rw [this]
      exact turn_before_irrefl dx dy x (f m)

/-- A point on the line through `x` and `y` is given by its parameter on the
line. -/
theorem on_line_param (x y q : Vertex) (hyx : y ≠ x) (h : cross2 x y q = 0) :
    q = seg_pt x y (dot2 x y q / dot2 x y y) := by
  have hpos : 0 < dot2 x y y := by
    unfold dot2
    exact dir_sq_pos _ _ (dir_ne_zero _ _ hyx)
  have hne : dot2 x y y ≠ 0 := ne_of_gt hpos
  unfold cross2 at h
  unfold dot2 at hne ⊢
  apply vertex_eq
  · simp only [seg_pt]
    field_simp
    linear_combination (-(y.y - x.y)) * h
  · simp only [seg_pt]
    field_simp
    linear_combination (y.x - x.x) * h

/-- The dot product with the direction of a segment, at a point of the
segment. -/
theorem dot2_seg_pt (x y : Vertex) (u : ℚ) : dot2 x y (seg_pt x y u) = u * dot2 x y y := by
  unfold dot2 seg_pt
  ring

/-- From a vertex in which a direction supports the ring there is a next vertex
on the convex hull: every vertex lies to the left of or on the line to it, no
direction to a vertex comes before the direction to it, and no vertex lies
strictly inside the segment to it. -/
theorem hull_neighbour (n : Nat) (f : Nat → Vertex) (k : Nat) (dx dy : ℚ)
    (hsup : ring_supports n f k dx dy) (hother : ∃ i, i < n ∧ f i ≠ f k) :
    ∃ z, z < n ∧ f z ≠ f k ∧ (∀ i, i < n → 0 ≤ cross2 (f k) (f z) (f i)) ∧
      (∀ i, i < n → f i ≠ f k → ¬turn_before dx dy (f k) (f i) (f z)) ∧
      (∀ i, i < n → ∀ u : ℚ, 0 < u → u < 1 → f i ≠ seg_pt (f k) (f z) u) := by
  classical
  obtain ⟨y, hy, hyx, hmin⟩ := first_direction n f (f k) dx dy hsup.1 hsup.2 n (le_refl n) hother
  have hyy : 0 < dot2 (f k) (f y) (f y) := by
    unfold dot2
    exact dir_sq_pos _ _ (dir_ne_zero _ _ hyx)
  have hcand : ((Finset.range n).filter (fun i => cross2 (f k) (f y) (f i) = 0 ∧
      0 < dot2 (f k) (f y) (f i))).Nonempty := by
    refine ⟨y, Finset.mem_filter.mpr ⟨Finset.mem_range.mpr hy, ?_, hyy⟩⟩
    unfold cross2; ring
  obtain ⟨z, hz, hzmin⟩ := Finset.exists_min_image _ (fun i => dot2 (f k) (f y) (f i)) hcand
  obtain ⟨hzn, hzc, hzd⟩ := Finset.mem_filter.mp hz
  have hzn' := Finset.mem_range.mp hzn
  have ez := on_line_param (f k) (f y) (f z) hyx hzc
  have hl : 0 < dot2 (f k) (f y) (f z) / dot2 (f k) (f y) (f y) := div_pos hzd hyy
  have hzx : f z ≠ f k := by
    intro e
    rw [e] at hzd
    unfold dot2 at hzd
    simp at hzd
  have hleft : ∀ i, i < n → 0 ≤ cross2 (f k) (f y) (f i) := by
    intro i hi
    by_cases hix : f i = f k
    · rw [hix]; unfold cross2; simp
    · have := hmin i hi hix
      by_contra hc
      apply this
      left
      rw [cross2_swap]
      linarith
  refine ⟨z, hzn', hzx, ?_, ?_, ?_⟩
  · intro i hi
    have e : cross2 (f k) (f z) (f i)
        = dot2 (f k) (f y) (f z) / dot2 (f k) (f y) (f y) * cross2 (f k) (f y) (f i) := by
      conv_lhs => rw [ez]
      unfold cross2 seg_pt
      ring
    rw [e]
    exact mul_nonneg (le_of_lt hl) (hleft i hi)
  · intro i hi hix
    rw [ez, turn_before_ray_right dx dy _ _ _ _ hl]
    exact hmin i hi hix
  · intro i hi u u0 u1 e
    have e' : f i = seg_pt (f k) (f y)
        (u * (dot2 (f k) (f y) (f z) / dot2 (f k) (f y) (f y))) := by
      rw [e]
      conv_lhs => rw [ez]
      apply vertex_eq <;> simp only [seg_pt] <;> ring
    have hd' : dot2 (f k) (f y) (f i) = u * dot2 (f k) (f y) (f z) := by
      rw [e', dot2_seg_pt]
      field_simp
    have hmem : i ∈ (Finset.range n).filter (fun i => cross2 (f k) (f y) (f i) = 0 ∧
        0 < dot2 (f k) (f y) (f i)) := by
      refine Finset.mem_filter.mpr ⟨Finset.mem_range.mpr hi, ?_, ?_⟩
      · rw [e']
        unfold cross2 seg_pt
        ring
      · rw [hd']
        exact mul_pos u0 hzd
    have := hzmin i hmem
    simp only at this
    rw [hd'] at this
    have := mul_pos (by linarith : (0 : ℚ) < 1 - u) hzd
    linarith

/-- The cross product with a fixed segment is affine along a segment. -/
theorem cross2_seg (x y P Q : Vertex) (t : ℚ) :
    cross2 x y (seg_pt P Q t) = cross2 x y P + t * (cross2 x y Q - cross2 x y P) := by
  unfold cross2 seg_pt
  ring

/-- The dot product with a fixed segment is affine along a segment. -/
theorem dot2_seg (x y P Q : Vertex) (t : ℚ) :
    dot2 x y (seg_pt P Q t) = dot2 x y P + t * (dot2 x y Q - dot2 x y P) := by
  unfold dot2 seg_pt
  ring

/-- A segment between two points of a segment, in the parameters of the
latter. -/
theorem seg_pt_seg_pt (x y : Vertex) (a b t : ℚ) :
    seg_pt (seg_pt x y a) (seg_pt x y b) t = seg_pt x y (a + t * (b - a)) := by
  apply vertex_eq <;> simp only [seg_pt] <;> ring

/-- The chord from vertex 0 to the next vertex on the convex hull meets no edge
of the ring that has no end in the two. -/
theorem hull_chord_clean (n : Nat) (f : Nat → Vertex) (hs : ring_simple n f) (hn : 4 ≤ n)
    (z : Nat) (hz2 : 2 ≤ z) (hzn : z + 2 ≤ n)
    (hleft : ∀ i, i < n → 0 ≤ cross2 (f 0) (f z) (f i))
    (hin : ∀ i, i < n → ∀ u : ℚ, 0 < u → u < 1 → f i ≠ seg_pt (f 0) (f z) u) :
    ∀ m, m < n → m ≠ 0 → m ≠ z → (m + 1) % n ≠ 0 → (m + 1) % n ≠ z →
      ¬segments_meet (f 0) (f z) (f m) (f ((m + 1) % n)) := by
  intro m hm hm0 hmz hm10 hm1z hmeet
  have hm1n : (m + 1) % n < n := Nat.mod_lt _ (by omega)
  have hne : ∀ i j, i < n → j < n → i ≠ j → f i ≠ f j :=
    fun i j hi hj hij => simple_vertices_distinct n f hs hn i j hi hj hij
  have hzx : f z ≠ f 0 := hne z 0 (by omega) (by omega) (by omega)
  have hzz : 0 < dot2 (f 0) (f z) (f z) := by
    unfold dot2
    exact dir_sq_pos _ _ (dir_ne_zero _ _ hzx)
  obtain ⟨s, t, hs0, hs1, ht0, ht1, e⟩ := pt_of_segments_meet _ _ _ _ hmeet
  -- no other vertex lies on the chord
  have hV : ∀ j, j < n → j ≠ 0 → j ≠ z → ∀ u : ℚ, 0 ≤ u → u ≤ 1 →
      f j ≠ seg_pt (f 0) (f z) u := by
    intro j hj hj0 hjz u u0 u1 ej
    rcases lt_or_eq_of_le u0 with h0 | h0
    · rcases lt_or_eq_of_le u1 with h1 | h1
      · exact hin j hj u h0 h1 ej
      · rw [h1, seg_pt_one] at ej
        exact hne j z hj (by omega) hjz ej
    · rw [← h0, seg_pt_zero] at ej
      exact hne j 0 hj (by omega) hj0 ej
  have hc := cross2_seg (f 0) (f z) (f m) (f ((m + 1) % n)) t
  rw [← e] at hc
  have hc0 : cross2 (f 0) (f z) (seg_pt (f 0) (f z) s) = 0 := by
    unfold cross2 seg_pt; ring
  rw [hc0] at hc
  have cP := hleft m hm
  have cQ := hleft _ hm1n
  by_cases hP : cross2 (f 0) (f z) (f m) = 0
  · by_cases hQ : cross2 (f 0) (f z) (f ((m + 1) % n)) = 0
    · have eP := on_line_param (f 0) (f z) (f m) hzx hP
      have eQ := on_line_param (f 0) (f z) (f ((m + 1) % n)) hzx hQ
      have hd := dot2_seg (f 0) (f z) (f m) (f ((m + 1) % n)) t
      rw [← e, dot2_seg_pt] at hd
      have aP : dot2 (f 0) (f z) (f m) / dot2 (f 0) (f z) (f z) < 0 ∨
          1 < dot2 (f 0) (f z) (f m) / dot2 (f 0) (f z) (f z) := by
        by_contra hc'
        push_neg at hc'
        exact hV m hm hm0 hmz _ hc'.1 hc'.2 eP
      have aQ : dot2 (f 0) (f z) (f ((m + 1) % n)) / dot2 (f 0) (f z) (f z) < 0 ∨
          1 < dot2 (f 0) (f z) (f ((m + 1) % n)) / dot2 (f 0) (f z) (f z) := by
        by_contra hc'
        push_neg at hc'
        exact hV _ hm1n hm10 hm1z _ hc'.1 hc'.2 eQ
      have hsd : s = dot2 (f 0) (f z) (f m) / dot2 (f 0) (f z) (f z)
          + t * (dot2 (f 0) (f z) (f ((m + 1) % n)) / dot2 (f 0) (f z) (f z)
            - dot2 (f 0) (f z) (f m) / dot2 (f 0) (f z) (f z)) := by
        field_simp
        linarith
      generalize dot2 (f 0) (f z) (f m) / dot2 (f 0) (f z) (f z) = a at eP aP hsd
      generalize dot2 (f 0) (f z) (f ((m + 1) % n)) / dot2 (f 0) (f z) (f z) = b at eQ aQ hsd
      have hopp : (a < 0 ∧ 1 < b) ∨ (1 < a ∧ b < 0) := by
        rcases aP with ha | ha <;> rcases aQ with hb | hb
        · exfalso
          have := mul_nonneg ht0 (by linarith : (0 : ℚ) ≤ -b)
          have := mul_nonneg (by linarith : (0 : ℚ) ≤ 1 - t) (by linarith : (0 : ℚ) ≤ -a)
          rcases le_or_lt t (1 / 2) with h | h
          · nlinarith
          · nlinarith
        · exact Or.inl ⟨ha, hb⟩
        · exact Or.inr ⟨ha, hb⟩
        · exfalso
          have := mul_nonneg ht0 (by linarith : (0 : ℚ) ≤ b - 1)
          have := mul_nonneg (by linarith : (0 : ℚ) ≤ 1 - t) (by linarith : (0 : ℚ) ≤ a - 1)
          rcases le_or_lt t (1 / 2) with h | h
          · nlinarith
          · nlinarith
      have hab : a - b ≠ 0 := by
        rcases hopp with ⟨h1, h2⟩ | ⟨h1, h2⟩ <;> intro h <;> linarith
      have ex : f 0 = seg_pt (f m) (f ((m + 1) % n)) (a / (a - b)) := by
        conv_rhs => rw [eP, eQ, seg_pt_seg_pt]
        have : a + a / (a - b) * (b - a) = 0 := by
          field_simp
          ring
        rw [this, seg_pt_zero]
      have hτ : 0 ≤ a / (a - b) ∧ a / (a - b) ≤ 1 := by
        rcases hopp with ⟨h1, h2⟩ | ⟨h1, h2⟩
        · have hneg : a - b < 0 := by linarith
          refine ⟨div_nonneg_of_nonpos (le_of_lt h1) (le_of_lt hneg), ?_⟩
          rw [div_le_one_of_neg hneg]
          linarith
        · have hpos : 0 < a - b := by linarith
          refine ⟨div_nonneg (by linarith) (le_of_lt hpos), ?_⟩
          rw [div_le_one hpos]
          linarith
      rcases simple_vertex_on_edge n f hs hn m 0 hm (by omega) _ hτ.1 hτ.2 ex with h | h
      · exact hm0 h.symm
      · exact hm10 h.symm
    · have hQ' : 0 < cross2 (f 0) (f z) (f ((m + 1) % n)) := lt_of_le_of_ne cQ (Ne.symm hQ)
      rw [hP] at hc
      have ht : t = 0 := by
        rcases mul_eq_zero.mp (by linarith : t * (cross2 (f 0) (f z) (f ((m + 1) % n)) - 0) = 0)
          with h | h
        · exact h
        · linarith
      rw [ht, seg_pt_zero] at e
      exact hV m hm hm0 hmz s hs0 hs1 e.symm
  · have hP' : 0 < cross2 (f 0) (f z) (f m) := lt_of_le_of_ne cP (Ne.symm hP)
    have ht : t = 1 := by
      by_contra hne1
      have hlt : t < 1 := lt_of_le_of_ne ht1 hne1
      have k1 := mul_pos (by linarith : (0 : ℚ) < 1 - t) hP'
      have k2 := mul_nonneg ht0 cQ
      linarith
    rw [ht, seg_pt_one] at e
    exact hV _ hm1n hm10 hm1z s hs0 hs1 e.symm

/-! ## The vertices on the convex hull of a simple ring are in ring order -/

/-- In a simple ring that turns counter-clockwise, the first vertex after
vertex 0 in ring order that lies on the boundary of the convex hull has the
whole ring to the left of or on the line to it from vertex 0. -/
theorem hull_order_zero (n : Nat) (g : Nat → Vertex) (hn3 : 3 ≤ n) (hs : ring_simple n g)
    (hnd : ∀ i j, i < n → j < n → i ≠ j → g i ≠ g j)
    (hturn : ∀ k, k < n → ∀ dx dy : ℚ, ring_supports n g k dx dy →
      ring_turns n g true k dx dy)
    (dx dy : ℚ) (hsup0 : ring_supports n g 0 dx dy)
    (j : Nat) (hj0 : 0 < j) (hjn : j < n) (hbj : ring_boundary n g j)
    (hnone : ∀ m, 0 < m → m < j → ¬ring_boundary n g m) :
    ∀ i, i < n → 0 ≤ cross2 (g 0) (g j) (g i) := by
  obtain ⟨z, hz, hzx, hleft, hmin, hin⟩ := hull_neighbour n g 0 dx dy hsup0
    ⟨1, by omega, hnd 1 0 (by omega) (by omega) (by omega)⟩
  have hz0 : z ≠ 0 := fun e => hzx (by rw [e])
  have hbz : ring_boundary n g z :=
    ring_boundary_of_on_line n g 0 z z hzx hleft (by unfold cross2; ring)
  have h10 : g 1 ≠ g 0 := hnd 1 0 (by omega) (by omega) (by omega)
  have T0 := hturn 0 (by omega) dx dy hsup0
  rw [ring_turns_zero n g (by omega)] at T0
  simp only [if_true] at T0
  rcases Nat.lt_trichotomy z j with hzj | hzj | hzj
  · exact absurd hbz (hnone z (by omega) hzj)
  · rw [← hzj]; exact hleft
  · exfalso
    rcases Nat.lt_or_ge (z + 1) n with hzn | hzn
    · have hn : 4 ≤ n := by omega
      have e01 : (0 + 1) % n = 1 := Nat.mod_eq_of_lt (by omega)
      have hclean := hull_chord_clean n g hs hn z (by omega) (by omega) hleft hin
      have hs1 := split_simple_first n g z (by omega) (by omega) hs hclean
      have sup1 : ∀ k, k ≤ z → ∀ dx dy : ℚ, ring_supports n g k dx dy →
          ring_supports (z + 1) g k dx dy := fun k _ dx dy h =>
        ring_supports_of_vertices n g k dx dy h (z + 1) g k
          (first_part_vertices n g z (by omega)) rfl
      by_cases hcol : ring_collinear (z + 1) g
      · have hc1 : cross2 (g 0) (g 1) (g z) = 0 := hcol 0 (by omega) 1 (by omega) z (by omega)
        rcases turn_before_total dx dy hsup0.1 (g 0) (g 1) (g z) (hsup0.2 1 (by omega))
          (hsup0.2 z hz) h10 hzx with h | h | ⟨_, h⟩
        · exact hmin 1 (by omega) h10 h
        · rcases h with h | ⟨_, h2, h3⟩
          · rw [cross2_swap, hc1] at h
            simp at h
          · -- vertex 1 lies behind vertex 0 on the supporting line
            have hfr := (turn_before_iff_frame dx dy hsup0.1 (g 0) (g z) (g 1)).mp
              (Or.inr ⟨by rw [cross2_swap, hc1]; simp, h2, h3⟩)
            rcases hfr with hfr | ⟨f1, f2, f3⟩
            · have e := frame_cross dx dy ((g z).x - (g 0).x) ((g z).y - (g 0).y)
                ((g 1).x - (g 0).x) ((g 1).y - (g 0).y)
              have hcz : cross2 (g 0) (g z) (g 1) = 0 := by rw [cross2_swap, hc1]; simp
              unfold cross2 at hcz
              rw [hcz] at e
              linarith
            · obtain ⟨_, o2, o3⟩ := frame_opposite _ _ _ _ (hsup0.2 z hz) (hsup0.2 1 (by omega))
                f1 f2 f3
              have := (on_line_turn dx dy hsup0.1 (g 0) (g 1) (g (n - 1)) h10 o2
                (hsup0.2 (n - 1) (by omega))).1 T0
              linarith
        · rcases same_ray_on_seg (g 0) (g 1) (g z) h10 hc1 h with ⟨t, t0, t1, e⟩ | ⟨t, t0, t1, e⟩
          · have := simple_vertex_on_edge n g hs hn 0 z (by omega) hz t t0 t1
              (by rw [e01]; exact e)
            rw [e01] at this
            omega
          · rcases lt_or_eq_of_le t0 with h0 | h0
            · rcases lt_or_eq_of_le t1 with h1 | h1
              · exact hin 1 (by omega) t h0 h1 e
              · rw [h1, seg_pt_one] at e
                exact hnd 1 z (by omega) hz (by omega) e
            · rw [← h0, seg_pt_zero] at e
              exact h10 e
      · obtain ⟨s1, ht1, _⟩ := ring_orientation (z + 1) g (by omega) hs1 hcol
        have t10 := ht1 0 (by omega) dx dy (sup1 0 (by omega) dx dy hsup0)
        rw [first_part_turns_zero g z (by omega)] at t10
        cases s1
        · obtain ⟨ex, ey, hsj⟩ := hbj
          have q1 := ht1 j (by omega) ex ey (sup1 j (by omega) ex ey hsj)
          have q2 := (first_part_turns n g z (by omega) true j hj0 hzj ex ey).mpr
            (hturn j hjn ex ey hsj)
          exact ring_turns_unique (z + 1) g j (by omega) ex ey (sup1 j (by omega) ex ey hsj) q2 q1
        · simp only [if_true] at t10
          exact hmin 1 (by omega) h10 t10
    · have hzl : z = n - 1 := by omega
      rw [hzl] at hmin
      exact hmin 1 (by omega) h10 T0

/-- The vertices of a simple ring that does not lie on one line differ. -/
theorem ring_distinct (n : Nat) (f : Nat → Vertex) (hn3 : 3 ≤ n) (hs : ring_simple n f)
    (hnc : ¬ring_collinear n f) : ∀ i j, i < n → j < n → i ≠ j → f i ≠ f j := by
  intro i j hi hj hij
  rcases Nat.lt_or_ge 3 n with h4 | h4
  · exact simple_vertices_distinct n f hs h4 i j hi hj hij
  · have hn : n = 3 := by omega
    subst hn
    have hD := triangle_cross_ne f hnc
    intro e
    apply hD
    unfold cross2
    interval_cases i <;> interval_cases j <;> first | omega | (simp only [e]; ring)

/-- The ring read from vertex `a` on has the boundary vertices of the ring. -/
theorem rot_boundary (n : Nat) (f : Nat → Vertex) (a : Nat) (ha : a < n) (t : Nat) :
    ring_boundary n (sub_ring n f a) t ↔ ring_boundary n f ((a + t) % n) := by
  constructor
  · rintro ⟨dx, dy, h⟩
    refine ⟨dx, dy, ring_supports_of_vertices n (sub_ring n f a) t dx dy h n f _ ?_ rfl⟩
    intro i hi
    obtain ⟨h1, h2⟩ := rot_index n a i ha hi
    exact ⟨_, h1, by unfold sub_ring; rw [h2]⟩
  · rintro ⟨dx, dy, h⟩
    exact ⟨dx, dy, ring_supports_of_vertices n f _ dx dy h n (sub_ring n f a) t
      (sub_ring_vertices n f a (by omega) n) rfl⟩

/-- In a simple ring with a positive shoelace sum the vertices on the boundary
of the convex hull follow each other in ring order: from one of them to the
next in ring order, the whole ring is to the left of or on the line. -/
theorem simple_hull_order (n : Nat) (f : Nat → Vertex) (hn3 : 3 ≤ n) (hs : ring_simple n f)
    (hnc : ¬ring_collinear n f) (harea : 0 < ring_area2 n f) : hull_order n f := by
  have hnd := ring_distinct n f hn3 hs hnc
  obtain ⟨s, ht, hsgn⟩ := ring_orientation n f hn3 hs hnc
  have hs_true : s = true := by
    cases s
    · simp only [Bool.false_eq_true, if_false] at hsgn
      linarith
    · rfl
  subst hs_true
  intro k hk j hj hkj hbk hbj hnone
  refine ⟨hnd j k hj hk (fun e => hkj e.symm), ?_⟩
  obtain ⟨dx, dy, hsupk⟩ := hbk
  obtain ⟨htj, ej⟩ := rot_index n k j hk hj
  have v0 : sub_ring n f k 0 = f k := by
    unfold sub_ring
    rw [Nat.add_zero, Nat.mod_eq_of_lt hk]
  have vj : sub_ring n f k ((j + n - k) % n) = f j := by
    unfold sub_ring; rw [ej]
  have hinj : ∀ i i', i < n → i' < n → i ≠ i' → (k + i) % n ≠ (k + i') % n := by
    intro i i' hi hi' hne
    rw [cyc_add_eq n k i hk hi, cyc_add_eq n k i' hk hi']
    split_ifs <;> omega
  have htj0 : 0 < (j + n - k) % n := by
    rcases Nat.eq_zero_or_pos ((j + n - k) % n) with h | h
    · exfalso
      rw [h, Nat.add_zero, Nat.mod_eq_of_lt hk] at ej
      exact hkj ej
    · exact h
  have key := hull_order_zero n (sub_ring n f k) hn3 (rot_simple n f k hk hs)
    (fun i i' hi hi' hne => hnd _ _ (Nat.mod_lt _ (by omega)) (Nat.mod_lt _ (by omega))
      (hinj i i' hi hi' hne))
    (fun t ht' ex ey hsup => (rot_turns n f k (by omega) true t ex ey).mpr
      (ht _ (Nat.mod_lt _ (by omega)) ex ey
        (ring_supports_of_vertices n (sub_ring n f k) t ex ey hsup n f _
          (fun i hi => ⟨_, (rot_index n k i hk hi).1, by
            unfold sub_ring; rw [(rot_index n k i hk hi).2]⟩) rfl)))
    dx dy
    (ring_supports_of_vertices n f k dx dy hsupk n (sub_ring n f k) 0
      (sub_ring_vertices n f k (by omega) n) v0)
    ((j + n - k) % n) htj0 htj
    ((rot_boundary n f k hk _).mpr (by rw [ej]; exact hbj))
    (by
      intro m hm0 hmj hbm
      have hbm' := (rot_boundary n f k hk m).mp hbm
      have hmn : m < n := by omega
      apply hnone ((k + m) % n) _ hbm'
      apply cyc_between_of_dist n k j _ hk hj (Nat.mod_lt _ (by omega))
      · intro e
        have := hinj m 0 hmn (by omega) (by omega)
        rw [Nat.add_zero, Nat.mod_eq_of_lt hk] at this
        exact this e
      · intro e
        rw [← ej] at e
        exact hinj m _ hmn htj (by omega) e
      · intro _
        have d1 : cyc_dist n k ((k + m) % n) = m := by
          rw [cyc_dist_eq n k _ hk (Nat.mod_lt _ (by omega)), cyc_add_eq n k m hk hmn]
          split_ifs <;> omega
        have d2 : cyc_dist n k j = (j + n - k) % n := rfl
        rw [d1, d2]
        omega)
  intro i hi
  obtain ⟨hti, ei⟩ := rot_index n k i hk hi
  have := key _ hti
  rw [v0, vj] at this
  unfold sub_ring at this
  rw [ei] at this
  exact this

/-! ## From the vertex function back to rings -/

/-- A ring of at most two vertices has shoelace sum zero. -/
theorem ring_area2_small (n : Nat) (f : Nat → Vertex) (hn : n ≤ 2) : ring_area2 n f = 0 := by
  unfold ring_area2 vcross
  interval_cases n
  · simp
  · simp
  · simp [Finset.sum_range_succ]
    ring

/-- The shoelace sum of the vertex function of a ring is twice its oriented
area. -/
theorem ring_area2_eq (c : Ring) :
    ring_area2 c.pts.length (vtx c.pts) = 2 * ring_oriented_area c := by
  rw [ring_oriented_area_eq_sum]
  unfold ring_area2 vcross edge_cross
  ring

/-- A simple ring, as a vertex function. -/
theorem ring_simple_of_list (pts : List Vertex) (h : is_simple_ring pts) :
    ring_simple pts.length (vtx pts) := by
  intro i hi j hj hap hmeet
  exact (line_intersects_line_iff_meet _ _ _ _).mpr hmeet (h i hi j hj hap)

/-- An edge of a ring read backwards is an edge of the ring, reversed. -/
theorem rev_edge (n : Nat) (f g : Nat → Vertex) (hg : ∀ i, i < n → g i = f (n - 1 - i))
    (i : Nat) (hi : i < n) :
    ∃ e, e < n ∧ g i = f ((e + 1) % n) ∧ g ((i + 1) % n) = f e ∧
      e = (if i + 1 < n then n - 2 - i else n - 1) := by
  by_cases h : i + 1 < n
  · refine ⟨n - 2 - i, by omega, ?_, ?_, by rw [if_pos h]⟩
    · rw [hg i hi, Nat.mod_eq_of_lt (by omega)]
      congr 1; omega
    · rw [Nat.mod_eq_of_lt h, hg (i + 1) h]
      congr 1; omega
  · refine ⟨n - 1, by omega, ?_, ?_, by rw [if_neg h]⟩
    · have e1 : n - 1 + 1 = n := by omega
      rw [hg i hi, e1, Nat.mod_self]
      congr 1; omega
    · have e1 : i + 1 = n := by omega
      rw [e1, Nat.mod_self, hg 0 (by omega), Nat.sub_zero]

/-- A simple ring read backwards is simple. -/
theorem rev_simple (n : Nat) (f g : Nat → Vertex) (hg : ∀ i, i < n → g i = f (n - 1 - i))
    (hs : ring_simple n f) : ring_simple n g := by
  intro i hi j hj ⟨h1, h2, h3⟩ hmeet
  obtain ⟨a, ha, a1, a2, ea⟩ := rev_edge n f g hg i hi
  obtain ⟨b, hb, b1, b2, eb⟩ := rev_edge n f g hg j hj
  rw [a1, a2, b1, b2] at hmeet
  have si := succ_mod_eq n i hi
  have sj := succ_mod_eq n j hj
  have sa := succ_mod_eq n a ha
  have sb := succ_mod_eq n b hb
  apply hs a ha b hb
  · refine ⟨?_, ?_, ?_⟩
    · rw [ea, eb]; split_ifs <;> omega
    · rw [sa]
      rw [sj] at h3
      rw [ea, eb]
      split_ifs at h3 ⊢ <;> omega
    · rw [sb]
      rw [si] at h2
      rw [ea, eb]
      split_ifs at h2 ⊢ <;> omega
  · exact segments_meet_rev_left _ _ _ _ (segments_meet_rev_right _ _ _ _ hmeet)

/-- The orientation-normalised ring of a simple ring is simple. -/
theorem oriented_ring_simple (ring_in : Ring) (h : is_simple_ring ring_in.pts) :
    ring_simple (oriented_ring ring_in).pts.length (vtx (oriented_ring ring_in).pts) := by
  unfold oriented_ring
  split
  · show ring_simple ring_in.pts.reverse.length (vtx ring_in.pts.reverse)
    rw [List.length_reverse]
    exact rev_simple _ (vtx ring_in.pts) _ (fun i hi => vtx_reverse ring_in.pts i hi)
      (ring_simple_of_list _ h)
  · exact ring_simple_of_list _ h

/-- The orientation-normalised ring of a ring with an area has a positive
shoelace sum. -/
theorem oriented_ring_area2_pos (ring_in : Ring) (h : ring_oriented_area ring_in ≠ 0) :
    0 < ring_area2 (oriented_ring ring_in).pts.length (vtx (oriented_ring ring_in).pts) := by
  rw [ring_area2_eq]
  unfold oriented_ring
  split
  · rename_i hccw
    rw [ring_oriented_area_reverse]
    unfold ring_is_ccw at hccw
    simp only [Bool.not_eq_true', decide_eq_false_iff_not, not_lt] at hccw
    have := lt_of_le_of_ne hccw h
    linarith
  · rename_i hccw
    unfold ring_is_ccw at hccw
    simp only [Bool.not_eq_true', decide_eq_false_iff_not, not_not] at hccw
    linarith

/-- A simple ring with an area has three vertices or more, not all on one
line. -/
theorem simple_ring_not_flat (n : Nat) (f : Nat → Vertex) (hs : ring_simple n f)
    (harea : 0 < ring_area2 n f) : 3 ≤ n ∧ ¬ring_collinear n f := by
  have hn3 : 3 ≤ n := by
    by_contra hc
    rw [ring_area2_small n f (by omega)] at harea
    exact lt_irrefl _ harea
  refine ⟨hn3, ?_⟩
  rcases Nat.lt_or_ge 3 n with h4 | h4
  · exact simple_not_collinear n f hs h4
  · have hn : n = 3 := by omega
    subst hn
    intro hcol
    rw [triangle_area2, hcol 0 (by omega) 1 (by omega) 2 (by omega)] at harea
    exact lt_irrefl _ harea

/-- C2 (amended). For every simple ring of non-zero area on which
`pinch_ring_excursions` completes, every vertex of the convex hull of the input
ring (every vertex that is the only minimiser of some linear function over the
vertices of the ring) appears in the output ring. -/
theorem pinch_ring_excursions_keeps_hull_simple (sqrt : ℚ → ℚ) (ring_in out : Ring)
    (hsimple : is_simple_ring ring_in.pts) (harea : ring_oriented_area ring_in ≠ 0)
    (h : pinch_ring_excursions sqrt ring_in = .ok out)
    (p : Vertex) (hp : is_hull_vertex ring_in.pts p) : p ∈ out.pts := by
  have hs := oriented_ring_simple ring_in hsimple
  have ha := oriented_ring_area2_pos ring_in harea
  obtain ⟨hn3, hnc⟩ := simple_ring_not_flat _ _ hs ha
  have hnd := ring_distinct _ _ hn3 hs hnc
  exact pinch_ring_excursions_hull_of_order sqrt ring_in out h
    (fun i hi j hj hij => hnd i j hi hj hij) hnc (simple_hull_order _ _ hn3 hs hnc ha) p hp

/-- Witness for C2 (amended): the pentagon with a notch is simple and has the
area 3; its corner `(2, 2)` is the only minimiser of `-x - y`, and it is in the
output. -/
theorem pinch_ring_excursions_keeps_hull_simple_witness :
    is_simple_ring ring_notch.pts ∧ ring_oriented_area ring_notch ≠ 0 ∧
      pinch_ring_excursions sqrt_trunc ring_notch = .ok ring_notch_out ∧
      is_hull_vertex ring_notch.pts ⟨2, 2⟩ ∧ (⟨2, 2⟩ : Vertex) ∈ ring_notch_out.pts :=
  ⟨by decide!, by decide!, by decide!,
   ⟨by decide!, -1, -1, by decide!⟩,
   pinch_ring_excursions_keeps_hull_simple sqrt_trunc ring_notch ring_notch_out (by decide!)
     (by decide!) (by decide!) ⟨2, 2⟩ ⟨by decide!, -1, -1, by decide!⟩⟩

end dangdal
